import Mathlib

/-!
# qsyn: ZX-diagram rewrite rules (spider fusion, bialgebra)

A shallow embedding of `src/graph/sfusion.cpp` and `src/simplifier/bialg.cpp`, followed by
the smaller pieces that the other results are about: the directed graph of `util/graph.hpp`,
the scope guard of `util/scope_guard.hpp`, the `Phase` value type as the tests of
`tests/util/phase.cpp` use it, `_is_escaped` and `add_variables_from_dofiles` of `cli/cli.cpp`,
`isPartition` of `tensor/tensor.h` and `to_qasm` of `qcir/qcir_writer.cpp`.  A `std::string` is
the list of its bytes, each as the character of the same code.

Pointers are modelled by the thing they identify: a `ZXVertex*` is the vertex id
(a `Nat`), an `EdgeType*` is the handle of one edge instance (a `Nat`).  The
graph is the store these handles are read through.  Rule objects carry the
match list and the rewrite delta as explicit state; `rewrite` of spider fusion
also returns the graph, because it calls `setPhase` on it.  For the results on
what a method leaves of the graph, `match` of both rules and `rewrite` of the
bialgebra rule are given a second time on the store (`matchOn`, `rewriteOn`):
every call of a method of the graph or of a vertex is a function from the store
to the value and the store after the call (`ZXGraph.Call`), and each call is
made on the store that the call before it leaves.

The scratch vectors `validEdge` and `taken` are lists.  Whenever the body of a
scan runs on a well-formed graph every index it uses is in range
(`edge2idx_lt`, `id2idx_lt`), so the value read or the write dropped outside
the range plays no part in the results.
-/

namespace Qsyn

/-! ## Data model -/

/-- Vertex type tag of a ZX-diagram vertex. -/
inductive VertexType where
  | BOUNDARY
  | Z
  | X
  | H_BOX
deriving DecidableEq

/-- Edge type tag of a ZX-diagram edge. -/
inductive EdgeType where
  | SIMPLE
  | HADAMARD
deriving DecidableEq

/-- Modelled from the spec: the `Phase` value type (`util/phase.hpp` is not part of
the sources): an exact rational multiple of π kept as a reduced fraction with a
positive denominator. -/
structure Phase where
  numerator : Int
  denominator : Nat
deriving DecidableEq

namespace Phase

/-- Modelled from the spec: canonicalisation of `n / d` (with `0 < d`) — the
fraction is reduced and wrapped modulo 2 into the half-open range `(-1, 1]`. -/
def normalize (n : Int) (d : Nat) : Phase :=
  let g : Nat := Nat.gcd n.natAbs d
  let n1 : Int := n / (g : Int)
  let d1 : Nat := d / g
  let r : Int := n1 % (2 * (d1 : Int))
  if (d1 : Int) < r then ⟨r - 2 * (d1 : Int), d1⟩ else ⟨r, d1⟩

/-- Modelled from the spec: `Phase(n)`, the phase `n · π`, canonicalised. -/
def ofInt (n : Int) : Phase := normalize n 1

/-- Modelled from the spec: `operator+` of `Phase`, the canonicalised sum. -/
def add (p q : Phase) : Phase :=
  normalize (p.numerator * (q.denominator : Int) + q.numerator * (p.denominator : Int))
    (p.denominator * q.denominator)

/-- The zero phase `Phase(0)`. -/
def zero : Phase := ofInt 0

end Phase

/-- An edge as the graph hands it out, `pair<pair<ZXVertex*, ZXVertex*>, EdgeType*>`: the
pair `((v0, v1), e)` with `e` the handle of this one edge. -/
abbrev EdgePair := (Nat × Nat) × Nat

/-- Modelled from the spec: the `ZXGraph` / `ZXVertex` store (`zxGraph.h` is not part
of the sources).  `vertices` and `edges` are the graph's iteration orders, `type`,
`phase` and `neighborMap` are the per-vertex fields read through a `ZXVertex*`, and
`edgeType` is what an `EdgeType*` points to.  A self-loop is listed once in the
neighbour multiset of its vertex. -/
structure ZXGraph where
  vertices : List Nat
  edges : List EdgePair
  type : Nat → VertexType
  phase : Nat → Phase
  neighborMap : Nat → List (Nat × Nat)
  edgeType : Nat → EdgeType

namespace ZXGraph

/-- Modelled from the spec: `ZXVertex::getNeighbors()` of the spider-fusion sources,
the neighbour of every entry of the neighbour multiset, in its iteration order. -/
def getNeighbors (g : ZXGraph) (v : Nat) : List Nat := (g.neighborMap v).map Prod.fst

/-- Modelled from the spec: `ZXVertex::getCopiedNeighbors()` of the bialgebra
sources, the neighbour of every entry of the neighbour multiset. -/
def getCopiedNeighbors (g : ZXGraph) (v : Nat) : List Nat := (g.neighborMap v).map Prod.fst

/-- Modelled from the spec: `ZXVertex::getNumNeighbors()`, the degree: the number of
entries of the neighbour multiset. -/
def getNumNeighbors (g : ZXGraph) (v : Nat) : Nat := (g.neighborMap v).length

/-- Modelled from the spec: `ZXVertex::getNeighbors()` of the bialgebra sources, the
entries of the neighbour multiset as `(neighbour, edge type)` pairs. -/
def getNeighborPairs (g : ZXGraph) (v : Nat) : List (Nat × EdgeType) :=
  (g.neighborMap v).map (fun nb => (nb.1, g.edgeType nb.2))

/-- Modelled from the spec: `ZXVertex::setPhase`. -/
def setPhase (g : ZXGraph) (v : Nat) (p : Phase) : ZXGraph :=
  { g with phase := fun w => if w = v then p else g.phase w }

/-- The data-model invariant linking the edge list to the vertices: every edge of
the edge list joins two vertices of the graph and is listed in the neighbour
multiset of both of its endpoints. -/
def WellFormed (g : ZXGraph) : Prop :=
  ∀ e ∈ g.edges, (e.1.1 ∈ g.vertices ∧ e.1.2 ∈ g.vertices) ∧
    ((e.1.2, e.2) ∈ g.neighborMap e.1.1 ∧ (e.1.1, e.2) ∈ g.neighborMap e.1.2)

instance (g : ZXGraph) : Decidable g.WellFormed := by
  unfold WellFormed; infer_instance

/-- The neighbour relation is symmetric on the vertices of the graph: a vertex is
listed, with the same edge, by each of its neighbours. -/
def Symmetric (g : ZXGraph) : Prop :=
  ∀ v ∈ g.vertices, ∀ nb ∈ g.neighborMap v, (v, nb.2) ∈ g.neighborMap nb.1

instance (g : ZXGraph) : Decidable g.Symmetric := by
  unfold Symmetric; infer_instance

end ZXGraph

/-- Modelled from the spec: `makeEdgeKey(v1, v2, et)` (declared in the absent
`zxDef.h`), the key of an edge: its unordered endpoint pair, smaller id first,
with the handle of the edge. -/
def makeEdgeKey (v1 v2 : Nat) (et : Nat) : EdgePair :=
  (if v2 < v1 then (v2, v1) else (v1, v2), et)

/-- Modelled from the spec: `makeEdgeKey(EdgePair)`, the key of an edge pair. -/
def makeEdgeKeyOfPair (e : EdgePair) : EdgePair := makeEdgeKey e.1.1 e.1.2 e.2

/-- Modelled from the spec: the state of a rule object (`zxRules.h` is not part of
the sources): the match list left by `match` and the rewrite delta left by
`rewrite`.  The edge table is the pair of vectors `_edgeTableKeys`,
`_edgeTableValues`. -/
structure ZXRule (M : Type) where
  matchTypeVec : List M
  matchTypeVecNum : Nat
  removeVertices : List Nat
  removeEdges : List EdgePair
  edgeTableKeys : List (Nat × Nat)
  edgeTableValues : List (Nat × Nat)

namespace ZXRule

/-- Modelled from the spec: `reset()`, which discards the delta of a previous pass. -/
def reset {M : Type} (r : ZXRule M) : ZXRule M :=
  { r with removeVertices := [], removeEdges := [], edgeTableKeys := [], edgeTableValues := [] }

/-- A rule object before its first pass. -/
def init (M : Type) : ZXRule M :=
  { matchTypeVec := [], matchTypeVecNum := 0, removeVertices := [], removeEdges := [],
    edgeTableKeys := [], edgeTableValues := [] }

end ZXRule

/-! ## Spider fusion: `match` -/

namespace SpiderFusion

/-- The loop of line 27: `Edge2idx[makeEdgeKey(Edges[i])] = i`, with `i` counted up from the
second argument; a key absent from the map reads as `0`, as `operator[]` gives it. -/
def buildEdge2idx : List EdgePair → Nat → (EdgePair → Nat) → (EdgePair → Nat)
  | [], _, m => m
  | e :: es, i, m =>
    buildEdge2idx es (i + 1) (fun k => if k = makeEdgeKeyOfPair e then i else m k)

/-- The map `Edge2idx` of `SpiderFusion::match`. -/
def edge2idx (g : ZXGraph) : EdgePair → Nat := buildEdge2idx g.edges 0 (fun _ => 0)

/-- The loops of lines 41-43 and 45-47: every edge of the neighbour map of `v` is
marked invalid. -/
def markNeighbors (idx : EdgePair → Nat) (v : Nat) (nbrs : List (Nat × Nat))
    (validEdge : List Bool) : List Bool :=
  nbrs.foldl (fun valid itr => valid.set (idx (makeEdgeKey v itr.1 itr.2)) false) validEdge

/-- The scratch state of the scan: `validEdge` and the match list so far. -/
structure Scan where
  validEdge : List Bool
  matchTypeVec : List (Nat × Nat)

/-- One iteration of the loop of lines 30-50, for the edge `Edges[i]`. -/
def matchStep (g : ZXGraph) (idx : EdgePair → Nat) (st : Scan) (e : EdgePair) : Scan :=
  if st.validEdge.getD (idx (makeEdgeKeyOfPair e)) true = false then st
  else
    let valid := st.validEdge.set (idx (makeEdgeKeyOfPair e)) false
    if g.edgeType e.2 ≠ EdgeType.SIMPLE then { st with validEdge := valid }
    else
      let v0 := e.1.1
      let v1 := e.1.2
      if g.type v0 = g.type v1 ∧ (g.type v0 = VertexType.X ∨ g.type v0 = VertexType.Z) then
        let valid0 := markNeighbors idx v0 (g.neighborMap v0) valid
        let valid1 := markNeighbors idx v1 (g.neighborMap v1) valid0
        { validEdge := valid1, matchTypeVec := st.matchTypeVec ++ [(v0, v1)] }
      else { st with validEdge := valid }

/-- The scan of `SpiderFusion::match` over the edge list. -/
def scan (g : ZXGraph) : Scan :=
  g.edges.foldl (matchStep g (edge2idx g))
    { validEdge := List.replicate g.edges.length true, matchTypeVec := [] }

/-- The method `SpiderFusion::match`: the match list is cleared and refilled by the
scan; the delta of the rule object is left as it is. -/
def «match» (r : ZXRule (Nat × Nat)) (g : ZXGraph) : ZXRule (Nat × Nat) :=
  { r with matchTypeVec := (scan g).matchTypeVec,
           matchTypeVecNum := (scan g).matchTypeVec.length }

end SpiderFusion

/-! ## Spider fusion: `rewrite` -/

namespace SpiderFusion

/-- The state threaded through `SpiderFusion::rewrite`: the rule object, whose delta
is being filled, and the graph, whose phases `setPhase` overwrites. -/
structure RewriteState where
  rule : ZXRule (Nat × Nat)
  graph : ZXGraph

/-- The state of the loop of lines 80-119: the rewrite state and the map `done`. -/
structure NeighborLoop where
  st : RewriteState
  done : Nat → Bool

/-- The range `neighbor.equal_range(w)` of the neighbour map of `v1`. -/
def equalRange (g : ZXGraph) (v1 w : Nat) : List (Nat × Nat) :=
  (g.neighborMap v1).filter (fun itr => itr.1 = w)

/-- The counter `hadamardcount` of lines 90-96. -/
def hadamardCount (g : ZXGraph) (v1 w : Nat) : Nat :=
  ((equalRange g v1 w).filter (fun itr => g.edgeType itr.2 = EdgeType.HADAMARD)).length

/-- The counter `simplecount` of lines 90-96. -/
def simpleCount (g : ZXGraph) (v1 w : Nat) : Nat :=
  ((equalRange g v1 w).filter (fun itr => g.edgeType itr.2 = EdgeType.SIMPLE)).length

/-- The vector `selfHadaLoopCandidate` of lines 90-96. -/
def selfHadaLoopCandidate (g : ZXGraph) (v1 w : Nat) : List Nat :=
  ((equalRange g v1 w).filter (fun itr => g.edgeType itr.2 = EdgeType.HADAMARD)).map Prod.snd

/-- One iteration of the loop of lines 80-119, for the neighbour `w = v1n[i]` of `v1`. -/
def neighborStep (v0 v1 : Nat) (lp : NeighborLoop) (w : Nat) : NeighborLoop :=
  if lp.done w = true then lp
  else
    let g := lp.st.graph
    let hadamardcount := hadamardCount g v1 w
    let simplecount := simpleCount g v1 w
    let candidates := selfHadaLoopCandidate g v1 w
    let r1 : ZXRule (Nat × Nat) :=
      if v0 ≠ v1 then
        { lp.st.rule with
          edgeTableKeys := lp.st.rule.edgeTableKeys ++ [(v0, w)],
          edgeTableValues := lp.st.rule.edgeTableValues ++
            [(if w = v0 then 0 else simplecount, hadamardcount)] }
      else lp.st.rule
    let st2 : RewriteState :=
      if v1 = w then
        if v0 ≠ v1 then
          { rule := r1,
            graph := g.setPhase v0 (Phase.add (g.phase v1) (Phase.ofInt (hadamardcount / 2 : Nat))) }
        else
          { rule := { r1 with
              removeEdges := r1.removeEdges ++ candidates.map (fun c => ((v0, v1), c)) },
            graph := g.setPhase v0 (Phase.add (g.phase v0) (Phase.ofInt (hadamardcount / 2 : Nat))) }
      else { rule := r1, graph := g }
    { st := st2, done := fun x => if x = w then true else lp.done x }

/-- The phase merge of lines 70-71. -/
def mergePhase (v0 v1 : Nat) (st : RewriteState) : RewriteState :=
  if v0 ≠ v1 then
    { st with graph := st.graph.setPhase v0 (Phase.add (st.graph.phase v0) (st.graph.phase v1)) }
  else st

/-- The loop of lines 75-119 over `v1n = v1->getNeighbors()`, with `done` all false at first. -/
def neighborLoop (v0 v1 : Nat) (st : RewriteState) : RewriteState :=
  ((st.graph.getNeighbors v1).foldl (neighborStep v0 v1) { st := st, done := fun _ => false }).st

/-- The end of the loop body, lines 120-133: `v1` is scheduled for removal, or for a record
`(v0, v0)` the Simple self-loops of `v0` are. -/
def finishRecord (v0 v1 : Nat) (st : RewriteState) : RewriteState :=
  if v0 ≠ v1 then
    { st with rule := { st.rule with removeVertices := st.rule.removeVertices ++ [v1] } }
  else
    let simples := (equalRange st.graph v0 v1).filter
      (fun itr => st.graph.edgeType itr.2 = EdgeType.SIMPLE)
    { st with rule := { st.rule with
        removeEdges := st.rule.removeEdges ++ simples.map (fun itr => ((v0, v1), itr.2)) } }

/-- The body of the loop of lines 68-134, for the match record `(v0, v1)`. -/
def rewriteRecord (st : RewriteState) (m : Nat × Nat) : RewriteState :=
  finishRecord m.1 m.2 (neighborLoop m.1 m.2 (mergePhase m.1 m.2 st))

/-- The method `SpiderFusion::rewrite`: `reset()`, then the loop over `_matchTypeVec`. -/
def rewrite (r : ZXRule (Nat × Nat)) (g : ZXGraph) : RewriteState :=
  r.matchTypeVec.foldl rewriteRecord { rule := r.reset, graph := g }

end SpiderFusion

/-! ## Bialgebra -/

namespace Bialgebra

/-- The loop of `Bialgebra::check_duplicated_vertex`, with the vector `appeared`. -/
def check_duplicated_vertex_from : List Nat → List Nat → Bool
  | [], _ => false
  | v :: vs, appeared =>
    if v ∉ appeared then check_duplicated_vertex_from vs (appeared ++ [v]) else true

/-- The method `Bialgebra::check_duplicated_vertex`. -/
def check_duplicated_vertex (vec : List Nat) : Bool := check_duplicated_vertex_from vec []

/-- The loop of lines 46-49: `id2idx[v->getId()] = cnt` for the vertices in order; an
id absent from the map reads as `0`. -/
def buildId2idx : List Nat → Nat → (Nat → Nat) → (Nat → Nat)
  | [], _, m => m
  | v :: vs, cnt, m => buildId2idx vs (cnt + 1) (fun k => if k = v then cnt else m k)

/-- The map `id2idx` of `Bialgebra::match`. -/
def id2idx (g : ZXGraph) : Nat → Nat := buildId2idx g.vertices 0 (fun _ => 0)

/-- The loops of lines 89-91 and 92-94: every vertex of `nbrs` is set taken. -/
def markTaken (idx : Nat → Nat) (nbrs : List Nat) (taken : List Bool) : List Bool :=
  nbrs.foldl (fun t v => t.set (idx v) true) taken

/-- The scratch state of the scan: `taken` and the match list so far. -/
structure Scan where
  taken : List Bool
  matchTypeVec : List EdgePair

/-- The callback of `forEachEdge` (lines 52-95), for the edge `epair`. -/
def matchStep (g : ZXGraph) (idx : Nat → Nat) (st : Scan) (epair : EdgePair) : Scan :=
  if g.edgeType epair.2 ≠ EdgeType.SIMPLE then st
  else
    let left := epair.1.1
    let right := epair.1.2
    let n0 := idx left
    let n1 := idx right
    if st.taken.getD n0 false = true ∨ st.taken.getD n1 false = true then st
    else if g.phase left ≠ Phase.zero ∨ g.phase right ≠ Phase.zero then st
    else if ¬ ((g.type left = VertexType.X ∧ g.type right = VertexType.Z) ∨
        (g.type left = VertexType.Z ∧ g.type right = VertexType.X)) then st
    else if g.getNumNeighbors left = 1 ∨ g.getNumNeighbors right = 1 then st
    else
      let neighbor_of_left := g.getCopiedNeighbors left
      let neighbor_of_right := g.getCopiedNeighbors right
      if check_duplicated_vertex neighbor_of_left = true ∨
          check_duplicated_vertex neighbor_of_right = true then st
      else if ¬ (neighbor_of_left.all
          (fun v => decide (g.phase v = Phase.zero ∧ g.type v = g.type right)) = true) then st
      else if ¬ (neighbor_of_right.all
          (fun v => decide (g.phase v = Phase.zero ∧ g.type v = g.type left)) = true) then st
      else if ¬ ((g.getNeighborPairs left).all
          (fun edge_pair => decide (edge_pair.2 = EdgeType.SIMPLE)) = true) then st
      else if ¬ ((g.getNeighborPairs right).all
          (fun edge_pair => decide (edge_pair.2 = EdgeType.SIMPLE)) = true) then st
      else
        { taken := markTaken idx neighbor_of_right (markTaken idx neighbor_of_left st.taken),
          matchTypeVec := st.matchTypeVec ++ [epair] }

/-- The scan of `Bialgebra::match`: `forEachEdge` over the edges of the graph. -/
def scan (g : ZXGraph) : Scan :=
  g.edges.foldl (matchStep g (id2idx g))
    { taken := List.replicate g.vertices.length false, matchTypeVec := [] }

/-- The method `Bialgebra::match`. -/
def «match» (r : ZXRule EdgePair) (g : ZXGraph) : ZXRule EdgePair :=
  { r with matchTypeVec := (scan g).matchTypeVec,
           matchTypeVecNum := (scan g).matchTypeVec.length }

/-- The loop of lines 120-124, for the neighbour `p = neighbor_of_left[j]`. -/
def pushPairs (left p : Nat) (neighbor_of_right : List Nat) (r : ZXRule EdgePair) :
    ZXRule EdgePair :=
  neighbor_of_right.foldl (fun acc q =>
    if q = left then acc
    else { acc with edgeTableKeys := acc.edgeTableKeys ++ [(p, q)],
                    edgeTableValues := acc.edgeTableValues ++ [(1, 0)] }) r

/-- The body of the loop of lines 107-126, for the match record `m`. -/
def rewriteRecord (g : ZXGraph) (r : ZXRule EdgePair) (m : EdgePair) : ZXRule EdgePair :=
  let left := m.1.1
  let right := m.1.2
  let neighbor_of_left := g.getCopiedNeighbors left
  let neighbor_of_right := g.getCopiedNeighbors right
  let r1 : ZXRule EdgePair := { r with removeVertices := r.removeVertices ++ [left, right] }
  neighbor_of_left.foldl (fun acc p =>
    if p = right then acc else pushPairs left p neighbor_of_right acc) r1

/-- The method `Bialgebra::rewrite`: `reset()`, then the loop over `_matchTypeVec`. -/
def rewrite (r : ZXRule EdgePair) (g : ZXGraph) : ZXRule EdgePair :=
  r.matchTypeVec.foldl (rewriteRecord g) r.reset

end Bialgebra

/-! ## Predicates and functions used to state the results -/

namespace SpiderFusion

/-- Two match records share no endpoint. -/
def NoSharedEndpoint (m m' : Nat × Nat) : Prop :=
  m.1 ≠ m'.1 ∧ m.1 ≠ m'.2 ∧ m.2 ≠ m'.1 ∧ m.2 ≠ m'.2

/-- The loop invariant of the scan: the vector keeps its size, every edge of the graph
that touches an endpoint of an accepted record is marked invalid, and the accepted
records share no endpoint. -/
def ScanInv (g : ZXGraph) (st : Scan) : Prop :=
  st.validEdge.length = g.edges.length ∧
  (∀ m ∈ st.matchTypeVec, ∀ e ∈ g.edges,
    (e.1.1 = m.1 ∨ e.1.1 = m.2 ∨ e.1.2 = m.1 ∨ e.1.2 = m.2) →
      st.validEdge.getD (edge2idx g (makeEdgeKeyOfPair e)) true = false) ∧
  st.matchTypeVec.Pairwise NoSharedEndpoint

end SpiderFusion

namespace Bialgebra

/-- The conditions of lines 53 and 64-84 on the edge `epair`, all of which read the graph
only. -/
def Eligible (g : ZXGraph) (epair : EdgePair) : Prop :=
  g.edgeType epair.2 = EdgeType.SIMPLE ∧
  (g.phase epair.1.1 = Phase.zero ∧ g.phase epair.1.2 = Phase.zero) ∧
  ((g.type epair.1.1 = VertexType.X ∧ g.type epair.1.2 = VertexType.Z) ∨
    (g.type epair.1.1 = VertexType.Z ∧ g.type epair.1.2 = VertexType.X)) ∧
  (g.getNumNeighbors epair.1.1 ≠ 1 ∧ g.getNumNeighbors epair.1.2 ≠ 1) ∧
  (check_duplicated_vertex (g.getCopiedNeighbors epair.1.1) = false ∧
    check_duplicated_vertex (g.getCopiedNeighbors epair.1.2) = false) ∧
  (∀ v ∈ g.getCopiedNeighbors epair.1.1,
    g.phase v = Phase.zero ∧ g.type v = g.type epair.1.2) ∧
  (∀ v ∈ g.getCopiedNeighbors epair.1.2,
    g.phase v = Phase.zero ∧ g.type v = g.type epair.1.1) ∧
  (∀ edge_pair ∈ g.getNeighborPairs epair.1.1, edge_pair.2 = EdgeType.SIMPLE) ∧
  (∀ edge_pair ∈ g.getNeighborPairs epair.1.2, edge_pair.2 = EdgeType.SIMPLE)

/-- The later record `m'` keeps clear of the earlier record `m`: no endpoint of `m'` is an
endpoint of `m` or a neighbour of an endpoint of `m`. -/
def Separated (g : ZXGraph) (m m' : EdgePair) : Prop :=
  ∀ x, (x = m'.1.1 ∨ x = m'.1.2) →
    (x ≠ m.1.1 ∧ x ≠ m.1.2) ∧
    x ∉ g.getCopiedNeighbors m.1.1 ∧ x ∉ g.getCopiedNeighbors m.1.2

/-- The loop invariant of the scan: the vector keeps its size, the records are edges of the
graph, every neighbour of an endpoint of a record is taken, and every record keeps clear of
the records before it. -/
def ScanInv (g : ZXGraph) (st : Scan) : Prop :=
  st.taken.length = g.vertices.length ∧
  (∀ m ∈ st.matchTypeVec, m ∈ g.edges) ∧
  (∀ m ∈ st.matchTypeVec, ∀ x,
    (x ∈ g.getCopiedNeighbors m.1.1 ∨ x ∈ g.getCopiedNeighbors m.1.2) →
      st.taken.getD (id2idx g x) false = true) ∧
  st.matchTypeVec.Pairwise (Separated g)

/-- The edge-table keys that one match record emits: the pairs `(p, q)` with `p` running through
the neighbours of the left endpoint other than the right one and `q` through the neighbours of
the right endpoint other than the left one. -/
def recordKeys (g : ZXGraph) (m : EdgePair) : List (Nat × Nat) :=
  ((g.getCopiedNeighbors m.1.1).filter (fun p => p ≠ m.1.2)).flatMap
    (fun p => ((g.getCopiedNeighbors m.1.2).filter (fun q => q ≠ m.1.1)).map (fun q => (p, q)))

end Bialgebra

namespace SpiderFusion

/-- The graph `g'` differs from `g` in its phases at most. -/
def SameShape (g g' : ZXGraph) : Prop :=
  g'.vertices = g.vertices ∧ g'.edges = g.edges ∧ g'.type = g.type ∧
  g'.neighborMap = g.neighborMap ∧ g'.edgeType = g.edgeType

/-- The edge-table entry, key and value, of lines 98-99 for the neighbour `w` of `v1`. -/
def entryFor (g : ZXGraph) (v0 v1 w : Nat) : (Nat × Nat) × (Nat × Nat) :=
  ((v0, w), (if w = v0 then 0 else simpleCount g v1 w, hadamardCount g v1 w))

/-- The edge-table entries that the neighbour loop emits for a record `(v0, v1)` with
`v0 ≠ v1` while it runs over `ws` from the map `done`. -/
def emitted (g : ZXGraph) (v0 v1 : Nat) :
    List Nat → (Nat → Bool) → List ((Nat × Nat) × (Nat × Nat))
  | [], _ => []
  | w :: ws, done =>
    if done w = true then emitted g v0 v1 ws done
    else entryFor g v0 v1 w :: emitted g v0 v1 ws (fun x => if x = w then true else done x)

end SpiderFusion

/-! ## Concrete diagrams -/

/-- The path `0 - 1 - 2 - 3` of four Z-spiders joined by Simple edges; the third edge is
listed from `3` to `2`. -/
def path4 : ZXGraph :=
  { vertices := [0, 1, 2, 3],
    edges := [((0, 1), 0), ((1, 2), 1), ((3, 2), 2)],
    type := fun _ => VertexType.Z,
    phase := fun _ => Phase.zero,
    neighborMap := fun v =>
      match v with
      | 0 => [(1, 0)]
      | 1 => [(0, 0), (2, 1)]
      | 2 => [(1, 1), (3, 2)]
      | 3 => [(2, 2)]
      | _ => [],
    edgeType := fun _ => EdgeType.SIMPLE }

/-- Two Z-spiders `0` (phase π/2) and `1` (phase π/4) joined by a Simple edge; `1` is also
joined to the X-spider `2` by one Simple and one Hadamard edge. -/
def fuse3 : ZXGraph :=
  { vertices := [0, 1, 2],
    edges := [((0, 1), 0), ((1, 2), 1), ((1, 2), 2)],
    type := fun v => if v = 2 then VertexType.X else VertexType.Z,
    phase := fun v =>
      match v with
      | 0 => ⟨1, 2⟩
      | 1 => ⟨1, 4⟩
      | _ => Phase.zero,
    neighborMap := fun v =>
      match v with
      | 0 => [(1, 0)]
      | 1 => [(0, 0), (2, 1), (2, 2)]
      | 2 => [(1, 1), (1, 2)]
      | _ => [],
    edgeType := fun e => if e = 2 then EdgeType.HADAMARD else EdgeType.SIMPLE }

/-- Two copies of the bialgebra pattern: the X-spider `0` with the further Z-neighbours `2`,
`3` joined to the Z-spider `1` with the further X-neighbours `4`, `5`, and the same on the
vertices `6` to `11`; all phases are zero and all edges Simple. -/
def bialg2 : ZXGraph :=
  { vertices := [0, 1, 2, 3, 4, 5, 6, 7, 8, 9, 10, 11],
    edges := [((0, 1), 0), ((0, 2), 1), ((0, 3), 2), ((1, 4), 3), ((1, 5), 4),
      ((6, 7), 5), ((6, 8), 6), ((6, 9), 7), ((7, 10), 8), ((7, 11), 9)],
    type := fun v =>
      match v with
      | 0 => VertexType.X
      | 1 => VertexType.Z
      | 2 => VertexType.Z
      | 3 => VertexType.Z
      | 4 => VertexType.X
      | 5 => VertexType.X
      | 6 => VertexType.X
      | 7 => VertexType.Z
      | 8 => VertexType.Z
      | 9 => VertexType.Z
      | _ => VertexType.X,
    phase := fun _ => Phase.zero,
    neighborMap := fun v =>
      match v with
      | 0 => [(1, 0), (2, 1), (3, 2)]
      | 1 => [(0, 0), (4, 3), (5, 4)]
      | 2 => [(0, 1)]
      | 3 => [(0, 2)]
      | 4 => [(1, 3)]
      | 5 => [(1, 4)]
      | 6 => [(7, 5), (8, 6), (9, 7)]
      | 7 => [(6, 5), (10, 8), (11, 9)]
      | 8 => [(6, 6)]
      | 9 => [(6, 7)]
      | 10 => [(7, 8)]
      | 11 => [(7, 9)]
      | _ => [],
    edgeType := fun _ => EdgeType.SIMPLE }

/-! ## Further definitions: phase of a record -/

namespace SpiderFusion

/-- The phase that the body of the loop of `SpiderFusion::rewrite` leaves on the first
endpoint of the record `m`, read off the graph before the body runs: with distinct
endpoints the last write is line 105 when the second endpoint has a self-loop, and line 71
otherwise; for a record `(u, u)` it is line 112 when `u` has a self-loop. -/
def recordPhase (g : ZXGraph) (m : Nat × Nat) : Phase :=
  if m.1 ≠ m.2 then
    if m.2 ∈ g.getNeighbors m.2 then
      Phase.add (g.phase m.2) (Phase.ofInt (hadamardCount g m.2 m.2 / 2 : Nat))
    else Phase.add (g.phase m.1) (g.phase m.2)
  else
    if m.1 ∈ g.getNeighbors m.1 then
      Phase.add (g.phase m.1) (Phase.ofInt (hadamardCount g m.2 m.2 / 2 : Nat))
    else g.phase m.1

/-- The edges that the body of the loop schedules for removal for the record `m`: none when
the endpoints differ, and for a record `(u, u)` the Hadamard self-loops of `u` (line 114)
followed by its Simple self-loops (line 130). -/
def recordRemoveEdges (g : ZXGraph) (m : Nat × Nat) : List EdgePair :=
  if m.1 ≠ m.2 then []
  else
    (if m.2 ∈ g.getNeighbors m.2 then
        (selfHadaLoopCandidate g m.2 m.2).map (fun c => ((m.1, m.2), c))
      else []) ++
    ((equalRange g m.1 m.2).filter
      (fun itr => g.edgeType itr.2 = EdgeType.SIMPLE)).map (fun itr => ((m.1, m.2), itr.2))

end SpiderFusion

/-- Two Z-spiders `0` (phase π/2) and `1` (phase π/4) joined by a Simple edge, with two
Hadamard self-loops on `1`. -/
def fuseLoop : ZXGraph :=
  { vertices := [0, 1],
    edges := [((0, 1), 0), ((1, 1), 1), ((1, 1), 2)],
    type := fun _ => VertexType.Z,
    phase := fun v =>
      match v with
      | 0 => ⟨1, 2⟩
      | 1 => ⟨1, 4⟩
      | _ => Phase.zero,
    neighborMap := fun v =>
      match v with
      | 0 => [(1, 0)]
      | 1 => [(0, 0), (1, 1), (1, 2)]
      | _ => [],
    edgeType := fun e => if e = 0 then EdgeType.SIMPLE else EdgeType.HADAMARD }

/-- One Z-spider `0` of phase π/4 with a Simple self-loop (handle `0`) and two Hadamard
self-loops (handles `1`, `2`). -/
def selfLoop2 : ZXGraph :=
  { vertices := [0],
    edges := [((0, 0), 0), ((0, 0), 1), ((0, 0), 2)],
    type := fun _ => VertexType.Z,
    phase := fun _ => ⟨1, 4⟩,
    neighborMap := fun v =>
      match v with
      | 0 => [(0, 0), (0, 1), (0, 2)]
      | _ => [],
    edgeType := fun e => if e = 0 then EdgeType.SIMPLE else EdgeType.HADAMARD }

namespace SpiderFusion

/-- The edge-table entries, key and value, that the body of the loop emits for the record
`m`: those of the neighbour loop when the endpoints differ, none for a record `(u, u)`. -/
def recordEntries (g : ZXGraph) (m : Nat × Nat) : List ((Nat × Nat) × (Nat × Nat)) :=
  if m.1 ≠ m.2 then emitted g m.1 m.2 (g.getNeighbors m.2) (fun _ => false) else []

/-- The vertices that the body of the loop schedules for removal for the record `m`. -/
def recordRemoveVertices (m : Nat × Nat) : List Nat :=
  if m.1 ≠ m.2 then [m.2] else []

end SpiderFusion

namespace SpiderFusion

/-- The conditions of lines 36 and 39 on the edge `e`: it is Simple and joins two spiders of
one colour, Z or X. -/
def Eligible (g : ZXGraph) (e : EdgePair) : Prop :=
  g.edgeType e.2 = EdgeType.SIMPLE ∧ g.type e.1.1 = g.type e.1.2 ∧
  (g.type e.1.1 = VertexType.X ∨ g.type e.1.1 = VertexType.Z)

/-- The map `idx` sends the key of every edge of `L` to a place of `L` that holds an edge of
the same key. -/
def IdxOK (L : List EdgePair) (idx : EdgePair → Nat) : Prop :=
  ∀ e ∈ L, ∃ e', L[idx (makeEdgeKeyOfPair e)]? = some e' ∧
    makeEdgeKeyOfPair e' = makeEdgeKeyOfPair e

end SpiderFusion

/-! ## The apply step and the driver loop -/

namespace ZXGraph

/-- Modelled from the spec: `remove_edge` of the graph model (`zxGraph.h` is not part of the
sources): the edge instance leaves the edge list and the neighbour multisets of both of its
endpoints. -/
def removeEdge (g : ZXGraph) (e : EdgePair) : ZXGraph :=
  { g with
    edges := g.edges.filter (fun x => decide (makeEdgeKeyOfPair x ≠ makeEdgeKeyOfPair e)),
    neighborMap := fun v =>
      (g.neighborMap v).filter (fun nb =>
        decide (¬ ((v = e.1.1 ∧ nb = (e.1.2, e.2)) ∨ (v = e.1.2 ∧ nb = (e.1.1, e.2))))) }

/-- Modelled from the spec: `remove_vertex` of the graph model, which also purges the edges at
the vertex from the edge list and from the neighbour multiset of every other vertex. -/
def removeVertex (g : ZXGraph) (v : Nat) : ZXGraph :=
  { g with
    vertices := g.vertices.filter (fun w => decide (w ≠ v)),
    edges := g.edges.filter (fun e => decide (e.1.1 ≠ v ∧ e.1.2 ≠ v)),
    neighborMap := fun w =>
      if w = v then [] else (g.neighborMap w).filter (fun nb => decide (nb.1 ≠ v)) }

/-- A handle that no edge of the edge list uses: one more than the largest in use. -/
def freshEdge (g : ZXGraph) : Nat := (g.edges.map (fun e => e.2)).foldl max 0 + 1

/-- Modelled from the spec: `add_edge` of the graph model; the new edge gets a fresh handle, is
appended to the edge list and to the neighbour multisets of its endpoints (once for a
self-loop). -/
def addEdge (g : ZXGraph) (a b : Nat) (t : EdgeType) : ZXGraph :=
  { g with
    edges := g.edges ++ [((a, b), g.freshEdge)],
    neighborMap := fun w =>
      if w = a then g.neighborMap w ++ [(b, g.freshEdge)]
      else if w = b then g.neighborMap w ++ [(a, g.freshEdge)]
      else g.neighborMap w,
    edgeType := fun e => if e = g.freshEdge then t else g.edgeType e }

/-- The edge `a - b` of type `t` added `n` times. -/
def addEdges (g : ZXGraph) (a b : Nat) (t : EdgeType) : Nat → ZXGraph
  | 0 => g
  | n + 1 => (addEdges g a b t n).addEdge a b t

/-- One edge-table entry applied: `value.1` Simple and `value.2` Hadamard edges between the two
vertices of the key. -/
def addEntry (g : ZXGraph) (key value : Nat × Nat) : ZXGraph :=
  ((g.addEdges key.1 key.2 EdgeType.SIMPLE value.1).addEdges key.1 key.2
    EdgeType.HADAMARD value.2)

/-- Modelled from the spec: the apply step of section 4.5 (it is not part of the sources): the
listed edges are deleted, then the listed vertices, then every edge-table entry is added.  A
delta that names an edge or a vertex the graph does not have, or an edge-table key with a
removed vertex, is fatal (section 7): the result is `none`. -/
def applyDelta {M : Type} (g : ZXGraph) (r : ZXRule M) : Option ZXGraph :=
  if (∀ e ∈ r.removeEdges, makeEdgeKeyOfPair e ∈ g.edges.map makeEdgeKeyOfPair) ∧
      (∀ v ∈ r.removeVertices, v ∈ g.vertices) then
    if ∀ k ∈ r.edgeTableKeys,
      k.1 ∈ (r.removeVertices.foldl removeVertex (r.removeEdges.foldl removeEdge g)).vertices ∧
      k.2 ∈ (r.removeVertices.foldl removeVertex (r.removeEdges.foldl removeEdge g)).vertices
    then
      some ((r.edgeTableKeys.zip r.edgeTableValues).foldl (fun acc kv => acc.addEntry kv.1 kv.2)
        (r.removeVertices.foldl removeVertex (r.removeEdges.foldl removeEdge g)))
    else none
  else none

end ZXGraph

namespace SpiderFusion

/-- The rule object after one pass `match`, `rewrite` over the graph. -/
def passRule (r : ZXRule (Nat × Nat)) (g : ZXGraph) : ZXRule (Nat × Nat) :=
  (rewrite («match» r g) g).rule

/-- The graph after one pass `match`, `rewrite`, apply; `none` when the apply step is fatal. -/
def passResult (r : ZXRule (Nat × Nat)) (g : ZXGraph) : Option ZXGraph :=
  (rewrite («match» r g) g).graph.applyDelta (passRule r g)

/-- Modelled from the spec: the driver loop of section 4.5 for spider fusion (it is not part of
the sources): `match`; stop when the match count is zero; else `rewrite`, apply, and again.
The result is the number of non-empty passes with the last graph, or `none` when the fuel runs
out or the apply step is fatal. -/
def simplify : Nat → ZXRule (Nat × Nat) → ZXGraph → Option (Nat × ZXGraph)
  | 0, _, _ => none
  | fuel + 1, r, g =>
    if («match» r g).matchTypeVecNum = 0 then some (0, g)
    else
      match passResult r g with
      | none => none
      | some g' => (simplify fuel (passRule r g) g').map (fun res => (res.1 + 1, res.2))

end SpiderFusion

namespace ZXGraph

/-- The graph with its phases replaced by `p`. -/
def withPhase (g : ZXGraph) (p : Nat → Phase) : ZXGraph := { g with phase := p }

end ZXGraph

/-- The path of `n` spiders `0 - 1 - ... - (n-1)` of the type `t` with the phases `ph`, joined by
Simple edges that are listed in path order, the edge from `i` to `i + 1` with the handle `i`. -/
def pathGraph (t : VertexType) (ph : Nat → Phase) (n : Nat) : ZXGraph :=
  { vertices := List.range n,
    edges := (List.range (n - 1)).map (fun i => ((i, i + 1), i)),
    type := fun _ => t,
    phase := ph,
    neighborMap := fun v =>
      if v < n then
        (if 0 < v then [(v - 1, v - 1)] else []) ++ (if v + 1 < n then [(v + 1, v)] else [])
      else [],
    edgeType := fun _ => EdgeType.SIMPLE }

/-! ## The generic directed graph of `util/graph.hpp` -/

/-- The class `dvlab::DirectedGraph<T>`: the adjacency maps `_out_neighbors`, `_in_neighbors`
and the vertex map `_vertices`.  An `ordered_hashmap` is the list of its key-value pairs and an
`ordered_hashset` the list of its members, both in insertion order (the two headers are not
part of the sources).  The maps `_inputs` and `_outputs`, which no method shown writes, are
left out. -/
structure DirectedGraph (T : Type) where
  out_neighbors : List (Nat × List Nat)
  in_neighbors : List (Nat × List Nat)
  vertices : List (Nat × T)

namespace DirectedGraph

/-- The lookup `m.at(id)`: the set stored under `id`, or `none` where the C++ call throws
`std::out_of_range`. -/
def mapAt (m : List (Nat × List Nat)) (id : Nat) : Option (List Nat) :=
  (m.find? (fun kv => decide (kv.1 = id))).map Prod.snd

/-- The map after `m[id]` has been evaluated: a key that was absent now holds the empty set. -/
def mapIndex (m : List (Nat × List Nat)) (id : Nat) : List (Nat × List Nat) :=
  if m.any (fun kv => decide (kv.1 = id)) then m else m ++ [(id, [])]

/-- The map after the set stored under `id` has been replaced by its image under `f`. -/
def mapUpdate (m : List (Nat × List Nat)) (id : Nat) (f : List Nat → List Nat) :
    List (Nat × List Nat) :=
  m.map (fun kv => if kv.1 = id then (kv.1, f kv.2) else kv)

/-- The map after `m.erase(id)`. -/
def mapErase (m : List (Nat × List Nat)) (id : Nat) : List (Nat × List Nat) :=
  m.filter (fun kv => decide (kv.1 ≠ id))

/-- The set after `s.emplace(x)`. -/
def setEmplace (s : List Nat) (x : Nat) : List Nat := if x ∈ s then s else s ++ [x]

/-- The set after `s.erase(x)`. -/
def setErase (s : List Nat) (x : Nat) : List Nat := s.filter (fun y => decide (y ≠ x))

/-- The method `has_vertex`. -/
def has_vertex {T : Type} (g : DirectedGraph T) (id : Nat) : Bool :=
  g.vertices.any (fun kv => decide (kv.1 = id))

/-- The method `get_out_neighbors`, `none` where `at` throws. -/
def get_out_neighbors {T : Type} (g : DirectedGraph T) (id : Nat) : Option (List Nat) :=
  mapAt g.out_neighbors id

/-- The method `get_in_neighbors`, `none` where `at` throws. -/
def get_in_neighbors {T : Type} (g : DirectedGraph T) (id : Nat) : Option (List Nat) :=
  mapAt g.in_neighbors id

/-- The method `has_edge`, `none` where `at` throws. -/
def has_edge {T : Type} (g : DirectedGraph T) (src dst : Nat) : Option Bool :=
  (mapAt g.out_neighbors src).map (fun s => decide (dst ∈ s))

/-- The method `num_edges`. -/
def num_edges {T : Type} (g : DirectedGraph T) : Nat :=
  g.out_neighbors.foldl (fun n kv => n + kv.2.length) 0

/-- The method `num_in_neighbors`, `none` where `at` throws. -/
def num_in_neighbors {T : Type} (g : DirectedGraph T) (id : Nat) : Option Nat :=
  (mapAt g.in_neighbors id).map List.length

/-- The method `num_out_neighbors`, `none` where `at` throws. -/
def num_out_neighbors {T : Type} (g : DirectedGraph T) (id : Nat) : Option Nat :=
  (mapAt g.out_neighbors id).map List.length

/-- The method `add_vertex`: `emplace` keeps the data of an id that is present already. -/
def add_vertex {T : Type} (g : DirectedGraph T) (id : Nat) (data : T) : DirectedGraph T :=
  { g with vertices :=
      if g.vertices.any (fun kv => decide (kv.1 = id)) then g.vertices
      else g.vertices ++ [(id, data)] }

/-- The method `add_edge`. -/
def add_edge {T : Type} (g : DirectedGraph T) (src dst : Nat) : DirectedGraph T :=
  { g with
    out_neighbors := mapUpdate (mapIndex g.out_neighbors src) src (fun s => setEmplace s dst),
    in_neighbors := mapUpdate (mapIndex g.in_neighbors dst) dst (fun s => setEmplace s src) }

/-- The method `remove_vertex`. -/
def remove_vertex {T : Type} (g : DirectedGraph T) (id : Nat) : DirectedGraph T :=
  { vertices := g.vertices.filter (fun kv => decide (kv.1 ≠ id)),
    out_neighbors := (mapErase g.out_neighbors id).map (fun kv => (kv.1, setErase kv.2 id)),
    in_neighbors := (mapErase g.in_neighbors id).map (fun kv => (kv.1, setErase kv.2 id)) }

/-- The method `remove_edge`. -/
def remove_edge {T : Type} (g : DirectedGraph T) (src dst : Nat) : DirectedGraph T :=
  { g with
    out_neighbors := mapUpdate (mapIndex g.out_neighbors src) src (fun s => setErase s dst),
    in_neighbors := mapUpdate (mapIndex g.in_neighbors dst) dst (fun s => setErase s src) }

end DirectedGraph

/-- One Z-spider `0` of phase 0 with a Simple self-loop (handle `0`) and three Hadamard
self-loops (handles `1`, `2`, `3`). -/
def selfLoop3 : ZXGraph :=
  { vertices := [0],
    edges := [((0, 0), 0), ((0, 0), 1), ((0, 0), 2), ((0, 0), 3)],
    type := fun _ => VertexType.Z,
    phase := fun _ => Phase.zero,
    neighborMap := fun v =>
      match v with
      | 0 => [(0, 0), (0, 1), (0, 2), (0, 3)]
      | _ => [],
    edgeType := fun e => if e = 0 then EdgeType.SIMPLE else EdgeType.HADAMARD }

/-! ## The invariants of the directed graph -/

namespace DirectedGraph

/-- The graph of the default constructor. -/
def empty (T : Type) : DirectedGraph T := { out_neighbors := [], in_neighbors := [], vertices := [] }

/-- The out-neighbour set that `id` owns; empty when `id` owns none. -/
def outSet {T : Type} (g : DirectedGraph T) (id : Nat) : List Nat :=
  (mapAt g.out_neighbors id).getD []

/-- The in-neighbour set that `id` owns; empty when `id` owns none. -/
def inSet {T : Type} (g : DirectedGraph T) (id : Nat) : List Nat :=
  (mapAt g.in_neighbors id).getD []

/-- The two adjacency maps mirror each other: `dst` is in the out-neighbour set of `src` if and
only if `src` is in the in-neighbour set of `dst`. -/
def Mirror {T : Type} (g : DirectedGraph T) : Prop :=
  ∀ src dst, dst ∈ g.outSet src ↔ src ∈ g.inSet dst

/-- No dangling reference in one adjacency map: every id that owns a non-empty set, and every
member of a set, is a vertex. -/
def MapClosed {T : Type} (g : DirectedGraph T) (m : List (Nat × List Nat)) : Prop :=
  ∀ kv ∈ m, (kv.2 ≠ [] → g.has_vertex kv.1 = true) ∧ ∀ x ∈ kv.2, g.has_vertex x = true

/-- No dangling reference: both adjacency maps name vertices only. -/
def NoDangling {T : Type} (g : DirectedGraph T) : Prop :=
  g.MapClosed g.out_neighbors ∧ g.MapClosed g.in_neighbors

instance {T : Type} (g : DirectedGraph T) : Decidable g.NoDangling := by
  unfold NoDangling MapClosed
  infer_instance

end DirectedGraph

/-! ## The scope guard of `util/scope_guard.hpp` -/

/-- The class `dvlab::utils::scope_exit`: its member `_undo_func`, a `std::function<void()>`,
with `none` for the empty function (`nullptr`).  A callback acts on the state `σ` of the
program. -/
structure scope_exit (σ : Type) where
  undo_func : Option (σ → σ)

namespace scope_exit

/-- The constructor from a callable (lines 17-21), for a callable from which `_undo_func` is
built without an exception: the guard, and the state of the program as it was. -/
def make {σ : Type} (undo : σ → σ) (s : σ) : scope_exit σ × σ := (⟨some undo⟩, s)

/-- The destructor (lines 23-25): `if (_undo_func) _undo_func();`. -/
def destroy {σ : Type} (g : scope_exit σ) (s : σ) : σ :=
  match g.undo_func with
  | some f => f s
  | none => s

/-- The method `release` (line 36). -/
def release {σ : Type} (_g : scope_exit σ) (s : σ) : scope_exit σ × σ := (⟨none⟩, s)

/-- The move constructor (lines 30-32): the new guard, the guard `other` after the move, and
the state of the program. -/
def move {σ : Type} (other : scope_exit σ) (s : σ) : scope_exit σ × scope_exit σ × σ :=
  (⟨other.undo_func⟩, ⟨none⟩, s)

/-- What can happen to a guard between its construction and its destruction: `release()` is
called on it, or another guard is move-constructed from it. -/
inductive Event
  | release
  | moved_from
deriving DecidableEq

/-- One event on a guard. -/
def step {σ : Type} (st : scope_exit σ × σ) : Event → scope_exit σ × σ
  | Event.release => st.1.release st.2
  | Event.moved_from => ((st.1.move st.2).2.1, (st.1.move st.2).2.2)

/-- The guard and the state of the program just before the guard is destroyed: construction
from the callable `undo`, then the events in order. -/
def beforeEnd {σ : Type} (undo : σ → σ) (evs : List Event) (s : σ) : scope_exit σ × σ :=
  evs.foldl step (make undo s)

/-- The state of the program after the scope of the guard has ended. -/
def afterEnd {σ : Type} (undo : σ → σ) (evs : List Event) (s : σ) : σ :=
  (beforeEnd undo evs s).1.destroy (beforeEnd undo evs s).2

end scope_exit

/-! ## Construction and subtraction of phases -/

namespace Phase

/-- Modelled from the spec: the constructor `Phase{n, d}` (`util/phase.hpp` is not part of the
sources): it throws (`none`) for the denominator zero, and else stores `n / d` canonicalised,
the sign of the denominator moved to the numerator. -/
def make (n d : Int) : Option Phase :=
  if d = 0 then none else some (normalize (n * d.sign) d.natAbs)

/-- Modelled from the spec: `operator-` of `Phase`, the canonicalised difference. -/
def sub (p q : Phase) : Phase :=
  normalize (p.numerator * (q.denominator : Int) - q.numerator * (p.denominator : Int))
    (p.denominator * q.denominator)

/-- The canonical form of a phase: a positive denominator, a reduced fraction, and a value in
the half-open range `(-1, 1]`. -/
def Canonical (p : Phase) : Prop :=
  0 < p.denominator ∧ Nat.Coprime p.numerator.natAbs p.denominator ∧
  -(p.denominator : Int) < p.numerator ∧ p.numerator ≤ (p.denominator : Int)

/-- The exact rational value of a phase, in units of π. -/
def toRat (p : Phase) : ℚ := (p.numerator : ℚ) / (p.denominator : ℚ)

/-- The phase `p` is congruent to the rational `x` modulo 2: `p = x + 2 k` for an integer
`k`. -/
def CongrMod2 (p : Phase) (x : ℚ) : Prop := ∃ k : ℤ, p.toRat = x + 2 * (k : ℚ)

end Phase

/-! ## The escape test of `cli/cli.cpp` -/

/-- The backslash character. -/
def backslash : Char := Char.ofNat 92

/-- The call `str.find_last_not_of(ch, pos)` of `std::string_view`: the largest index, at most
`pos` and inside the string, whose character is not `ch`; `none` is `npos`. -/
def find_last_not_of (str : List Char) (ch : Char) : Nat → Option Nat
  | 0 => if str.getD 0 ch ≠ ch then some 0 else none
  | i + 1 => if str.getD (i + 1) ch ≠ ch then some (i + 1) else find_last_not_of str ch i

/-- The method `CommandLineInterface::_is_escaped` (lines 303-317). -/
def is_escaped (str : List Char) (pos : Nat) : Bool :=
  if pos = 0 then false
  else
    let n : Nat :=
      match find_last_not_of str backslash (pos - 1) with
      | some i => i
      | none => 0
    decide ((pos - n) % 2 = 0)

/-- The number of consecutive backslash characters immediately before the position `pos`. -/
def backslashesBefore (str : List Char) (pos : Nat) : Nat :=
  ((str.take pos).reverse.takeWhile (fun c => decide (c = backslash))).length

/-! ## The partition test of `tensor/tensor.h` -/

/-- The class `Tensor<DT>`, of which `isPartition` reads `_tensor.dimension()` only. -/
structure Tensor where
  dimension : Nat

/-- Modelled from the spec: the helper `isDisjoint` (it is not part of the sources), taken by
its name and its use: the two axis lists have no axis in common. -/
def isDisjoint (ax1 ax2 : List Nat) : Bool := ax1.all (fun a => !ax2.contains a)

/-- The function `isPartition` (lines 294-298). -/
def isPartition (t : Tensor) (axin axout : List Nat) : Bool :=
  if !isDisjoint axin axout then false
  else if axin.length + axout.length ≠ t.dimension then false
  else true

/-- The two axis lists together contain each axis `0 .. n-1` exactly once, and no other axis. -/
def PartitionOfAxes (n : Nat) (axin axout : List Nat) : Prop :=
  (axin ++ axout).Perm (List.range n)

instance (n : Nat) (axin axout : List Nat) : Decidable (PartitionOfAxes n axin axout) := by
  unfold PartitionOfAxes
  infer_instance

/-! ## Sequences of calls on the directed graph -/

namespace DirectedGraph

/-- A call of one of the four mutators of `DirectedGraph`. -/
inductive Op (T : Type)
  | add_vertex (id : Nat) (data : T)
  | add_edge (src dst : Nat)
  | remove_vertex (id : Nat)
  | remove_edge (src dst : Nat)

/-- The graph after one call. -/
def applyOp {T : Type} (g : DirectedGraph T) : Op T → DirectedGraph T
  | Op.add_vertex id data => g.add_vertex id data
  | Op.add_edge src dst => g.add_edge src dst
  | Op.remove_vertex id => g.remove_vertex id
  | Op.remove_edge src dst => g.remove_edge src dst

/-- The graph that a sequence of calls builds from the graph of the default constructor. -/
def run {T : Type} (ops : List (Op T)) : DirectedGraph T := ops.foldl applyOp (empty T)

/-- The call is `add_edge` or `remove_edge` with the source `v`. -/
def Op.hasSource {T : Type} (v : Nat) : Op T → Bool
  | Op.add_edge src _ => decide (src = v)
  | Op.remove_edge src _ => decide (src = v)
  | _ => false

/-- The call is `add_edge` or `remove_edge` with the target `v`. -/
def Op.hasTarget {T : Type} (v : Nat) : Op T → Bool
  | Op.add_edge _ dst => decide (dst = v)
  | Op.remove_edge _ dst => decide (dst = v)
  | _ => false

/-- The keys of a hash map are pairwise different. -/
def KeysUnique (m : List (Nat × List Nat)) : Prop := (m.map Prod.fst).Nodup

instance (m : List (Nat × List Nat)) : Decidable (KeysUnique m) := by
  unfold KeysUnique
  infer_instance

end DirectedGraph

/-! ## The arguments of a dofile (`cli/cli.cpp`) -/

/-- The line-feed character. -/
def newline : Char := Char.ofNat 10

/-- The space character. -/
def space : Char := Char.ofNat 32

/-- A `std::ifstream` that is open: the characters not yet read, and whether `good()` holds. -/
structure IfStream where
  rest : List Char
  good : Bool

/-- The characters before the first line feed, and what follows that line feed when there is
one. -/
def takeLine : List Char → List Char × Option (List Char)
  | [] => ([], none)
  | c :: cs => if c = newline then ([], some cs) else (c :: (takeLine cs).1, (takeLine cs).2)

/-- The call `std::getline(stream, line)`: a stream that is not good is left alone, and so is
the line; else the line is cleared and filled with the characters up to the next line feed,
which is taken out of the stream; when the end of the file is reached the stream is no longer
good. -/
def getline (s : IfStream) (line : List Char) : IfStream × List Char :=
  if s.good = false then (s, line)
  else
    match (takeLine s.rest).2 with
    | none => ({ rest := [], good := false }, (takeLine s.rest).1)
    | some rest => ({ rest := rest, good := true }, (takeLine s.rest).1)

/-- The loop of lines 174-176, `while (line.empty()) std::getline(dofile, line);`, with fuel:
the line that ends the loop, or `none` when the fuel runs out. -/
def skip_empty_lines : Nat → IfStream → List Char → Option (List Char)
  | 0, _, _ => none
  | fuel + 1, s, line =>
    if line = [] then skip_empty_lines fuel (getline s line).1 (getline s line).2
    else some line

/-- The pieces of a string between delimiters, with the piece `cur` being read. -/
def tokenizeFrom (delim : Char) : List Char → List Char → List (List Char)
  | [], cur => if cur = [] then [] else [cur]
  | c :: cs, cur =>
    if c = delim then
      if cur = [] then tokenizeFrom delim cs [] else cur :: tokenizeFrom delim cs []
    else tokenizeFrom delim cs (cur ++ [c])

/-- Modelled from the spec: `dvlab::str::views::tokenize` (it is not part of the sources), taken
by its name and its use: the non-empty pieces of the string between delimiters, in order. -/
def tokenize (str : List Char) (delim : Char) : List (List Char) := tokenizeFrom delim str []

/-- The class `[a-zA-Z_]` of the regular expression of line 188. -/
def isNameStart (c : Char) : Bool :=
  (decide (65 ≤ c.toNat) && decide (c.toNat ≤ 90)) ||
  (decide (97 ≤ c.toNat) && decide (c.toNat ≤ 122)) || decide (c.toNat = 95)

/-- The class `\w` of the regular expression of line 188. -/
def isWordChar (c : Char) : Bool :=
  isNameStart c || (decide (48 ≤ c.toNat) && decide (c.toNat ≤ 57))

/-- The test `regex_match(token, valid_variable_name)` of line 193, for the regular expression
`[a-zA-Z_][\w]*`, which has to match the whole token. -/
def valid_variable_name : List Char → Bool
  | [] => false
  | c :: cs => isNameStart c && cs.all isWordChar

/-- The decimal digit `d` as a character. -/
def digitChar (d : Nat) : Char := Char.ofNat (48 + d)

/-- The decimal digits of a number, the last digit first. -/
def digitsLE : Nat → Nat → List Nat
  | 0, _ => []
  | fuel + 1, n => if n < 10 then [n] else (n % 10) :: digitsLE fuel (n / 10)

/-- The number that a list of decimal digits, the last digit first, stands for. -/
def valLE : List Nat → Nat
  | [] => 0
  | d :: ds => d + 10 * valLE ds

/-- The call `std::to_string(n)` for an unsigned number: its decimal numeral. -/
def to_string (n : Nat) : List Char := ((digitsLE (n + 1) n).reverse).map digitChar

/-- The map `_variables` of the command-line interface, from names to values. -/
abbrev Variables := List Char → Option (List Char)

/-- The call `_variables.insert_or_assign(key, value)`. -/
def insert_or_assign (vars : Variables) (key value : List Char) : Variables :=
  fun k => if k = key then some value else vars k

/-- The loop of lines 206-208: `keys[i]` is mapped to `arguments[i]`. -/
def assign_named : List (List Char) → List (List Char) → Variables → Variables
  | k :: ks, a :: as, vars => assign_named ks as (insert_or_assign vars k a)
  | _, _, vars => vars

/-- The loop of lines 211-213, from the index `i` on: `to_string(i + 1)` is mapped to
`arguments[i]`. -/
def assign_positional : List (List Char) → Nat → Variables → Variables
  | [], _, vars => vars
  | a :: as, i, vars => assign_positional as (i + 1) (insert_or_assign vars (to_string (i + 1)) a)

/-- The directive `//!ARGS`. -/
def args_directive : List Char := "//!ARGS".toList

/-- The method `CommandLineInterface::add_variables_from_dofiles` (lines 154-216).  The file is
`none` when it cannot be opened, and else its characters.  The result is the value returned and
the map `_variables` after the call, or `none` when the fuel of the loop of lines 174-176 runs
out. -/
def add_variables_from_dofiles (fuel : Nat) (dofile : Option (List Char))
    (arguments : List (List Char)) (vars : Variables) : Option (Bool × Variables) :=
  match dofile with
  | none => some (false, vars)
  | some content =>
    if content = [] then some (true, vars)
    else
      match skip_empty_lines fuel { rest := content, good := true } [] with
      | none => none
      | some line =>
        match tokenize line space with
        | [] => some (true, vars)
        | t :: keys =>
          if t = args_directive then
            if keys.all valid_variable_name = false then some (false, vars)
            else if arguments.length ≠ keys.length then some (false, vars)
            else some (true, assign_positional arguments 0 (assign_named keys arguments vars))
          else some (true, assign_positional arguments 0 vars)

/-! ## The QASM writer (`qcir/qcir_writer.cpp`) -/

/-- The literal `"π"s`: the two bytes of the UTF-8 encoding of the character π.  A `std::string`
is the list of its bytes, each as the character of the same code. -/
def pi_bytes : List Char := [Char.ofNat 207, Char.ofNat 128]

/-- The search of `std::string::find` through the rest of a string whose first character has
the position `i`: the position of the first occurrence of `needle`. -/
def findAt (needle : List Char) : List Char → Nat → Option Nat
  | [], _ => none
  | c :: cs, i => if needle.isPrefixOf (c :: cs) = true then some i else findAt needle cs (i + 1)

/-- The call `str.find(needle, pos)` for a needle that is not empty; `none` is `npos`. -/
def find (str needle : List Char) (pos : Nat) : Option Nat := findAt needle (str.drop pos) pos

/-- The call `str.replace(pos, len, t)`. -/
def replace (str : List Char) (pos len : Nat) (t : List Char) : List Char :=
  str.take pos ++ t ++ str.drop (pos + len)

/-- The call `std::isdigit(c)`, which is true for the ten decimal digits only. -/
def isdigit (c : Char) : Bool := decide (48 ≤ c.toNat) && decide (c.toNat ≤ 57)

/-- The loop of lines 109-116 of `to_qasm`, with fuel: the string `repr` after the loop, or
`none` when the fuel runs out. -/
def replace_pi_loop : Nat → List Char → Nat → Option (List Char)
  | 0, _, _ => none
  | fuel + 1, repr, pos =>
    match find repr pi_bytes pos with
    | none => some repr
    | some p =>
      if p = 0 ∨ isdigit (repr.getD (p - 1) (Char.ofNat 0)) = false then
        replace_pi_loop fuel (replace repr p pi_bytes.length "pi".toList) p
      else replace_pi_loop fuel (replace repr p pi_bytes.length "*pi".toList) p

/-- A gate as `to_qasm` reads it: the string of `get_operation().get_repr()` and the qubits of
`get_qubits()`. -/
structure QCirGate where
  repr : List Char
  qubits : List Nat

/-- A circuit as `to_qasm` reads it: `get_num_qubits()` and `get_gates()`. -/
structure QCir where
  num_qubits : Nat
  gates : List QCirGate

/-- The qubits of a gate as line 120 formats them: `q[n]` for each, joined by a comma and a
space. -/
def join_qubits : List Nat → List Char
  | [] => []
  | [q] => "q[".toList ++ to_string q ++ "]".toList
  | q :: q' :: qs => "q[".toList ++ to_string q ++ "], ".toList ++ join_qubits (q' :: qs)

/-- The first three lines of the text, lines 100-102. -/
def qasm_header (n : Nat) : List Char :=
  "OPENQASM 2.0;\ninclude \"qelib1.inc\";\nqreg q[".toList ++ to_string n ++ "];\n".toList

/-- The line of a gate, lines 118-120, for its string after the loop. -/
def gate_line (repr : List Char) (qubits : List Nat) : List Char :=
  repr ++ " ".toList ++ join_qubits qubits ++ ";\n".toList

/-- The function `to_qasm` (lines 99-123), with fuel for the loop of each gate. -/
def to_qasm (fuel : Nat) (qcir : QCir) : Option (List Char) :=
  qcir.gates.foldl
    (fun acc gate =>
      match acc, replace_pi_loop fuel gate.repr 0 with
      | some qasm, some repr => some (qasm ++ gate_line repr gate.qubits)
      | _, _ => none)
    (some (qasm_header qcir.num_qubits))

/-- The string has an occurrence of the two bytes of π. -/
def hasPi : List Char → Bool
  | [] => false
  | c :: cs => pi_bytes.isPrefixOf (c :: cs) || hasPi cs

/-- The last character of the string is a decimal digit. -/
def lastIsDigit (s : List Char) : Bool :=
  match s.getLast? with
  | some c => isdigit c
  | none => false

/-- The string in which every π is replaced as the comment of line 108 and the claim say: by
`*pi` when the character just before it is a decimal digit and by `pi` otherwise; `b` tells
whether a decimal digit stands just before the string. -/
def replaced_pi : Bool → List Char → List Char
  | _, [] => []
  | _, [c] => [c]
  | b, c :: d :: rest =>
    if c = Char.ofNat 207 ∧ d = Char.ofNat 128 then
      (if b = true then "*pi".toList else "pi".toList) ++ replaced_pi false rest
    else c :: replaced_pi (isdigit c) (d :: rest)

/-! ## The eligibility conditions of the bialgebra rule in the words of the specification -/

namespace Bialgebra

/-- The eligibility of the edge `e = (x, z)` for the bialgebra rule as section 4.4 of the
specification words it, written without the checks of the code: the edge is Simple, `x` and `z`
are one Z-spider and one X-spider, both of zero phase and of degree at least 2, neither lists a
vertex twice among its neighbours, every neighbour of `x` is a zero-phase spider of the type of
`z`, every neighbour of `z` is a zero-phase spider of the type of `x`, and every edge at `x` or
`z` is Simple. -/
def EligibleSpec (g : ZXGraph) (e : EdgePair) : Prop :=
  g.edgeType e.2 = EdgeType.SIMPLE ∧
  ((g.type e.1.1 = VertexType.Z ∧ g.type e.1.2 = VertexType.X) ∨
    (g.type e.1.1 = VertexType.X ∧ g.type e.1.2 = VertexType.Z)) ∧
  (g.phase e.1.1 = Phase.zero ∧ g.phase e.1.2 = Phase.zero) ∧
  (2 ≤ (g.neighborMap e.1.1).length ∧ 2 ≤ (g.neighborMap e.1.2).length) ∧
  (((g.neighborMap e.1.1).map Prod.fst).Nodup ∧ ((g.neighborMap e.1.2).map Prod.fst).Nodup) ∧
  (∀ nb ∈ g.neighborMap e.1.1, g.type nb.1 = g.type e.1.2 ∧ g.phase nb.1 = Phase.zero) ∧
  (∀ nb ∈ g.neighborMap e.1.2, g.type nb.1 = g.type e.1.1 ∧ g.phase nb.1 = Phase.zero) ∧
  (∀ nb ∈ g.neighborMap e.1.1, g.edgeType nb.2 = EdgeType.SIMPLE) ∧
  (∀ nb ∈ g.neighborMap e.1.2, g.edgeType nb.2 = EdgeType.SIMPLE)

instance (g : ZXGraph) (e : EdgePair) : Decidable (EligibleSpec g e) := by
  unfold EligibleSpec; infer_instance

end Bialgebra

/-! ## The calls of the rules on the graph, with the store made explicit -/

namespace ZXGraph

namespace Call

/-- Modelled from the spec: `g->getEdges()`, a read accessor (`zxGraph.h` is not part of the
sources): the edge list, and the store as the call leaves it. -/
def getEdges (g : ZXGraph) : List EdgePair × ZXGraph := (g.edges, g)

/-- Modelled from the spec: `g->getNumEdges()`, a read accessor. -/
def getNumEdges (g : ZXGraph) : Nat × ZXGraph := (g.edges.length, g)

/-- Modelled from the spec: `g->getVertices()`, a read accessor. -/
def getVertices (g : ZXGraph) : List Nat × ZXGraph := (g.vertices, g)

/-- Modelled from the spec: `g->getNumVertices()`, a read accessor. -/
def getNumVertices (g : ZXGraph) : Nat × ZXGraph := (g.vertices.length, g)

/-- Modelled from the spec: the read of the type of an edge, `*(Edges[i].second)` in
`SpiderFusion::match` and `epair.second` in the callback of `Bialgebra::match`. -/
def edgeType (e : Nat) (g : ZXGraph) : EdgeType × ZXGraph := (g.edgeType e, g)

/-- Modelled from the spec: `v->getId()`, a read accessor; a vertex is its id. -/
def getId (v : Nat) (g : ZXGraph) : Nat × ZXGraph := (v, g)

/-- Modelled from the spec: `v->getType()`, a read accessor. -/
def getType (v : Nat) (g : ZXGraph) : VertexType × ZXGraph := (g.type v, g)

/-- Modelled from the spec: `v->getPhase()`, a read accessor. -/
def getPhase (v : Nat) (g : ZXGraph) : Phase × ZXGraph := (g.phase v, g)

/-- Modelled from the spec: `v->getNeighborMap()`, a read accessor. -/
def getNeighborMap (v : Nat) (g : ZXGraph) : List (Nat × Nat) × ZXGraph := (g.neighborMap v, g)

/-- Modelled from the spec: `v->getNumNeighbors()`, a read accessor. -/
def getNumNeighbors (v : Nat) (g : ZXGraph) : Nat × ZXGraph := (g.getNumNeighbors v, g)

/-- Modelled from the spec: `v->getCopiedNeighbors()`, a read accessor. -/
def getCopiedNeighbors (v : Nat) (g : ZXGraph) : List Nat × ZXGraph :=
  (g.getCopiedNeighbors v, g)

/-- Modelled from the spec: `v->getNeighbors()` of the bialgebra sources, a read accessor. -/
def getNeighbors (v : Nat) (g : ZXGraph) : List (Nat × EdgeType) × ZXGraph :=
  (g.getNeighborPairs v, g)

/-- Modelled from the spec: `v->setPhase(p)`, the one mutator that a rule calls (lines 71, 105
and 112 of `sfusion.cpp`). -/
def setPhase (v : Nat) (p : Phase) (g : ZXGraph) : Unit × ZXGraph := ((), g.setPhase v p)

/-- The test `p` on the value of the call `c`. -/
def test {α : Type} (c : ZXGraph → α × ZXGraph) (p : α → Bool) (g : ZXGraph) :
    Bool × ZXGraph :=
  (p (c g).1, (c g).2)

/-- The comparison `a == b` of the values of two calls, `b` made on the store that `a` leaves. -/
def same {α : Type} [DecidableEq α] (a b : ZXGraph → α × ZXGraph) (g : ZXGraph) :
    Bool × ZXGraph :=
  (decide ((a g).1 = (b (a g).2).1), (b (a g).2).2)

/-- The operator `a || b`: `b` is evaluated on the store that `a` leaves, and only when `a` is
false. -/
def either (a b : ZXGraph → Bool × ZXGraph) (g : ZXGraph) : Bool × ZXGraph :=
  if (a g).1 = true then a g else b (a g).2

/-- The operator `a && b`: `b` is evaluated on the store that `a` leaves, and only when `a` is
true. -/
def both (a b : ZXGraph → Bool × ZXGraph) (g : ZXGraph) : Bool × ZXGraph :=
  if (a g).1 = true then b (a g).2 else a g

/-- The operator `!a`. -/
def neg (a : ZXGraph → Bool × ZXGraph) (g : ZXGraph) : Bool × ZXGraph :=
  (!(a g).1, (a g).2)

/-- The algorithm `std::all_of` with a predicate that calls the graph: the predicate runs on
one element after the other, each on the store the last one leaves, up to the first failure. -/
def allOf {α : Type} (p : α → ZXGraph → Bool × ZXGraph) : List α → ZXGraph → Bool × ZXGraph
  | [], g => (true, g)
  | v :: vs, g => if (p v g).1 = true then allOf p vs (p v g).2 else (false, (p v g).2)

/-- The call `c` returns `f` of the store and leaves the store as it found it. -/
def Reads {α : Type} (c : ZXGraph → α × ZXGraph) (f : ZXGraph → α) : Prop :=
  ∀ g, c g = (f g, g)

end Call

end ZXGraph

namespace SpiderFusion

/-- The loop of line 27 on the store: every test `i < g->getNumEdges()` is a call. -/
def buildEdge2idxOn :
    List EdgePair → Nat → (EdgePair → Nat) → ZXGraph → (EdgePair → Nat) × ZXGraph
  | [], _, m, g => (m, (ZXGraph.Call.getNumEdges g).2)
  | e :: es, i, m, g =>
    buildEdge2idxOn es (i + 1) (fun k => if k = makeEdgeKeyOfPair e then i else m k)
      (ZXGraph.Call.getNumEdges g).2

/-- The test of line 39 with its calls,
`(v0->getType() == v1->getType()) && (v0->getType() == X || v0->getType() == Z)`. -/
def sameColour (v0 v1 : Nat) : ZXGraph → Bool × ZXGraph :=
  ZXGraph.Call.both
    (ZXGraph.Call.same (ZXGraph.Call.getType v0) (ZXGraph.Call.getType v1))
    (ZXGraph.Call.either
      (ZXGraph.Call.test (ZXGraph.Call.getType v0) (fun t => decide (t = VertexType.X)))
      (ZXGraph.Call.test (ZXGraph.Call.getType v0) (fun t => decide (t = VertexType.Z))))

/-- One iteration of the loop of lines 30-50 on the store: every read of the graph is a call,
made on the store that the call before it leaves.  The message of line 32, written when
`verbose >= 7`, is left out. -/
def matchStepOn (idx : EdgePair → Nat) (st : Scan) (e : EdgePair) (g : ZXGraph) :
    Scan × ZXGraph :=
  if st.validEdge.getD (idx (makeEdgeKeyOfPair e)) true = false then (st, g)
  else
    let valid := st.validEdge.set (idx (makeEdgeKeyOfPair e)) false
    let et := ZXGraph.Call.edgeType e.2 g
    if et.1 ≠ EdgeType.SIMPLE then ({ st with validEdge := valid }, et.2)
    else
      let v0 := e.1.1
      let v1 := e.1.2
      let c := sameColour v0 v1 et.2
      if c.1 = true then
        let v0n := ZXGraph.Call.getNeighborMap v0 c.2
        let valid0 := markNeighbors idx v0 v0n.1 valid
        let v1n := ZXGraph.Call.getNeighborMap v1 v0n.2
        let valid1 := markNeighbors idx v1 v1n.1 valid0
        ({ validEdge := valid1, matchTypeVec := st.matchTypeVec ++ [(v0, v1)] }, v1n.2)
      else ({ st with validEdge := valid }, c.2)

/-- The loop of lines 30-50 on the store: every test `i < g->getNumEdges()` is a call, and
the body for `Edges[i]` runs on the store that the test leaves. -/
def scanOn (idx : EdgePair → Nat) : List EdgePair → Scan → ZXGraph → Scan × ZXGraph
  | [], st, g => (st, (ZXGraph.Call.getNumEdges g).2)
  | e :: es, st, g =>
    scanOn idx es (matchStepOn idx st e (ZXGraph.Call.getNumEdges g).2).1
      (matchStepOn idx st e (ZXGraph.Call.getNumEdges g).2).2

/-- The method `SpiderFusion::match` on the store: the rule object it leaves, and the store
as the last call leaves it. -/
def matchOn (r : ZXRule (Nat × Nat)) (g : ZXGraph) : ZXRule (Nat × Nat) × ZXGraph :=
  let edges := ZXGraph.Call.getEdges g
  let idx := buildEdge2idxOn edges.1 0 (fun _ => 0) edges.2
  let n := ZXGraph.Call.getNumEdges idx.2
  let sc := scanOn idx.1 edges.1
    { validEdge := List.replicate n.1 true, matchTypeVec := [] } n.2
  ({ r with matchTypeVec := sc.1.matchTypeVec, matchTypeVecNum := sc.1.matchTypeVec.length },
    sc.2)

end SpiderFusion

namespace Bialgebra

/-- The loop of `Bialgebra::check_duplicated_vertex` on the store: `vec[i]->getId()` is a
call, made for the search and again for the `push_back`. -/
def check_duplicated_vertex_fromOn : List Nat → List Nat → ZXGraph → Bool × ZXGraph
  | [], _, g => (false, g)
  | v :: vs, appeared, g =>
    if (ZXGraph.Call.getId v g).1 ∉ appeared then
      check_duplicated_vertex_fromOn vs
        (appeared ++ [(ZXGraph.Call.getId v (ZXGraph.Call.getId v g).2).1])
        (ZXGraph.Call.getId v (ZXGraph.Call.getId v g).2).2
    else (true, (ZXGraph.Call.getId v g).2)

/-- The method `Bialgebra::check_duplicated_vertex` on the store. -/
def check_duplicated_vertexOn (vec : List Nat) (g : ZXGraph) : Bool × ZXGraph :=
  check_duplicated_vertex_fromOn vec [] g

/-- The loop of lines 46-49 on the store: `v->getId()` is a call. -/
def buildId2idxOn : List Nat → Nat → (Nat → Nat) → ZXGraph → (Nat → Nat) × ZXGraph
  | [], _, m, g => (m, g)
  | v :: vs, cnt, m, g =>
    buildId2idxOn vs (cnt + 1) (fun k => if k = (ZXGraph.Call.getId v g).1 then cnt else m k)
      (ZXGraph.Call.getId v g).2

/-- The loops of lines 89-91 and 92-94 on the store: `neighbor[j]->getId()` is a call. -/
def markTakenOn (idx : Nat → Nat) : List Nat → List Bool → ZXGraph → List Bool × ZXGraph
  | [], taken, g => (taken, g)
  | v :: vs, taken, g =>
    markTakenOn idx vs (taken.set (idx (ZXGraph.Call.getId v g).1) true)
      (ZXGraph.Call.getId v g).2

/-- The test of line 64 with its calls, `left->getPhase() != 0 || right->getPhase() != 0`. -/
def somePhase (left right : Nat) : ZXGraph → Bool × ZXGraph :=
  ZXGraph.Call.either
    (ZXGraph.Call.test (ZXGraph.Call.getPhase left) (fun p => decide (p ≠ Phase.zero)))
    (ZXGraph.Call.test (ZXGraph.Call.getPhase right) (fun p => decide (p ≠ Phase.zero)))

/-- The test of line 67 with its calls: the edge does not join an X- and a Z-spider. -/
def notOpposite (left right : Nat) : ZXGraph → Bool × ZXGraph :=
  ZXGraph.Call.neg
    (ZXGraph.Call.either
      (ZXGraph.Call.both
        (ZXGraph.Call.test (ZXGraph.Call.getType left) (fun t => decide (t = VertexType.X)))
        (ZXGraph.Call.test (ZXGraph.Call.getType right) (fun t => decide (t = VertexType.Z))))
      (ZXGraph.Call.both
        (ZXGraph.Call.test (ZXGraph.Call.getType left) (fun t => decide (t = VertexType.Z)))
        (ZXGraph.Call.test (ZXGraph.Call.getType right) (fun t => decide (t = VertexType.X)))))

/-- The test of line 70 with its calls,
`left->getNumNeighbors() == 1 || right->getNumNeighbors() == 1`. -/
def someGround (left right : Nat) : ZXGraph → Bool × ZXGraph :=
  ZXGraph.Call.either
    (ZXGraph.Call.test (ZXGraph.Call.getNumNeighbors left) (fun n => decide (n = 1)))
    (ZXGraph.Call.test (ZXGraph.Call.getNumNeighbors right) (fun n => decide (n = 1)))

/-- The test of line 75 with its calls: one of the two neighbour vectors has a vertex twice. -/
def someDuplicated (neighbor_of_left neighbor_of_right : List Nat) :
    ZXGraph → Bool × ZXGraph :=
  ZXGraph.Call.either (check_duplicated_vertexOn neighbor_of_left)
    (check_duplicated_vertexOn neighbor_of_right)

/-- The tests of lines 78 and 79 with their calls: not every vertex of `nbrs` has the phase
zero and the type of `other`. -/
def notAllLike (nbrs : List Nat) (other : Nat) : ZXGraph → Bool × ZXGraph :=
  ZXGraph.Call.neg
    (ZXGraph.Call.allOf
      (fun v => ZXGraph.Call.both
        (ZXGraph.Call.test (ZXGraph.Call.getPhase v) (fun p => decide (p = Phase.zero)))
        (ZXGraph.Call.same (ZXGraph.Call.getType v) (ZXGraph.Call.getType other)))
      nbrs)

/-- The tests of lines 83 and 84 with their calls: `v->getNeighbors()` is called for the
begin and again for the end of the range, and not every edge of it is Simple. -/
def notAllSimple (v : Nat) (g : ZXGraph) : Bool × ZXGraph :=
  (!((ZXGraph.Call.getNeighbors v g).1.all
      (fun edge_pair => decide (edge_pair.2 = EdgeType.SIMPLE))),
    (ZXGraph.Call.getNeighbors v (ZXGraph.Call.getNeighbors v g).2).2)

/-- The callback of `forEachEdge` (lines 52-95) on the store: every read of the graph is a
call, made on the store that the call before it leaves. -/
def matchStepOn (idx : Nat → Nat) (st : Scan) (epair : EdgePair) (g : ZXGraph) :
    Scan × ZXGraph :=
  let et := ZXGraph.Call.edgeType epair.2 g
  if et.1 ≠ EdgeType.SIMPLE then (st, et.2)
  else
    let left := epair.1.1
    let right := epair.1.2
    let id0 := ZXGraph.Call.getId left et.2
    let id1 := ZXGraph.Call.getId right id0.2
    let n0 := idx id0.1
    let n1 := idx id1.1
    if st.taken.getD n0 false = true ∨ st.taken.getD n1 false = true then (st, id1.2)
    else
      let c1 := somePhase left right id1.2
      if c1.1 = true then (st, c1.2)
      else
        let c2 := notOpposite left right c1.2
        if c2.1 = true then (st, c2.2)
        else
          let c3 := someGround left right c2.2
          if c3.1 = true then (st, c3.2)
          else
            let neighbor_of_left := ZXGraph.Call.getCopiedNeighbors left c3.2
            let neighbor_of_right := ZXGraph.Call.getCopiedNeighbors right neighbor_of_left.2
            let c4 := someDuplicated neighbor_of_left.1 neighbor_of_right.1 neighbor_of_right.2
            if c4.1 = true then (st, c4.2)
            else
              let c5 := notAllLike neighbor_of_left.1 right c4.2
              if c5.1 = true then (st, c5.2)
              else
                let c6 := notAllLike neighbor_of_right.1 left c5.2
                if c6.1 = true then (st, c6.2)
                else
                  let c7 := notAllSimple left c6.2
                  if c7.1 = true then (st, c7.2)
                  else
                    let c8 := notAllSimple right c7.2
                    if c8.1 = true then (st, c8.2)
                    else
                      let t1 := markTakenOn idx neighbor_of_left.1 st.taken c8.2
                      let t2 := markTakenOn idx neighbor_of_right.1 t1.1 t1.2
                      ({ taken := t2.1, matchTypeVec := st.matchTypeVec ++ [epair] }, t2.2)

/-- Modelled from the spec: `g->forEachEdge(f)` on the store: the callback runs on one edge
after the other, each time on the store that the last run leaves. -/
def forEachEdgeOn (idx : Nat → Nat) : List EdgePair → Scan → ZXGraph → Scan × ZXGraph
  | [], st, g => (st, g)
  | e :: es, st, g =>
    forEachEdgeOn idx es (matchStepOn idx st e g).1 (matchStepOn idx st e g).2

/-- The method `Bialgebra::match` on the store: the rule object it leaves, and the store as
the last call leaves it.  The listing `g->printVertices()` of line 43, written when
`verbose >= 8`, is left out. -/
def matchOn (r : ZXRule EdgePair) (g : ZXGraph) : ZXRule EdgePair × ZXGraph :=
  let vs := ZXGraph.Call.getVertices g
  let idx := buildId2idxOn vs.1 0 (fun _ => 0) vs.2
  let n := ZXGraph.Call.getNumVertices idx.2
  let es := ZXGraph.Call.getEdges n.2
  let sc := forEachEdgeOn idx.1 es.1
    { taken := List.replicate n.1 false, matchTypeVec := [] } es.2
  ({ r with matchTypeVec := sc.1.matchTypeVec, matchTypeVecNum := sc.1.matchTypeVec.length },
    sc.2)

/-- The body of the loop of lines 107-126 on the store: the two calls of
`getCopiedNeighbors`, the second on the store that the first leaves. -/
def rewriteRecordOn (r : ZXRule EdgePair) (m : EdgePair) (g : ZXGraph) :
    ZXRule EdgePair × ZXGraph :=
  let left := m.1.1
  let right := m.1.2
  let neighbor_of_left := ZXGraph.Call.getCopiedNeighbors left g
  let neighbor_of_right := ZXGraph.Call.getCopiedNeighbors right neighbor_of_left.2
  let r1 : ZXRule EdgePair := { r with removeVertices := r.removeVertices ++ [left, right] }
  (neighbor_of_left.1.foldl (fun acc p =>
      if p = right then acc else pushPairs left p neighbor_of_right.1 acc) r1,
    neighbor_of_right.2)

/-- The method `Bialgebra::rewrite` on the store: `reset()`, then the loop over
`_matchTypeVec`, each record on the store that the record before it leaves. -/
def rewriteOn (r : ZXRule EdgePair) (g : ZXGraph) : ZXRule EdgePair × ZXGraph :=
  r.matchTypeVec.foldl (fun st m => rewriteRecordOn st.1 m st.2) (r.reset, g)

end Bialgebra

/-! ## Paths of spiders -/

/-- The path of `m` spiders `a 0 - a 1 - ... - a (m - 1)` of the type `t` with the phases `ph`,
with the first `j` of its Simple edges, listed in path order: the edge from `a i` to
`a (i + 1)` has the handle `b i`.  With `j = m - 1` the path is whole. -/
def chainGraph (t : VertexType) (ph : Nat → Phase) (a b : Nat → Nat) (m j : Nat) : ZXGraph :=
  { vertices := (List.range m).map a,
    edges := (List.range j).map (fun i => ((a i, a (i + 1)), b i)),
    type := fun _ => t,
    phase := ph,
    neighborMap := fun v =>
      match (List.range m).find? (fun i => decide (a i = v)) with
      | some i =>
        (if 0 < i ∧ i ≤ j then [(a (i - 1), b (i - 1))] else []) ++
          (if i < j then [(a (i + 1), b i)] else [])
      | none => [],
    edgeType := fun _ => EdgeType.SIMPLE }

namespace SpiderFusion

/-- The phases that one pass leaves on a path, in path order: each spider at an even place
takes up the phase of the spider after it, `p0 + p1, p2 + p3, ...`, and a last spider without
a partner keeps its phase. -/
def fusePairs : List Phase → List Phase
  | p :: q :: rest => Phase.add p q :: fusePairs rest
  | [p] => [p]
  | [] => []

/-- The phases that `k` passes leave on a path, in path order. -/
def fuseAll : Nat → List Phase → List Phase
  | 0, l => l
  | k + 1, l => fuseAll k (fusePairs l)

end SpiderFusion

namespace SpiderFusion

/-- The state of the scan over a path of `E` edges after its first `j` edges: the edges before
the place `2 * ((j + 1) / 2)` are marked, the others are not, and the records are the pairs
`(a 0, a 1), (a 2, a 3), ...` that lie among those first `j` edges. -/
def ChainScan (a : Nat → Nat) (E j : Nat) (st : Scan) : Prop :=
  st.validEdge.length = E ∧
  (∀ i < E, st.validEdge.getD i true = decide (2 * ((j + 1) / 2) ≤ i)) ∧
  st.matchTypeVec = (List.range ((j + 1) / 2)).map (fun k => (a (2 * k), a (2 * k + 1)))

end SpiderFusion

/-! ## Lemmas on the scratch vectors -/

theorem makeEdgeKey_comm (a b p : Nat) : makeEdgeKey a b p = makeEdgeKey b a p := by
  unfold makeEdgeKey
  rcases Nat.lt_trichotomy a b with h | h | h
  · have h1 : ¬ b < a := by omega
    simp [h, h1]
  · subst h; rfl
  · have h1 : ¬ a < b := by omega
    simp [h, h1]

/-- A bit of a vector that reads `false` (with default `true`) still does after any write of
`false`. -/
theorem getD_set_false_of_false (l : List Bool) (i k : Nat)
    (h : l.getD k true = false) : (l.set i false).getD k true = false := by
  simp only [List.getD_eq_getElem?_getD] at h ⊢
  rw [List.getElem?_set]
  by_cases hik : i = k
  · subst hik
    by_cases hl : i < l.length
    · simp [hl]
    · have : l[i]? = none := by simp; omega
      simp [this] at h
  · simp [hik, h]

theorem getD_set_false_self (l : List Bool) (i : Nat) (h : i < l.length) :
    (l.set i false).getD i true = false := by
  simp [List.getD_eq_getElem?_getD, List.getElem?_set, h]

/-- A bit of a vector that reads `true` (with default `false`) still does after any write of
`true`. -/
theorem getD_set_true_of_true (l : List Bool) (i k : Nat)
    (h : l.getD k false = true) : (l.set i true).getD k false = true := by
  simp only [List.getD_eq_getElem?_getD] at h ⊢
  rw [List.getElem?_set]
  by_cases hik : i = k
  · subst hik
    by_cases hl : i < l.length
    · simp [hl]
    · have : l[i]? = none := by simp; omega
      simp [this] at h
  · simp [hik, h]

theorem getD_set_true_self (l : List Bool) (i : Nat) (h : i < l.length) :
    (l.set i true).getD i false = true := by
  simp [List.getD_eq_getElem?_getD, List.getElem?_set, h]

namespace SpiderFusion

theorem buildEdge2idx_lt (es : List EdgePair) :
    ∀ (i : Nat) (m : EdgePair → Nat) (B : Nat), (∀ k, m k < B) → i + es.length ≤ B →
      ∀ k, buildEdge2idx es i m k < B := by
  induction es with
  | nil => intro i m B hm _ k; exact hm k
  | cons e es ih =>
    intro i m B hm hB k
    simp only [buildEdge2idx]
    apply ih (i + 1) _ B
    · intro k'
      by_cases hk : k' = makeEdgeKeyOfPair e
      · simp only [hk, if_true]; simp only [List.length_cons] at hB; omega
      · simp only [hk, if_false]; exact hm k'
    · simp only [List.length_cons] at hB; omega

theorem edge2idx_lt (g : ZXGraph) (hne : g.edges ≠ []) (k : EdgePair) :
    edge2idx g k < g.edges.length := by
  have hpos : 0 < g.edges.length := List.length_pos.mpr hne
  exact buildEdge2idx_lt g.edges 0 (fun _ => 0) g.edges.length (fun _ => hpos) (by omega) k

theorem markNeighbors_length (idx : EdgePair → Nat) (v : Nat) (nbrs : List (Nat × Nat)) :
    ∀ valid : List Bool, (markNeighbors idx v nbrs valid).length = valid.length := by
  induction nbrs with
  | nil => intro valid; rfl
  | cons n ns ih =>
    intro valid
    simp only [markNeighbors, List.foldl_cons] at ih ⊢
    rw [ih]; simp

theorem markNeighbors_dead (idx : EdgePair → Nat) (v : Nat) (nbrs : List (Nat × Nat)) :
    ∀ (valid : List Bool) (k : Nat), valid.getD k true = false →
      (markNeighbors idx v nbrs valid).getD k true = false := by
  induction nbrs with
  | nil => intro valid k h; exact h
  | cons n ns ih =>
    intro valid k h
    simp only [markNeighbors, List.foldl_cons] at ih ⊢
    exact ih _ k (getD_set_false_of_false valid _ k h)

theorem markNeighbors_dead_of_mem (idx : EdgePair → Nat) (v : Nat) (nbrs : List (Nat × Nat)) :
    ∀ (valid : List Bool) (itr : Nat × Nat), itr ∈ nbrs →
      idx (makeEdgeKey v itr.1 itr.2) < valid.length →
      (markNeighbors idx v nbrs valid).getD (idx (makeEdgeKey v itr.1 itr.2)) true = false := by
  induction nbrs with
  | nil => intro valid itr h; simp at h
  | cons n ns ih =>
    intro valid itr hmem hlt
    simp only [markNeighbors, List.foldl_cons] at ih ⊢
    rcases List.mem_cons.mp hmem with h | h
    · subst h
      exact markNeighbors_dead idx v ns _ _ (getD_set_false_self valid _ hlt)
    · exact ih _ itr h (by simpa using hlt)

/-- What one iteration of the scan does to the match list: nothing, or it appends the
endpoints of the edge, which then was still valid, is Simple and joins two spiders of one
colour, and marks the neighbour maps of both endpoints. -/
theorem matchStep_cases (g : ZXGraph) (idx : EdgePair → Nat) (st : Scan) (e : EdgePair) :
    ((matchStep g idx st e).matchTypeVec = st.matchTypeVec) ∨
    ((matchStep g idx st e).matchTypeVec = st.matchTypeVec ++ [(e.1.1, e.1.2)] ∧
      st.validEdge.getD (idx (makeEdgeKeyOfPair e)) true = true ∧
      g.edgeType e.2 = EdgeType.SIMPLE ∧
      g.type e.1.1 = g.type e.1.2 ∧
      (g.type e.1.1 = VertexType.X ∨ g.type e.1.1 = VertexType.Z) ∧
      (matchStep g idx st e).validEdge =
        markNeighbors idx e.1.2 (g.neighborMap e.1.2)
          (markNeighbors idx e.1.1 (g.neighborMap e.1.1)
            (st.validEdge.set (idx (makeEdgeKeyOfPair e)) false))) := by
  unfold matchStep
  dsimp only
  split_ifs with h1 h2 h3
  · left; rfl
  · left; rfl
  · right
    refine ⟨rfl, ?_, ?_, h3.1, h3.2, rfl⟩
    · cases hb : st.validEdge.getD (idx (makeEdgeKeyOfPair e)) true
      · exact absurd hb h1
      · rfl
    · exact not_not.mp h2
  · left; rfl

theorem matchStep_length (g : ZXGraph) (idx : EdgePair → Nat) (st : Scan) (e : EdgePair) :
    (matchStep g idx st e).validEdge.length = st.validEdge.length := by
  unfold matchStep
  dsimp only
  split_ifs
  · rfl
  · simp
  · simp [markNeighbors_length]
  · simp

theorem matchStep_dead (g : ZXGraph) (idx : EdgePair → Nat) (st : Scan) (e : EdgePair)
    (k : Nat) (h : st.validEdge.getD k true = false) :
    (matchStep g idx st e).validEdge.getD k true = false := by
  unfold matchStep
  dsimp only
  split_ifs
  · exact h
  · exact getD_set_false_of_false _ _ _ h
  · exact markNeighbors_dead _ _ _ _ _
      (markNeighbors_dead _ _ _ _ _ (getD_set_false_of_false _ _ _ h))
  · exact getD_set_false_of_false _ _ _ h

/-- After the neighbour maps of `v0` and `v1` are marked, every edge of a well-formed
graph that touches `v0` or `v1` is invalid. -/
theorem marked_of_touch (g : ZXGraph) (hwf : g.WellFormed) (valid : List Bool)
    (hlen : valid.length = g.edges.length) (v0 v1 : Nat) (e : EdgePair) (he : e ∈ g.edges)
    (ht : e.1.1 = v0 ∨ e.1.1 = v1 ∨ e.1.2 = v0 ∨ e.1.2 = v1) :
    (markNeighbors (edge2idx g) v1 (g.neighborMap v1)
      (markNeighbors (edge2idx g) v0 (g.neighborMap v0) valid)).getD
        (edge2idx g (makeEdgeKeyOfPair e)) true = false := by
  have hne : g.edges ≠ [] := List.ne_nil_of_mem he
  obtain ⟨_, hl1, hl2⟩ := hwf e he
  have hk : makeEdgeKey e.1.2 e.1.1 e.2 = makeEdgeKeyOfPair e := by
    unfold makeEdgeKeyOfPair; exact makeEdgeKey_comm _ _ _
  have hb : ∀ (l : List Bool) (k : EdgePair), l.length = g.edges.length →
      edge2idx g k < l.length := by
    intro l k hl; rw [hl]; exact edge2idx_lt g hne k
  have hl0 : (markNeighbors (edge2idx g) v0 (g.neighborMap v0) valid).length =
      g.edges.length := by rw [markNeighbors_length]; exact hlen
  rcases ht with h | h | h | h
  · apply markNeighbors_dead
    rw [← h]
    exact markNeighbors_dead_of_mem (edge2idx g) e.1.1 (g.neighborMap e.1.1) valid
      (e.1.2, e.2) hl1 (hb _ _ hlen)
  · rw [← h]
    exact markNeighbors_dead_of_mem (edge2idx g) e.1.1 (g.neighborMap e.1.1) _
      (e.1.2, e.2) hl1 (hb _ _ hl0)
  · apply markNeighbors_dead
    rw [← h, ← hk]
    exact markNeighbors_dead_of_mem (edge2idx g) e.1.2 (g.neighborMap e.1.2) valid
      (e.1.1, e.2) hl2 (hb _ _ hlen)
  · rw [← hk]
    rw [← h]
    exact markNeighbors_dead_of_mem (edge2idx g) e.1.2 (g.neighborMap e.1.2) _
      (e.1.1, e.2) hl2 (hb _ _ hl0)

theorem matchStep_inv (g : ZXGraph) (hwf : g.WellFormed) (st : Scan) (e : EdgePair)
    (he : e ∈ g.edges) (hinv : ScanInv g st) : ScanInv g (matchStep g (edge2idx g) st e) := by
  obtain ⟨hlen, hdead, hpw⟩ := hinv
  refine ⟨by rw [matchStep_length]; exact hlen, ?_, ?_⟩
  · intro m hm e' he' ht
    rcases matchStep_cases g (edge2idx g) st e with hsame | ⟨happ, _, _, _, _, hvalid⟩
    · rw [hsame] at hm
      exact matchStep_dead _ _ _ _ _ (hdead m hm e' he' ht)
    · rw [happ] at hm
      rcases List.mem_append.mp hm with hm | hm
      · exact matchStep_dead _ _ _ _ _ (hdead m hm e' he' ht)
      · have hm' : m = (e.1.1, e.1.2) := by simpa using hm
        subst hm'
        rw [hvalid]
        exact marked_of_touch g hwf _ (by simpa using hlen) e.1.1 e.1.2 e' he' ht
  · rcases matchStep_cases g (edge2idx g) st e with hsame | ⟨happ, hlive, _, _, _, _⟩
    · rw [hsame]; exact hpw
    · rw [happ, List.pairwise_append]
      refine ⟨hpw, List.pairwise_singleton _ _, ?_⟩
      intro m hm m' hm'
      have hm0 : m' = (e.1.1, e.1.2) := by simpa using hm'
      subst hm0
      have hno : ¬ (e.1.1 = m.1 ∨ e.1.1 = m.2 ∨ e.1.2 = m.1 ∨ e.1.2 = m.2) := by
        intro ht
        have := hdead m hm e he ht
        rw [hlive] at this
        exact Bool.noConfusion this
      unfold NoSharedEndpoint
      simp only [not_or] at hno
      exact ⟨fun h => hno.1 h.symm, fun h => hno.2.2.1 h.symm,
        fun h => hno.2.1 h.symm, fun h => hno.2.2.2 h.symm⟩

theorem foldl_matchStep_inv (g : ZXGraph) (hwf : g.WellFormed) (es : List EdgePair) :
    ∀ st : Scan, (∀ e ∈ es, e ∈ g.edges) → ScanInv g st →
      ScanInv g (es.foldl (matchStep g (edge2idx g)) st) := by
  induction es with
  | nil => intro st _ h; exact h
  | cons e es ih =>
    intro st hsub hinv
    simp only [List.foldl_cons]
    exact ih _ (fun x hx => hsub x (List.mem_cons_of_mem _ hx))
      (matchStep_inv g hwf st e (hsub e (List.mem_cons_self _ _)) hinv)

theorem scan_inv (g : ZXGraph) (hwf : g.WellFormed) : ScanInv g (scan g) := by
  unfold scan
  apply foldl_matchStep_inv g hwf g.edges _ (fun e he => he)
  exact ⟨by simp, by intro m hm; simp at hm, List.Pairwise.nil⟩

/-- Every record of the scan comes from a Simple edge of the edge list whose endpoints
are two spiders of one colour. -/
theorem foldl_matchStep_sound (g : ZXGraph) (idx : EdgePair → Nat) (es : List EdgePair) :
    ∀ st : Scan,
      (∀ m ∈ st.matchTypeVec, (∃ p, ((m.1, m.2), p) ∈ g.edges ∧ g.edgeType p = EdgeType.SIMPLE) ∧
        g.type m.1 = g.type m.2 ∧ (g.type m.1 = VertexType.Z ∨ g.type m.1 = VertexType.X)) →
      (∀ e ∈ es, e ∈ g.edges) →
      ∀ m ∈ (es.foldl (matchStep g idx) st).matchTypeVec,
        (∃ p, ((m.1, m.2), p) ∈ g.edges ∧ g.edgeType p = EdgeType.SIMPLE) ∧
        g.type m.1 = g.type m.2 ∧ (g.type m.1 = VertexType.Z ∨ g.type m.1 = VertexType.X) := by
  induction es with
  | nil => intro st h _; exact h
  | cons e es ih =>
    intro st h hsub
    simp only [List.foldl_cons]
    apply ih _ _ (fun x hx => hsub x (List.mem_cons_of_mem _ hx))
    intro m hm
    rcases matchStep_cases g idx st e with hsame | ⟨happ, _, hs, ht, hxz, _⟩
    · rw [hsame] at hm; exact h m hm
    · rw [happ] at hm
      rcases List.mem_append.mp hm with hm | hm
      · exact h m hm
      · have hm' : m = (e.1.1, e.1.2) := by simpa using hm
        subst hm'
        exact ⟨⟨e.2, hsub e (List.mem_cons_self _ _), hs⟩, ht, hxz.symm⟩

theorem scan_sound (g : ZXGraph) : ∀ m ∈ (scan g).matchTypeVec,
    (∃ p, ((m.1, m.2), p) ∈ g.edges ∧ g.edgeType p = EdgeType.SIMPLE) ∧
    g.type m.1 = g.type m.2 ∧ (g.type m.1 = VertexType.Z ∨ g.type m.1 = VertexType.X) := by
  unfold scan
  exact foldl_matchStep_sound g _ g.edges _ (by intro m hm; simp at hm) (fun e he => he)

end SpiderFusion

namespace Bialgebra

theorem check_duplicated_vertex_from_eq_false (vs : List Nat) :
    ∀ appeared : List Nat, check_duplicated_vertex_from vs appeared = false ↔
      (vs.Nodup ∧ ∀ v ∈ vs, v ∉ appeared) := by
  induction vs with
  | nil => intro appeared; simp [check_duplicated_vertex_from]
  | cons v vs ih =>
    intro appeared
    unfold check_duplicated_vertex_from
    by_cases hv : v ∈ appeared
    · rw [if_neg (not_not.mpr hv)]
      constructor
      · intro h; exact Bool.noConfusion h
      · rintro ⟨_, hall⟩; exact absurd hv (hall v (List.mem_cons_self _ _))
    · rw [if_pos hv, ih]
      constructor
      · rintro ⟨hnd, hall⟩
        refine ⟨List.nodup_cons.mpr ⟨fun hmem => hall v hmem
          (List.mem_append.mpr (Or.inr (List.mem_singleton.mpr rfl))), hnd⟩, ?_⟩
        intro x hx
        rcases List.mem_cons.mp hx with hxv | hx
        · rw [hxv]; exact hv
        · exact fun hxa => hall x hx (List.mem_append.mpr (Or.inl hxa))
      · rintro ⟨hnd, hall⟩
        obtain ⟨hnot, hnd'⟩ := List.nodup_cons.mp hnd
        refine ⟨hnd', fun x hx hxa => ?_⟩
        rcases List.mem_append.mp hxa with h | h
        · exact hall x (List.mem_cons_of_mem _ hx) h
        · rw [List.mem_singleton.mp h] at hx; exact hnot hx

theorem check_duplicated_vertex_eq_false (vs : List Nat) :
    check_duplicated_vertex vs = false ↔ vs.Nodup := by
  unfold check_duplicated_vertex
  rw [check_duplicated_vertex_from_eq_false]
  simp

/-- What the callback does for one edge: nothing, or the edge passes every condition, neither
endpoint is taken, the edge is appended and both neighbourhoods are set taken. -/
theorem bialg_matchStep_cases (g : ZXGraph) (idx : Nat → Nat) (st : Scan) (epair : EdgePair) :
    (matchStep g idx st epair = st) ∨
    (Eligible g epair ∧
      st.taken.getD (idx epair.1.1) false = false ∧
      st.taken.getD (idx epair.1.2) false = false ∧
      matchStep g idx st epair =
        { taken := markTaken idx (g.getCopiedNeighbors epair.1.2)
            (markTaken idx (g.getCopiedNeighbors epair.1.1) st.taken),
          matchTypeVec := st.matchTypeVec ++ [epair] }) := by
  unfold matchStep
  by_cases h1 : g.edgeType epair.2 ≠ EdgeType.SIMPLE
  · left; rw [if_pos h1]
  rw [if_neg h1]
  dsimp only
  by_cases h2 : st.taken.getD (idx epair.1.1) false = true ∨
      st.taken.getD (idx epair.1.2) false = true
  · left; rw [if_pos h2]
  rw [if_neg h2]
  by_cases h3 : g.phase epair.1.1 ≠ Phase.zero ∨ g.phase epair.1.2 ≠ Phase.zero
  · left; rw [if_pos h3]
  rw [if_neg h3]
  by_cases h4 : ¬ ((g.type epair.1.1 = VertexType.X ∧ g.type epair.1.2 = VertexType.Z) ∨
      (g.type epair.1.1 = VertexType.Z ∧ g.type epair.1.2 = VertexType.X))
  · left; rw [if_pos h4]
  rw [if_neg h4]
  by_cases h5 : g.getNumNeighbors epair.1.1 = 1 ∨ g.getNumNeighbors epair.1.2 = 1
  · left; rw [if_pos h5]
  rw [if_neg h5]
  by_cases h6 : check_duplicated_vertex (g.getCopiedNeighbors epair.1.1) = true ∨
      check_duplicated_vertex (g.getCopiedNeighbors epair.1.2) = true
  · left; rw [if_pos h6]
  rw [if_neg h6]
  by_cases h7 : ¬ ((g.getCopiedNeighbors epair.1.1).all
      (fun v => decide (g.phase v = Phase.zero ∧ g.type v = g.type epair.1.2)) = true)
  · left; rw [if_pos h7]
  rw [if_neg h7]
  by_cases h8 : ¬ ((g.getCopiedNeighbors epair.1.2).all
      (fun v => decide (g.phase v = Phase.zero ∧ g.type v = g.type epair.1.1)) = true)
  · left; rw [if_pos h8]
  rw [if_neg h8]
  by_cases h9 : ¬ ((g.getNeighborPairs epair.1.1).all
      (fun edge_pair => decide (edge_pair.2 = EdgeType.SIMPLE)) = true)
  · left; rw [if_pos h9]
  rw [if_neg h9]
  by_cases h10 : ¬ ((g.getNeighborPairs epair.1.2).all
      (fun edge_pair => decide (edge_pair.2 = EdgeType.SIMPLE)) = true)
  · left; rw [if_pos h10]
  rw [if_neg h10]
  right
  have h4' := not_not.mp h4
  simp only [not_or, not_not] at h1 h2 h3 h5 h6 h7 h8 h9 h10
  simp only [List.all_eq_true, decide_eq_true_eq] at h7 h8 h9 h10
  simp only [Bool.not_eq_true] at h2 h6
  exact ⟨⟨h1, h3, h4', h5, h6, h7, h8, h9, h10⟩, h2.1, h2.2, rfl⟩

theorem buildId2idx_lt (vs : List Nat) :
    ∀ (cnt : Nat) (m : Nat → Nat) (B : Nat), (∀ k, m k < B) → cnt + vs.length ≤ B →
      ∀ k, buildId2idx vs cnt m k < B := by
  induction vs with
  | nil => intro cnt m B hm _ k; exact hm k
  | cons v vs ih =>
    intro cnt m B hm hB k
    simp only [buildId2idx]
    apply ih (cnt + 1) _ B
    · intro k'
      by_cases hk : k' = v
      · simp only [hk, if_true]; simp only [List.length_cons] at hB; omega
      · simp only [hk, if_false]; exact hm k'
    · simp only [List.length_cons] at hB; omega

theorem id2idx_lt (g : ZXGraph) (hne : g.vertices ≠ []) (k : Nat) :
    id2idx g k < g.vertices.length := by
  have hpos : 0 < g.vertices.length := List.length_pos.mpr hne
  exact buildId2idx_lt g.vertices 0 (fun _ => 0) g.vertices.length (fun _ => hpos) (by omega) k

theorem markTaken_length (idx : Nat → Nat) (nbrs : List Nat) :
    ∀ taken : List Bool, (markTaken idx nbrs taken).length = taken.length := by
  induction nbrs with
  | nil => intro taken; rfl
  | cons n ns ih =>
    intro taken
    simp only [markTaken, List.foldl_cons] at ih ⊢
    rw [ih]; simp

theorem markTaken_keeps (idx : Nat → Nat) (nbrs : List Nat) :
    ∀ (taken : List Bool) (k : Nat), taken.getD k false = true →
      (markTaken idx nbrs taken).getD k false = true := by
  induction nbrs with
  | nil => intro taken k h; exact h
  | cons n ns ih =>
    intro taken k h
    simp only [markTaken, List.foldl_cons] at ih ⊢
    exact ih _ k (getD_set_true_of_true taken _ k h)

theorem markTaken_of_mem (idx : Nat → Nat) (nbrs : List Nat) :
    ∀ (taken : List Bool) (v : Nat), v ∈ nbrs → idx v < taken.length →
      (markTaken idx nbrs taken).getD (idx v) false = true := by
  induction nbrs with
  | nil => intro taken v h; simp at h
  | cons n ns ih =>
    intro taken v hmem hlt
    simp only [markTaken, List.foldl_cons] at ih ⊢
    rcases List.mem_cons.mp hmem with h | h
    · subst h
      exact markTaken_keeps idx ns _ _ (getD_set_true_self taken _ hlt)
    · exact ih _ v h (by simpa using hlt)

theorem bialg_matchStep_length (g : ZXGraph) (idx : Nat → Nat) (st : Scan) (e : EdgePair) :
    (matchStep g idx st e).taken.length = st.taken.length := by
  rcases bialg_matchStep_cases g idx st e with h | ⟨_, _, _, h⟩
  · rw [h]
  · rw [h]; simp [markTaken_length]

theorem matchStep_keeps (g : ZXGraph) (idx : Nat → Nat) (st : Scan) (e : EdgePair)
    (k : Nat) (hk : st.taken.getD k false = true) :
    (matchStep g idx st e).taken.getD k false = true := by
  rcases bialg_matchStep_cases g idx st e with h | ⟨_, _, _, h⟩
  · rw [h]; exact hk
  · rw [h]; exact markTaken_keeps _ _ _ _ (markTaken_keeps _ _ _ _ hk)

/-- Every record of the scan is an edge of the edge list that passes every condition. -/
theorem foldl_matchStep_eligible (g : ZXGraph) (idx : Nat → Nat) (es : List EdgePair) :
    ∀ st : Scan, (∀ m ∈ st.matchTypeVec, m ∈ g.edges ∧ Eligible g m) →
      (∀ e ∈ es, e ∈ g.edges) →
      ∀ m ∈ (es.foldl (matchStep g idx) st).matchTypeVec, m ∈ g.edges ∧ Eligible g m := by
  induction es with
  | nil => intro st h _; exact h
  | cons e es ih =>
    intro st h hsub
    simp only [List.foldl_cons]
    apply ih _ _ (fun x hx => hsub x (List.mem_cons_of_mem _ hx))
    intro m hm
    rcases bialg_matchStep_cases g idx st e with hsame | ⟨hel, _, _, hacc⟩
    · rw [hsame] at hm; exact h m hm
    · rw [hacc] at hm
      rcases List.mem_append.mp hm with hm | hm
      · exact h m hm
      · have hm' : m = e := by simpa using hm
        subst hm'
        exact ⟨hsub m (List.mem_cons_self _ _), hel⟩

theorem scan_eligible (g : ZXGraph) :
    ∀ m ∈ (scan g).matchTypeVec, m ∈ g.edges ∧ Eligible g m := by
  unfold scan
  exact foldl_matchStep_eligible g _ g.edges _ (by intro m hm; simp at hm) (fun e he => he)

theorem mem_getCopiedNeighbors (g : ZXGraph) (v w p : Nat) (h : (w, p) ∈ g.neighborMap v) :
    w ∈ g.getCopiedNeighbors v := by
  unfold ZXGraph.getCopiedNeighbors
  exact List.mem_map.mpr ⟨(w, p), h, rfl⟩

theorem bialg_matchStep_inv (g : ZXGraph) (hwf : g.WellFormed) (st : Scan) (e : EdgePair)
    (he : e ∈ g.edges) (hinv : ScanInv g st) : ScanInv g (matchStep g (id2idx g) st e) := by
  obtain ⟨hlen, hedge, htaken, hpw⟩ := hinv
  have hne : g.vertices ≠ [] := List.ne_nil_of_mem (hwf e he).1.1
  rcases bialg_matchStep_cases g (id2idx g) st e with hsame | ⟨_, hl, hr, hacc⟩
  · rw [hsame]; exact ⟨hlen, hedge, htaken, hpw⟩
  · rw [hacc]
    have hlen1 : (markTaken (id2idx g) (g.getCopiedNeighbors e.1.1) st.taken).length =
        g.vertices.length := by rw [markTaken_length]; exact hlen
    refine ⟨by simp only [markTaken_length]; exact hlen, ?_, ?_, ?_⟩
    · intro m hm
      rcases List.mem_append.mp hm with hm | hm
      · exact hedge m hm
      · have hm' : m = e := by simpa using hm
        rw [hm']; exact he
    · intro m hm x hx
      rcases List.mem_append.mp hm with hm | hm
      · exact markTaken_keeps _ _ _ _ (markTaken_keeps _ _ _ _ (htaken m hm x hx))
      · have hm' : m = e := by simpa using hm
        subst hm'
        rcases hx with hx | hx
        · exact markTaken_keeps _ _ _ _
            (markTaken_of_mem _ _ _ x hx (by rw [hlen]; exact id2idx_lt g hne x))
        · exact markTaken_of_mem _ _ _ x hx (by rw [hlen1]; exact id2idx_lt g hne x)
    · rw [List.pairwise_append]
      refine ⟨hpw, List.pairwise_singleton _ _, ?_⟩
      intro m hm m' hm'
      have hm0 : m' = e := by simpa using hm'
      subst hm0
      have hfree : ∀ x, (x = m'.1.1 ∨ x = m'.1.2) →
          st.taken.getD (id2idx g x) false = false := by
        intro x hx
        rcases hx with hx | hx
        · rw [hx]; exact hl
        · rw [hx]; exact hr
      have hnot : ∀ x, (x = m'.1.1 ∨ x = m'.1.2) →
          x ∉ g.getCopiedNeighbors m.1.1 ∧ x ∉ g.getCopiedNeighbors m.1.2 := by
        intro x hx
        have hf := hfree x hx
        constructor
        · intro hmem
          rw [htaken m hm x (Or.inl hmem)] at hf
          exact Bool.noConfusion hf
        · intro hmem
          rw [htaken m hm x (Or.inr hmem)] at hf
          exact Bool.noConfusion hf
      obtain ⟨_, hl1, hl2⟩ := hwf m (hedge m hm)
      intro x hx
      refine ⟨⟨?_, ?_⟩, hnot x hx⟩
      · intro hxe
        exact (hnot x hx).2 (hxe ▸ mem_getCopiedNeighbors g _ _ _ hl2)
      · intro hxe
        exact (hnot x hx).1 (hxe ▸ mem_getCopiedNeighbors g _ _ _ hl1)

theorem bialg_foldl_matchStep_inv (g : ZXGraph) (hwf : g.WellFormed) (es : List EdgePair) :
    ∀ st : Scan, (∀ e ∈ es, e ∈ g.edges) → ScanInv g st →
      ScanInv g (es.foldl (matchStep g (id2idx g)) st) := by
  induction es with
  | nil => intro st _ h; exact h
  | cons e es ih =>
    intro st hsub hinv
    simp only [List.foldl_cons]
    exact ih _ (fun x hx => hsub x (List.mem_cons_of_mem _ hx))
      (bialg_matchStep_inv g hwf st e (hsub e (List.mem_cons_self _ _)) hinv)

theorem bialg_scan_inv (g : ZXGraph) (hwf : g.WellFormed) : ScanInv g (scan g) := by
  unfold scan
  apply bialg_foldl_matchStep_inv g hwf g.edges _ (fun e he => he)
  exact ⟨by simp, by intro m hm; simp at hm, by intro m hm; simp at hm, List.Pairwise.nil⟩

end Bialgebra

/-! ## Lemmas on `rewrite` -/

namespace Bialgebra

theorem pushPairs_eq (left p : Nat) (nr : List Nat) :
    ∀ r : ZXRule EdgePair, pushPairs left p nr r =
      { r with
        edgeTableKeys := r.edgeTableKeys ++ (nr.filter (fun q => q ≠ left)).map (fun q => (p, q)),
        edgeTableValues := r.edgeTableValues ++
          (nr.filter (fun q => q ≠ left)).map (fun _ => (1, 0)) } := by
  induction nr with
  | nil => intro r; simp [pushPairs]
  | cons q qs ih =>
    intro r
    unfold pushPairs at ih ⊢
    rw [List.foldl_cons]
    by_cases hq : q = left
    · rw [if_pos hq, ih]
      simp [List.filter_cons, hq]
    · rw [if_neg hq, ih]
      simp [List.filter_cons, hq]

theorem foldl_pushPairs_eq (left right : Nat) (nr : List Nat) (nl : List Nat) :
    ∀ r : ZXRule EdgePair,
      nl.foldl (fun acc p => if p = right then acc else pushPairs left p nr acc) r =
      { r with
        edgeTableKeys := r.edgeTableKeys ++ (nl.filter (fun p => p ≠ right)).flatMap
          (fun p => (nr.filter (fun q => q ≠ left)).map (fun q => (p, q))),
        edgeTableValues := r.edgeTableValues ++ ((nl.filter (fun p => p ≠ right)).flatMap
          (fun p => (nr.filter (fun q => q ≠ left)).map (fun q => (p, q)))).map
            (fun _ => (1, 0)) } := by
  induction nl with
  | nil => intro r; simp
  | cons p ps ih =>
    intro r
    rw [List.foldl_cons]
    by_cases hp : p = right
    · rw [if_pos hp, ih]
      simp [List.filter_cons, hp]
    · rw [if_neg hp, ih, pushPairs_eq]
      have hf : (p :: ps).filter (fun p => decide (p ≠ right)) =
          p :: ps.filter (fun p => decide (p ≠ right)) := by
        simp [List.filter_cons, hp]
      rw [hf, List.flatMap_cons, List.map_append, List.map_map]
      simp only [List.append_assoc]
      rfl

theorem rewriteRecord_eq (g : ZXGraph) (r : ZXRule EdgePair) (m : EdgePair) :
    rewriteRecord g r m =
      { r with
        removeVertices := r.removeVertices ++ [m.1.1, m.1.2],
        edgeTableKeys := r.edgeTableKeys ++ recordKeys g m,
        edgeTableValues := r.edgeTableValues ++ (recordKeys g m).map (fun _ => (1, 0)) } := by
  unfold rewriteRecord recordKeys
  dsimp only
  rw [foldl_pushPairs_eq]

theorem foldl_rewriteRecord_eq (g : ZXGraph) (ms : List EdgePair) :
    ∀ r : ZXRule EdgePair, ms.foldl (rewriteRecord g) r =
      { r with
        removeVertices := r.removeVertices ++ ms.flatMap (fun m => [m.1.1, m.1.2]),
        edgeTableKeys := r.edgeTableKeys ++ ms.flatMap (recordKeys g),
        edgeTableValues := r.edgeTableValues ++
          (ms.flatMap (recordKeys g)).map (fun _ => (1, 0)) } := by
  induction ms with
  | nil => intro r; simp
  | cons m ms ih =>
    intro r
    rw [List.foldl_cons, rewriteRecord_eq, ih]
    simp

theorem rewrite_eq (r : ZXRule EdgePair) (g : ZXGraph) :
    rewrite r g =
      { r with
        removeVertices := r.matchTypeVec.flatMap (fun m => [m.1.1, m.1.2]),
        removeEdges := [],
        edgeTableKeys := r.matchTypeVec.flatMap (recordKeys g),
        edgeTableValues := (r.matchTypeVec.flatMap (recordKeys g)).map (fun _ => (1, 0)) } := by
  unfold rewrite
  rw [foldl_rewriteRecord_eq]
  simp [ZXRule.reset]

theorem mem_recordKeys (g : ZXGraph) (m : EdgePair) (p q : Nat) :
    (p, q) ∈ recordKeys g m ↔
      (p ∈ g.getCopiedNeighbors m.1.1 ∧ p ≠ m.1.2) ∧
      (q ∈ g.getCopiedNeighbors m.1.2 ∧ q ≠ m.1.1) := by
  unfold recordKeys
  simp only [List.mem_flatMap, List.mem_map, List.mem_filter, decide_eq_true_eq, Prod.mk.injEq]
  constructor
  · rintro ⟨a, ha, b, hb, hab, hbq⟩
    subst hab; subst hbq
    exact ⟨ha, hb⟩
  · rintro ⟨ha, hb⟩
    exact ⟨p, ha, q, hb, rfl, rfl⟩

end Bialgebra

namespace SpiderFusion

theorem SameShape.refl (g : ZXGraph) : SameShape g g := ⟨rfl, rfl, rfl, rfl, rfl⟩

theorem SameShape.trans {g1 g2 g3 : ZXGraph} (h12 : SameShape g1 g2) (h23 : SameShape g2 g3) :
    SameShape g1 g3 := by
  obtain ⟨a1, a2, a3, a4, a5⟩ := h12
  obtain ⟨b1, b2, b3, b4, b5⟩ := h23
  exact ⟨b1.trans a1, b2.trans a2, b3.trans a3, b4.trans a4, b5.trans a5⟩

theorem SameShape.setPhase (g : ZXGraph) (v : Nat) (p : Phase) : SameShape g (g.setPhase v p) :=
  ⟨rfl, rfl, rfl, rfl, rfl⟩

theorem setPhase_phase_ne (g : ZXGraph) (v x : Nat) (p : Phase) (h : x ≠ v) :
    (g.setPhase v p).phase x = g.phase x := by
  simp [ZXGraph.setPhase, h]

theorem setPhase_phase_self (g : ZXGraph) (v : Nat) (p : Phase) :
    (g.setPhase v p).phase v = p := by
  simp [ZXGraph.setPhase]

theorem neighborStep_graph (v0 v1 : Nat) (lp : NeighborLoop) (w : Nat) :
    (neighborStep v0 v1 lp w).st.graph =
      if lp.done w = true then lp.st.graph
      else if v1 = w then
        if v0 ≠ v1 then
          lp.st.graph.setPhase v0 (Phase.add (lp.st.graph.phase v1)
            (Phase.ofInt (hadamardCount lp.st.graph v1 w / 2 : Nat)))
        else
          lp.st.graph.setPhase v0 (Phase.add (lp.st.graph.phase v0)
            (Phase.ofInt (hadamardCount lp.st.graph v1 w / 2 : Nat)))
      else lp.st.graph := by
  unfold neighborStep
  dsimp only
  split_ifs <;> rfl

theorem neighborStep_removeVertices (v0 v1 : Nat) (lp : NeighborLoop) (w : Nat) :
    (neighborStep v0 v1 lp w).st.rule.removeVertices = lp.st.rule.removeVertices ∧
    (neighborStep v0 v1 lp w).st.rule.matchTypeVec = lp.st.rule.matchTypeVec := by
  unfold neighborStep
  dsimp only
  split_ifs <;> exact ⟨rfl, rfl⟩

/-- What one iteration of the neighbour loop leaves alone: the shape of the graph, the phase of
every vertex but `v0`, the whole graph unless the neighbour is `v1` itself, and the list of
vertices to remove. -/
theorem neighborStep_frame (v0 v1 : Nat) (lp : NeighborLoop) (w : Nat) :
    SameShape lp.st.graph (neighborStep v0 v1 lp w).st.graph ∧
    (∀ x, x ≠ v0 → (neighborStep v0 v1 lp w).st.graph.phase x = lp.st.graph.phase x) ∧
    (v1 ≠ w → (neighborStep v0 v1 lp w).st.graph = lp.st.graph) ∧
    (neighborStep v0 v1 lp w).st.rule.removeVertices = lp.st.rule.removeVertices ∧
    (neighborStep v0 v1 lp w).st.rule.matchTypeVec = lp.st.rule.matchTypeVec := by
  refine ⟨?_, ?_, ?_, (neighborStep_removeVertices v0 v1 lp w).1,
    (neighborStep_removeVertices v0 v1 lp w).2⟩
  · rw [neighborStep_graph]
    split_ifs
    · exact SameShape.refl _
    · exact SameShape.setPhase _ _ _
    · exact SameShape.setPhase _ _ _
    · exact SameShape.refl _
  · intro x hx
    rw [neighborStep_graph]
    split_ifs
    · rfl
    · exact setPhase_phase_ne _ _ _ _ hx
    · exact setPhase_phase_ne _ _ _ _ hx
    · rfl
  · intro h
    rw [neighborStep_graph]
    simp only [h, if_false, ite_self]

theorem foldl_neighborStep_frame (v0 v1 : Nat) (ws : List Nat) :
    ∀ lp : NeighborLoop,
      SameShape lp.st.graph (ws.foldl (neighborStep v0 v1) lp).st.graph ∧
      (∀ x, x ≠ v0 → (ws.foldl (neighborStep v0 v1) lp).st.graph.phase x = lp.st.graph.phase x) ∧
      (v1 ∉ ws → (ws.foldl (neighborStep v0 v1) lp).st.graph = lp.st.graph) ∧
      (ws.foldl (neighborStep v0 v1) lp).st.rule.removeVertices = lp.st.rule.removeVertices ∧
      (ws.foldl (neighborStep v0 v1) lp).st.rule.matchTypeVec = lp.st.rule.matchTypeVec := by
  induction ws with
  | nil => intro lp; exact ⟨SameShape.refl _, fun _ _ => rfl, fun _ => rfl, rfl, rfl⟩
  | cons w ws ih =>
    intro lp
    rw [List.foldl_cons]
    obtain ⟨a1, a2, a3, a4, a5⟩ := neighborStep_frame v0 v1 lp w
    obtain ⟨b1, b2, b3, b4, b5⟩ := ih (neighborStep v0 v1 lp w)
    refine ⟨a1.trans b1, fun x hx => (b2 x hx).trans (a2 x hx), ?_, b4.trans a4, b5.trans a5⟩
    intro hnot
    rw [b3 (fun h => hnot (List.mem_cons_of_mem _ h)), a3 (fun h => hnot (h ▸ List.mem_cons_self _ _))]

theorem mergePhase_frame (v0 v1 : Nat) (st : RewriteState) :
    SameShape st.graph (mergePhase v0 v1 st).graph ∧
    (∀ x, x ≠ v0 → (mergePhase v0 v1 st).graph.phase x = st.graph.phase x) ∧
    (mergePhase v0 v1 st).rule = st.rule ∧
    (v0 ≠ v1 → (mergePhase v0 v1 st).graph.phase v0 =
      Phase.add (st.graph.phase v0) (st.graph.phase v1)) := by
  unfold mergePhase
  split_ifs with h
  · exact ⟨SameShape.setPhase _ _ _, fun x hx => setPhase_phase_ne _ _ _ _ hx, rfl,
      fun _ => setPhase_phase_self _ _ _⟩
  · exact ⟨SameShape.refl _, fun _ _ => rfl, rfl, fun h' => absurd h' h⟩

theorem neighborLoop_frame (v0 v1 : Nat) (st : RewriteState) :
    SameShape st.graph (neighborLoop v0 v1 st).graph ∧
    (∀ x, x ≠ v0 → (neighborLoop v0 v1 st).graph.phase x = st.graph.phase x) ∧
    (v1 ∉ st.graph.getNeighbors v1 → (neighborLoop v0 v1 st).graph = st.graph) ∧
    (neighborLoop v0 v1 st).rule.removeVertices = st.rule.removeVertices ∧
    (neighborLoop v0 v1 st).rule.matchTypeVec = st.rule.matchTypeVec := by
  unfold neighborLoop
  exact foldl_neighborStep_frame v0 v1 _ { st := st, done := fun _ => false }

theorem finishRecord_frame (v0 v1 : Nat) (st : RewriteState) :
    (finishRecord v0 v1 st).graph = st.graph ∧
    (finishRecord v0 v1 st).rule.removeVertices =
      st.rule.removeVertices ++ (if v0 ≠ v1 then [v1] else []) ∧
    (finishRecord v0 v1 st).rule.matchTypeVec = st.rule.matchTypeVec ∧
    (finishRecord v0 v1 st).rule.edgeTableKeys = st.rule.edgeTableKeys ∧
    (finishRecord v0 v1 st).rule.edgeTableValues = st.rule.edgeTableValues := by
  unfold finishRecord
  dsimp only
  split_ifs with h
  · exact ⟨rfl, rfl, rfl, rfl, rfl⟩
  · exact ⟨rfl, by simp, rfl, rfl, rfl⟩

/-- What the body of the loop does for one record outside the edge table: the shape of the
graph and every phase but that of `v0` stay, `v1` is appended to the vertices to remove when
the endpoints differ, and when moreover `v1` has no self-loop the phase of `v0` becomes the
sum of the two phases. -/
theorem rewriteRecord_frame (st : RewriteState) (m : Nat × Nat) :
    SameShape st.graph (rewriteRecord st m).graph ∧
    (∀ x, x ≠ m.1 → (rewriteRecord st m).graph.phase x = st.graph.phase x) ∧
    (rewriteRecord st m).rule.removeVertices =
      st.rule.removeVertices ++ (if m.1 ≠ m.2 then [m.2] else []) ∧
    (rewriteRecord st m).rule.matchTypeVec = st.rule.matchTypeVec ∧
    (m.1 ≠ m.2 → m.2 ∉ st.graph.getNeighbors m.2 →
      (rewriteRecord st m).graph.phase m.1 = Phase.add (st.graph.phase m.1) (st.graph.phase m.2)) := by
  unfold rewriteRecord
  obtain ⟨a1, a2, a3, a4⟩ := mergePhase_frame m.1 m.2 st
  obtain ⟨b1, b2, b3, b4, b5⟩ := neighborLoop_frame m.1 m.2 (mergePhase m.1 m.2 st)
  obtain ⟨c1, c2, c3, _, _⟩ := finishRecord_frame m.1 m.2 (neighborLoop m.1 m.2 (mergePhase m.1 m.2 st))
  refine ⟨?_, ?_, ?_, ?_, ?_⟩
  · rw [c1]; exact a1.trans b1
  · intro x hx
    rw [c1, b2 x hx, a2 x hx]
  · rw [c2, b4, a3]
  · rw [c3, b5, a3]
  · intro hne hself
    have hn : (mergePhase m.1 m.2 st).graph.getNeighbors m.2 = st.graph.getNeighbors m.2 := by
      unfold ZXGraph.getNeighbors; rw [a1.2.2.2.1]
    rw [c1, b3 (by rw [hn]; exact hself), a4 hne]

theorem foldl_rewriteRecord_frame (ms : List (Nat × Nat)) :
    ∀ st : RewriteState,
      SameShape st.graph (ms.foldl rewriteRecord st).graph ∧
      (∀ x, (∀ m ∈ ms, m.1 ≠ x) → (ms.foldl rewriteRecord st).graph.phase x = st.graph.phase x) ∧
      (ms.foldl rewriteRecord st).rule.removeVertices =
        st.rule.removeVertices ++ ms.flatMap (fun m => if m.1 ≠ m.2 then [m.2] else []) := by
  induction ms with
  | nil => intro st; exact ⟨SameShape.refl _, fun _ _ => rfl, by simp⟩
  | cons m ms ih =>
    intro st
    rw [List.foldl_cons]
    obtain ⟨a1, a2, a3, _, _⟩ := rewriteRecord_frame st m
    obtain ⟨b1, b2, b3⟩ := ih (rewriteRecord st m)
    refine ⟨a1.trans b1, ?_, ?_⟩
    · intro x hx
      rw [b2 x (fun m' hm' => hx m' (List.mem_cons_of_mem _ hm'))]
      exact a2 x (fun h => hx m (List.mem_cons_self _ _) h.symm)
    · rw [b3, a3, List.flatMap_cons, List.append_assoc]

theorem emitted_cons_done (g : ZXGraph) (v0 v1 w : Nat) (ws : List Nat) (done : Nat → Bool)
    (h : done w = true) : emitted g v0 v1 (w :: ws) done = emitted g v0 v1 ws done := by
  rw [emitted, if_pos h]

theorem emitted_cons_fresh (g : ZXGraph) (v0 v1 w : Nat) (ws : List Nat) (done : Nat → Bool)
    (h : ¬ done w = true) : emitted g v0 v1 (w :: ws) done =
      entryFor g v0 v1 w :: emitted g v0 v1 ws (fun x => if x = w then true else done x) := by
  rw [emitted, if_neg h]

theorem entryFor_congr {g g' : ZXGraph} (h : SameShape g g') (v0 v1 w : Nat) :
    entryFor g' v0 v1 w = entryFor g v0 v1 w := by
  obtain ⟨_, _, _, hn, he⟩ := h
  unfold entryFor simpleCount hadamardCount equalRange
  rw [hn, he]

theorem neighborStep_table (v0 v1 : Nat) (hne : v0 ≠ v1) (lp : NeighborLoop) (w : Nat) :
    (neighborStep v0 v1 lp w).st.rule.edgeTableKeys =
      (if lp.done w = true then lp.st.rule.edgeTableKeys
       else lp.st.rule.edgeTableKeys ++ [(entryFor lp.st.graph v0 v1 w).1]) ∧
    (neighborStep v0 v1 lp w).st.rule.edgeTableValues =
      (if lp.done w = true then lp.st.rule.edgeTableValues
       else lp.st.rule.edgeTableValues ++ [(entryFor lp.st.graph v0 v1 w).2]) ∧
    (neighborStep v0 v1 lp w).done =
      (if lp.done w = true then lp.done else fun x => if x = w then true else lp.done x) := by
  unfold neighborStep entryFor
  dsimp only
  rw [if_pos hne]
  split_ifs <;> exact ⟨rfl, rfl, rfl⟩

theorem foldl_neighborStep_table (v0 v1 : Nat) (hne : v0 ≠ v1) (g0 : ZXGraph) (ws : List Nat) :
    ∀ lp : NeighborLoop, SameShape g0 lp.st.graph →
      (ws.foldl (neighborStep v0 v1) lp).st.rule.edgeTableKeys =
        lp.st.rule.edgeTableKeys ++ (emitted g0 v0 v1 ws lp.done).map Prod.fst ∧
      (ws.foldl (neighborStep v0 v1) lp).st.rule.edgeTableValues =
        lp.st.rule.edgeTableValues ++ (emitted g0 v0 v1 ws lp.done).map Prod.snd := by
  induction ws with
  | nil => intro lp _; simp [emitted]
  | cons w ws ih =>
    intro lp hs
    rw [List.foldl_cons]
    obtain ⟨hk, hv, hd⟩ := neighborStep_table v0 v1 hne lp w
    obtain ⟨ihk, ihv⟩ := ih (neighborStep v0 v1 lp w)
      (hs.trans (neighborStep_frame v0 v1 lp w).1)
    rw [ihk, ihv, hk, hv, hd]
    by_cases hdone : lp.done w = true
    · rw [emitted_cons_done _ _ _ _ _ _ hdone, if_pos hdone, if_pos hdone, if_pos hdone]
      exact ⟨rfl, rfl⟩
    · rw [emitted_cons_fresh _ _ _ _ _ _ hdone, if_neg hdone, if_neg hdone, if_neg hdone,
        entryFor_congr hs]
      simp only [List.map_cons, List.append_assoc, List.singleton_append]
      exact ⟨trivial, trivial⟩

theorem emitted_fst (g : ZXGraph) (v0 v1 : Nat) (ws : List Nat) :
    ∀ (done : Nat → Bool), ∀ e ∈ emitted g v0 v1 ws done, e.1.1 = v0 := by
  induction ws with
  | nil => intro done e he; simp [emitted] at he
  | cons w ws ih =>
    intro done e he
    by_cases hd : done w = true
    · rw [emitted_cons_done _ _ _ _ _ _ hd] at he
      exact ih _ e he
    · rw [emitted_cons_fresh _ _ _ _ _ _ hd] at he
      rcases List.mem_cons.mp he with h | h
      · rw [h]; rfl
      · exact ih _ e h

theorem emitted_filter_done (g : ZXGraph) (v0 v1 w : Nat) (ws : List Nat) :
    ∀ (done : Nat → Bool), done w = true →
      (emitted g v0 v1 ws done).filter (fun e => decide (e.1 = (v0, w))) = [] := by
  induction ws with
  | nil => intro done _; simp [emitted]
  | cons a ws ih =>
    intro done hd
    by_cases ha : done a = true
    · rw [emitted_cons_done _ _ _ _ _ _ ha]
      exact ih done hd
    · have haw : a ≠ w := fun h => ha (h ▸ hd)
      rw [emitted_cons_fresh _ _ _ _ _ _ ha,
        List.filter_cons_of_neg (by simpa [entryFor] using haw)]
      exact ih _ (by simp [hd])

/-- Every neighbour that the loop meets with `done` still false gets exactly one entry. -/
theorem emitted_filter_fresh (g : ZXGraph) (v0 v1 w : Nat) (ws : List Nat) :
    ∀ (done : Nat → Bool), done w = false → w ∈ ws →
      (emitted g v0 v1 ws done).filter (fun e => decide (e.1 = (v0, w))) =
        [entryFor g v0 v1 w] := by
  induction ws with
  | nil => intro done _ hmem; simp at hmem
  | cons a ws ih =>
    intro done hd hmem
    by_cases haw : a = w
    · subst haw
      rw [emitted_cons_fresh _ _ _ _ _ _ (by simp [hd]),
        List.filter_cons_of_pos (by simp [entryFor]),
        emitted_filter_done g v0 v1 a ws _ (by simp)]
    · have hmem' : w ∈ ws := by
        rcases List.mem_cons.mp hmem with h | h
        · exact absurd h.symm haw
        · exact h
      by_cases ha : done a = true
      · rw [emitted_cons_done _ _ _ _ _ _ ha]
        exact ih done hd hmem'
      · rw [emitted_cons_fresh _ _ _ _ _ _ ha,
          List.filter_cons_of_neg (by simpa [entryFor] using haw)]
        exact ih _ (by simp [hd, Ne.symm haw]) hmem'

theorem simpleCount_eq_countP (g : ZXGraph) (v w : Nat) :
    simpleCount g v w =
      (g.neighborMap v).countP (fun nb => decide (nb.1 = w ∧ g.edgeType nb.2 = EdgeType.SIMPLE)) := by
  unfold simpleCount equalRange
  rw [List.filter_filter, List.countP_eq_length_filter]
  congr 2
  funext nb
  rw [Bool.decide_and, Bool.and_comm]

theorem hadamardCount_eq_countP (g : ZXGraph) (v w : Nat) :
    hadamardCount g v w =
      (g.neighborMap v).countP
        (fun nb => decide (nb.1 = w ∧ g.edgeType nb.2 = EdgeType.HADAMARD)) := by
  unfold hadamardCount equalRange
  rw [List.filter_filter, List.countP_eq_length_filter]
  congr 2
  funext nb
  rw [Bool.decide_and, Bool.and_comm]

/-- The edge table after the body of the loop for a record `(v0, v1)` with `v0 ≠ v1`. -/
theorem rewriteRecord_table (st : RewriteState) (m : Nat × Nat) (hne : m.1 ≠ m.2) :
    (rewriteRecord st m).rule.edgeTableKeys = st.rule.edgeTableKeys ++
      (emitted st.graph m.1 m.2 (st.graph.getNeighbors m.2) (fun _ => false)).map Prod.fst ∧
    (rewriteRecord st m).rule.edgeTableValues = st.rule.edgeTableValues ++
      (emitted st.graph m.1 m.2 (st.graph.getNeighbors m.2) (fun _ => false)).map Prod.snd := by
  unfold rewriteRecord
  obtain ⟨a1, _, a3, _⟩ := mergePhase_frame m.1 m.2 st
  obtain ⟨_, _, _, c4, c5⟩ :=
    finishRecord_frame m.1 m.2 (neighborLoop m.1 m.2 (mergePhase m.1 m.2 st))
  have hn : (mergePhase m.1 m.2 st).graph.getNeighbors m.2 = st.graph.getNeighbors m.2 := by
    unfold ZXGraph.getNeighbors; rw [a1.2.2.2.1]
  obtain ⟨hk, hv⟩ := foldl_neighborStep_table m.1 m.2 hne st.graph
    ((mergePhase m.1 m.2 st).graph.getNeighbors m.2)
    { st := mergePhase m.1 m.2 st, done := fun _ => false } a1
  rw [c4, c5]
  unfold neighborLoop
  rw [hk, hv, hn, a3]
  exact ⟨rfl, rfl⟩

/-- The entries that the body of the loop emits for a record `(u, v)` with `u ≠ v`: for every
neighbour `w` of `v` other than `u` and `v` exactly one of them is keyed by `u` and `w`, with
the counts of the Simple and of the Hadamard edges between `v` and `w` as its value. -/
theorem rewriteRecord_entries (st : RewriteState) (u v : Nat) (huv : u ≠ v) :
    ∃ entries : List ((Nat × Nat) × (Nat × Nat)),
      (rewriteRecord st (u, v)).rule.edgeTableKeys =
        st.rule.edgeTableKeys ++ entries.map Prod.fst ∧
      (rewriteRecord st (u, v)).rule.edgeTableValues =
        st.rule.edgeTableValues ++ entries.map Prod.snd ∧
      ∀ w ∈ st.graph.getNeighbors v, w ≠ u → w ≠ v →
        entries.filter (fun e => decide (e.1 = (u, w) ∨ e.1 = (w, u))) =
          [((u, w),
            ((st.graph.neighborMap v).countP
                (fun nb => decide (nb.1 = w ∧ st.graph.edgeType nb.2 = EdgeType.SIMPLE)),
              (st.graph.neighborMap v).countP
                (fun nb => decide (nb.1 = w ∧ st.graph.edgeType nb.2 = EdgeType.HADAMARD))))] := by
  obtain ⟨hk, hv⟩ := rewriteRecord_table st (u, v) huv
  refine ⟨_, hk, hv, ?_⟩
  intro w hw hwu _
  have hcongr : (emitted st.graph u v (st.graph.getNeighbors v) (fun _ => false)).filter
      (fun e => decide (e.1 = (u, w) ∨ e.1 = (w, u))) =
      (emitted st.graph u v (st.graph.getNeighbors v) (fun _ => false)).filter
        (fun e => decide (e.1 = (u, w))) := by
    apply List.filter_congr
    intro e he
    have h1 := emitted_fst st.graph u v _ _ e he
    have hno : ¬ e.1 = (w, u) := by
      intro h
      rw [h] at h1
      exact hwu h1
    simp [hno]
  show (emitted st.graph u v (st.graph.getNeighbors v) (fun _ => false)).filter _ = _
  rw [hcongr, emitted_filter_fresh st.graph u v w _ _ rfl hw]
  unfold entryFor
  rw [if_neg hwu, simpleCount_eq_countP, hadamardCount_eq_countP]

/-- The effect of `rewrite` on one record of a match list whose records share no endpoint. -/
theorem foldl_rewriteRecord_record (ms : List (Nat × Nat))
    (hpw : ms.Pairwise NoSharedEndpoint) (st : RewriteState) (u v : Nat)
    (hmem : (u, v) ∈ ms) (huv : u ≠ v) (hself : v ∉ st.graph.getNeighbors v)
    (hrv : st.rule.removeVertices = []) :
    (ms.foldl rewriteRecord st).graph.phase u = Phase.add (st.graph.phase u) (st.graph.phase v) ∧
    v ∈ (ms.foldl rewriteRecord st).rule.removeVertices ∧
    u ∉ (ms.foldl rewriteRecord st).rule.removeVertices := by
  obtain ⟨l1, l2, hsplit⟩ := List.append_of_mem hmem
  subst hsplit
  obtain ⟨_, hp2, hcross⟩ := List.pairwise_append.mp hpw
  obtain ⟨hlater, _⟩ := List.pairwise_cons.mp hp2
  have hearlier : ∀ m ∈ l1, NoSharedEndpoint m (u, v) :=
    fun m hm => hcross m hm (u, v) (List.mem_cons_self _ _)
  rw [List.foldl_append, List.foldl_cons]
  obtain ⟨a1, a2, a3⟩ := foldl_rewriteRecord_frame l1 st
  obtain ⟨b1, b2, b3, _, b5⟩ := rewriteRecord_frame (l1.foldl rewriteRecord st) (u, v)
  obtain ⟨c1, c2, c3⟩ := foldl_rewriteRecord_frame l2 (rewriteRecord (l1.foldl rewriteRecord st) (u, v))
  have hn : (l1.foldl rewriteRecord st).graph.getNeighbors v = st.graph.getNeighbors v := by
    unfold ZXGraph.getNeighbors; rw [a1.2.2.2.1]
  refine ⟨?_, ?_, ?_⟩
  · rw [c2 u (fun m hm => ((hlater m hm).1 ·.symm)), b5 huv (by rw [hn]; exact hself),
      a2 u (fun m hm => (hearlier m hm).1), a2 v (fun m hm => (hearlier m hm).2.1)]
  · rw [c3, b3]
    simp [huv]
  · rw [c3, b3, a3, hrv]
    simp only [List.nil_append, List.mem_append, List.mem_flatMap, not_or, not_exists, not_and]
    refine ⟨⟨?_, ?_⟩, ?_⟩
    · intro m hm hu
      split_ifs at hu with h
      · exact (hearlier m hm).2.2.1 (List.mem_singleton.mp hu).symm
      · simp at hu
    · simp only [if_pos huv, List.mem_singleton]
      exact huv
    · intro m hm hu
      split_ifs at hu with h
      · exact (hlater m hm).2.1 (List.mem_singleton.mp hu)
      · simp at hu

end SpiderFusion

theorem pairwise_mem_cases {α : Type} {R : α → α → Prop} {l : List α} (h : l.Pairwise R)
    {a b : α} (ha : a ∈ l) (hb : b ∈ l) : a = b ∨ R a b ∨ R b a := by
  induction h with
  | nil => simp at ha
  | cons hx _ ih =>
    rcases List.mem_cons.mp ha with ha | ha
    · rcases List.mem_cons.mp hb with hb | hb
      · left; rw [ha, hb]
      · right; left; rw [ha]; exact hx b hb
    · rcases List.mem_cons.mp hb with hb | hb
      · right; right; rw [hb]; exact hx a ha
      · exact ih ha hb

namespace Bialgebra

theorem recordKeys_nodup (g : ZXGraph) (m : EdgePair) (hel : Eligible g m) :
    (recordKeys g m).Nodup := by
  obtain ⟨_, _, _, _, ⟨hd1, hd2⟩, _⟩ := hel
  have h1 := (check_duplicated_vertex_eq_false _).mp hd1
  have h2 := (check_duplicated_vertex_eq_false _).mp hd2
  exact List.Nodup.product (h1.filter _) (h2.filter _)

/-- An endpoint of an eligible edge has another colour than its neighbours, so it is not its
own neighbour. -/
theorem eligible_no_loop (g : ZXGraph) (m : EdgePair) (hel : Eligible g m) :
    m.1.1 ∉ g.getCopiedNeighbors m.1.1 ∧ m.1.2 ∉ g.getCopiedNeighbors m.1.2 := by
  obtain ⟨_, _, hty, _, _, hl, hr, _⟩ := hel
  constructor
  · intro h
    have := (hl _ h).2
    rcases hty with ⟨a, b⟩ | ⟨a, b⟩ <;> rw [a, b] at this <;> exact VertexType.noConfusion this
  · intro h
    have := (hr _ h).2
    rcases hty with ⟨a, b⟩ | ⟨a, b⟩ <;> rw [a, b] at this <;> exact VertexType.noConfusion this

theorem symmetric_neighbors (g : ZXGraph) (hsym : g.Symmetric) (v w : Nat)
    (hv : v ∈ g.vertices) (hw : w ∈ g.getCopiedNeighbors v) : v ∈ g.getCopiedNeighbors w := by
  unfold ZXGraph.getCopiedNeighbors at hw
  obtain ⟨nb, hnb, hfst⟩ := List.mem_map.mp hw
  have := hsym v hv nb hnb
  rw [hfst] at this
  exact mem_getCopiedNeighbors g w v nb.2 this

/-- In a well-formed graph with a symmetric neighbour relation, a vertex that a record of the
scan reconnects (a neighbour of one endpoint other than the opposite endpoint) is not an
endpoint of any record of the scan. -/
theorem reconnected_not_endpoint (g : ZXGraph) (hwf : g.WellFormed) (hsym : g.Symmetric)
    (m m' : EdgePair) (hm : m ∈ (scan g).matchTypeVec) (hm' : m' ∈ (scan g).matchTypeVec)
    (x y : Nat) (hx : x = m'.1.1 ∨ x = m'.1.2)
    (hy : (y ∈ g.getCopiedNeighbors m.1.1 ∧ y ≠ m.1.2) ∨
      (y ∈ g.getCopiedNeighbors m.1.2 ∧ y ≠ m.1.1)) : y ≠ x := by
  obtain ⟨_, hedge, _, hpw⟩ := bialg_scan_inv g hwf
  have hel := (scan_eligible g m hm).2
  obtain ⟨hloop1, hloop2⟩ := eligible_no_loop g m hel
  obtain ⟨⟨hv1, hv2⟩, _⟩ := hwf m (hedge m hm)
  intro hyx
  rcases pairwise_mem_cases hpw hm hm' with heq | hsep | hsep
  · subst heq
    rcases hy with ⟨hy, hne⟩ | ⟨hy, hne⟩
    · rcases hx with hx | hx
      · rw [hyx.trans hx] at hy; exact hloop1 hy
      · exact hne (hyx.trans hx)
    · rcases hx with hx | hx
      · exact hne (hyx.trans hx)
      · rw [hyx.trans hx] at hy; exact hloop2 hy
  · obtain ⟨_, hn1, hn2⟩ := hsep x hx
    rcases hy with ⟨hy, _⟩ | ⟨hy, _⟩
    · exact hn1 (hyx ▸ hy)
    · exact hn2 (hyx ▸ hy)
  · rcases hy with ⟨hy, _⟩ | ⟨hy, _⟩
    · have hback := symmetric_neighbors g hsym m.1.1 y hv1 hy
      rw [hyx] at hback
      obtain ⟨_, hn1, hn2⟩ := hsep m.1.1 (Or.inl rfl)
      rcases hx with hx | hx
      · exact hn1 (hx ▸ hback)
      · exact hn2 (hx ▸ hback)
    · have hback := symmetric_neighbors g hsym m.1.2 y hv2 hy
      rw [hyx] at hback
      obtain ⟨_, hn1, hn2⟩ := hsep m.1.2 (Or.inr rfl)
      rcases hx with hx | hx
      · exact hn1 (hx ▸ hback)
      · exact hn2 (hx ▸ hback)

theorem rewrite_keys_clear (r : ZXRule EdgePair) (g : ZXGraph) (hwf : g.WellFormed)
    (hsym : g.Symmetric) :
    ∀ k ∈ (rewrite («match» r g) g).edgeTableKeys,
      k.1 ∉ (rewrite («match» r g) g).removeVertices ∧
      k.2 ∉ (rewrite («match» r g) g).removeVertices := by
  intro k hk
  rw [rewrite_eq] at hk ⊢
  simp only [«match», List.mem_flatMap] at hk ⊢
  obtain ⟨m, hm, hkm⟩ := hk
  have hkm' : (k.1, k.2) ∈ recordKeys g m := hkm
  rw [mem_recordKeys] at hkm'
  constructor
  · rintro ⟨m', hm', hx⟩
    have hx' : k.1 = m'.1.1 ∨ k.1 = m'.1.2 := by simpa using hx
    exact reconnected_not_endpoint g hwf hsym m m' hm hm' k.1 k.1 hx' (Or.inl hkm'.1) rfl
  · rintro ⟨m', hm', hx⟩
    have hx' : k.2 = m'.1.1 ∨ k.2 = m'.1.2 := by simpa using hx
    exact reconnected_not_endpoint g hwf hsym m m' hm hm' k.2 k.2 hx' (Or.inr hkm'.2) rfl

/-- Every record of the scan of a well-formed graph, read against the graph. -/
theorem scan_record_facts (g : ZXGraph) (hwf : g.WellFormed) (m : EdgePair)
    (hm : m ∈ (scan g).matchTypeVec) :
    (m ∈ g.edges ∧ g.edgeType m.2 = EdgeType.SIMPLE) ∧
    ((g.type m.1.1 = VertexType.Z ∧ g.type m.1.2 = VertexType.X) ∨
      (g.type m.1.1 = VertexType.X ∧ g.type m.1.2 = VertexType.Z)) ∧
    (g.phase m.1.1 = Phase.zero ∧ g.phase m.1.2 = Phase.zero) ∧
    (2 ≤ g.getNumNeighbors m.1.1 ∧ 2 ≤ g.getNumNeighbors m.1.2) ∧
    ((g.getCopiedNeighbors m.1.1).Nodup ∧ (g.getCopiedNeighbors m.1.2).Nodup) ∧
    (∀ v ∈ g.getCopiedNeighbors m.1.1, g.type v = g.type m.1.2 ∧ g.phase v = Phase.zero) ∧
    (∀ v ∈ g.getCopiedNeighbors m.1.2, g.type v = g.type m.1.1 ∧ g.phase v = Phase.zero) ∧
    (∀ nb ∈ g.neighborMap m.1.1, g.edgeType nb.2 = EdgeType.SIMPLE) ∧
    (∀ nb ∈ g.neighborMap m.1.2, g.edgeType nb.2 = EdgeType.SIMPLE) := by
  obtain ⟨hedge, hs, hph, hty, hdeg, hdup, hl, hr, hel, her⟩ := scan_eligible g m hm
  obtain ⟨_, hl1, hl2⟩ := hwf m hedge
  have hpos1 : 0 < g.getNumNeighbors m.1.1 := List.length_pos_of_mem hl1
  have hpos2 : 0 < g.getNumNeighbors m.1.2 := List.length_pos_of_mem hl2
  refine ⟨⟨hedge, hs⟩, hty.symm, hph, ⟨?_, ?_⟩,
    ⟨(check_duplicated_vertex_eq_false _).mp hdup.1,
      (check_duplicated_vertex_eq_false _).mp hdup.2⟩,
    fun v hv => ⟨(hl v hv).2, (hl v hv).1⟩, fun v hv => ⟨(hr v hv).2, (hr v hv).1⟩, ?_, ?_⟩
  · have := hdeg.1; omega
  · have := hdeg.2; omega
  · intro nb hnb
    exact hel (nb.1, g.edgeType nb.2) (List.mem_map.mpr ⟨nb, hnb, rfl⟩)
  · intro nb hnb
    exact her (nb.1, g.edgeType nb.2) (List.mem_map.mpr ⟨nb, hnb, rfl⟩)

/-- What the body of the rewrite loop emits for a record of the scan. -/
theorem rewriteRecord_of_scan (g : ZXGraph) (m : EdgePair) (hm : m ∈ (scan g).matchTypeVec)
    (r : ZXRule EdgePair) :
    (rewriteRecord g r m).removeVertices = r.removeVertices ++ [m.1.1, m.1.2] ∧
    ∃ ks : List (Nat × Nat),
      (rewriteRecord g r m).edgeTableKeys = r.edgeTableKeys ++ ks ∧
      (rewriteRecord g r m).edgeTableValues = r.edgeTableValues ++ List.replicate ks.length (1, 0) ∧
      ks.Nodup ∧
      (∀ p q, (p, q) ∈ ks ↔
        (p ∈ g.getCopiedNeighbors m.1.1 ∧ p ≠ m.1.2) ∧
        (q ∈ g.getCopiedNeighbors m.1.2 ∧ q ≠ m.1.1)) ∧
      (∀ p1 p2 q1 q2,
        (g.getCopiedNeighbors m.1.1).filter (fun p => decide (p ≠ m.1.2)) = [p1, p2] →
        (g.getCopiedNeighbors m.1.2).filter (fun q => decide (q ≠ m.1.1)) = [q1, q2] →
        ks = [(p1, q1), (p1, q2), (p2, q1), (p2, q2)]) := by
  rw [rewriteRecord_eq]
  refine ⟨rfl, recordKeys g m, rfl, ?_, recordKeys_nodup g m (scan_eligible g m hm).2,
    mem_recordKeys g m, ?_⟩
  · show _ ++ _ = _ ++ _
    rw [List.map_const']
  · intro p1 p2 q1 q2 h1 h2
    unfold recordKeys
    rw [h1, h2]
    rfl

end Bialgebra

/-! ## The claims -/

/-- C1: in a well-formed graph the records returned by one call of `SpiderFusion::match`
share no endpoint: of two records at different places of the list, neither endpoint of one is
an endpoint of the other. -/
theorem C1_sfusion_match_no_shared_endpoint (r : ZXRule (Nat × Nat)) (g : ZXGraph)
    (hwf : g.WellFormed) :
    (SpiderFusion.match r g).matchTypeVec.Pairwise
      (fun m m' => m.1 ≠ m'.1 ∧ m.1 ≠ m'.2 ∧ m.2 ≠ m'.1 ∧ m.2 ≠ m'.2) :=
  (SpiderFusion.scan_inv g hwf).2.2

/-- C1 at the path `0 - 1 - 2 - 3`, whose match list has the two records `(0, 1)`, `(3, 2)`. -/
theorem C1_sfusion_match_no_shared_endpoint_witness :
    path4.WellFormed ∧
    (SpiderFusion.match (ZXRule.init (Nat × Nat)) path4).matchTypeVec = [(0, 1), (3, 2)] ∧
    (SpiderFusion.match (ZXRule.init (Nat × Nat)) path4).matchTypeVec.Pairwise
      (fun m m' => m.1 ≠ m'.1 ∧ m.1 ≠ m'.2 ∧ m.2 ≠ m'.1 ∧ m.2 ≠ m'.2) :=
  ⟨by decide, by decide,
    C1_sfusion_match_no_shared_endpoint (ZXRule.init (Nat × Nat)) path4 (by decide)⟩

/-- C2: in a well-formed graph no endpoint of a record of `Bialgebra::match` is an endpoint, or a
neighbour of an endpoint, of a record accepted earlier in the same call; so no vertex is an
endpoint of two records. -/
theorem C2_bialg_match_clear_of_earlier (r : ZXRule EdgePair) (g : ZXGraph)
    (hwf : g.WellFormed) :
    (Bialgebra.match r g).matchTypeVec.Pairwise
      (fun m m' => ∀ x, (x = m'.1.1 ∨ x = m'.1.2) →
        (x ≠ m.1.1 ∧ x ≠ m.1.2) ∧
        x ∉ g.getCopiedNeighbors m.1.1 ∧ x ∉ g.getCopiedNeighbors m.1.2) :=
  (Bialgebra.bialg_scan_inv g hwf).2.2.2

/-- C2 at the diagram with two bialgebra patterns, whose match list has two records. -/
theorem C2_bialg_match_clear_of_earlier_witness :
    bialg2.WellFormed ∧
    (Bialgebra.match (ZXRule.init EdgePair) bialg2).matchTypeVec = [((0, 1), 0), ((6, 7), 5)] ∧
    (Bialgebra.match (ZXRule.init EdgePair) bialg2).matchTypeVec.Pairwise
      (fun m m' => ∀ x, (x = m'.1.1 ∨ x = m'.1.2) →
        (x ≠ m.1.1 ∧ x ≠ m.1.2) ∧
        x ∉ bialg2.getCopiedNeighbors m.1.1 ∧ x ∉ bialg2.getCopiedNeighbors m.1.2) :=
  ⟨by decide, by decide,
    C2_bialg_match_clear_of_earlier (ZXRule.init EdgePair) bialg2 (by decide)⟩

/-- C3: for a record `(u, v)` of `SpiderFusion::match` on a well-formed graph, with `u ≠ v` and
no self-loop at `v`, `SpiderFusion::rewrite` leaves the phase of `u` equal to the canonicalised
sum of the phases that `u` and `v` had before the call, and it schedules `v`, and not `u`, for
removal. -/
theorem C3_sfusion_rewrite_phase_sum (r : ZXRule (Nat × Nat)) (g : ZXGraph)
    (hwf : g.WellFormed) (u v : Nat)
    (hrec : (u, v) ∈ (SpiderFusion.match r g).matchTypeVec) (huv : u ≠ v)
    (hloop : v ∉ g.getNeighbors v) :
    (SpiderFusion.rewrite (SpiderFusion.match r g) g).graph.phase u =
      Phase.add (g.phase u) (g.phase v) ∧
    v ∈ (SpiderFusion.rewrite (SpiderFusion.match r g) g).rule.removeVertices ∧
    u ∉ (SpiderFusion.rewrite (SpiderFusion.match r g) g).rule.removeVertices :=
  SpiderFusion.foldl_rewriteRecord_record _ (SpiderFusion.scan_inv g hwf).2.2
    { rule := (SpiderFusion.match r g).reset, graph := g } u v hrec huv hloop rfl

/-- C3 at the two Z-spiders of phases π/2 and π/4: the survivor ends with 3π/4. -/
theorem C3_sfusion_rewrite_phase_sum_witness :
    (fuse3.WellFormed ∧
      (0, 1) ∈ (SpiderFusion.match (ZXRule.init (Nat × Nat)) fuse3).matchTypeVec ∧
      (0 : Nat) ≠ 1 ∧ 1 ∉ fuse3.getNeighbors 1) ∧
    Phase.add (fuse3.phase 0) (fuse3.phase 1) = ⟨3, 4⟩ ∧
    (SpiderFusion.rewrite (SpiderFusion.match (ZXRule.init (Nat × Nat)) fuse3) fuse3).graph.phase 0 =
      Phase.add (fuse3.phase 0) (fuse3.phase 1) ∧
    1 ∈ (SpiderFusion.rewrite
      (SpiderFusion.match (ZXRule.init (Nat × Nat)) fuse3) fuse3).rule.removeVertices ∧
    0 ∉ (SpiderFusion.rewrite
      (SpiderFusion.match (ZXRule.init (Nat × Nat)) fuse3) fuse3).rule.removeVertices :=
  ⟨by decide, by decide,
    C3_sfusion_rewrite_phase_sum (ZXRule.init (Nat × Nat)) fuse3 (by decide) 0 1
      (by decide) (by decide) (by decide)⟩

/-- C4: for a record `(u, v)` with `u ≠ v`, the entries that the body of the loop of
`SpiderFusion::rewrite` appends to the edge table hold, for every neighbour `w` of `v` other
than `u` and `v`, exactly one entry keyed by `u` and `w`, and its value is `(s, h)`: the number
of Simple and the number of Hadamard edges between `v` and `w`. -/
theorem C4_sfusion_rewrite_entry_per_neighbor (st : SpiderFusion.RewriteState) (u v : Nat)
    (huv : u ≠ v) :
    ∃ entries : List ((Nat × Nat) × (Nat × Nat)),
      (SpiderFusion.rewriteRecord st (u, v)).rule.edgeTableKeys =
        st.rule.edgeTableKeys ++ entries.map Prod.fst ∧
      (SpiderFusion.rewriteRecord st (u, v)).rule.edgeTableValues =
        st.rule.edgeTableValues ++ entries.map Prod.snd ∧
      ∀ w ∈ st.graph.getNeighbors v, w ≠ u → w ≠ v →
        entries.filter (fun e => decide (e.1 = (u, w) ∨ e.1 = (w, u))) =
          [((u, w),
            ((st.graph.neighborMap v).countP
                (fun nb => decide (nb.1 = w ∧ st.graph.edgeType nb.2 = EdgeType.SIMPLE)),
              (st.graph.neighborMap v).countP
                (fun nb => decide (nb.1 = w ∧ st.graph.edgeType nb.2 = EdgeType.HADAMARD))))] :=
  SpiderFusion.rewriteRecord_entries st u v huv

/-- C4 at the record `(0, 1)` of the diagram `fuse3`: the neighbour `2` of `1`, joined to it by
one Simple and one Hadamard edge, gets the one entry `(0, 2) ↦ (1, 1)`. -/
theorem C4_sfusion_rewrite_entry_per_neighbor_witness :
    (0 : Nat) ≠ 1 ∧
    (SpiderFusion.rewriteRecord { rule := ZXRule.init (Nat × Nat), graph := fuse3 }
      (0, 1)).rule.edgeTableKeys = [(0, 0), (0, 2)] ∧
    (SpiderFusion.rewriteRecord { rule := ZXRule.init (Nat × Nat), graph := fuse3 }
      (0, 1)).rule.edgeTableValues = [(0, 0), (1, 1)] ∧
    ∃ entries : List ((Nat × Nat) × (Nat × Nat)),
      (SpiderFusion.rewriteRecord { rule := ZXRule.init (Nat × Nat), graph := fuse3 }
        (0, 1)).rule.edgeTableKeys = [] ++ entries.map Prod.fst ∧
      (SpiderFusion.rewriteRecord { rule := ZXRule.init (Nat × Nat), graph := fuse3 }
        (0, 1)).rule.edgeTableValues = [] ++ entries.map Prod.snd ∧
      ∀ w ∈ fuse3.getNeighbors 1, w ≠ 0 → w ≠ 1 →
        entries.filter (fun e => decide (e.1 = (0, w) ∨ e.1 = (w, 0))) =
          [((0, w),
            ((fuse3.neighborMap 1).countP
                (fun nb => decide (nb.1 = w ∧ fuse3.edgeType nb.2 = EdgeType.SIMPLE)),
              (fuse3.neighborMap 1).countP
                (fun nb => decide (nb.1 = w ∧ fuse3.edgeType nb.2 = EdgeType.HADAMARD))))] :=
  ⟨by decide, by decide, by decide,
    C4_sfusion_rewrite_entry_per_neighbor
      { rule := ZXRule.init (Nat × Nat), graph := fuse3 } 0 1 (by decide)⟩

/-- C5: for a record `(x, z)` of `Bialgebra::match`, the body of the loop of
`Bialgebra::rewrite` schedules exactly `x` and `z` for removal and appends to the edge table one
entry of value `(1, 0)` for each pair `(p, q)` with `p` a neighbour of `x` other than `z` and
`q` a neighbour of `z` other than `x`, no pair twice and no other entry; when the other
neighbours are `p1, p2` and `q1, q2` these are `(p1,q1)`, `(p1,q2)`, `(p2,q1)`, `(p2,q2)`. -/
theorem C5_bialg_rewrite_complete_bipartite (r0 : ZXRule EdgePair) (g : ZXGraph) (m : EdgePair)
    (hm : m ∈ (Bialgebra.match r0 g).matchTypeVec) (r : ZXRule EdgePair) :
    (Bialgebra.rewriteRecord g r m).removeVertices = r.removeVertices ++ [m.1.1, m.1.2] ∧
    ∃ ks : List (Nat × Nat),
      (Bialgebra.rewriteRecord g r m).edgeTableKeys = r.edgeTableKeys ++ ks ∧
      (Bialgebra.rewriteRecord g r m).edgeTableValues =
        r.edgeTableValues ++ List.replicate ks.length (1, 0) ∧
      ks.Nodup ∧
      (∀ p q, (p, q) ∈ ks ↔
        (p ∈ g.getCopiedNeighbors m.1.1 ∧ p ≠ m.1.2) ∧
        (q ∈ g.getCopiedNeighbors m.1.2 ∧ q ≠ m.1.1)) ∧
      (∀ p1 p2 q1 q2,
        (g.getCopiedNeighbors m.1.1).filter (fun p => decide (p ≠ m.1.2)) = [p1, p2] →
        (g.getCopiedNeighbors m.1.2).filter (fun q => decide (q ≠ m.1.1)) = [q1, q2] →
        ks = [(p1, q1), (p1, q2), (p2, q1), (p2, q2)]) :=
  Bialgebra.rewriteRecord_of_scan g m hm r

/-- C5 at the first record of the diagram `bialg2`: `0` and `1` are removed and the four
entries `(2,4)`, `(2,5)`, `(3,4)`, `(3,5)` are emitted. -/
theorem C5_bialg_rewrite_complete_bipartite_witness :
    ((0, 1), 0) ∈ (Bialgebra.match (ZXRule.init EdgePair) bialg2).matchTypeVec ∧
    (Bialgebra.rewriteRecord bialg2 (ZXRule.init EdgePair) ((0, 1), 0)).edgeTableKeys =
      [(2, 4), (2, 5), (3, 4), (3, 5)] ∧
    (Bialgebra.rewriteRecord bialg2 (ZXRule.init EdgePair) ((0, 1), 0)).removeVertices =
      [] ++ [0, 1] ∧
    ∃ ks : List (Nat × Nat),
      (Bialgebra.rewriteRecord bialg2 (ZXRule.init EdgePair) ((0, 1), 0)).edgeTableKeys =
        [] ++ ks ∧
      (Bialgebra.rewriteRecord bialg2 (ZXRule.init EdgePair) ((0, 1), 0)).edgeTableValues =
        [] ++ List.replicate ks.length (1, 0) ∧
      ks.Nodup ∧
      (∀ p q, (p, q) ∈ ks ↔
        (p ∈ bialg2.getCopiedNeighbors 0 ∧ p ≠ 1) ∧
        (q ∈ bialg2.getCopiedNeighbors 1 ∧ q ≠ 0)) ∧
      (∀ p1 p2 q1 q2,
        (bialg2.getCopiedNeighbors 0).filter (fun p => decide (p ≠ 1)) = [p1, p2] →
        (bialg2.getCopiedNeighbors 1).filter (fun q => decide (q ≠ 0)) = [q1, q2] →
        ks = [(p1, q1), (p1, q2), (p2, q1), (p2, q2)]) :=
  ⟨by decide, by decide,
    C5_bialg_rewrite_complete_bipartite (ZXRule.init EdgePair) bialg2 ((0, 1), 0) (by decide)
      (ZXRule.init EdgePair)⟩

/-- C6: every record `(x, z)` of `Bialgebra::match` on a well-formed graph is a Simple edge of
the graph whose endpoints are one Z-spider and one X-spider, both of zero phase and of degree
at least 2, neither with two edges to one vertex, every neighbour of `x` a zero-phase spider of
the type of `z`, every neighbour of `z` a zero-phase spider of the type of `x`, and every edge
at `x` or `z` Simple; so an edge with an endpoint of degree 1 is never matched. -/
theorem C6_bialg_match_records_eligible (r : ZXRule EdgePair) (g : ZXGraph)
    (hwf : g.WellFormed) (m : EdgePair) (hm : m ∈ (Bialgebra.match r g).matchTypeVec) :
    (m ∈ g.edges ∧ g.edgeType m.2 = EdgeType.SIMPLE) ∧
    ((g.type m.1.1 = VertexType.Z ∧ g.type m.1.2 = VertexType.X) ∨
      (g.type m.1.1 = VertexType.X ∧ g.type m.1.2 = VertexType.Z)) ∧
    (g.phase m.1.1 = Phase.zero ∧ g.phase m.1.2 = Phase.zero) ∧
    (2 ≤ g.getNumNeighbors m.1.1 ∧ 2 ≤ g.getNumNeighbors m.1.2) ∧
    ((g.getCopiedNeighbors m.1.1).Nodup ∧ (g.getCopiedNeighbors m.1.2).Nodup) ∧
    (∀ v ∈ g.getCopiedNeighbors m.1.1, g.type v = g.type m.1.2 ∧ g.phase v = Phase.zero) ∧
    (∀ v ∈ g.getCopiedNeighbors m.1.2, g.type v = g.type m.1.1 ∧ g.phase v = Phase.zero) ∧
    (∀ nb ∈ g.neighborMap m.1.1, g.edgeType nb.2 = EdgeType.SIMPLE) ∧
    (∀ nb ∈ g.neighborMap m.1.2, g.edgeType nb.2 = EdgeType.SIMPLE) :=
  Bialgebra.scan_record_facts g hwf m hm

/-- C6 at the second record of the diagram `bialg2`. -/
theorem C6_bialg_match_records_eligible_witness :
    (bialg2.WellFormed ∧
      ((6, 7), 5) ∈ (Bialgebra.match (ZXRule.init EdgePair) bialg2).matchTypeVec) ∧
    (((6, 7), 5) ∈ bialg2.edges ∧ bialg2.edgeType 5 = EdgeType.SIMPLE) ∧
    ((bialg2.type 6 = VertexType.Z ∧ bialg2.type 7 = VertexType.X) ∨
      (bialg2.type 6 = VertexType.X ∧ bialg2.type 7 = VertexType.Z)) ∧
    (bialg2.phase 6 = Phase.zero ∧ bialg2.phase 7 = Phase.zero) ∧
    (2 ≤ bialg2.getNumNeighbors 6 ∧ 2 ≤ bialg2.getNumNeighbors 7) ∧
    ((bialg2.getCopiedNeighbors 6).Nodup ∧ (bialg2.getCopiedNeighbors 7).Nodup) ∧
    (∀ v ∈ bialg2.getCopiedNeighbors 6,
      bialg2.type v = bialg2.type 7 ∧ bialg2.phase v = Phase.zero) ∧
    (∀ v ∈ bialg2.getCopiedNeighbors 7,
      bialg2.type v = bialg2.type 6 ∧ bialg2.phase v = Phase.zero) ∧
    (∀ nb ∈ bialg2.neighborMap 6, bialg2.edgeType nb.2 = EdgeType.SIMPLE) ∧
    (∀ nb ∈ bialg2.neighborMap 7, bialg2.edgeType nb.2 = EdgeType.SIMPLE) :=
  ⟨by decide,
    C6_bialg_match_records_eligible (ZXRule.init EdgePair) bialg2 (by decide) ((6, 7), 5)
      (by decide)⟩

/-- C7: every record `(u, v)` of `SpiderFusion::match` is a Simple edge of the edge list of the
graph whose two endpoints have the same type, and that type is Z or X. -/
theorem C7_sfusion_match_records_sound (r : ZXRule (Nat × Nat)) (g : ZXGraph) (u v : Nat)
    (hrec : (u, v) ∈ (SpiderFusion.match r g).matchTypeVec) :
    (∃ p, ((u, v), p) ∈ g.edges ∧ g.edgeType p = EdgeType.SIMPLE) ∧
    g.type u = g.type v ∧ (g.type u = VertexType.Z ∨ g.type u = VertexType.X) :=
  SpiderFusion.scan_sound g (u, v) hrec

/-- C7 at the record `(3, 2)` of the path `0 - 1 - 2 - 3`. -/
theorem C7_sfusion_match_records_sound_witness :
    (3, 2) ∈ (SpiderFusion.match (ZXRule.init (Nat × Nat)) path4).matchTypeVec ∧
    (∃ p, ((3, 2), p) ∈ path4.edges ∧ path4.edgeType p = EdgeType.SIMPLE) ∧
    path4.type 3 = path4.type 2 ∧ (path4.type 3 = VertexType.Z ∨ path4.type 3 = VertexType.X) :=
  ⟨by decide, C7_sfusion_match_records_sound (ZXRule.init (Nat × Nat)) path4 3 2 (by decide)⟩

/-- C8: on the well-formed path `0 - 1 - 2 - 3` of Z-spiders `SpiderFusion::match` accepts
`(0, 1)` and `(3, 2)`, and `SpiderFusion::rewrite` then emits the edge-table keys `(0, 2)` and
`(3, 1)` while it schedules `1` and `2` for removal: both keys name a removed vertex. -/
theorem C8_sfusion_key_names_removed_vertex :
    path4.WellFormed ∧ path4.Symmetric ∧
    (SpiderFusion.match (ZXRule.init (Nat × Nat)) path4).matchTypeVec = [(0, 1), (3, 2)] ∧
    (SpiderFusion.rewrite
      (SpiderFusion.match (ZXRule.init (Nat × Nat)) path4) path4).rule.edgeTableKeys =
        [(0, 0), (0, 2), (3, 1), (3, 3)] ∧
    (SpiderFusion.rewrite
      (SpiderFusion.match (ZXRule.init (Nat × Nat)) path4) path4).rule.edgeTableValues =
        [(0, 0), (1, 0), (1, 0), (0, 0)] ∧
    (SpiderFusion.rewrite
      (SpiderFusion.match (ZXRule.init (Nat × Nat)) path4) path4).rule.removeVertices =
        [1, 2] := by
  decide

/-- C9: on a well-formed graph with a symmetric neighbour relation, after `Bialgebra::match`
followed by `Bialgebra::rewrite` no edge-table key has an endpoint among the vertices that the
same rewrite schedules for removal. -/
theorem C9_bialg_keys_clear_of_removed (r : ZXRule EdgePair) (g : ZXGraph)
    (hwf : g.WellFormed) (hsym : g.Symmetric) :
    ∀ k ∈ (Bialgebra.rewrite (Bialgebra.match r g) g).edgeTableKeys,
      k.1 ∉ (Bialgebra.rewrite (Bialgebra.match r g) g).removeVertices ∧
      k.2 ∉ (Bialgebra.rewrite (Bialgebra.match r g) g).removeVertices :=
  Bialgebra.rewrite_keys_clear r g hwf hsym

/-- C9 at the diagram `bialg2`, where eight keys are emitted and four vertices removed. -/
theorem C9_bialg_keys_clear_of_removed_witness :
    (bialg2.WellFormed ∧ bialg2.Symmetric) ∧
    (Bialgebra.rewrite (Bialgebra.match (ZXRule.init EdgePair) bialg2) bialg2).edgeTableKeys =
      [(2, 4), (2, 5), (3, 4), (3, 5), (8, 10), (8, 11), (9, 10), (9, 11)] ∧
    (Bialgebra.rewrite (Bialgebra.match (ZXRule.init EdgePair) bialg2) bialg2).removeVertices =
      [0, 1, 6, 7] ∧
    ∀ k ∈ (Bialgebra.rewrite (Bialgebra.match (ZXRule.init EdgePair) bialg2) bialg2).edgeTableKeys,
      k.1 ∉ (Bialgebra.rewrite
        (Bialgebra.match (ZXRule.init EdgePair) bialg2) bialg2).removeVertices ∧
      k.2 ∉ (Bialgebra.rewrite
        (Bialgebra.match (ZXRule.init EdgePair) bialg2) bialg2).removeVertices :=
  ⟨by decide, by decide, by decide,
    C9_bialg_keys_clear_of_removed (ZXRule.init EdgePair) bialg2 (by decide) (by decide)⟩

/-- C10, as stated, fails: on the diagram `fuse3` the call of `SpiderFusion::rewrite` changes
the phase of the vertex `0` from π/2 to 3π/4. -/
theorem C10_sfusion_rewrite_changes_phase :
    fuse3.phase 0 = ⟨1, 2⟩ ∧
    (SpiderFusion.rewrite
      (SpiderFusion.match (ZXRule.init (Nat × Nat)) fuse3) fuse3).graph.phase 0 = ⟨3, 4⟩ ∧
    (SpiderFusion.rewrite
      (SpiderFusion.match (ZXRule.init (Nat × Nat)) fuse3) fuse3).graph.phase 0 ≠
        fuse3.phase 0 := by
  decide

/-- C10, amended: `SpiderFusion::rewrite` leaves the vertex list, the edge list, every vertex
type, every neighbour multiset and every edge type of the graph as they were, and it leaves
the phase of every vertex that is not the first endpoint of a match record as it was. -/
theorem C10_sfusion_rewrite_frame (r : ZXRule (Nat × Nat)) (g : ZXGraph) :
    (SpiderFusion.rewrite r g).graph.vertices = g.vertices ∧
    (SpiderFusion.rewrite r g).graph.edges = g.edges ∧
    (SpiderFusion.rewrite r g).graph.type = g.type ∧
    (SpiderFusion.rewrite r g).graph.neighborMap = g.neighborMap ∧
    (SpiderFusion.rewrite r g).graph.edgeType = g.edgeType ∧
    ∀ x, (∀ m ∈ r.matchTypeVec, m.1 ≠ x) →
      (SpiderFusion.rewrite r g).graph.phase x = g.phase x :=
  ⟨(SpiderFusion.foldl_rewriteRecord_frame r.matchTypeVec _).1.1,
    (SpiderFusion.foldl_rewriteRecord_frame r.matchTypeVec _).1.2.1,
    (SpiderFusion.foldl_rewriteRecord_frame r.matchTypeVec _).1.2.2.1,
    (SpiderFusion.foldl_rewriteRecord_frame r.matchTypeVec _).1.2.2.2.1,
    (SpiderFusion.foldl_rewriteRecord_frame r.matchTypeVec _).1.2.2.2.2,
    (SpiderFusion.foldl_rewriteRecord_frame r.matchTypeVec _).2.1⟩

/-- C10, amended, at the diagram `fuse3`: the vertices `1` and `2`, which are not the first
endpoint of the record `(0, 1)`, keep their phases. -/
theorem C10_sfusion_rewrite_frame_witness :
    (∀ m ∈ (SpiderFusion.match (ZXRule.init (Nat × Nat)) fuse3).matchTypeVec, m.1 ≠ 1) ∧
    (SpiderFusion.rewrite
      (SpiderFusion.match (ZXRule.init (Nat × Nat)) fuse3) fuse3).graph.phase 1 =
        fuse3.phase 1 :=
  ⟨by decide,
    (C10_sfusion_rewrite_frame (SpiderFusion.match (ZXRule.init (Nat × Nat)) fuse3) fuse3).2.2.2.2.2
      1 (by decide)⟩

/-! ## Closed form of the body of the spider-fusion rewrite loop -/

namespace SpiderFusion

theorem neighborStep_of_done (v0 v1 : Nat) (lp : NeighborLoop) (w : Nat)
    (h : lp.done w = true) : neighborStep v0 v1 lp w = lp := by
  unfold neighborStep
  rw [if_pos h]

/-- An iteration for a neighbour other than `v1` writes neither the graph nor the edges to
remove, and leaves `done` at `v1` as it was. -/
theorem neighborStep_other (v0 v1 : Nat) (lp : NeighborLoop) (w : Nat) (hw : v1 ≠ w) :
    (neighborStep v0 v1 lp w).st.graph = lp.st.graph ∧
    (neighborStep v0 v1 lp w).st.rule.removeEdges = lp.st.rule.removeEdges ∧
    (neighborStep v0 v1 lp w).done v1 = lp.done v1 := by
  unfold neighborStep
  dsimp only
  by_cases hd : lp.done w = true
  · rw [if_pos hd]
    exact ⟨rfl, rfl, rfl⟩
  · rw [if_neg hd, if_neg hw]
    refine ⟨rfl, ?_, ?_⟩
    · split_ifs <;> rfl
    · show (if v1 = w then true else lp.done v1) = lp.done v1
      rw [if_neg hw]

/-- The iteration for the neighbour `v1` itself, met with `done` still false. -/
theorem neighborStep_self (v0 v1 : Nat) (lp : NeighborLoop) (hd : lp.done v1 = false) :
    (neighborStep v0 v1 lp v1).st.graph =
      lp.st.graph.setPhase v0
        (Phase.add (lp.st.graph.phase (if v0 ≠ v1 then v1 else v0))
          (Phase.ofInt (hadamardCount lp.st.graph v1 v1 / 2 : Nat))) ∧
    (neighborStep v0 v1 lp v1).st.rule.removeEdges =
      lp.st.rule.removeEdges ++
        (if v0 ≠ v1 then []
         else (selfHadaLoopCandidate lp.st.graph v1 v1).map (fun c => ((v0, v1), c))) ∧
    (neighborStep v0 v1 lp v1).done v1 = true := by
  unfold neighborStep
  dsimp only
  have hd' : ¬ lp.done v1 = true := by rw [hd]; exact Bool.false_ne_true
  rw [if_neg hd', if_pos rfl]
  by_cases hne : v0 ≠ v1
  · simp only [if_pos hne, List.append_nil]
    exact ⟨trivial, trivial, if_pos trivial⟩
  · simp only [if_neg hne]
    exact ⟨trivial, trivial, if_pos trivial⟩

/-- The neighbour loop writes the graph and the edges to remove once, at the first meeting
with `v1`, and not at all when `v1` is not among the neighbours or is done already. -/
theorem foldl_neighborStep_self (v0 v1 : Nat) (ws : List Nat) :
    ∀ lp : NeighborLoop,
      ((lp.done v1 = true ∨ v1 ∉ ws) →
        (ws.foldl (neighborStep v0 v1) lp).st.graph = lp.st.graph ∧
        (ws.foldl (neighborStep v0 v1) lp).st.rule.removeEdges = lp.st.rule.removeEdges) ∧
      (lp.done v1 = false → v1 ∈ ws →
        (ws.foldl (neighborStep v0 v1) lp).st.graph =
          lp.st.graph.setPhase v0
            (Phase.add (lp.st.graph.phase (if v0 ≠ v1 then v1 else v0))
              (Phase.ofInt (hadamardCount lp.st.graph v1 v1 / 2 : Nat))) ∧
        (ws.foldl (neighborStep v0 v1) lp).st.rule.removeEdges =
          lp.st.rule.removeEdges ++
            (if v0 ≠ v1 then []
             else (selfHadaLoopCandidate lp.st.graph v1 v1).map (fun c => ((v0, v1), c)))) := by
  induction ws with
  | nil =>
    intro lp
    exact ⟨fun _ => ⟨rfl, rfl⟩, fun _ h => absurd h (List.not_mem_nil _)⟩
  | cons w ws ih =>
    intro lp
    rw [List.foldl_cons]
    obtain ⟨ihA, ihB⟩ := ih (neighborStep v0 v1 lp w)
    by_cases hw : v1 = w
    · subst hw
      constructor
      · rintro (hd | hnot)
        · rw [neighborStep_of_done v0 v1 lp v1 hd]
          exact (ih lp).1 (Or.inl hd)
        · exact absurd (List.mem_cons_self _ _) hnot
      · intro hd _
        obtain ⟨s1, s2, s3⟩ := neighborStep_self v0 v1 lp hd
        obtain ⟨a1, a2⟩ := ihA (Or.inl s3)
        rw [a1, a2, s1, s2]
        exact ⟨rfl, rfl⟩
    · obtain ⟨o1, o2, o3⟩ := neighborStep_other v0 v1 lp w hw
      constructor
      · rintro (hd | hnot)
        · obtain ⟨a1, a2⟩ := ihA (Or.inl (o3.trans hd))
          rw [a1, a2, o1, o2]
          exact ⟨rfl, rfl⟩
        · obtain ⟨a1, a2⟩ := ihA (Or.inr (fun h => hnot (List.mem_cons_of_mem _ h)))
          rw [a1, a2, o1, o2]
          exact ⟨rfl, rfl⟩
      · intro hd hmem
        have hmem' : v1 ∈ ws := by
          rcases List.mem_cons.mp hmem with h | h
          · exact absurd h hw
          · exact h
        obtain ⟨b1, b2⟩ := ihB (o3.trans hd) hmem'
        rw [b1, b2, o1, o2]
        exact ⟨rfl, rfl⟩

theorem neighborLoop_closed (v0 v1 : Nat) (st : RewriteState) :
    (neighborLoop v0 v1 st).graph =
      (if v1 ∈ st.graph.getNeighbors v1 then
        st.graph.setPhase v0
          (Phase.add (st.graph.phase (if v0 ≠ v1 then v1 else v0))
            (Phase.ofInt (hadamardCount st.graph v1 v1 / 2 : Nat)))
       else st.graph) ∧
    (neighborLoop v0 v1 st).rule.removeEdges =
      st.rule.removeEdges ++
        (if v1 ∈ st.graph.getNeighbors v1 then
          (if v0 ≠ v1 then []
           else (selfHadaLoopCandidate st.graph v1 v1).map (fun c => ((v0, v1), c)))
         else []) := by
  unfold neighborLoop
  obtain ⟨hA, hB⟩ := foldl_neighborStep_self v0 v1 (st.graph.getNeighbors v1)
    { st := st, done := fun _ => false }
  by_cases hmem : v1 ∈ st.graph.getNeighbors v1
  · rw [if_pos hmem, if_pos hmem]
    exact hB rfl hmem
  · rw [if_neg hmem, if_neg hmem, List.append_nil]
    exact hA (Or.inr hmem)

/-- The phases after the body of the loop for the record `m`: the first endpoint carries
`recordPhase`, every other vertex its phase from before. -/
theorem rewriteRecord_phase (st : RewriteState) (m : Nat × Nat) (x : Nat) :
    (rewriteRecord st m).graph.phase x =
      if x = m.1 then recordPhase st.graph m else st.graph.phase x := by
  by_cases hx : x = m.1
  · rw [if_pos hx, hx]
    unfold rewriteRecord
    rw [(finishRecord_frame _ _ _).1, (neighborLoop_closed _ _ _).1]
    obtain ⟨a1, a2, _, a4⟩ := mergePhase_frame m.1 m.2 st
    have hn : (mergePhase m.1 m.2 st).graph.getNeighbors m.2 = st.graph.getNeighbors m.2 := by
      unfold ZXGraph.getNeighbors; rw [a1.2.2.2.1]
    have hh : hadamardCount (mergePhase m.1 m.2 st).graph m.2 m.2 =
        hadamardCount st.graph m.2 m.2 := by
      unfold hadamardCount equalRange; rw [a1.2.2.2.1, a1.2.2.2.2]
    rw [hn, hh]
    unfold recordPhase
    by_cases hne : m.1 ≠ m.2
    · rw [if_pos hne, if_pos hne]
      by_cases hself : m.2 ∈ st.graph.getNeighbors m.2
      · rw [if_pos hself, if_pos hself, setPhase_phase_self, a2 m.2 (Ne.symm hne)]
      · rw [if_neg hself, if_neg hself, a4 hne]
    · have heq : m.1 = m.2 := not_not.mp hne
      have hm : (mergePhase m.1 m.2 st).graph = st.graph := by
        unfold mergePhase; rw [if_neg hne]
      rw [if_neg hne, if_neg hne, hm, ← heq]
      by_cases hself : m.1 ∈ st.graph.getNeighbors m.1
      · rw [if_pos hself, if_pos hself, setPhase_phase_self]
      · rw [if_neg hself, if_neg hself]
  · rw [if_neg hx]
    exact (rewriteRecord_frame st m).2.1 x hx

/-- The edges to remove after the body of the loop for the record `m`. -/
theorem rewriteRecord_removeEdges (st : RewriteState) (m : Nat × Nat) :
    (rewriteRecord st m).rule.removeEdges =
      st.rule.removeEdges ++ recordRemoveEdges st.graph m := by
  unfold rewriteRecord recordRemoveEdges
  obtain ⟨a1, _, a3, _⟩ := mergePhase_frame m.1 m.2 st
  have hn : (mergePhase m.1 m.2 st).graph.getNeighbors m.2 = st.graph.getNeighbors m.2 := by
    unfold ZXGraph.getNeighbors; rw [a1.2.2.2.1]
  have hc : selfHadaLoopCandidate (mergePhase m.1 m.2 st).graph m.2 m.2 =
      selfHadaLoopCandidate st.graph m.2 m.2 := by
    unfold selfHadaLoopCandidate equalRange; rw [a1.2.2.2.1, a1.2.2.2.2]
  obtain ⟨b1, b2⟩ := neighborLoop_closed m.1 m.2 (mergePhase m.1 m.2 st)
  rw [hn, hc, a3] at b2
  by_cases hne : m.1 ≠ m.2
  · unfold finishRecord
    rw [if_pos hne, if_pos hne]
    show (neighborLoop m.1 m.2 (mergePhase m.1 m.2 st)).rule.removeEdges = _
    rw [b2, if_pos hne]
    simp
  · have hs := (neighborLoop_frame m.1 m.2 (mergePhase m.1 m.2 st)).1
    unfold finishRecord
    rw [if_neg hne, if_neg hne]
    show (neighborLoop m.1 m.2 (mergePhase m.1 m.2 st)).rule.removeEdges ++ _ = _
    have he : equalRange (neighborLoop m.1 m.2 (mergePhase m.1 m.2 st)).graph m.1 m.2 =
        equalRange st.graph m.1 m.2 := by
      unfold equalRange; rw [hs.2.2.2.1, a1.2.2.2.1]
    rw [b2, if_neg hne, he, hs.2.2.2.2, a1.2.2.2.2, List.append_assoc]

end SpiderFusion

namespace SpiderFusion

theorem neighborStep_table_of_eq (v0 v1 : Nat) (heq : v0 = v1) (lp : NeighborLoop) (w : Nat) :
    (neighborStep v0 v1 lp w).st.rule.edgeTableKeys = lp.st.rule.edgeTableKeys ∧
    (neighborStep v0 v1 lp w).st.rule.edgeTableValues = lp.st.rule.edgeTableValues := by
  unfold neighborStep
  dsimp only
  split_ifs <;> first
    | exact ⟨rfl, rfl⟩
    | contradiction

theorem foldl_neighborStep_table_of_eq (v0 v1 : Nat) (heq : v0 = v1) (ws : List Nat) :
    ∀ lp : NeighborLoop,
      (ws.foldl (neighborStep v0 v1) lp).st.rule.edgeTableKeys = lp.st.rule.edgeTableKeys ∧
      (ws.foldl (neighborStep v0 v1) lp).st.rule.edgeTableValues =
        lp.st.rule.edgeTableValues := by
  induction ws with
  | nil => intro lp; exact ⟨rfl, rfl⟩
  | cons w ws ih =>
    intro lp
    rw [List.foldl_cons]
    obtain ⟨a1, a2⟩ := ih (neighborStep v0 v1 lp w)
    obtain ⟨b1, b2⟩ := neighborStep_table_of_eq v0 v1 heq lp w
    exact ⟨a1.trans b1, a2.trans b2⟩

theorem emitted_congr {g g' : ZXGraph} (h : SameShape g g') (v0 v1 : Nat) (ws : List Nat) :
    ∀ done : Nat → Bool, emitted g' v0 v1 ws done = emitted g v0 v1 ws done := by
  induction ws with
  | nil => intro done; rfl
  | cons w ws ih =>
    intro done
    by_cases hd : done w = true
    · rw [emitted_cons_done _ _ _ _ _ _ hd, emitted_cons_done _ _ _ _ _ _ hd, ih]
    · rw [emitted_cons_fresh _ _ _ _ _ _ hd, emitted_cons_fresh _ _ _ _ _ _ hd, ih,
        entryFor_congr h]

theorem getNeighbors_congr {g g' : ZXGraph} (h : SameShape g g') (v : Nat) :
    g'.getNeighbors v = g.getNeighbors v := by
  unfold ZXGraph.getNeighbors; rw [h.2.2.2.1]

theorem recordEntries_congr {g g' : ZXGraph} (h : SameShape g g') (m : Nat × Nat) :
    recordEntries g' m = recordEntries g m := by
  unfold recordEntries
  rw [getNeighbors_congr h, emitted_congr h]

theorem recordRemoveEdges_congr {g g' : ZXGraph} (h : SameShape g g') (m : Nat × Nat) :
    recordRemoveEdges g' m = recordRemoveEdges g m := by
  unfold recordRemoveEdges selfHadaLoopCandidate equalRange
  rw [getNeighbors_congr h, h.2.2.2.1, h.2.2.2.2]

/-- The edge table after the body of the loop for any record `m`. -/
theorem rewriteRecord_entries_eq (st : RewriteState) (m : Nat × Nat) :
    (rewriteRecord st m).rule.edgeTableKeys =
      st.rule.edgeTableKeys ++ (recordEntries st.graph m).map Prod.fst ∧
    (rewriteRecord st m).rule.edgeTableValues =
      st.rule.edgeTableValues ++ (recordEntries st.graph m).map Prod.snd := by
  unfold recordEntries
  by_cases hne : m.1 ≠ m.2
  · rw [if_pos hne]
    exact rewriteRecord_table st m hne
  · rw [if_neg hne]
    have heq : m.1 = m.2 := not_not.mp hne
    unfold rewriteRecord
    obtain ⟨_, _, _, c4, c5⟩ :=
      finishRecord_frame m.1 m.2 (neighborLoop m.1 m.2 (mergePhase m.1 m.2 st))
    obtain ⟨a1, a2⟩ := foldl_neighborStep_table_of_eq m.1 m.2 heq
      ((mergePhase m.1 m.2 st).graph.getNeighbors m.2)
      { st := mergePhase m.1 m.2 st, done := fun _ => false }
    rw [c4, c5]
    unfold neighborLoop
    rw [a1, a2, (mergePhase_frame m.1 m.2 st).2.2.1]
    simp

/-- The delta after the loop of `rewrite` over any list of records: every list of the delta
is the list from before followed by what each record adds, in the order of the records. -/
theorem foldl_rewriteRecord_delta (g : ZXGraph) (ms : List (Nat × Nat)) :
    ∀ st : RewriteState, SameShape g st.graph →
      (ms.foldl rewriteRecord st).rule.removeVertices =
        st.rule.removeVertices ++ ms.flatMap recordRemoveVertices ∧
      (ms.foldl rewriteRecord st).rule.removeEdges =
        st.rule.removeEdges ++ ms.flatMap (recordRemoveEdges g) ∧
      (ms.foldl rewriteRecord st).rule.edgeTableKeys =
        st.rule.edgeTableKeys ++ (ms.flatMap (recordEntries g)).map Prod.fst ∧
      (ms.foldl rewriteRecord st).rule.edgeTableValues =
        st.rule.edgeTableValues ++ (ms.flatMap (recordEntries g)).map Prod.snd := by
  induction ms with
  | nil => intro st _; simp
  | cons m ms ih =>
    intro st hs
    rw [List.foldl_cons]
    obtain ⟨f1, _, f3, _, _⟩ := rewriteRecord_frame st m
    obtain ⟨i1, i2, i3, i4⟩ := ih (rewriteRecord st m) (hs.trans f1)
    obtain ⟨e1, e2⟩ := rewriteRecord_entries_eq st m
    rw [i1, i2, i3, i4, f3, rewriteRecord_removeEdges, e1, e2, recordEntries_congr hs,
      recordRemoveEdges_congr hs]
    simp only [List.flatMap_cons, List.map_append, List.append_assoc]
    exact ⟨rfl, trivial, trivial, trivial⟩

theorem zip_map_fst_map_snd {α β : Type} (l : List (α × β)) :
    (l.map Prod.fst).zip (l.map Prod.snd) = l := by
  induction l with
  | nil => rfl
  | cons a l ih => simp [ih]

theorem emitted_loop_key_zero (g : ZXGraph) (v0 v1 : Nat) (ws : List Nat) :
    ∀ (done : Nat → Bool), ∀ e ∈ emitted g v0 v1 ws done, e.1.1 = e.1.2 → e.2.1 = 0 := by
  induction ws with
  | nil => intro done e he; simp [emitted] at he
  | cons w ws ih =>
    intro done e he hkey
    by_cases hd : done w = true
    · rw [emitted_cons_done _ _ _ _ _ _ hd] at he
      exact ih _ e he hkey
    · rw [emitted_cons_fresh _ _ _ _ _ _ hd] at he
      rcases List.mem_cons.mp he with h | h
      · rw [h] at hkey ⊢
        unfold entryFor at hkey ⊢
        exact if_pos hkey.symm
      · exact ih _ e h hkey

/-- The edge table of `rewrite`, entry by entry, and the Simple count of its entries keyed by
one vertex taken twice. -/
theorem rewrite_table_entries (r : ZXRule (Nat × Nat)) (g : ZXGraph) :
    (rewrite r g).rule.edgeTableKeys.zip (rewrite r g).rule.edgeTableValues =
      r.matchTypeVec.flatMap (recordEntries g) ∧
    ∀ e ∈ r.matchTypeVec.flatMap (recordEntries g), e.1.1 = e.1.2 → e.2.1 = 0 := by
  constructor
  · unfold rewrite
    obtain ⟨_, _, h3, h4⟩ := foldl_rewriteRecord_delta g r.matchTypeVec
      { rule := r.reset, graph := g } (SameShape.refl g)
    rw [h3, h4]
    show ([] ++ _).zip ([] ++ _) = _
    rw [List.nil_append, List.nil_append, zip_map_fst_map_snd]
  · intro e he hkey
    obtain ⟨m, _, hm⟩ := List.mem_flatMap.mp he
    unfold recordEntries at hm
    split_ifs at hm with h
    · exact emitted_loop_key_zero g _ _ _ _ e hm hkey
    · exact absurd hm (List.not_mem_nil _)

end SpiderFusion

/-! ## The calls of `match` and of the bialgebra `rewrite` leave the store as it was -/

namespace ZXGraph

namespace Call

theorem ite_pair {α β : Type} (P : Prop) [Decidable P] (a b : α) (g : β) :
    (if P then (a, g) else (b, g)) = (if P then a else b, g) := by
  split_ifs <;> rfl

theorem reads_test {α : Type} {c : ZXGraph → α × ZXGraph} {f : ZXGraph → α} (hc : Reads c f)
    (p : α → Bool) : Reads (test c p) (fun g => p (f g)) := by
  intro g
  unfold test
  rw [hc g]

theorem reads_same {α : Type} [DecidableEq α] {a b : ZXGraph → α × ZXGraph}
    {fa fb : ZXGraph → α} (ha : Reads a fa) (hb : Reads b fb) :
    Reads (same a b) (fun g => decide (fa g = fb g)) := by
  intro g
  unfold same
  rw [ha g, hb g]

theorem reads_either {a b : ZXGraph → Bool × ZXGraph} {fa fb : ZXGraph → Bool}
    (ha : Reads a fa) (hb : Reads b fb) : Reads (either a b) (fun g => fa g || fb g) := by
  intro g
  unfold either
  rw [ha g, hb g]
  by_cases h : fa g = true
  · rw [if_pos h]
    show (fa g, g) = (fa g || fb g, g)
    rw [h]
    rfl
  · rw [if_neg h]
    show (fb g, g) = (fa g || fb g, g)
    rw [(Bool.not_eq_true _).mp h]
    rfl

theorem reads_both {a b : ZXGraph → Bool × ZXGraph} {fa fb : ZXGraph → Bool}
    (ha : Reads a fa) (hb : Reads b fb) : Reads (both a b) (fun g => fa g && fb g) := by
  intro g
  unfold both
  rw [ha g, hb g]
  by_cases h : fa g = true
  · rw [if_pos h]
    show (fb g, g) = (fa g && fb g, g)
    rw [h]
    rfl
  · rw [if_neg h]
    show (fa g, g) = (fa g && fb g, g)
    rw [(Bool.not_eq_true _).mp h]
    rfl

theorem reads_neg {a : ZXGraph → Bool × ZXGraph} {fa : ZXGraph → Bool} (ha : Reads a fa) :
    Reads (neg a) (fun g => !(fa g)) := by
  intro g
  unfold neg
  rw [ha g]

theorem reads_allOf {α : Type} {p : α → ZXGraph → Bool × ZXGraph} {f : α → ZXGraph → Bool}
    (hp : ∀ v, Reads (p v) (f v)) (l : List α) :
    Reads (allOf p l) (fun g => l.all (fun v => f v g)) := by
  induction l with
  | nil => intro g; rfl
  | cons v vs ih =>
    intro g
    rw [allOf, hp v g]
    by_cases h : f v g = true
    · rw [if_pos h, ih g]
      simp [h]
    · rw [if_neg h]
      simp [h]

/-- The call of the mutator `setPhase` is told apart by the store: it does not leave every
store as it found it. -/
theorem setPhase_changes_store :
    ∃ g : ZXGraph, (setPhase 0 (Phase.ofInt 1) g).2 ≠ g := by
  refine ⟨fuse3, fun h => ?_⟩
  have h0 : (setPhase 0 (Phase.ofInt 1) fuse3).2.phase 0 = fuse3.phase 0 := by rw [h]
  revert h0
  decide

end Call

end ZXGraph

namespace SpiderFusion

theorem buildEdge2idxOn_eq (es : List EdgePair) :
    ∀ (i : Nat) (m : EdgePair → Nat) (g : ZXGraph),
      buildEdge2idxOn es i m g = (buildEdge2idx es i m, g) := by
  induction es with
  | nil => intro i m g; rfl
  | cons e es ih =>
    intro i m g
    rw [buildEdge2idxOn, buildEdge2idx]
    exact ih _ _ _

theorem sameColour_eq (v0 v1 : Nat) (g : ZXGraph) :
    sameColour v0 v1 g =
      (decide (g.type v0 = g.type v1 ∧ (g.type v0 = VertexType.X ∨ g.type v0 = VertexType.Z)),
        g) := by
  have h := ZXGraph.Call.reads_both
    (ZXGraph.Call.reads_same (a := ZXGraph.Call.getType v0) (b := ZXGraph.Call.getType v1)
      (fun _ => rfl) (fun _ => rfl))
    (ZXGraph.Call.reads_either
      (ZXGraph.Call.reads_test (c := ZXGraph.Call.getType v0) (fun _ => rfl)
        (fun t => decide (t = VertexType.X)))
      (ZXGraph.Call.reads_test (c := ZXGraph.Call.getType v0) (fun _ => rfl)
        (fun t => decide (t = VertexType.Z)))) g
  unfold sameColour
  rw [h]
  simp

/-- One iteration of the scan on the store returns what the iteration computes from the graph
and leaves the store as it was: every call it makes is a read. -/
theorem sfusion_matchStepOn_eq (idx : EdgePair → Nat) (st : Scan) (e : EdgePair)
    (g : ZXGraph) : matchStepOn idx st e g = (matchStep g idx st e, g) := by
  unfold matchStepOn matchStep
  simp only [sameColour_eq, ZXGraph.Call.edgeType, ZXGraph.Call.getNeighborMap,
    ZXGraph.Call.ite_pair, decide_eq_true_eq]

theorem scanOn_eq (idx : EdgePair → Nat) (es : List EdgePair) :
    ∀ (st : Scan) (g : ZXGraph), scanOn idx es st g = (es.foldl (matchStep g idx) st, g) := by
  induction es with
  | nil => intro st g; rfl
  | cons e es ih =>
    intro st g
    rw [scanOn, List.foldl_cons]
    have h : matchStepOn idx st e (ZXGraph.Call.getNumEdges g).2 = (matchStep g idx st e, g) :=
      sfusion_matchStepOn_eq idx st e g
    rw [h]
    exact ih _ _

/-- The method `SpiderFusion::match` on the store returns the rule object of `match` and
leaves the store as it was. -/
theorem sfusion_matchOn_eq (r : ZXRule (Nat × Nat)) (g : ZXGraph) :
    matchOn r g = («match» r g, g) := by
  unfold matchOn
  simp only [ZXGraph.Call.getEdges, ZXGraph.Call.getNumEdges, buildEdge2idxOn_eq, scanOn_eq]
  rfl

end SpiderFusion

namespace Bialgebra

theorem check_duplicated_vertex_fromOn_eq (vs : List Nat) :
    ∀ (appeared : List Nat) (g : ZXGraph),
      check_duplicated_vertex_fromOn vs appeared g =
        (check_duplicated_vertex_from vs appeared, g) := by
  induction vs with
  | nil => intro appeared g; rfl
  | cons v vs ih =>
    intro appeared g
    rw [check_duplicated_vertex_fromOn, check_duplicated_vertex_from]
    by_cases h : v ∉ appeared
    · have h1 : (ZXGraph.Call.getId v g).1 ∉ appeared := h
      rw [if_pos h1, if_pos h]
      exact ih _ _
    · have h1 : ¬ ((ZXGraph.Call.getId v g).1 ∉ appeared) := h
      rw [if_neg h1, if_neg h]
      rfl

theorem check_duplicated_vertexOn_reads (vec : List Nat) :
    ZXGraph.Call.Reads (check_duplicated_vertexOn vec) (fun _ => check_duplicated_vertex vec) :=
  fun g => check_duplicated_vertex_fromOn_eq vec [] g

theorem buildId2idxOn_eq (vs : List Nat) :
    ∀ (cnt : Nat) (m : Nat → Nat) (g : ZXGraph),
      buildId2idxOn vs cnt m g = (buildId2idx vs cnt m, g) := by
  induction vs with
  | nil => intro cnt m g; rfl
  | cons v vs ih =>
    intro cnt m g
    rw [buildId2idxOn, buildId2idx]
    exact ih _ _ _

theorem markTakenOn_eq (idx : Nat → Nat) (vs : List Nat) :
    ∀ (taken : List Bool) (g : ZXGraph),
      markTakenOn idx vs taken g = (markTaken idx vs taken, g) := by
  induction vs with
  | nil => intro taken g; rfl
  | cons v vs ih =>
    intro taken g
    rw [markTakenOn, ih]
    rfl

theorem somePhase_eq (left right : Nat) (g : ZXGraph) :
    somePhase left right g =
      (decide (g.phase left ≠ Phase.zero ∨ g.phase right ≠ Phase.zero), g) := by
  have h := ZXGraph.Call.reads_either
    (ZXGraph.Call.reads_test (c := ZXGraph.Call.getPhase left) (fun _ => rfl)
      (fun p => decide (p ≠ Phase.zero)))
    (ZXGraph.Call.reads_test (c := ZXGraph.Call.getPhase right) (fun _ => rfl)
      (fun p => decide (p ≠ Phase.zero))) g
  unfold somePhase
  rw [h]
  simp

theorem notOpposite_eq (left right : Nat) (g : ZXGraph) :
    notOpposite left right g =
      (decide (¬ ((g.type left = VertexType.X ∧ g.type right = VertexType.Z) ∨
        (g.type left = VertexType.Z ∧ g.type right = VertexType.X))), g) := by
  have h := ZXGraph.Call.reads_neg (ZXGraph.Call.reads_either
    (ZXGraph.Call.reads_both
      (ZXGraph.Call.reads_test (c := ZXGraph.Call.getType left) (fun _ => rfl)
        (fun t => decide (t = VertexType.X)))
      (ZXGraph.Call.reads_test (c := ZXGraph.Call.getType right) (fun _ => rfl)
        (fun t => decide (t = VertexType.Z))))
    (ZXGraph.Call.reads_both
      (ZXGraph.Call.reads_test (c := ZXGraph.Call.getType left) (fun _ => rfl)
        (fun t => decide (t = VertexType.Z)))
      (ZXGraph.Call.reads_test (c := ZXGraph.Call.getType right) (fun _ => rfl)
        (fun t => decide (t = VertexType.X))))) g
  unfold notOpposite
  rw [h]
  simp

theorem someGround_eq (left right : Nat) (g : ZXGraph) :
    someGround left right g =
      (decide (g.getNumNeighbors left = 1 ∨ g.getNumNeighbors right = 1), g) := by
  have h := ZXGraph.Call.reads_either
    (ZXGraph.Call.reads_test (c := ZXGraph.Call.getNumNeighbors left) (fun _ => rfl)
      (fun n => decide (n = 1)))
    (ZXGraph.Call.reads_test (c := ZXGraph.Call.getNumNeighbors right) (fun _ => rfl)
      (fun n => decide (n = 1))) g
  unfold someGround
  rw [h]
  simp

theorem someDuplicated_eq (nl nr : List Nat) (g : ZXGraph) :
    someDuplicated nl nr g =
      (decide (check_duplicated_vertex nl = true ∨ check_duplicated_vertex nr = true), g) := by
  have h := ZXGraph.Call.reads_either (check_duplicated_vertexOn_reads nl)
    (check_duplicated_vertexOn_reads nr) g
  unfold someDuplicated
  rw [h]
  simp

theorem notAllLike_eq (nbrs : List Nat) (other : Nat) (g : ZXGraph) :
    notAllLike nbrs other g =
      (decide (¬ (nbrs.all
        (fun v => decide (g.phase v = Phase.zero ∧ g.type v = g.type other)) = true)), g) := by
  have h := ZXGraph.Call.reads_neg (ZXGraph.Call.reads_allOf
    (p := fun v => ZXGraph.Call.both
      (ZXGraph.Call.test (ZXGraph.Call.getPhase v) (fun p => decide (p = Phase.zero)))
      (ZXGraph.Call.same (ZXGraph.Call.getType v) (ZXGraph.Call.getType other)))
    (fun v => ZXGraph.Call.reads_both
      (ZXGraph.Call.reads_test (c := ZXGraph.Call.getPhase v) (fun _ => rfl)
        (fun p => decide (p = Phase.zero)))
      (ZXGraph.Call.reads_same (a := ZXGraph.Call.getType v)
        (b := ZXGraph.Call.getType other) (fun _ => rfl) (fun _ => rfl))) nbrs) g
  unfold notAllLike
  rw [h]
  have hf : (fun v => decide (g.phase v = Phase.zero) && decide (g.type v = g.type other)) =
      fun v => decide (g.phase v = Phase.zero ∧ g.type v = g.type other) := by
    funext v
    exact (Bool.decide_and _ _).symm
  show ((!(nbrs.all
    (fun v => decide (g.phase v = Phase.zero) && decide (g.type v = g.type other)))), g) = _
  rw [hf]
  cases nbrs.all (fun v => decide (g.phase v = Phase.zero ∧ g.type v = g.type other)) <;> rfl

theorem notAllSimple_eq (v : Nat) (g : ZXGraph) :
    notAllSimple v g =
      (decide (¬ ((g.getNeighborPairs v).all
        (fun edge_pair => decide (edge_pair.2 = EdgeType.SIMPLE)) = true)), g) := by
  unfold notAllSimple
  show ((!((g.getNeighborPairs v).all
    (fun edge_pair => decide (edge_pair.2 = EdgeType.SIMPLE)))), g) = _
  cases (g.getNeighborPairs v).all (fun edge_pair => decide (edge_pair.2 = EdgeType.SIMPLE)) <;>
    rfl

/-- The callback of `forEachEdge` on the store returns what the callback computes from the
graph and leaves the store as it was: every call it makes is a read. -/
theorem bialg_matchStepOn_eq (idx : Nat → Nat) (st : Scan) (epair : EdgePair) (g : ZXGraph) :
    matchStepOn idx st epair g = (matchStep g idx st epair, g) := by
  unfold matchStepOn matchStep
  simp only [somePhase_eq, notOpposite_eq, someGround_eq, someDuplicated_eq, notAllLike_eq,
    notAllSimple_eq, markTakenOn_eq, ZXGraph.Call.edgeType, ZXGraph.Call.getId,
    ZXGraph.Call.getCopiedNeighbors]
  simp only [ZXGraph.Call.ite_pair, decide_eq_true_eq]

theorem forEachEdgeOn_eq (idx : Nat → Nat) (es : List EdgePair) :
    ∀ (st : Scan) (g : ZXGraph),
      forEachEdgeOn idx es st g = (es.foldl (matchStep g idx) st, g) := by
  induction es with
  | nil => intro st g; rfl
  | cons e es ih =>
    intro st g
    rw [forEachEdgeOn, List.foldl_cons, bialg_matchStepOn_eq]
    exact ih _ _

/-- The method `Bialgebra::match` on the store returns the rule object of `match` and leaves
the store as it was. -/
theorem bialg_matchOn_eq (r : ZXRule EdgePair) (g : ZXGraph) :
    matchOn r g = («match» r g, g) := by
  unfold matchOn
  simp only [ZXGraph.Call.getVertices, ZXGraph.Call.getNumVertices, ZXGraph.Call.getEdges,
    buildId2idxOn_eq, forEachEdgeOn_eq]
  rfl

/-- The body of the loop of the bialgebra `rewrite` on the store returns the rule object of
the body and leaves the store as it was: its two calls are reads. -/
theorem rewriteRecordOn_eq (r : ZXRule EdgePair) (m : EdgePair) (g : ZXGraph) :
    rewriteRecordOn r m g = (rewriteRecord g r m, g) := rfl

theorem foldl_rewriteOn_eq (g : ZXGraph) (ms : List EdgePair) :
    ∀ acc : ZXRule EdgePair,
      ms.foldl (fun (st : ZXRule EdgePair × ZXGraph) m => rewriteRecordOn st.1 m st.2)
        (acc, g) = (ms.foldl (rewriteRecord g) acc, g) := by
  induction ms with
  | nil => intro acc; rfl
  | cons m ms ih =>
    intro acc
    rw [List.foldl_cons, List.foldl_cons, rewriteRecordOn_eq]
    exact ih _

/-- The method `Bialgebra::rewrite` on the store returns the rule object of `rewrite` and
leaves the store as it was. -/
theorem rewriteOn_eq (r : ZXRule EdgePair) (g : ZXGraph) :
    rewriteOn r g = (rewrite r g, g) := by
  unfold rewriteOn rewrite
  exact foldl_rewriteOn_eq g r.matchTypeVec r.reset

end Bialgebra

/-! ## The first eligible edge is accepted -/

theorem exists_first_of_exists {α : Type} (P : α → Prop) (l : List α) (h : ∃ x ∈ l, P x) :
    ∃ pre e post, l = pre ++ e :: post ∧ (∀ x ∈ pre, ¬ P x) ∧ P e := by
  induction l with
  | nil => obtain ⟨x, hx, _⟩ := h; exact absurd hx (List.not_mem_nil _)
  | cons a l ih =>
    by_cases ha : P a
    · exact ⟨[], a, l, rfl, fun x hx => absurd hx (List.not_mem_nil _), ha⟩
    · obtain ⟨x, hx, hpx⟩ := h
      have hx' : x ∈ l := by
        rcases List.mem_cons.mp hx with h1 | h1
        · rw [h1] at hpx; exact absurd hpx ha
        · exact h1
      obtain ⟨pre, e, post, hl, hpre, he⟩ := ih ⟨x, hx', hpx⟩
      refine ⟨a :: pre, e, post, by rw [hl]; rfl, ?_, he⟩
      intro y hy
      rcases List.mem_cons.mp hy with h1 | h1
      · rw [h1]; exact ha
      · exact hpre y h1

theorem getD_set_false_cases (l : List Bool) (i k : Nat)
    (h : (l.set i false).getD k true = false) : l.getD k true = false ∨ k = i := by
  by_cases hik : i = k
  · right; exact hik.symm
  · left
    simp only [List.getD_eq_getElem?_getD] at h ⊢
    rw [List.getElem?_set_ne hik] at h
    exact h

theorem makeEdgeKey_eq_cases (a b p a' b' p' : Nat)
    (h : makeEdgeKey a b p = makeEdgeKey a' b' p') :
    p = p' ∧ ((a = a' ∧ b = b') ∨ (a = b' ∧ b = a')) := by
  unfold makeEdgeKey at h
  split_ifs at h <;> simp only [Prod.mk.injEq] at h <;> omega

namespace SpiderFusion

theorem eligible_of_key_eq (g : ZXGraph) (e e' : EdgePair)
    (h : makeEdgeKeyOfPair e' = makeEdgeKeyOfPair e) (he : Eligible g e) : Eligible g e' := by
  unfold makeEdgeKeyOfPair at h
  obtain ⟨hp, hab⟩ := makeEdgeKey_eq_cases _ _ _ _ _ _ h
  obtain ⟨h1, h2, h3⟩ := he
  unfold Eligible
  rcases hab with ⟨ha, hb⟩ | ⟨ha, hb⟩
  · rw [hp, ha, hb]; exact ⟨h1, h2, h3⟩
  · rw [hp, ha, hb]
    refine ⟨h1, h2.symm, ?_⟩
    rw [← h2]; exact h3

theorem buildEdge2idx_ok (es : List EdgePair) :
    ∀ (pre : List EdgePair) (m : EdgePair → Nat), IdxOK pre m →
      IdxOK (pre ++ es) (buildEdge2idx es pre.length m) := by
  induction es with
  | nil => intro pre m h; rw [List.append_nil]; exact h
  | cons e es ih =>
    intro pre m h
    have hstep : IdxOK (pre ++ [e])
        (fun k => if k = makeEdgeKeyOfPair e then pre.length else m k) := by
      intro x hx
      by_cases hk : makeEdgeKeyOfPair x = makeEdgeKeyOfPair e
      · refine ⟨e, ?_, hk.symm⟩
        simp only [hk, if_true]
        simp
      · have hxpre : x ∈ pre := by
          rcases List.mem_append.mp hx with h1 | h1
          · exact h1
          · rw [List.mem_singleton.mp h1] at hk; exact absurd rfl hk
        obtain ⟨e', he', hke'⟩ := h x hxpre
        refine ⟨e', ?_, hke'⟩
        simp only [hk, if_false]
        have hlt : m (makeEdgeKeyOfPair x) < pre.length := by
          by_contra hge
          rw [List.getElem?_eq_none (by omega)] at he'
          exact Option.noConfusion he'
        rw [List.getElem?_append_left hlt]
        exact he'
    have := ih (pre ++ [e]) _ hstep
    rw [List.append_assoc, List.singleton_append, List.length_append, List.length_singleton]
      at this
    exact this

theorem edge2idx_ok (g : ZXGraph) : IdxOK g.edges (edge2idx g) := by
  have := buildEdge2idx_ok g.edges [] (fun _ => 0)
    (fun e he => absurd he (List.not_mem_nil _))
  simpa [edge2idx] using this

theorem edge2idx_key_eq (g : ZXGraph) (e e' : EdgePair) (he : e ∈ g.edges) (he' : e' ∈ g.edges)
    (h : edge2idx g (makeEdgeKeyOfPair e') = edge2idx g (makeEdgeKeyOfPair e)) :
    makeEdgeKeyOfPair e' = makeEdgeKeyOfPair e := by
  obtain ⟨x, hx, hkx⟩ := edge2idx_ok g e he
  obtain ⟨x', hx', hkx'⟩ := edge2idx_ok g e' he'
  rw [h, hx] at hx'
  have hxx : x = x' := Option.some.inj hx'
  rw [← hkx', ← hxx, hkx]

/-- An iteration for an edge that is not eligible pushes no record and clears at most the bit of
that edge. -/
theorem matchStep_ineligible (g : ZXGraph) (idx : EdgePair → Nat) (st : Scan) (e : EdgePair)
    (hne : ¬ Eligible g e) :
    (matchStep g idx st e).matchTypeVec = st.matchTypeVec ∧
    ∀ k, (matchStep g idx st e).validEdge.getD k true = false →
      st.validEdge.getD k true = false ∨ k = idx (makeEdgeKeyOfPair e) := by
  unfold matchStep
  dsimp only
  split_ifs with h1 h2 h3
  · exact ⟨rfl, fun k hk => Or.inl hk⟩
  · exact ⟨rfl, fun k hk => getD_set_false_cases _ _ _ hk⟩
  · exact absurd ⟨not_not.mp h2, h3.1, h3.2⟩ hne
  · exact ⟨rfl, fun k hk => getD_set_false_cases _ _ _ hk⟩

/-- An iteration for an eligible edge whose bit is still set pushes its endpoints. -/
theorem matchStep_accept (g : ZXGraph) (idx : EdgePair → Nat) (st : Scan) (e : EdgePair)
    (hel : Eligible g e) (hv : st.validEdge.getD (idx (makeEdgeKeyOfPair e)) true = true) :
    (matchStep g idx st e).matchTypeVec = st.matchTypeVec ++ [(e.1.1, e.1.2)] := by
  rcases matchStep_cases g idx st e with h | h
  · exfalso
    unfold matchStep at h
    dsimp only at h
    have h1 : ¬ st.validEdge.getD (idx (makeEdgeKeyOfPair e)) true = false := by
      rw [hv]; exact Bool.noConfusion
    have h2 : ¬ g.edgeType e.2 ≠ EdgeType.SIMPLE := not_not.mpr hel.1
    rw [if_neg h1, if_neg h2, if_pos hel.2] at h
    have hlen := congrArg List.length h
    simp at hlen
  · exact h.1

theorem foldl_matchStep_prefix (g : ZXGraph) (idx : EdgePair → Nat) (es : List EdgePair) :
    ∀ st : Scan, ∃ tail, (es.foldl (matchStep g idx) st).matchTypeVec = st.matchTypeVec ++ tail := by
  induction es with
  | nil => intro st; exact ⟨[], (List.append_nil _).symm⟩
  | cons e es ih =>
    intro st
    rw [List.foldl_cons]
    obtain ⟨tail, ht⟩ := ih (matchStep g idx st e)
    rcases matchStep_cases g idx st e with h | ⟨h, _⟩
    · exact ⟨tail, by rw [ht, h]⟩
    · exact ⟨(e.1.1, e.1.2) :: tail, by rw [ht, h]; simp⟩

theorem foldl_matchStep_ineligible (g : ZXGraph) (idx : EdgePair → Nat) (es : List EdgePair)
    (hne : ∀ e ∈ es, ¬ Eligible g e) :
    ∀ st : Scan,
      (es.foldl (matchStep g idx) st).matchTypeVec = st.matchTypeVec ∧
      ∀ k, (es.foldl (matchStep g idx) st).validEdge.getD k true = false →
        st.validEdge.getD k true = false ∨ ∃ e ∈ es, k = idx (makeEdgeKeyOfPair e) := by
  induction es with
  | nil => intro st; exact ⟨rfl, fun k hk => Or.inl hk⟩
  | cons e es ih =>
    intro st
    rw [List.foldl_cons]
    obtain ⟨a1, a2⟩ := matchStep_ineligible g idx st e (hne e (List.mem_cons_self _ _))
    obtain ⟨b1, b2⟩ := ih (fun x hx => hne x (List.mem_cons_of_mem _ hx)) (matchStep g idx st e)
    refine ⟨b1.trans a1, ?_⟩
    intro k hk
    rcases b2 k hk with h | ⟨x, hx, hkx⟩
    · rcases a2 k h with h' | h'
      · exact Or.inl h'
      · exact Or.inr ⟨e, List.mem_cons_self _ _, h'⟩
    · exact Or.inr ⟨x, List.mem_cons_of_mem _ hx, hkx⟩

/-- The scan accepts the first eligible edge of the edge list: its endpoints head the match
list. -/
theorem scan_first_eligible (g : ZXGraph) (pre post : List EdgePair) (e : EdgePair)
    (hsplit : g.edges = pre ++ e :: post) (hpre : ∀ x ∈ pre, ¬ Eligible g x)
    (he : Eligible g e) : (scan g).matchTypeVec.head? = some (e.1.1, e.1.2) := by
  have hmem : e ∈ g.edges := by rw [hsplit]; simp
  have hsub : ∀ x ∈ pre, x ∈ g.edges := by
    intro x hx; rw [hsplit]; exact List.mem_append_left _ hx
  unfold scan
  rw [hsplit, List.foldl_append, List.foldl_cons, ← hsplit]
  obtain ⟨a1, a2⟩ := foldl_matchStep_ineligible g (edge2idx g) pre hpre
    { validEdge := List.replicate g.edges.length true, matchTypeVec := [] }
  have hvalid : (pre.foldl (matchStep g (edge2idx g))
      { validEdge := List.replicate g.edges.length true, matchTypeVec := [] }).validEdge.getD
        (edge2idx g (makeEdgeKeyOfPair e)) true = true := by
    cases hb : (pre.foldl (matchStep g (edge2idx g))
      { validEdge := List.replicate g.edges.length true, matchTypeVec := [] }).validEdge.getD
        (edge2idx g (makeEdgeKeyOfPair e)) true
    · exfalso
      rcases a2 _ hb with h | ⟨x, hx, hkx⟩
      · simp only [List.getD_eq_getElem?_getD, List.getElem?_replicate] at h
        split_ifs at h <;> simp at h
      · exact hpre x hx
          (eligible_of_key_eq g e x (edge2idx_key_eq g e x hmem (hsub x hx) hkx.symm) he)
    · rfl
  have hacc := matchStep_accept g (edge2idx g) _ e he hvalid
  rw [a1] at hacc
  obtain ⟨tail, ht⟩ := foldl_matchStep_prefix g (edge2idx g) post
    (matchStep g (edge2idx g) (pre.foldl (matchStep g (edge2idx g))
      { validEdge := List.replicate g.edges.length true, matchTypeVec := [] }) e)
  rw [ht, hacc]
  rfl

theorem scan_nil_iff (g : ZXGraph) :
    (scan g).matchTypeVec = [] ↔ ∀ e ∈ g.edges, ¬ Eligible g e := by
  constructor
  · intro hnil e he hel
    obtain ⟨pre, x, post, hsplit, hpre, hx⟩ :=
      exists_first_of_exists (Eligible g) g.edges ⟨e, he, hel⟩
    have := scan_first_eligible g pre post x hsplit hpre hx
    rw [hnil] at this
    exact Option.noConfusion this
  · intro hall
    cases hms : (scan g).matchTypeVec with
    | nil => rfl
    | cons m ms =>
      exfalso
      obtain ⟨⟨p, hp, hs⟩, ht, hxz⟩ := scan_sound g m (by rw [hms]; exact List.mem_cons_self _ _)
      exact hall _ hp ⟨hs, ht, hxz.symm⟩

end SpiderFusion

namespace Bialgebra

/-- The callback accepts an edge that passes every condition and has no taken endpoint. -/
theorem bialg_matchStep_accept (g : ZXGraph) (idx : Nat → Nat) (st : Scan) (epair : EdgePair)
    (hel : Eligible g epair) (hl : st.taken.getD (idx epair.1.1) false = false)
    (hr : st.taken.getD (idx epair.1.2) false = false) :
    matchStep g idx st epair =
      { taken := markTaken idx (g.getCopiedNeighbors epair.1.2)
          (markTaken idx (g.getCopiedNeighbors epair.1.1) st.taken),
        matchTypeVec := st.matchTypeVec ++ [epair] } := by
  obtain ⟨h1, h3, h4, h5, h6, h7, h8, h9, h10⟩ := hel
  have c2 : ¬ (st.taken.getD (idx epair.1.1) false = true ∨
      st.taken.getD (idx epair.1.2) false = true) := by
    rw [hl, hr]; simp
  have c3 : ¬ (g.phase epair.1.1 ≠ Phase.zero ∨ g.phase epair.1.2 ≠ Phase.zero) := by
    rw [h3.1, h3.2]; simp
  have c5 : ¬ (g.getNumNeighbors epair.1.1 = 1 ∨ g.getNumNeighbors epair.1.2 = 1) := by
    intro h; rcases h with h | h
    · exact h5.1 h
    · exact h5.2 h
  have c6 : ¬ (check_duplicated_vertex (g.getCopiedNeighbors epair.1.1) = true ∨
      check_duplicated_vertex (g.getCopiedNeighbors epair.1.2) = true) := by
    rw [h6.1, h6.2]; simp
  have c7 : (g.getCopiedNeighbors epair.1.1).all
      (fun v => decide (g.phase v = Phase.zero ∧ g.type v = g.type epair.1.2)) = true := by
    rw [List.all_eq_true]; intro v hv; exact decide_eq_true (h7 v hv)
  have c8 : (g.getCopiedNeighbors epair.1.2).all
      (fun v => decide (g.phase v = Phase.zero ∧ g.type v = g.type epair.1.1)) = true := by
    rw [List.all_eq_true]; intro v hv; exact decide_eq_true (h8 v hv)
  have c9 : (g.getNeighborPairs epair.1.1).all
      (fun edge_pair => decide (edge_pair.2 = EdgeType.SIMPLE)) = true := by
    rw [List.all_eq_true]; intro v hv; exact decide_eq_true (h9 v hv)
  have c10 : (g.getNeighborPairs epair.1.2).all
      (fun edge_pair => decide (edge_pair.2 = EdgeType.SIMPLE)) = true := by
    rw [List.all_eq_true]; intro v hv; exact decide_eq_true (h10 v hv)
  unfold matchStep
  rw [if_neg (not_not.mpr h1)]
  dsimp only
  rw [if_neg c2, if_neg c3, if_neg (not_not.mpr h4), if_neg c5, if_neg c6,
    if_neg (not_not.mpr c7), if_neg (not_not.mpr c8), if_neg (not_not.mpr c9),
    if_neg (not_not.mpr c10)]

theorem bialg_matchStep_ineligible (g : ZXGraph) (idx : Nat → Nat) (st : Scan)
    (epair : EdgePair) (hne : ¬ Eligible g epair) : matchStep g idx st epair = st := by
  rcases bialg_matchStep_cases g idx st epair with h | ⟨h, _⟩
  · exact h
  · exact absurd h hne

theorem bialg_foldl_matchStep_ineligible (g : ZXGraph) (idx : Nat → Nat) (es : List EdgePair)
    (hne : ∀ e ∈ es, ¬ Eligible g e) : ∀ st : Scan, es.foldl (matchStep g idx) st = st := by
  induction es with
  | nil => intro st; rfl
  | cons e es ih =>
    intro st
    rw [List.foldl_cons, bialg_matchStep_ineligible g idx st e (hne e (List.mem_cons_self _ _))]
    exact ih (fun x hx => hne x (List.mem_cons_of_mem _ hx)) st

theorem bialg_foldl_matchStep_prefix (g : ZXGraph) (idx : Nat → Nat) (es : List EdgePair) :
    ∀ st : Scan, ∃ tail, (es.foldl (matchStep g idx) st).matchTypeVec = st.matchTypeVec ++ tail := by
  induction es with
  | nil => intro st; exact ⟨[], (List.append_nil _).symm⟩
  | cons e es ih =>
    intro st
    rw [List.foldl_cons]
    obtain ⟨tail, ht⟩ := ih (matchStep g idx st e)
    rcases bialg_matchStep_cases g idx st e with h | ⟨_, _, _, h⟩
    · exact ⟨tail, by rw [ht, h]⟩
    · exact ⟨e :: tail, by rw [ht, h]; simp⟩

/-- The scan accepts the first eligible edge of the edge list: it heads the match list. -/
theorem bialg_scan_first_eligible (g : ZXGraph) (pre post : List EdgePair) (e : EdgePair)
    (hsplit : g.edges = pre ++ e :: post) (hpre : ∀ x ∈ pre, ¬ Eligible g x)
    (he : Eligible g e) : (scan g).matchTypeVec.head? = some e := by
  unfold scan
  rw [hsplit, List.foldl_append, List.foldl_cons,
    bialg_foldl_matchStep_ineligible g (id2idx g) pre hpre]
  have hfree : ∀ k, (List.replicate g.vertices.length false).getD k false = false := by
    intro k
    simp only [List.getD_eq_getElem?_getD, List.getElem?_replicate]
    split_ifs <;> rfl
  obtain ⟨tail, ht⟩ := bialg_foldl_matchStep_prefix g (id2idx g) post
    (matchStep g (id2idx g)
      { taken := List.replicate g.vertices.length false, matchTypeVec := [] } e)
  rw [ht, bialg_matchStep_accept g (id2idx g) _ e he (hfree _) (hfree _)]
  rfl

theorem bialg_scan_nil_iff (g : ZXGraph) :
    (scan g).matchTypeVec = [] ↔ ∀ e ∈ g.edges, ¬ Eligible g e := by
  constructor
  · intro hnil e he hel
    obtain ⟨pre, x, post, hsplit, hpre, hx⟩ :=
      exists_first_of_exists (Eligible g) g.edges ⟨e, he, hel⟩
    have := bialg_scan_first_eligible g pre post x hsplit hpre hx
    rw [hnil] at this
    exact Option.noConfusion this
  · intro hall
    cases hms : (scan g).matchTypeVec with
    | nil => rfl
    | cons m ms =>
      exfalso
      obtain ⟨hp, hel⟩ := scan_eligible g m (by rw [hms]; exact List.mem_cons_self _ _)
      exact hall _ hp hel

end Bialgebra

/-! ## The order of the records does not matter -/

namespace SpiderFusion

theorem NoSharedEndpoint.symm {m m' : Nat × Nat} (h : NoSharedEndpoint m m') :
    NoSharedEndpoint m' m :=
  ⟨fun e => h.1 e.symm, fun e => h.2.2.1 e.symm, fun e => h.2.1 e.symm,
    fun e => h.2.2.2 e.symm⟩

theorem recordPhase_congr {g g' : ZXGraph} (h : SameShape g g') (m : Nat × Nat)
    (h1 : g'.phase m.1 = g.phase m.1) (h2 : g'.phase m.2 = g.phase m.2) :
    recordPhase g' m = recordPhase g m := by
  have hh : hadamardCount g' m.2 m.2 = hadamardCount g m.2 m.2 := by
    unfold hadamardCount equalRange; rw [h.2.2.2.1, h.2.2.2.2]
  unfold recordPhase
  rw [getNeighbors_congr h, getNeighbors_congr h, hh, h1, h2]

/-- After the loop of `rewrite` over records that share no endpoint, the first endpoint of every
record carries the phase that the body of the loop gives it on the graph from before the
loop. -/
theorem foldl_rewriteRecord_phase_mem (ms : List (Nat × Nat))
    (hpw : ms.Pairwise NoSharedEndpoint) (st : RewriteState) (m : Nat × Nat) (hmem : m ∈ ms) :
    (ms.foldl rewriteRecord st).graph.phase m.1 = recordPhase st.graph m := by
  obtain ⟨l1, l2, hsplit⟩ := List.append_of_mem hmem
  subst hsplit
  obtain ⟨_, hp2, hcross⟩ := List.pairwise_append.mp hpw
  obtain ⟨hlater, _⟩ := List.pairwise_cons.mp hp2
  have hearlier : ∀ x ∈ l1, NoSharedEndpoint x m :=
    fun x hx => hcross x hx m (List.mem_cons_self _ _)
  rw [List.foldl_append, List.foldl_cons]
  obtain ⟨a1, a2, _⟩ := foldl_rewriteRecord_frame l1 st
  obtain ⟨_, c2, _⟩ := foldl_rewriteRecord_frame l2 (rewriteRecord (l1.foldl rewriteRecord st) m)
  rw [c2 m.1 (fun x hx => ((hlater x hx).1 ·.symm)), rewriteRecord_phase, if_pos rfl]
  exact recordPhase_congr a1 m (a2 m.1 (fun x hx => (hearlier x hx).1))
    (a2 m.2 (fun x hx => (hearlier x hx).2.1))

/-- Two orders of a list of records that share no endpoint leave the same phases and, up to
their order, the same delta. -/
theorem foldl_rewriteRecord_perm (g : ZXGraph) (ms ms' : List (Nat × Nat))
    (hperm : ms'.Perm ms) (hpw : ms.Pairwise NoSharedEndpoint) (rule rule' : ZXRule (Nat × Nat))
    (hrv : rule'.removeVertices = rule.removeVertices)
    (hre : rule'.removeEdges = rule.removeEdges) :
    (ms'.foldl rewriteRecord { rule := rule', graph := g }).rule.removeVertices.Perm
      (ms.foldl rewriteRecord { rule := rule, graph := g }).rule.removeVertices ∧
    (ms'.foldl rewriteRecord { rule := rule', graph := g }).rule.removeEdges.Perm
      (ms.foldl rewriteRecord { rule := rule, graph := g }).rule.removeEdges ∧
    (∀ x, (ms'.foldl rewriteRecord { rule := rule', graph := g }).graph.phase x =
      (ms.foldl rewriteRecord { rule := rule, graph := g }).graph.phase x) := by
  have hpw' : ms'.Pairwise NoSharedEndpoint :=
    (List.Perm.pairwise_iff (fun h => NoSharedEndpoint.symm h) hperm).mpr hpw
  obtain ⟨a1, a2, _, _⟩ := foldl_rewriteRecord_delta g ms
    { rule := rule, graph := g } (SameShape.refl g)
  obtain ⟨b1, b2, _, _⟩ := foldl_rewriteRecord_delta g ms'
    { rule := rule', graph := g } (SameShape.refl g)
  refine ⟨?_, ?_, ?_⟩
  · rw [a1, b1]
    show (rule'.removeVertices ++ _).Perm (rule.removeVertices ++ _)
    rw [hrv]
    exact List.Perm.append (List.Perm.refl _) (List.Perm.flatMap_right _ hperm)
  · rw [a2, b2]
    show (rule'.removeEdges ++ _).Perm (rule.removeEdges ++ _)
    rw [hre]
    exact List.Perm.append (List.Perm.refl _) (List.Perm.flatMap_right _ hperm)
  · intro x
    by_cases hx : ∃ m ∈ ms, m.1 = x
    · obtain ⟨m, hm, hmx⟩ := hx
      rw [← hmx, foldl_rewriteRecord_phase_mem ms hpw _ m hm,
        foldl_rewriteRecord_phase_mem ms' hpw' _ m (hperm.mem_iff.mpr hm)]
    · have hno : ∀ m ∈ ms, m.1 ≠ x := fun m hm hmx => hx ⟨m, hm, hmx⟩
      have hno' : ∀ m ∈ ms', m.1 ≠ x := fun m hm => hno m (hperm.mem_iff.mp hm)
      rw [(foldl_rewriteRecord_frame ms _).2.1 x hno,
        (foldl_rewriteRecord_frame ms' _).2.1 x hno']

/-- The result of `rewrite` on a permuted match list of a well-formed graph. -/
theorem rewrite_perm (r : ZXRule (Nat × Nat)) (g : ZXGraph) (hwf : g.WellFormed)
    (ms' : List (Nat × Nat)) (hperm : ms'.Perm («match» r g).matchTypeVec) :
    (rewrite { «match» r g with matchTypeVec := ms' } g).rule.removeVertices.Perm
      (rewrite («match» r g) g).rule.removeVertices ∧
    (rewrite { «match» r g with matchTypeVec := ms' } g).rule.removeEdges.Perm
      (rewrite («match» r g) g).rule.removeEdges ∧
    ((rewrite { «match» r g with matchTypeVec := ms' } g).rule.edgeTableKeys.zip
        (rewrite { «match» r g with matchTypeVec := ms' } g).rule.edgeTableValues).Perm
      ((rewrite («match» r g) g).rule.edgeTableKeys.zip
        (rewrite («match» r g) g).rule.edgeTableValues) ∧
    (∀ x, (rewrite { «match» r g with matchTypeVec := ms' } g).graph.phase x =
      (rewrite («match» r g) g).graph.phase x) := by
  obtain ⟨h1, h2, h3⟩ := foldl_rewriteRecord_perm g («match» r g).matchTypeVec ms' hperm
    (scan_inv g hwf).2.2 («match» r g).reset
    (ZXRule.reset { «match» r g with matchTypeVec := ms' }) rfl rfl
  refine ⟨h1, h2, ?_, h3⟩
  rw [(rewrite_table_entries _ g).1, (rewrite_table_entries _ g).1]
  exact List.Perm.flatMap_right _ hperm

end SpiderFusion

namespace Bialgebra

/-- The result of `Bialgebra::rewrite` on a permuted match list. -/
theorem bialg_rewrite_perm (r : ZXRule EdgePair) (g : ZXGraph) (ms' : List EdgePair)
    (hperm : ms'.Perm r.matchTypeVec) :
    (rewrite { r with matchTypeVec := ms' } g).removeVertices.Perm (rewrite r g).removeVertices ∧
    (rewrite { r with matchTypeVec := ms' } g).removeEdges.Perm (rewrite r g).removeEdges ∧
    ((rewrite { r with matchTypeVec := ms' } g).edgeTableKeys.zip
        (rewrite { r with matchTypeVec := ms' } g).edgeTableValues).Perm
      ((rewrite r g).edgeTableKeys.zip (rewrite r g).edgeTableValues) := by
  rw [rewrite_eq, rewrite_eq]
  refine ⟨List.Perm.flatMap_right _ hperm, List.Perm.refl _, ?_⟩
  show ((ms'.flatMap (recordKeys g)).zip _).Perm ((r.matchTypeVec.flatMap (recordKeys g)).zip _)
  have hz : ∀ l : List (Nat × Nat), l.zip (l.map (fun _ => ((1 : Nat), (0 : Nat)))) =
      l.map (fun k => (k, ((1 : Nat), (0 : Nat)))) := by
    intro l
    induction l with
    | nil => rfl
    | cons a l ih => rw [List.map_cons, List.zip_cons_cons, ih, List.map_cons]
  rw [hz, hz]
  exact (List.Perm.flatMap_right _ hperm).map _

end Bialgebra

/-! ## Empty match list, apply step -/

namespace ZXGraph

/-- The apply step with an empty delta gives the graph back. -/
theorem applyDelta_of_empty {M : Type} (g : ZXGraph) (r : ZXRule M)
    (h1 : r.removeVertices = []) (h2 : r.removeEdges = []) (h3 : r.edgeTableKeys = []) :
    g.applyDelta r = some g := by
  unfold applyDelta
  rw [h1, h2, h3]
  simp

end ZXGraph

namespace SpiderFusion

theorem rewrite_of_nil (r : ZXRule (Nat × Nat)) (g : ZXGraph) (h : r.matchTypeVec = []) :
    rewrite r g = { rule := r.reset, graph := g } := by
  unfold rewrite
  rw [h]
  rfl

/-- What the body of the loop does to the record `(u, u)` of a vertex with a self-loop. -/
theorem rewriteRecord_self_loop (st : RewriteState) (u : Nat)
    (hloop : u ∈ st.graph.getNeighbors u) :
    (rewriteRecord st (u, u)).graph.phase u =
      Phase.add (st.graph.phase u)
        (Phase.ofInt (((st.graph.neighborMap u).countP
          (fun nb => decide (nb.1 = u ∧ st.graph.edgeType nb.2 = EdgeType.HADAMARD)) / 2 :
            Nat))) ∧
    (rewriteRecord st (u, u)).rule.removeEdges =
      st.rule.removeEdges ++
        (((st.graph.neighborMap u).filter
          (fun nb => decide (nb.1 = u ∧ st.graph.edgeType nb.2 = EdgeType.HADAMARD))).map
            (fun nb => ((u, u), nb.2)) ++
         ((st.graph.neighborMap u).filter
          (fun nb => decide (nb.1 = u ∧ st.graph.edgeType nb.2 = EdgeType.SIMPLE))).map
            (fun nb => ((u, u), nb.2))) ∧
    (rewriteRecord st (u, u)).rule.removeVertices = st.rule.removeVertices := by
  have hfilter : ∀ t : EdgeType,
      ((st.graph.neighborMap u).filter (fun itr => decide (itr.1 = u))).filter
        (fun itr => decide (st.graph.edgeType itr.2 = t)) =
      (st.graph.neighborMap u).filter
        (fun nb => decide (nb.1 = u ∧ st.graph.edgeType nb.2 = t)) := by
    intro t
    rw [List.filter_filter]
    congr 1
    funext nb
    rw [Bool.decide_and, Bool.and_comm]
  refine ⟨?_, ?_, ?_⟩
  · rw [rewriteRecord_phase, if_pos rfl]
    unfold recordPhase
    rw [if_neg (not_not.mpr rfl), if_pos hloop, hadamardCount_eq_countP]
  · rw [rewriteRecord_removeEdges]
    unfold recordRemoveEdges selfHadaLoopCandidate equalRange
    rw [if_neg (not_not.mpr rfl), if_pos hloop, hfilter, hfilter, List.map_map]
    rfl
  · rw [(rewriteRecord_frame st (u, u)).2.2.1, if_neg (not_not.mpr rfl), List.append_nil]

end SpiderFusion

namespace Bialgebra

theorem bialg_rewrite_of_nil (r : ZXRule EdgePair) (g : ZXGraph) (h : r.matchTypeVec = []) :
    rewrite r g = r.reset := by
  unfold rewrite
  rw [h]
  rfl

end Bialgebra

namespace DirectedGraph

theorem mapAt_mapErase_map (m : List (Nat × List Nat)) (id : Nat)
    (f : Nat × List Nat → List Nat) :
    mapAt ((mapErase m id).map (fun kv => (kv.1, f kv))) id = none := by
  unfold mapAt mapErase
  rw [Option.map_eq_none', List.find?_eq_none]
  intro kv hkv
  obtain ⟨x, hx, hxkv⟩ := List.mem_map.mp hkv
  have hne : x.1 ≠ id := by simpa using (List.mem_filter.mp hx).2
  rw [← hxkv]
  simpa using hne

theorem not_mem_setErase (s : List Nat) (x : Nat) : x ∉ setErase s x := by
  unfold setErase
  intro h
  have := (List.mem_filter.mp h).2
  simp at this

/-- After `remove_vertex(id)` the id is no vertex, owns no neighbour set and is a member of
none. -/
theorem remove_vertex_clears {T : Type} (g : DirectedGraph T) (id : Nat) :
    (g.remove_vertex id).has_vertex id = false ∧
    (g.remove_vertex id).get_out_neighbors id = none ∧
    (g.remove_vertex id).get_in_neighbors id = none ∧
    (∀ kv ∈ (g.remove_vertex id).out_neighbors, id ∉ kv.2) ∧
    (∀ kv ∈ (g.remove_vertex id).in_neighbors, id ∉ kv.2) := by
  refine ⟨?_, mapAt_mapErase_map _ _ _, mapAt_mapErase_map _ _ _, ?_, ?_⟩
  · unfold has_vertex remove_vertex
    rw [List.any_eq_false]
    intro kv hkv
    have := (List.mem_filter.mp hkv).2
    simpa using this
  · intro kv hkv
    obtain ⟨x, _, hx⟩ := List.mem_map.mp hkv
    rw [← hx]
    exact not_mem_setErase _ _
  · intro kv hkv
    obtain ⟨x, _, hx⟩ := List.mem_map.mp hkv
    rw [← hx]
    exact not_mem_setErase _ _

end DirectedGraph

/-! ## The checks of `Bialgebra::match` against the conditions of the specification -/

namespace Bialgebra

/-- On an edge of a well-formed graph the checks of lines 53 and 64-84 pass exactly when the
conditions of the specification hold: the degree test `!= 1` is the bound `2 <=` because an
endpoint of an edge lists that edge, and `check_duplicated_vertex` finds nothing exactly when
the neighbour list has no vertex twice. -/
theorem eligible_iff_eligibleSpec (g : ZXGraph) (hwf : g.WellFormed) (e : EdgePair)
    (he : e ∈ g.edges) : Eligible g e ↔ EligibleSpec g e := by
  obtain ⟨_, hl1, hl2⟩ := hwf e he
  have hpos1 : 0 < (g.neighborMap e.1.1).length := List.length_pos_of_mem hl1
  have hpos2 : 0 < (g.neighborMap e.1.2).length := List.length_pos_of_mem hl2
  constructor
  · rintro ⟨hs, hph, hty, hdeg, hdup, hl, hr, hel, her⟩
    refine ⟨hs, hty.symm, hph, ⟨?_, ?_⟩,
      ⟨(check_duplicated_vertex_eq_false _).mp hdup.1,
        (check_duplicated_vertex_eq_false _).mp hdup.2⟩,
      fun nb hnb => ⟨(hl nb.1 (List.mem_map.mpr ⟨nb, hnb, rfl⟩)).2,
        (hl nb.1 (List.mem_map.mpr ⟨nb, hnb, rfl⟩)).1⟩,
      fun nb hnb => ⟨(hr nb.1 (List.mem_map.mpr ⟨nb, hnb, rfl⟩)).2,
        (hr nb.1 (List.mem_map.mpr ⟨nb, hnb, rfl⟩)).1⟩, ?_, ?_⟩
    · have h : (g.neighborMap e.1.1).length ≠ 1 := hdeg.1
      omega
    · have h : (g.neighborMap e.1.2).length ≠ 1 := hdeg.2
      omega
    · intro nb hnb
      exact hel (nb.1, g.edgeType nb.2) (List.mem_map.mpr ⟨nb, hnb, rfl⟩)
    · intro nb hnb
      exact her (nb.1, g.edgeType nb.2) (List.mem_map.mpr ⟨nb, hnb, rfl⟩)
  · rintro ⟨hs, hty, hph, hdeg, hdup, hl, hr, hel, her⟩
    refine ⟨hs, hph, hty.symm, ⟨?_, ?_⟩,
      ⟨(check_duplicated_vertex_eq_false _).mpr hdup.1,
        (check_duplicated_vertex_eq_false _).mpr hdup.2⟩, ?_, ?_, ?_, ?_⟩
    · show (g.neighborMap e.1.1).length ≠ 1
      have := hdeg.1
      omega
    · show (g.neighborMap e.1.2).length ≠ 1
      have := hdeg.2
      omega
    · intro v hv
      obtain ⟨nb, hnb, rfl⟩ := List.mem_map.mp hv
      exact ⟨(hl nb hnb).2, (hl nb hnb).1⟩
    · intro v hv
      obtain ⟨nb, hnb, rfl⟩ := List.mem_map.mp hv
      exact ⟨(hr nb hnb).2, (hr nb hnb).1⟩
    · intro ep hep
      obtain ⟨nb, hnb, rfl⟩ := List.mem_map.mp hep
      exact hel nb hnb
    · intro ep hep
      obtain ⟨nb, hnb, rfl⟩ := List.mem_map.mp hep
      exact her nb hnb

/-- The match list of the bialgebra rule on a well-formed graph is empty exactly when no edge
of the edge list meets the conditions of the specification. -/
theorem bialg_scan_nil_iff_spec (g : ZXGraph) (hwf : g.WellFormed) :
    (scan g).matchTypeVec = [] ↔ ∀ e ∈ g.edges, ¬ EligibleSpec g e := by
  rw [bialg_scan_nil_iff]
  constructor
  · intro h e he hspec
    exact h e he ((eligible_iff_eligibleSpec g hwf e he).mpr hspec)
  · intro h e he hel
    exact h e he ((eligible_iff_eligibleSpec g hwf e he).mp hel)

/-- The first edge of the edge list of a well-formed graph that meets the conditions of the
specification heads the match list of the bialgebra rule. -/
theorem bialg_scan_first_spec (g : ZXGraph) (hwf : g.WellFormed) (pre post : List EdgePair)
    (e : EdgePair) (hsplit : g.edges = pre ++ e :: post)
    (hpre : ∀ x ∈ pre, ¬ EligibleSpec g x) (he : EligibleSpec g e) :
    (scan g).matchTypeVec.head? = some e := by
  have hmem : ∀ x ∈ pre ++ e :: post, x ∈ g.edges := fun x hx => hsplit ▸ hx
  refine bialg_scan_first_eligible g pre post e hsplit ?_ ?_
  · intro x hx hel
    exact hpre x hx ((eligible_iff_eligibleSpec g hwf x
      (hmem x (List.mem_append_left _ hx))).mp hel)
  · exact (eligible_iff_eligibleSpec g hwf e
      (hmem e (List.mem_append_right _ (List.mem_cons_self _ _)))).mpr he

end Bialgebra

/-! ## The claims C11 to C20 -/

/-- C11: `Bialgebra::rewrite` does not mutate the graph.  The method is run on the store, every
call of a graph method made on the store that the call before it leaves (`rewriteOn`): the calls
of its body are the two reads `getCopiedNeighbors` of each record and nothing else, so for every
graph and match list the store comes out as it went in, with the same vertices and edges and
for every vertex the same type, phase and neighbour multiset, and what the call produces is the
delta of `Bialgebra.rewrite`. -/
theorem C11_bialg_rewrite_frame (r : ZXRule EdgePair) (g : ZXGraph) :
    (Bialgebra.rewriteOn r g).2 = g ∧
    ((Bialgebra.rewriteOn r g).2.vertices = g.vertices ∧
      (Bialgebra.rewriteOn r g).2.edges = g.edges) ∧
    (∀ v, (Bialgebra.rewriteOn r g).2.type v = g.type v ∧
      (Bialgebra.rewriteOn r g).2.phase v = g.phase v ∧
      (Bialgebra.rewriteOn r g).2.neighborMap v = g.neighborMap v) ∧
    (Bialgebra.rewriteOn r g).1 = Bialgebra.rewrite r g := by
  rw [Bialgebra.rewriteOn_eq]
  exact ⟨rfl, ⟨rfl, rfl⟩, fun _ => ⟨rfl, rfl, rfl⟩, rfl⟩

/-- C12: on the well-formed diagram `fuseLoop` (Z-spiders `0` of phase π/2 and `1` of phase π/4,
joined by a Simple edge, two Hadamard self-loops on `1`) the record is `(0, 1)` with `h = 2`, and
`SpiderFusion::rewrite` leaves on `0` the phase of `1` plus π, that is -3π/4: the merged phase
of line 71 is overwritten at line 105, and the sum π/2 + π/4 + π = -π/4 of the claim is not
reached. -/
theorem C12_sfusion_self_loop_phase_overwritten :
    fuseLoop.WellFormed ∧
    (SpiderFusion.match (ZXRule.init (Nat × Nat)) fuseLoop).matchTypeVec = [(0, 1)] ∧
    SpiderFusion.hadamardCount fuseLoop 1 1 = 2 ∧
    (SpiderFusion.rewrite
      (SpiderFusion.match (ZXRule.init (Nat × Nat)) fuseLoop) fuseLoop).graph.phase 0 =
        ⟨-3, 4⟩ ∧
    Phase.add (fuseLoop.phase 1) (Phase.ofInt 1) = ⟨-3, 4⟩ ∧
    Phase.add (Phase.add (fuseLoop.phase 0) (fuseLoop.phase 1)) (Phase.ofInt 1) = ⟨-1, 4⟩ := by
  decide

/-- C13: for a record `(u, u)` of a spider `u` with a self-loop, the body of the loop of
`SpiderFusion::rewrite` adds `(h div 2) · π` to the phase of `u`, where `h` is the number of
Hadamard self-loops of `u` (π for `h = 2`, and 0 after canonicalisation for `h = 4`), it
schedules for removal all `h` Hadamard self-loops of `u`, followed by its Simple self-loops,
and it schedules no vertex for removal. -/
theorem C13_sfusion_rewrite_matched_self_loop (st : SpiderFusion.RewriteState) (u : Nat)
    (hloop : u ∈ st.graph.getNeighbors u) :
    (SpiderFusion.rewriteRecord st (u, u)).graph.phase u =
      Phase.add (st.graph.phase u)
        (Phase.ofInt (((st.graph.neighborMap u).countP
          (fun nb => decide (nb.1 = u ∧ st.graph.edgeType nb.2 = EdgeType.HADAMARD)) / 2 :
            Nat))) ∧
    (SpiderFusion.rewriteRecord st (u, u)).rule.removeEdges =
      st.rule.removeEdges ++
        (((st.graph.neighborMap u).filter
          (fun nb => decide (nb.1 = u ∧ st.graph.edgeType nb.2 = EdgeType.HADAMARD))).map
            (fun nb => ((u, u), nb.2)) ++
         ((st.graph.neighborMap u).filter
          (fun nb => decide (nb.1 = u ∧ st.graph.edgeType nb.2 = EdgeType.SIMPLE))).map
            (fun nb => ((u, u), nb.2))) ∧
    (SpiderFusion.rewriteRecord st (u, u)).rule.removeVertices = st.rule.removeVertices ∧
    Phase.ofInt ((2 / 2 : Nat)) = ⟨1, 1⟩ ∧ Phase.ofInt ((4 / 2 : Nat)) = ⟨0, 1⟩ :=
  ⟨(SpiderFusion.rewriteRecord_self_loop st u hloop).1,
    (SpiderFusion.rewriteRecord_self_loop st u hloop).2.1,
    (SpiderFusion.rewriteRecord_self_loop st u hloop).2.2, by decide, by decide⟩

/-- C13 at the spider of the diagram `selfLoop2`, of phase π/4 with two Hadamard self-loops: the
phase becomes π/4 + π = -3π/4, the two Hadamard self-loops and the Simple one are scheduled for
removal, and no vertex is. -/
theorem C13_sfusion_rewrite_matched_self_loop_witness :
    (0 ∈ selfLoop2.getNeighbors 0 ∧
      (SpiderFusion.match (ZXRule.init (Nat × Nat)) selfLoop2).matchTypeVec = [(0, 0)]) ∧
    (SpiderFusion.rewriteRecord { rule := ZXRule.init (Nat × Nat), graph := selfLoop2 }
      (0, 0)).graph.phase 0 = ⟨-3, 4⟩ ∧
    (SpiderFusion.rewriteRecord { rule := ZXRule.init (Nat × Nat), graph := selfLoop2 }
      (0, 0)).rule.removeEdges = [((0, 0), 1), ((0, 0), 2), ((0, 0), 0)] ∧
    (SpiderFusion.rewriteRecord { rule := ZXRule.init (Nat × Nat), graph := selfLoop2 }
      (0, 0)).rule.removeVertices = [] ∧
    (SpiderFusion.rewriteRecord { rule := ZXRule.init (Nat × Nat), graph := selfLoop2 }
      (0, 0)).graph.phase 0 =
      Phase.add (selfLoop2.phase 0)
        (Phase.ofInt (((selfLoop2.neighborMap 0).countP
          (fun nb => decide (nb.1 = 0 ∧ selfLoop2.edgeType nb.2 = EdgeType.HADAMARD)) / 2 :
            Nat))) :=
  ⟨by decide, by decide, by decide, by decide,
    (C13_sfusion_rewrite_matched_self_loop
      { rule := ZXRule.init (Nat × Nat), graph := selfLoop2 } 0 (by decide)).1⟩

/-- C14: in the edge table that `SpiderFusion::rewrite` produces, for any match list, every
entry whose key is one vertex taken twice has Simple count 0. -/
theorem C14_sfusion_no_simple_self_loop_added (r : ZXRule (Nat × Nat)) (g : ZXGraph) :
    ∀ e ∈ (SpiderFusion.rewrite r g).rule.edgeTableKeys.zip
        (SpiderFusion.rewrite r g).rule.edgeTableValues,
      e.1.1 = e.1.2 → e.2.1 = 0 := by
  rw [(SpiderFusion.rewrite_table_entries r g).1]
  exact (SpiderFusion.rewrite_table_entries r g).2

/-- C14 at the diagram `fuse3`: the entry keyed `(0, 0)` has the value `(0, 0)` although a Simple
edge joins the two fused spiders. -/
theorem C14_sfusion_no_simple_self_loop_added_witness :
    (((0, 0), (0, 0)) ∈ (SpiderFusion.rewrite
        (SpiderFusion.match (ZXRule.init (Nat × Nat)) fuse3) fuse3).rule.edgeTableKeys.zip
      (SpiderFusion.rewrite
        (SpiderFusion.match (ZXRule.init (Nat × Nat)) fuse3) fuse3).rule.edgeTableValues ∧
      SpiderFusion.simpleCount fuse3 1 0 = 1) ∧
    (((0 : Nat), (0 : Nat)), ((0 : Nat), (0 : Nat))).2.1 = 0 :=
  ⟨by decide,
    C14_sfusion_no_simple_self_loop_added
      (SpiderFusion.match (ZXRule.init (Nat × Nat)) fuse3) fuse3 ((0, 0), (0, 0)) (by decide)
      rfl⟩

/-- C15: for each of the two rules `match` returns the empty list if and only if no edge of the
edge list is eligible, and the first eligible edge of the edge list is accepted: it heads the
match list.  Eligible for spider fusion is a Simple edge joining two spiders of one colour, Z
or X (`SpiderFusion.Eligible`); eligible for the bialgebra rule is an edge that meets the
conditions of section 4.4 of the specification (`Bialgebra.EligibleSpec`: no vertex twice among
the neighbours of an endpoint, degree at least 2, and so on), on a well-formed graph. -/
theorem C15_match_empty_iff_no_eligible_edge (r1 : ZXRule (Nat × Nat)) (r2 : ZXRule EdgePair)
    (g : ZXGraph) :
    (((SpiderFusion.match r1 g).matchTypeVec = [] ↔
        ∀ e ∈ g.edges, ¬ SpiderFusion.Eligible g e) ∧
      (∀ pre e post, g.edges = pre ++ e :: post →
        (∀ x ∈ pre, ¬ SpiderFusion.Eligible g x) → SpiderFusion.Eligible g e →
        (SpiderFusion.match r1 g).matchTypeVec.head? = some (e.1.1, e.1.2))) ∧
    (g.WellFormed →
      ((Bialgebra.match r2 g).matchTypeVec = [] ↔
        ∀ e ∈ g.edges, ¬ Bialgebra.EligibleSpec g e) ∧
      (∀ pre e post, g.edges = pre ++ e :: post →
        (∀ x ∈ pre, ¬ Bialgebra.EligibleSpec g x) → Bialgebra.EligibleSpec g e →
        (Bialgebra.match r2 g).matchTypeVec.head? = some e)) :=
  ⟨⟨SpiderFusion.scan_nil_iff g,
      fun pre e post h1 h2 h3 => SpiderFusion.scan_first_eligible g pre post e h1 h2 h3⟩,
    fun hwf => ⟨Bialgebra.bialg_scan_nil_iff_spec g hwf,
      fun pre e post h1 h2 h3 => Bialgebra.bialg_scan_first_spec g hwf pre post e h1 h2 h3⟩⟩

/-- C15 at the path `0 - 1 - 2 - 3`, whose first edge is eligible for spider fusion and heads
the match list, and at the well-formed diagram `bialg2`, whose first edge meets the conditions
of the bialgebra rule and heads the match list, so that the list is not empty. -/
theorem C15_match_empty_iff_no_eligible_edge_witness :
    ((path4.edges = [] ++ ((0, 1), 0) :: [((1, 2), 1), ((3, 2), 2)] ∧
        (∀ x ∈ ([] : List EdgePair), ¬ SpiderFusion.Eligible path4 x) ∧
        SpiderFusion.Eligible path4 ((0, 1), 0)) ∧
      (SpiderFusion.match (ZXRule.init (Nat × Nat)) path4).matchTypeVec.head? = some (0, 1)) ∧
    ((bialg2.WellFormed ∧
        bialg2.edges = [] ++ ((0, 1), 0) ::
          [((0, 2), 1), ((0, 3), 2), ((1, 4), 3), ((1, 5), 4),
            ((6, 7), 5), ((6, 8), 6), ((6, 9), 7), ((7, 10), 8), ((7, 11), 9)] ∧
        (∀ x ∈ ([] : List EdgePair), ¬ Bialgebra.EligibleSpec bialg2 x) ∧
        Bialgebra.EligibleSpec bialg2 ((0, 1), 0)) ∧
      (Bialgebra.match (ZXRule.init EdgePair) bialg2).matchTypeVec.head? = some ((0, 1), 0) ∧
      (Bialgebra.match (ZXRule.init EdgePair) bialg2).matchTypeVec ≠ []) :=
  ⟨⟨⟨rfl, fun _ h => absurd h (List.not_mem_nil _),
        ⟨rfl, rfl, Or.inr rfl⟩⟩,
      (C15_match_empty_iff_no_eligible_edge (ZXRule.init (Nat × Nat)) (ZXRule.init EdgePair)
        path4).1.2 [] ((0, 1), 0) [((1, 2), 1), ((3, 2), 2)] rfl
        (fun _ h => absurd h (List.not_mem_nil _)) ⟨rfl, rfl, Or.inr rfl⟩⟩,
    ⟨⟨by decide, rfl, fun _ h => absurd h (List.not_mem_nil _), by decide⟩,
      ((C15_match_empty_iff_no_eligible_edge (ZXRule.init (Nat × Nat)) (ZXRule.init EdgePair)
        bialg2).2 (by decide)).2 [] ((0, 1), 0) _ rfl
        (fun _ h => absurd h (List.not_mem_nil _)) (by decide),
      by decide⟩⟩

/-- C16: for each of the two rules, when `match` has returned the empty list, `rewrite` leaves an
empty delta whatever delta the rule object held before: no vertex to remove, no edge to remove,
no edge-table entry; spider fusion then also hands the graph back as it was, and the apply step
on that delta gives the graph back. -/
theorem C16_rewrite_of_empty_match (r1 : ZXRule (Nat × Nat)) (r2 : ZXRule EdgePair)
    (g : ZXGraph) :
    ((SpiderFusion.match r1 g).matchTypeVec = [] →
      (SpiderFusion.rewrite (SpiderFusion.match r1 g) g).rule.removeVertices = [] ∧
      (SpiderFusion.rewrite (SpiderFusion.match r1 g) g).rule.removeEdges = [] ∧
      (SpiderFusion.rewrite (SpiderFusion.match r1 g) g).rule.edgeTableKeys = [] ∧
      (SpiderFusion.rewrite (SpiderFusion.match r1 g) g).rule.edgeTableValues = [] ∧
      (SpiderFusion.rewrite (SpiderFusion.match r1 g) g).graph = g ∧
      g.applyDelta (SpiderFusion.rewrite (SpiderFusion.match r1 g) g).rule = some g) ∧
    ((Bialgebra.match r2 g).matchTypeVec = [] →
      (Bialgebra.rewrite (Bialgebra.match r2 g) g).removeVertices = [] ∧
      (Bialgebra.rewrite (Bialgebra.match r2 g) g).removeEdges = [] ∧
      (Bialgebra.rewrite (Bialgebra.match r2 g) g).edgeTableKeys = [] ∧
      (Bialgebra.rewrite (Bialgebra.match r2 g) g).edgeTableValues = [] ∧
      g.applyDelta (Bialgebra.rewrite (Bialgebra.match r2 g) g) = some g) := by
  constructor
  · intro h
    rw [SpiderFusion.rewrite_of_nil _ g h]
    exact ⟨rfl, rfl, rfl, rfl, rfl, ZXGraph.applyDelta_of_empty g _ rfl rfl rfl⟩
  · intro h
    rw [Bialgebra.bialg_rewrite_of_nil _ g h]
    exact ⟨rfl, rfl, rfl, rfl, ZXGraph.applyDelta_of_empty g _ rfl rfl rfl⟩

/-- C16 with rule objects that still hold the delta of a pass over other diagrams: spider fusion
finds nothing on `bialg2`, the bialgebra rule finds nothing on the path `path4`. -/
theorem C16_rewrite_of_empty_match_witness :
    ((SpiderFusion.rewrite
        (SpiderFusion.match (ZXRule.init (Nat × Nat)) path4) path4).rule.removeVertices = [1, 2] ∧
      (SpiderFusion.match (SpiderFusion.rewrite
        (SpiderFusion.match (ZXRule.init (Nat × Nat)) path4) path4).rule bialg2).matchTypeVec =
          []) ∧
    (SpiderFusion.rewrite (SpiderFusion.match (SpiderFusion.rewrite
        (SpiderFusion.match (ZXRule.init (Nat × Nat)) path4) path4).rule bialg2)
      bialg2).rule.removeVertices = [] ∧
    ((Bialgebra.rewrite
        (Bialgebra.match (ZXRule.init EdgePair) bialg2) bialg2).removeVertices = [0, 1, 6, 7] ∧
      (Bialgebra.match (Bialgebra.rewrite
        (Bialgebra.match (ZXRule.init EdgePair) bialg2) bialg2) bialg2).matchTypeVec ≠ [] ∧
      (Bialgebra.match (Bialgebra.rewrite
        (Bialgebra.match (ZXRule.init EdgePair) bialg2) bialg2) path4).matchTypeVec = []) ∧
    (Bialgebra.rewrite (Bialgebra.match (Bialgebra.rewrite
        (Bialgebra.match (ZXRule.init EdgePair) bialg2) bialg2) path4) path4).removeVertices =
      [] :=
  ⟨by decide,
    ((C16_rewrite_of_empty_match
      (SpiderFusion.rewrite (SpiderFusion.match (ZXRule.init (Nat × Nat)) path4) path4).rule
      (ZXRule.init EdgePair) bialg2).1 (by decide)).1,
    by decide,
    ((C16_rewrite_of_empty_match (ZXRule.init (Nat × Nat))
      (Bialgebra.rewrite (Bialgebra.match (ZXRule.init EdgePair) bialg2) bialg2)
      path4).2 (by decide)).1⟩

/-- C17: on the well-formed path `0 - 1 - 2 - 3` of Z-spiders `SpiderFusion::match` returns the
records `(0, 1)` and `(3, 2)`, although the endpoint `2` of the second is a neighbour of the
endpoint `1` of the first. -/
theorem C17_sfusion_match_touches_neighbor :
    path4.WellFormed ∧ path4.Symmetric ∧
    (SpiderFusion.match (ZXRule.init (Nat × Nat)) path4).matchTypeVec = [(0, 1), (3, 2)] ∧
    2 ∈ path4.getNeighbors 1 ∧ 1 ∈ path4.getNeighbors 2 := by
  decide

/-- C18: for each of the two rules, `rewrite` on a permutation of the match list that `match`
returned (for spider fusion on a well-formed graph) gives, up to their order, the same vertices
to remove, edges to remove and edge-table entries, and the same phase on every vertex; the
bialgebra rewrite hands the graph on untouched for every order. -/
theorem C18_rewrite_order_of_records (r1 : ZXRule (Nat × Nat)) (r2 : ZXRule EdgePair)
    (g : ZXGraph) (hwf : g.WellFormed)
    (ms1 : List (Nat × Nat)) (h1 : ms1.Perm (SpiderFusion.match r1 g).matchTypeVec)
    (ms2 : List EdgePair) (h2 : ms2.Perm (Bialgebra.match r2 g).matchTypeVec) :
    ((SpiderFusion.rewrite
        { SpiderFusion.match r1 g with matchTypeVec := ms1 } g).rule.removeVertices.Perm
        (SpiderFusion.rewrite (SpiderFusion.match r1 g) g).rule.removeVertices ∧
      (SpiderFusion.rewrite
        { SpiderFusion.match r1 g with matchTypeVec := ms1 } g).rule.removeEdges.Perm
        (SpiderFusion.rewrite (SpiderFusion.match r1 g) g).rule.removeEdges ∧
      ((SpiderFusion.rewrite
          { SpiderFusion.match r1 g with matchTypeVec := ms1 } g).rule.edgeTableKeys.zip
        (SpiderFusion.rewrite
          { SpiderFusion.match r1 g with matchTypeVec := ms1 } g).rule.edgeTableValues).Perm
        ((SpiderFusion.rewrite (SpiderFusion.match r1 g) g).rule.edgeTableKeys.zip
          (SpiderFusion.rewrite (SpiderFusion.match r1 g) g).rule.edgeTableValues) ∧
      (∀ x, (SpiderFusion.rewrite
          { SpiderFusion.match r1 g with matchTypeVec := ms1 } g).graph.phase x =
        (SpiderFusion.rewrite (SpiderFusion.match r1 g) g).graph.phase x)) ∧
    ((Bialgebra.rewrite
        { Bialgebra.match r2 g with matchTypeVec := ms2 } g).removeVertices.Perm
        (Bialgebra.rewrite (Bialgebra.match r2 g) g).removeVertices ∧
      (Bialgebra.rewrite
        { Bialgebra.match r2 g with matchTypeVec := ms2 } g).removeEdges.Perm
        (Bialgebra.rewrite (Bialgebra.match r2 g) g).removeEdges ∧
      ((Bialgebra.rewrite
          { Bialgebra.match r2 g with matchTypeVec := ms2 } g).edgeTableKeys.zip
        (Bialgebra.rewrite
          { Bialgebra.match r2 g with matchTypeVec := ms2 } g).edgeTableValues).Perm
        ((Bialgebra.rewrite (Bialgebra.match r2 g) g).edgeTableKeys.zip
          (Bialgebra.rewrite (Bialgebra.match r2 g) g).edgeTableValues) ∧
      (Bialgebra.rewriteOn { Bialgebra.match r2 g with matchTypeVec := ms2 } g).2 =
        (Bialgebra.rewriteOn (Bialgebra.match r2 g) g).2) :=
  ⟨SpiderFusion.rewrite_perm r1 g hwf ms1 h1,
    (Bialgebra.bialg_rewrite_perm (Bialgebra.match r2 g) g ms2 h2).1,
    (Bialgebra.bialg_rewrite_perm (Bialgebra.match r2 g) g ms2 h2).2.1,
    (Bialgebra.bialg_rewrite_perm (Bialgebra.match r2 g) g ms2 h2).2.2,
    by rw [Bialgebra.rewriteOn_eq, Bialgebra.rewriteOn_eq]⟩

/-! ## The driver loop -/

namespace SpiderFusion

theorem eq_withPhase_of_sameShape {g g' : ZXGraph} (h : SameShape g g') :
    g' = g.withPhase g'.phase := by
  cases g
  cases g'
  obtain ⟨h1, h2, h3, h4, h5⟩ := h
  simp only at h1 h2 h3 h4 h5
  subst h1 h2 h3 h4 h5
  rfl

theorem simplify_stop (fuel : Nat) (r : ZXRule (Nat × Nat)) (g : ZXGraph)
    (h : («match» r g).matchTypeVecNum = 0) : simplify (fuel + 1) r g = some (0, g) := by
  rw [simplify, if_pos h]

theorem simplify_step (fuel : Nat) (r : ZXRule (Nat × Nat)) (g g' : ZXGraph)
    (h : («match» r g).matchTypeVecNum ≠ 0) (hres : passResult r g = some g') :
    simplify (fuel + 1) r g =
      (simplify fuel (passRule r g) g').map (fun res => (res.1 + 1, res.2)) := by
  rw [simplify, if_neg h, hres]

end SpiderFusion

/-- C18 at the path `path4`, with the two records of spider fusion in the other order, and at the
diagram `bialg2`, with the two records of the bialgebra rule in the other order. -/
theorem C18_rewrite_order_of_records_witness :
    (path4.WellFormed ∧
      [(3, 2), (0, 1)].Perm (SpiderFusion.match (ZXRule.init (Nat × Nat)) path4).matchTypeVec ∧
      (SpiderFusion.rewrite
        { SpiderFusion.match (ZXRule.init (Nat × Nat)) path4 with
          matchTypeVec := [(3, 2), (0, 1)] } path4).rule.removeVertices.Perm
        (SpiderFusion.rewrite
          (SpiderFusion.match (ZXRule.init (Nat × Nat)) path4) path4).rule.removeVertices) ∧
    (bialg2.WellFormed ∧
      [((6, 7), 5), ((0, 1), 0)].Perm (Bialgebra.match (ZXRule.init EdgePair) bialg2).matchTypeVec ∧
      (Bialgebra.rewrite
        { Bialgebra.match (ZXRule.init EdgePair) bialg2 with
          matchTypeVec := [((6, 7), 5), ((0, 1), 0)] } bialg2).removeVertices.Perm
        (Bialgebra.rewrite (Bialgebra.match (ZXRule.init EdgePair) bialg2) bialg2).removeVertices) :=
  ⟨⟨by decide, by decide,
      (C18_rewrite_order_of_records (ZXRule.init (Nat × Nat)) (ZXRule.init EdgePair) path4
        (by decide) [(3, 2), (0, 1)] (by decide) [] (by decide)).1.1⟩,
    ⟨by decide, by decide,
      (C18_rewrite_order_of_records (ZXRule.init (Nat × Nat)) (ZXRule.init EdgePair) bialg2
        (by decide) [] (by decide) [((6, 7), 5), ((0, 1), 0)] (by decide)).2.1⟩⟩

/-- C19, as stated, fails: on the well-formed path `0 - 1 - 2 - 3` of four Z-spiders, its edges
listed in path order, the loop of `match`, `rewrite` and apply reaches the pass with no match
after 2 non-empty passes, not after 3: the first pass fuses both `(0, 1)` and `(2, 3)`.  On the
path `path4`, whose last edge is listed from the vertex `3`, the apply step of the first pass is
fatal. -/
theorem C19_sfusion_path_of_four_two_passes :
    (pathGraph VertexType.Z (fun _ => Phase.zero) 4).WellFormed ∧
    (SpiderFusion.match (ZXRule.init (Nat × Nat))
      (pathGraph VertexType.Z (fun _ => Phase.zero) 4)).matchTypeVec = [(0, 1), (2, 3)] ∧
    (SpiderFusion.simplify 10 (ZXRule.init (Nat × Nat))
      (pathGraph VertexType.Z (fun _ => Phase.zero) 4)).map
        (fun res => (res.1, res.2.vertices, res.2.edges)) = some (2, [0], []) ∧
    (SpiderFusion.passResult (ZXRule.init (Nat × Nat)) path4).isSome = false := by
  decide

/-- C20: after `remove_vertex(id)` on any `DirectedGraph`, `has_vertex(id)` is false, `id` owns
no out- and no in-neighbour set, and `id` is a member of no out- and no in-neighbour set. -/
theorem C20_remove_vertex_clears {T : Type} (g : DirectedGraph T) (id : Nat) :
    (g.remove_vertex id).has_vertex id = false ∧
    (g.remove_vertex id).get_out_neighbors id = none ∧
    (g.remove_vertex id).get_in_neighbors id = none ∧
    (∀ kv ∈ (g.remove_vertex id).out_neighbors, id ∉ kv.2) ∧
    (∀ kv ∈ (g.remove_vertex id).in_neighbors, id ∉ kv.2) :=
  DirectedGraph.remove_vertex_clears g id

/-! ## The invariants of the directed graph -/

namespace DirectedGraph

theorem mem_setEmplace (s : List Nat) (x y : Nat) : y ∈ setEmplace s x ↔ y ∈ s ∨ y = x := by
  unfold setEmplace
  split_ifs with h
  · constructor
    · exact Or.inl
    · rintro (h1 | h1)
      · exact h1
      · exact h1 ▸ h
  · simp

theorem mem_setErase (s : List Nat) (x y : Nat) : y ∈ setErase s x ↔ y ∈ s ∧ y ≠ x := by
  unfold setErase
  simp

theorem mapAt_cons (kv : Nat × List Nat) (m : List (Nat × List Nat)) (a : Nat) :
    mapAt (kv :: m) a = if kv.1 = a then some kv.2 else mapAt m a := by
  unfold mapAt
  by_cases h : kv.1 = a
  · rw [if_pos h, List.find?_cons_of_pos _ (by simpa using h)]
    rfl
  · rw [if_neg h, List.find?_cons_of_neg _ (by simpa using h)]

theorem mapAt_mapUpdate (m : List (Nat × List Nat)) (s : Nat) (f : List Nat → List Nat)
    (a : Nat) :
    mapAt (mapUpdate m s f) a = if a = s then (mapAt m a).map f else mapAt m a := by
  induction m with
  | nil => unfold mapUpdate mapAt; simp
  | cons kv m ih =>
    have hcons : mapUpdate (kv :: m) s f =
        (if kv.1 = s then (kv.1, f kv.2) else kv) :: mapUpdate m s f := rfl
    rw [hcons, mapAt_cons, mapAt_cons, ih]
    by_cases hs : kv.1 = s
    · by_cases ha : kv.1 = a
      · have has : a = s := ha ▸ hs
        simp [hs, has]
      · have has : ¬ a = s := fun h => ha (hs.trans h.symm)
        have has' : ¬ s = a := fun h => has h.symm
        simp [hs, has, has']
    · by_cases ha : kv.1 = a
      · have has : ¬ a = s := fun h => hs (ha.trans h)
        simp [hs, ha, has]
      · simp [hs, ha]

theorem mapAt_eq_none_of_not_any (m : List (Nat × List Nat)) (s : Nat)
    (h : m.any (fun kv => decide (kv.1 = s)) = false) : mapAt m s = none := by
  unfold mapAt
  rw [Option.map_eq_none', List.find?_eq_none]
  intro kv hkv
  have := List.any_eq_false.mp h kv hkv
  simpa using this

theorem mapAt_isSome_of_any (m : List (Nat × List Nat)) (s : Nat)
    (h : m.any (fun kv => decide (kv.1 = s)) = true) : ∃ x, mapAt m s = some x := by
  induction m with
  | nil => simp at h
  | cons kv m ih =>
    rw [mapAt_cons]
    by_cases hk : kv.1 = s
    · exact ⟨kv.2, by rw [if_pos hk]⟩
    · rw [if_neg hk]
      apply ih
      rw [List.any_cons] at h
      simpa [hk] using h

theorem mapAt_append_singleton (m : List (Nat × List Nat)) (s a : Nat) (x : List Nat) :
    mapAt (m ++ [(s, x)]) a = (mapAt m a).or (if s = a then some x else none) := by
  induction m with
  | nil =>
    rw [List.nil_append, mapAt_cons]
    unfold mapAt
    simp
  | cons kv m ih =>
    rw [List.cons_append, mapAt_cons, mapAt_cons, ih]
    by_cases hk : kv.1 = a
    · simp [hk]
    · simp [hk]

theorem mapAt_mapIndex (m : List (Nat × List Nat)) (s a : Nat) :
    mapAt (mapIndex m s) a = if a = s then some ((mapAt m s).getD []) else mapAt m a := by
  unfold mapIndex
  by_cases hany : m.any (fun kv => decide (kv.1 = s)) = true
  · rw [if_pos hany]
    by_cases ha : a = s
    · obtain ⟨x, hx⟩ := mapAt_isSome_of_any m s hany
      rw [if_pos ha, ha, hx]
      rfl
    · rw [if_neg ha]
  · rw [if_neg hany, mapAt_append_singleton]
    have hnone := mapAt_eq_none_of_not_any m s (Bool.eq_false_iff.mpr hany)
    by_cases ha : a = s
    · rw [if_pos ha, ha, hnone]
      simp
    · rw [if_neg ha, if_neg (fun h => ha h.symm)]
      simp

/-- The set stored under `a` after `m[s]` has been evaluated and changed by `f`. -/
theorem getD_mapAt_update (m : List (Nat × List Nat)) (s : Nat) (f : List Nat → List Nat)
    (a : Nat) :
    (mapAt (mapUpdate (mapIndex m s) s f) a).getD [] =
      if a = s then f ((mapAt m s).getD []) else (mapAt m a).getD [] := by
  rw [mapAt_mapUpdate, mapAt_mapIndex]
  by_cases ha : a = s
  · rw [if_pos ha, if_pos ha, if_pos ha]
    rfl
  · rw [if_neg ha, if_neg ha, if_neg ha]

/-- The set stored under `a` after `remove_vertex(id)`. -/
theorem mapAt_remove (m : List (Nat × List Nat)) (id a : Nat) :
    mapAt ((mapErase m id).map (fun kv => (kv.1, setErase kv.2 id))) a =
      if a = id then none else (mapAt m a).map (fun s => setErase s id) := by
  induction m with
  | nil => unfold mapErase mapAt; simp
  | cons kv m ih =>
    by_cases hk : kv.1 = id
    · have h1 : mapErase (kv :: m) id = mapErase m id := by
        unfold mapErase
        rw [List.filter_cons_of_neg (by simpa using hk)]
      rw [h1, ih, mapAt_cons]
      by_cases ha : a = id
      · rw [if_pos ha, if_pos ha]
      · rw [if_neg ha, if_neg ha, if_neg (fun h => ha (h.symm.trans hk))]
    · have h1 : mapErase (kv :: m) id = kv :: mapErase m id := by
        unfold mapErase
        rw [List.filter_cons_of_pos (by simpa using hk)]
      rw [h1, List.map_cons, mapAt_cons, mapAt_cons, ih]
      by_cases hka : kv.1 = a
      · rw [if_pos hka, if_pos hka, if_neg (fun h => hk (hka.trans h))]
        rfl
      · rw [if_neg hka, if_neg hka]

theorem outSet_add_edge {T : Type} (g : DirectedGraph T) (s d a : Nat) :
    (g.add_edge s d).outSet a = if a = s then setEmplace (g.outSet s) d else g.outSet a :=
  getD_mapAt_update g.out_neighbors s (fun x => setEmplace x d) a

theorem inSet_add_edge {T : Type} (g : DirectedGraph T) (s d b : Nat) :
    (g.add_edge s d).inSet b = if b = d then setEmplace (g.inSet d) s else g.inSet b :=
  getD_mapAt_update g.in_neighbors d (fun x => setEmplace x s) b

theorem outSet_remove_edge {T : Type} (g : DirectedGraph T) (s d a : Nat) :
    (g.remove_edge s d).outSet a = if a = s then setErase (g.outSet s) d else g.outSet a :=
  getD_mapAt_update g.out_neighbors s (fun x => setErase x d) a

theorem inSet_remove_edge {T : Type} (g : DirectedGraph T) (s d b : Nat) :
    (g.remove_edge s d).inSet b = if b = d then setErase (g.inSet d) s else g.inSet b :=
  getD_mapAt_update g.in_neighbors d (fun x => setErase x s) b

theorem mem_outSet_remove_vertex {T : Type} (g : DirectedGraph T) (id a b : Nat) :
    b ∈ (g.remove_vertex id).outSet a ↔ a ≠ id ∧ b ≠ id ∧ b ∈ g.outSet a := by
  unfold outSet
  have h : (g.remove_vertex id).out_neighbors =
      (mapErase g.out_neighbors id).map (fun kv => (kv.1, setErase kv.2 id)) := rfl
  rw [h, mapAt_remove]
  by_cases ha : a = id
  · rw [if_pos ha]
    simp [ha]
  · rw [if_neg ha]
    cases hm : mapAt g.out_neighbors a with
    | none => simp
    | some x =>
      simp only [Option.map_some', Option.getD_some]
      rw [mem_setErase]
      exact ⟨fun ⟨h1, h2⟩ => ⟨ha, h2, h1⟩, fun ⟨_, h2, h1⟩ => ⟨h1, h2⟩⟩

theorem mem_inSet_remove_vertex {T : Type} (g : DirectedGraph T) (id a b : Nat) :
    a ∈ (g.remove_vertex id).inSet b ↔ b ≠ id ∧ a ≠ id ∧ a ∈ g.inSet b := by
  unfold inSet
  have h : (g.remove_vertex id).in_neighbors =
      (mapErase g.in_neighbors id).map (fun kv => (kv.1, setErase kv.2 id)) := rfl
  rw [h, mapAt_remove]
  by_cases hb : b = id
  · rw [if_pos hb]
    simp [hb]
  · rw [if_neg hb]
    cases hm : mapAt g.in_neighbors b with
    | none => simp
    | some x =>
      simp only [Option.map_some', Option.getD_some]
      rw [mem_setErase]
      exact ⟨fun ⟨h1, h2⟩ => ⟨hb, h2, h1⟩, fun ⟨_, h2, h1⟩ => ⟨h1, h2⟩⟩

/-- Every mutator keeps the two adjacency maps mirrors of each other. -/
theorem mirror_preserved {T : Type} (g : DirectedGraph T) (h : g.Mirror) :
    (∀ id data, (g.add_vertex id data).Mirror) ∧
    (∀ s d, (g.add_edge s d).Mirror) ∧
    (∀ s d, (g.remove_edge s d).Mirror) ∧
    (∀ id, (g.remove_vertex id).Mirror) := by
  refine ⟨fun _ _ => h, ?_, ?_, ?_⟩
  · intro s d a b
    rw [outSet_add_edge, inSet_add_edge]
    by_cases ha : a = s
    · by_cases hb : b = d
      · rw [if_pos ha, if_pos hb, mem_setEmplace, mem_setEmplace]
        subst ha hb
        exact ⟨fun _ => Or.inr rfl, fun _ => Or.inr rfl⟩
      · rw [if_pos ha, if_neg hb, mem_setEmplace]
        subst ha
        exact ⟨fun h1 => h1.elim (fun h2 => (h a b).mp h2) (fun h2 => absurd h2 hb),
          fun h1 => Or.inl ((h a b).mpr h1)⟩
    · by_cases hb : b = d
      · rw [if_neg ha, if_pos hb, mem_setEmplace]
        subst hb
        exact ⟨fun h1 => Or.inl ((h a b).mp h1),
          fun h1 => h1.elim (fun h2 => (h a b).mpr h2) (fun h2 => absurd h2 ha)⟩
      · rw [if_neg ha, if_neg hb]
        exact h a b
  · intro s d a b
    rw [outSet_remove_edge, inSet_remove_edge]
    by_cases ha : a = s
    · by_cases hb : b = d
      · rw [if_pos ha, if_pos hb, mem_setErase, mem_setErase]
        subst ha hb
        exact ⟨fun h1 => absurd rfl h1.2, fun h1 => absurd rfl h1.2⟩
      · rw [if_pos ha, if_neg hb, mem_setErase]
        subst ha
        exact ⟨fun h1 => (h a b).mp h1.1, fun h1 => ⟨(h a b).mpr h1, hb⟩⟩
    · by_cases hb : b = d
      · rw [if_neg ha, if_pos hb, mem_setErase]
        subst hb
        exact ⟨fun h1 => ⟨(h a b).mp h1, ha⟩, fun h1 => (h a b).mpr h1.1⟩
      · rw [if_neg ha, if_neg hb]
        exact h a b
  · intro id a b
    rw [mem_outSet_remove_vertex, mem_inSet_remove_vertex]
    exact ⟨fun ⟨h1, h2, h3⟩ => ⟨h2, h1, (h a b).mp h3⟩,
      fun ⟨h1, h2, h3⟩ => ⟨h2, h1, (h a b).mpr h3⟩⟩

end DirectedGraph

namespace DirectedGraph

theorem mem_mapIndex (m : List (Nat × List Nat)) (s : Nat) (kv : Nat × List Nat)
    (h : kv ∈ mapIndex m s) : kv ∈ m ∨ kv = (s, []) := by
  unfold mapIndex at h
  split_ifs at h
  · exact Or.inl h
  · rcases List.mem_append.mp h with h1 | h1
    · exact Or.inl h1
    · exact Or.inr (List.mem_singleton.mp h1)

/-- A map that names only ids with the property `P` keeps doing so when `m[s]` is evaluated
and changed by a function `f` that keeps it so for the set of `s`. -/
theorem closed_update (P : Nat → Prop) (m : List (Nat × List Nat)) (s : Nat)
    (f : List Nat → List Nat)
    (hm : ∀ kv ∈ m, (kv.2 ≠ [] → P kv.1) ∧ ∀ x ∈ kv.2, P x)
    (hf : ∀ x : List Nat, ((x ≠ [] → P s) ∧ ∀ y ∈ x, P y) →
      ((f x ≠ [] → P s) ∧ ∀ y ∈ f x, P y)) :
    ∀ kv ∈ mapUpdate (mapIndex m s) s f, (kv.2 ≠ [] → P kv.1) ∧ ∀ x ∈ kv.2, P x := by
  intro kv hkv
  unfold mapUpdate at hkv
  obtain ⟨kv0, hkv0, rfl⟩ := List.mem_map.mp hkv
  have h0 : (kv0.2 ≠ [] → P kv0.1) ∧ ∀ x ∈ kv0.2, P x := by
    rcases mem_mapIndex m s kv0 hkv0 with h1 | h1
    · exact hm kv0 h1
    · rw [h1]
      exact ⟨fun h => absurd rfl h, fun x hx => absurd hx (List.not_mem_nil x)⟩
  by_cases hk : kv0.1 = s
  · rw [if_pos hk]
    rw [hk] at h0
    have := hf kv0.2 h0
    exact ⟨fun h => hk ▸ this.1 h, this.2⟩
  · rw [if_neg hk]
    exact h0

theorem has_vertex_add_vertex {T : Type} (g : DirectedGraph T) (id : Nat) (data : T) (x : Nat)
    (h : g.has_vertex x = true) : (g.add_vertex id data).has_vertex x = true := by
  unfold has_vertex add_vertex
  dsimp only
  split_ifs
  · exact h
  · rw [List.any_append, Bool.or_eq_true]
    exact Or.inl h

theorem has_vertex_remove_vertex {T : Type} (g : DirectedGraph T) (id x : Nat) :
    (g.remove_vertex id).has_vertex x = true ↔ g.has_vertex x = true ∧ x ≠ id := by
  unfold has_vertex remove_vertex
  simp only [List.any_eq_true, List.mem_filter, decide_eq_true_eq]
  constructor
  · rintro ⟨kv, ⟨h1, h2⟩, h3⟩
    exact ⟨⟨kv, h1, h3⟩, h3 ▸ h2⟩
  · rintro ⟨⟨kv, h1, h3⟩, h2⟩
    exact ⟨kv, ⟨h1, h3 ▸ h2⟩, h3⟩

theorem closed_remove {T : Type} (g : DirectedGraph T) (id : Nat) (m : List (Nat × List Nat))
    (hm : g.MapClosed m) :
    (g.remove_vertex id).MapClosed
      ((mapErase m id).map (fun kv => (kv.1, setErase kv.2 id))) := by
  intro kv hkv
  obtain ⟨kv0, hkv0, rfl⟩ := List.mem_map.mp hkv
  unfold mapErase at hkv0
  obtain ⟨h1, h2⟩ := List.mem_filter.mp hkv0
  have hne : kv0.1 ≠ id := by simpa using h2
  obtain ⟨a1, a2⟩ := hm kv0 h1
  refine ⟨?_, ?_⟩
  · intro hnon
    rw [has_vertex_remove_vertex]
    refine ⟨a1 ?_, hne⟩
    intro hnil
    apply hnon
    show setErase kv0.2 id = []
    rw [hnil]
    rfl
  · intro x hx
    have hx' : x ∈ setErase kv0.2 id := hx
    rw [mem_setErase] at hx'
    rw [has_vertex_remove_vertex]
    exact ⟨a2 x hx'.1, hx'.2⟩

/-- Every mutator keeps the graph free of dangling references, `add_edge` when both of its
endpoints are vertices. -/
theorem noDangling_preserved {T : Type} (g : DirectedGraph T) (h : g.NoDangling) :
    (∀ id data, (g.add_vertex id data).NoDangling) ∧
    (∀ s d, g.has_vertex s = true → g.has_vertex d = true → (g.add_edge s d).NoDangling) ∧
    (∀ s d, (g.remove_edge s d).NoDangling) ∧
    (∀ id, (g.remove_vertex id).NoDangling) := by
  obtain ⟨ho, hi⟩ := h
  refine ⟨?_, ?_, ?_, ?_⟩
  · intro id data
    exact ⟨fun kv hkv => ⟨fun hn => has_vertex_add_vertex g id data _ ((ho kv hkv).1 hn),
        fun x hx => has_vertex_add_vertex g id data _ ((ho kv hkv).2 x hx)⟩,
      fun kv hkv => ⟨fun hn => has_vertex_add_vertex g id data _ ((hi kv hkv).1 hn),
        fun x hx => has_vertex_add_vertex g id data _ ((hi kv hkv).2 x hx)⟩⟩
  · intro s d hs hd
    constructor
    · exact closed_update (fun v => g.has_vertex v = true) g.out_neighbors s
        (fun x => setEmplace x d) ho
        (fun x hx => ⟨fun _ => hs, fun y hy =>
          ((mem_setEmplace x d y).mp hy).elim (hx.2 y) (fun e => e ▸ hd)⟩)
    · exact closed_update (fun v => g.has_vertex v = true) g.in_neighbors d
        (fun x => setEmplace x s) hi
        (fun x hx => ⟨fun _ => hd, fun y hy =>
          ((mem_setEmplace x s y).mp hy).elim (hx.2 y) (fun e => e ▸ hs)⟩)
  · intro s d
    have hsub : ∀ (x : List Nat) (c : Nat), setErase x c ≠ [] → x ≠ [] := by
      intro x c hne hnil
      apply hne
      rw [hnil]
      rfl
    constructor
    · exact closed_update (fun v => g.has_vertex v = true) g.out_neighbors s
        (fun x => setErase x d) ho
        (fun x hx => ⟨fun hne => hx.1 (hsub x d hne), fun y hy =>
          hx.2 y ((mem_setErase x d y).mp hy).1⟩)
    · exact closed_update (fun v => g.has_vertex v = true) g.in_neighbors d
        (fun x => setErase x s) hi
        (fun x hx => ⟨fun hne => hx.1 (hsub x s hne), fun y hy =>
          hx.2 y ((mem_setErase x s y).mp hy).1⟩)
  · intro id
    exact ⟨closed_remove g id g.out_neighbors ho, closed_remove g id g.in_neighbors hi⟩

theorem mirror_empty (T : Type) : (empty T).Mirror := by
  intro a b
  exact ⟨fun h => absurd h (List.not_mem_nil _), fun h => absurd h (List.not_mem_nil _)⟩

end DirectedGraph

/-! ## Canonical phases -/

namespace Phase

/-- A fraction with a positive denominator is a reduced fraction times a positive factor. -/
theorem exists_reduced (n : Int) (d : Nat) (hd : 0 < d) :
    ∃ (n1 : Int) (d1 g : Nat), 0 < g ∧ 0 < d1 ∧ Nat.Coprime n1.natAbs d1 ∧
      n = n1 * (g : Int) ∧ d = d1 * g := by
  have hg : 0 < Nat.gcd n.natAbs d := Nat.gcd_pos_of_pos_right _ hd
  have hgn : ((Nat.gcd n.natAbs d : Nat) : Int) ∣ n :=
    Int.natCast_dvd.mpr (Nat.gcd_dvd_left _ _)
  have hgd : Nat.gcd n.natAbs d ∣ d := Nat.gcd_dvd_right _ _
  have hn : n = n / ((Nat.gcd n.natAbs d : Nat) : Int) * ((Nat.gcd n.natAbs d : Nat) : Int) :=
    (Int.ediv_mul_cancel hgn).symm
  have hdd : d = d / Nat.gcd n.natAbs d * Nat.gcd n.natAbs d := (Nat.div_mul_cancel hgd).symm
  have hd1 : 0 < d / Nat.gcd n.natAbs d := Nat.div_pos (Nat.le_of_dvd hd hgd) hg
  refine ⟨n / ((Nat.gcd n.natAbs d : Nat) : Int), d / Nat.gcd n.natAbs d, Nat.gcd n.natAbs d,
    hg, hd1, ?_, hn, hdd⟩
  have e1 : n.natAbs =
      (n / ((Nat.gcd n.natAbs d : Nat) : Int)).natAbs * Nat.gcd n.natAbs d := by
    conv_lhs => rw [hn]
    rw [Int.natAbs_mul, Int.natAbs_ofNat]
  have e2 : Nat.gcd n.natAbs d =
      Nat.gcd (n / ((Nat.gcd n.natAbs d : Nat) : Int)).natAbs (d / Nat.gcd n.natAbs d) *
        Nat.gcd n.natAbs d := by
    rw [← Nat.gcd_mul_right, ← e1, ← hdd]
  have e3 : 1 * Nat.gcd n.natAbs d =
      Nat.gcd (n / ((Nat.gcd n.natAbs d : Nat) : Int)).natAbs (d / Nat.gcd n.natAbs d) *
        Nat.gcd n.natAbs d := by
    rw [Nat.one_mul]
    exact e2
  exact (Nat.eq_of_mul_eq_mul_right hg e3).symm

/-- The canonicalisation of a reduced fraction times a positive factor. -/
theorem normalize_reduced (n1 : Int) (d1 g : Nat) (hg : 0 < g)
    (hc : Nat.Coprime n1.natAbs d1) :
    normalize (n1 * (g : Int)) (d1 * g) =
      if (d1 : Int) < n1 % (2 * (d1 : Int)) then ⟨n1 % (2 * (d1 : Int)) - 2 * (d1 : Int), d1⟩
      else ⟨n1 % (2 * (d1 : Int)), d1⟩ := by
  have hgcd : Nat.gcd (n1 * (g : Int)).natAbs (d1 * g) = g := by
    rw [Int.natAbs_mul, Int.natAbs_ofNat, Nat.gcd_mul_right, hc, Nat.one_mul]
  have hg0 : (g : Int) ≠ 0 := by exact_mod_cast (Nat.pos_iff_ne_zero.mp hg)
  unfold normalize
  simp only [hgcd]
  rw [Int.mul_ediv_cancel _ hg0, Nat.mul_div_cancel _ hg]

/-- Canonicalisation gives the canonical form of the fraction and keeps its value modulo 2. -/
theorem normalize_spec (n : Int) (d : Nat) (hd : 0 < d) :
    (normalize n d).Canonical ∧ (normalize n d).CongrMod2 ((n : ℚ) / (d : ℚ)) := by
  obtain ⟨n1, d1, g, hg, hd1, hc, rfl, rfl⟩ := exists_reduced n d hd
  rw [normalize_reduced n1 d1 g hg hc]
  have hpos : (0 : Int) < 2 * (d1 : Int) := by omega
  have hr0 : 0 ≤ n1 % (2 * (d1 : Int)) := Int.emod_nonneg _ (ne_of_gt hpos)
  have hr1 : n1 % (2 * (d1 : Int)) < 2 * (d1 : Int) := Int.emod_lt_of_pos _ hpos
  have hdef : n1 % (2 * (d1 : Int)) = n1 - 2 * (d1 : Int) * (n1 / (2 * (d1 : Int))) :=
    Int.emod_def _ _
  have hcop0 : IsCoprime n1 (d1 : Int) := by
    rw [Int.isCoprime_iff_gcd_eq_one, Int.gcd_eq_natAbs, Int.natAbs_ofNat]
    exact hc
  have hcop : ∀ c : Int, Nat.Coprime (n1 + (d1 : Int) * c).natAbs d1 := by
    intro c
    have h1 : IsCoprime (n1 + (d1 : Int) * c) (d1 : Int) := hcop0.add_mul_left_left c
    rw [Int.isCoprime_iff_gcd_eq_one, Int.gcd_eq_natAbs, Int.natAbs_ofNat] at h1
    exact h1
  have hd1q : (d1 : ℚ) ≠ 0 := by exact_mod_cast (Nat.pos_iff_ne_zero.mp hd1)
  have hgq : (g : ℚ) ≠ 0 := by exact_mod_cast (Nat.pos_iff_ne_zero.mp hg)
  split_ifs with hlt
  · have hv : n1 % (2 * (d1 : Int)) - 2 * (d1 : Int) =
        n1 + (d1 : Int) * (2 * (-(n1 / (2 * (d1 : Int))) - 1)) := by
      rw [hdef]; ring
    refine ⟨⟨hd1, ?_, ?_, ?_⟩, -(n1 / (2 * (d1 : Int))) - 1, ?_⟩
    · show Nat.Coprime (n1 % (2 * (d1 : Int)) - 2 * (d1 : Int)).natAbs d1
      rw [hv]
      exact hcop _
    · show -(d1 : Int) < n1 % (2 * (d1 : Int)) - 2 * (d1 : Int)
      omega
    · show n1 % (2 * (d1 : Int)) - 2 * (d1 : Int) ≤ (d1 : Int)
      omega
    · show ((n1 % (2 * (d1 : Int)) - 2 * (d1 : Int) : Int) : ℚ) / (d1 : ℚ) = _
      rw [hv]
      push_cast
      field_simp
      ring
  · have hv : n1 % (2 * (d1 : Int)) = n1 + (d1 : Int) * (2 * (-(n1 / (2 * (d1 : Int))))) := by
      rw [hdef]; ring
    refine ⟨⟨hd1, ?_, ?_, ?_⟩, -(n1 / (2 * (d1 : Int))), ?_⟩
    · show Nat.Coprime (n1 % (2 * (d1 : Int))).natAbs d1
      rw [hv]
      exact hcop _
    · show -(d1 : Int) < n1 % (2 * (d1 : Int))
      omega
    · show n1 % (2 * (d1 : Int)) ≤ (d1 : Int)
      omega
    · show ((n1 % (2 * (d1 : Int)) : Int) : ℚ) / (d1 : ℚ) = _
      rw [hv]
      push_cast
      field_simp
      ring

/-- The constructor from a numerator and a non-zero denominator. -/
theorem make_spec (n d : Int) (hd : d ≠ 0) :
    ∃ p : Phase, make n d = some p ∧ p.Canonical ∧ p.CongrMod2 ((n : ℚ) / (d : ℚ)) := by
  have hpos : 0 < d.natAbs := Int.natAbs_pos.mpr hd
  obtain ⟨hcan, k, hk⟩ := normalize_spec (n * d.sign) d.natAbs hpos
  refine ⟨normalize (n * d.sign) d.natAbs, by unfold make; rw [if_neg hd], hcan, k, ?_⟩
  rw [hk]
  congr 1
  have hdq : (d : ℚ) ≠ 0 := by exact_mod_cast hd
  rcases lt_or_gt_of_ne hd with hneg | hpos'
  · have h1 : d.sign = -1 := Int.sign_eq_neg_one_of_neg hneg
    have h2 : ((d.natAbs : Nat) : Int) = -d := Int.ofNat_natAbs_of_nonpos (le_of_lt hneg)
    have h3 : ((d.natAbs : Nat) : ℚ) = -(d : ℚ) := by
      rw [← Int.cast_natCast, h2, Int.cast_neg]
    rw [h1, h3]
    push_cast
    field_simp
  · have h1 : d.sign = 1 := Int.sign_eq_one_of_pos hpos'
    have h2 : ((d.natAbs : Nat) : Int) = d := Int.natAbs_of_nonneg (le_of_lt hpos')
    have h3 : ((d.natAbs : Nat) : ℚ) = (d : ℚ) := by
      rw [← Int.cast_natCast, h2]
    rw [h1, h3]
    push_cast
    ring

/-- The sum and the difference of two phases with positive denominators. -/
theorem add_sub_spec (p q : Phase) (hp : 0 < p.denominator) (hq : 0 < q.denominator) :
    ((add p q).Canonical ∧ (add p q).CongrMod2 (p.toRat + q.toRat)) ∧
    ((sub p q).Canonical ∧ (sub p q).CongrMod2 (p.toRat - q.toRat)) := by
  have hpq : 0 < p.denominator * q.denominator := Nat.mul_pos hp hq
  have hpd : (p.denominator : ℚ) ≠ 0 := by exact_mod_cast (Nat.pos_iff_ne_zero.mp hp)
  have hqd : (q.denominator : ℚ) ≠ 0 := by exact_mod_cast (Nat.pos_iff_ne_zero.mp hq)
  constructor
  · obtain ⟨hcan, k, hk⟩ := normalize_spec
      (p.numerator * (q.denominator : Int) + q.numerator * (p.denominator : Int))
      (p.denominator * q.denominator) hpq
    refine ⟨hcan, k, ?_⟩
    show (normalize _ _).toRat = _
    rw [hk]
    congr 1
    unfold toRat
    push_cast
    field_simp
  · obtain ⟨hcan, k, hk⟩ := normalize_spec
      (p.numerator * (q.denominator : Int) - q.numerator * (p.denominator : Int))
      (p.denominator * q.denominator) hpq
    refine ⟨hcan, k, ?_⟩
    show (normalize _ _).toRat = _
    rw [hk]
    congr 1
    unfold toRat
    push_cast
    field_simp
    ring

end Phase

/-! ## The scope guard -/

namespace scope_exit

theorem step_state {σ : Type} (st : scope_exit σ × σ) (e : Event) :
    (step st e).2 = st.2 ∧ (step st e).1.undo_func = none := by
  cases e <;> exact ⟨rfl, rfl⟩

/-- The events on a guard do not touch the state of the program, and after one or more of them
the guard holds no callback. -/
theorem foldl_step {σ : Type} (evs : List Event) :
    ∀ st : scope_exit σ × σ,
      (evs.foldl step st).2 = st.2 ∧
      (evs ≠ [] → (evs.foldl step st).1.undo_func = none) := by
  induction evs with
  | nil => intro st; exact ⟨rfl, fun h => absurd rfl h⟩
  | cons e es ih =>
    intro st
    rw [List.foldl_cons]
    obtain ⟨a1, a2⟩ := ih (step st e)
    refine ⟨a1.trans (step_state st e).1, fun _ => ?_⟩
    by_cases hes : es = []
    · rw [hes]
      exact (step_state st e).2
    · exact a2 hes

/-- The life of a guard built from a callable: nothing is invoked before the end of the scope;
at the end the callback is run once when no event happened to the guard, and not at all when
one did. -/
theorem life {σ : Type} (undo : σ → σ) (evs : List Event) (s : σ) :
    (beforeEnd undo evs s).2 = s ∧
    (evs = [] → afterEnd undo evs s = undo s) ∧
    (evs ≠ [] → afterEnd undo evs s = s) := by
  obtain ⟨a1, a2⟩ := foldl_step evs (make undo s)
  refine ⟨a1, ?_, ?_⟩
  · intro h
    rw [h]
    rfl
  · intro h
    unfold afterEnd destroy
    have h1 : (beforeEnd undo evs s).1.undo_func = none := a2 h
    have h2 : (beforeEnd undo evs s).2 = s := a1
    rw [h1, h2]

end scope_exit

/-! ## The Hadamard self-loops of a record `(u, u)` -/

namespace SpiderFusion

/-- Every Hadamard self-loop of `u` is scheduled for removal by the record `(u, u)`: among the
edges that the record schedules, those of type Hadamard are as many as `u` has Hadamard
self-loops. -/
theorem rewriteRecord_self_loop_hadamards (st : RewriteState) (u : Nat)
    (hloop : u ∈ st.graph.getNeighbors u) :
    (∀ nb ∈ st.graph.neighborMap u, nb.1 = u → st.graph.edgeType nb.2 = EdgeType.HADAMARD →
      ((u, u), nb.2) ∈ (rewriteRecord st (u, u)).rule.removeEdges) ∧
    ((rewriteRecord st (u, u)).rule.removeEdges.filter
        (fun e => decide (st.graph.edgeType e.2 = EdgeType.HADAMARD))).length =
      (st.rule.removeEdges.filter
        (fun e => decide (st.graph.edgeType e.2 = EdgeType.HADAMARD))).length +
        hadamardCount st.graph u u := by
  obtain ⟨_, h2, _⟩ := rewriteRecord_self_loop st u hloop
  rw [h2]
  constructor
  · intro nb hnb h1 h3
    apply List.mem_append_right
    apply List.mem_append_left
    exact List.mem_map.mpr ⟨nb, List.mem_filter.mpr ⟨hnb, by simp [h1, h3]⟩, rfl⟩
  · rw [List.filter_append, List.filter_append, List.length_append, List.length_append]
    have hH : (((st.graph.neighborMap u).filter
        (fun nb => decide (nb.1 = u ∧ st.graph.edgeType nb.2 = EdgeType.HADAMARD))).map
          (fun nb => (((u, u), nb.2) : EdgePair))).filter
        (fun e => decide (st.graph.edgeType e.2 = EdgeType.HADAMARD)) =
        ((st.graph.neighborMap u).filter
          (fun nb => decide (nb.1 = u ∧ st.graph.edgeType nb.2 = EdgeType.HADAMARD))).map
            (fun nb => (((u, u), nb.2) : EdgePair)) := by
      rw [List.filter_eq_self]
      intro e he
      obtain ⟨nb, hnb, rfl⟩ := List.mem_map.mp he
      have := (List.mem_filter.mp hnb).2
      simp only [decide_eq_true_eq] at this
      simp [this.2]
    have hS : (((st.graph.neighborMap u).filter
        (fun nb => decide (nb.1 = u ∧ st.graph.edgeType nb.2 = EdgeType.SIMPLE))).map
          (fun nb => (((u, u), nb.2) : EdgePair))).filter
        (fun e => decide (st.graph.edgeType e.2 = EdgeType.HADAMARD)) = [] := by
      rw [List.filter_eq_nil_iff]
      intro e he
      obtain ⟨nb, hnb, rfl⟩ := List.mem_map.mp he
      have := (List.mem_filter.mp hnb).2
      simp only [decide_eq_true_eq] at this
      simp [this.2]
    rw [hH, hS, List.length_map, List.length_nil, Nat.add_zero, hadamardCount_eq_countP,
      List.countP_eq_length_filter]

end SpiderFusion

/-! ## The claims C21 to C30 -/

/-- C21: every mutator of `DirectedGraph` (`add_vertex`, `add_edge`, `remove_edge`,
`remove_vertex`) keeps the two adjacency maps mirrors of each other: when `dst` is in the
out-neighbour set of `src` if and only if `src` is in the in-neighbour set of `dst` before the
call, the same holds after it, for every argument of the call. -/
theorem C21_mutators_keep_mirror {T : Type} (g : DirectedGraph T) (h : g.Mirror) :
    (∀ id data, (g.add_vertex id data).Mirror) ∧
    (∀ s d, (g.add_edge s d).Mirror) ∧
    (∀ s d, (g.remove_edge s d).Mirror) ∧
    (∀ id, (g.remove_vertex id).Mirror) :=
  DirectedGraph.mirror_preserved g h

/-- C21 from the empty graph: after `add_edge(0, 1)`, and after `remove_vertex(0)` on that graph,
the maps mirror each other; in between `1` is an out-neighbour of `0` and `0` an in-neighbour
of `1`. -/
theorem C21_mutators_keep_mirror_witness :
    (DirectedGraph.empty Unit).Mirror ∧
    ((DirectedGraph.empty Unit).add_edge 0 1).outSet 0 = [1] ∧
    ((DirectedGraph.empty Unit).add_edge 0 1).inSet 1 = [0] ∧
    ((DirectedGraph.empty Unit).add_edge 0 1).Mirror ∧
    (((DirectedGraph.empty Unit).add_edge 0 1).remove_vertex 0).Mirror :=
  ⟨DirectedGraph.mirror_empty Unit, by decide, by decide,
    (C21_mutators_keep_mirror (DirectedGraph.empty Unit)
      (DirectedGraph.mirror_empty Unit)).2.1 0 1,
    (C21_mutators_keep_mirror ((DirectedGraph.empty Unit).add_edge 0 1)
      ((C21_mutators_keep_mirror (DirectedGraph.empty Unit)
        (DirectedGraph.mirror_empty Unit)).2.1 0 1)).2.2.2 0⟩

/-- C22, as stated, fails: on the empty graph, which has no dangling reference, `add_edge(0, 1)`
stores `1` in the out-neighbour set of `0` and `0` in the in-neighbour set of `1` although
neither `0` nor `1` is a vertex. -/
theorem C22_add_edge_leaves_dangling :
    (DirectedGraph.empty Unit).NoDangling ∧
    ((DirectedGraph.empty Unit).add_edge 0 1).get_out_neighbors 0 = some [1] ∧
    ((DirectedGraph.empty Unit).add_edge 0 1).get_in_neighbors 1 = some [0] ∧
    ((DirectedGraph.empty Unit).add_edge 0 1).has_vertex 0 = false ∧
    ((DirectedGraph.empty Unit).add_edge 0 1).has_vertex 1 = false ∧
    ¬ ((DirectedGraph.empty Unit).add_edge 0 1).NoDangling := by
  decide

/-- C22, amended: `add_vertex`, `remove_edge` and `remove_vertex`, for every argument, and
`add_edge` when both of its endpoints are vertices of the graph, keep the graph free of dangling
references: every id stored in an in- or out-neighbour set, and every id that owns a non-empty
neighbour set, is a vertex. -/
theorem C22_mutators_keep_no_dangling {T : Type} (g : DirectedGraph T) (h : g.NoDangling) :
    (∀ id data, (g.add_vertex id data).NoDangling) ∧
    (∀ s d, g.has_vertex s = true → g.has_vertex d = true → (g.add_edge s d).NoDangling) ∧
    (∀ s d, (g.remove_edge s d).NoDangling) ∧
    (∀ id, (g.remove_vertex id).NoDangling) :=
  DirectedGraph.noDangling_preserved g h

/-- C22, amended, at the graph with the vertices `0` and `1`: `add_edge(0, 1)` leaves no dangling
reference, and neither does `remove_vertex(1)` after it. -/
theorem C22_mutators_keep_no_dangling_witness :
    (((DirectedGraph.empty Unit).add_vertex 0 ()).add_vertex 1 ()).NoDangling ∧
    ((((DirectedGraph.empty Unit).add_vertex 0 ()).add_vertex 1 ()).add_edge 0 1).NoDangling ∧
    (((((DirectedGraph.empty Unit).add_vertex 0 ()).add_vertex 1 ()).add_edge 0
      1).remove_vertex 1).out_neighbors = [(0, [])] :=
  ⟨by decide,
    (C22_mutators_keep_no_dangling
      (((DirectedGraph.empty Unit).add_vertex 0 ()).add_vertex 1 ()) (by decide)).2.1 0 1
      (by decide) (by decide),
    by decide⟩

/-- C23, as stated, fails: a guard from which another guard was move-constructed does not invoke
its callback at its destruction although `release()` was never called on it (the callback
counts its invocations: the count stays 0); the guard constructed from it invokes it. -/
theorem C23_moved_from_guard_not_invoked :
    scope_exit.Event.release ∉ [scope_exit.Event.moved_from] ∧
    scope_exit.afterEnd (fun n : Nat => n + 1) [scope_exit.Event.moved_from] 0 = 0 ∧
    ((scope_exit.make (fun n : Nat => n + 1) 0).1.move 0).1.destroy 0 = 1 := by
  decide

/-- C23, amended: a `scope_exit` guard built from a callable invokes nothing before its
destruction; at its destruction it invokes its callback, once, if neither `release()` was called
on it nor another guard was move-constructed from it, and it invokes nothing if `release()` was
called on it or a guard was move-constructed from it; the guard move-constructed from a guard
does at its destruction what that guard would have done. -/
theorem C23_scope_exit_life {σ : Type} (undo : σ → σ) (evs : List scope_exit.Event) (s : σ) :
    (scope_exit.beforeEnd undo evs s).2 = s ∧
    (scope_exit.Event.release ∉ evs → scope_exit.Event.moved_from ∉ evs →
      scope_exit.afterEnd undo evs s = undo s) ∧
    (scope_exit.Event.release ∈ evs → scope_exit.afterEnd undo evs s = s) ∧
    (scope_exit.Event.moved_from ∈ evs → scope_exit.afterEnd undo evs s = s) ∧
    (∀ (g : scope_exit σ) (s1 s2 : σ),
      (g.move s1).1.destroy s2 = g.destroy s2 ∧ (g.move s1).2.1.destroy s2 = s2 ∧
      (g.move s1).2.2 = s1) := by
  obtain ⟨a1, a2, a3⟩ := scope_exit.life undo evs s
  refine ⟨a1, ?_, ?_, ?_, fun g s1 s2 => ⟨rfl, rfl, rfl⟩⟩
  · intro h1 h2
    apply a2
    cases evs with
    | nil => rfl
    | cons e es =>
      cases e
      · exact absurd (List.mem_cons_self _ _) h1
      · exact absurd (List.mem_cons_self _ _) h2
  · intro h
    exact a3 (List.ne_nil_of_mem h)
  · intro h
    exact a3 (List.ne_nil_of_mem h)

/-- C23, amended, with a callback that counts its invocations: the count is 0 before the end of
the scope and 1 after it for a guard left alone, and 0 after it for a released guard. -/
theorem C23_scope_exit_life_witness :
    (scope_exit.beforeEnd (fun n : Nat => n + 1) [] 0).2 = 0 ∧
    scope_exit.afterEnd (fun n : Nat => n + 1) [] 0 = 1 ∧
    scope_exit.afterEnd (fun n : Nat => n + 1) [scope_exit.Event.release] 0 = 0 :=
  ⟨(C23_scope_exit_life (fun n : Nat => n + 1) [] 0).1,
    (C23_scope_exit_life (fun n : Nat => n + 1) [] 0).2.1 (by decide) (by decide),
    (C23_scope_exit_life (fun n : Nat => n + 1) [scope_exit.Event.release] 0).2.2.1
      (by decide)⟩

/-- C24: for all integers `n` and `d` with `d` non-zero the constructor `Phase{n, d}` succeeds
and stores a phase with a positive denominator, numerator and denominator coprime, a value in
`(-1, 1]`, equal to `n / d` plus an even integer; `Phase{0, 2}` is `0/1` and `Phase{3, 2}` is
`-1/2`. -/
theorem C24_phase_constructor_canonical (n d : Int) (hd : d ≠ 0) :
    (∃ p : Phase, Phase.make n d = some p ∧
      (0 < p.denominator ∧ Nat.Coprime p.numerator.natAbs p.denominator ∧
        -(p.denominator : Int) < p.numerator ∧ p.numerator ≤ (p.denominator : Int)) ∧
      ∃ k : Int, (p.numerator : ℚ) / (p.denominator : ℚ) = (n : ℚ) / (d : ℚ) + 2 * (k : ℚ)) ∧
    Phase.make 0 2 = some ⟨0, 1⟩ ∧ Phase.make 3 2 = some ⟨-1, 2⟩ :=
  ⟨Phase.make_spec n d hd, by decide, by decide⟩

/-- C24 at `Phase{7, -4}`, which is `1/4`: `-7/4 + 2`. -/
theorem C24_phase_constructor_canonical_witness :
    (-4 : Int) ≠ 0 ∧ Phase.make 7 (-4) = some ⟨1, 4⟩ ∧
    ∃ p : Phase, Phase.make 7 (-4) = some p ∧
      (0 < p.denominator ∧ Nat.Coprime p.numerator.natAbs p.denominator ∧
        -(p.denominator : Int) < p.numerator ∧ p.numerator ≤ (p.denominator : Int)) ∧
      ∃ k : Int, (p.numerator : ℚ) / (p.denominator : ℚ) =
        ((7 : Int) : ℚ) / ((-4 : Int) : ℚ) + 2 * (k : ℚ) :=
  ⟨by decide, by decide, (C24_phase_constructor_canonical 7 (-4) (by decide)).1⟩

/-- C25: for all phases `p` and `q` (with positive denominators) `p + q` and `p - q` are in
canonical form (positive denominator, reduced, value in `(-1, 1]`) and equal to the exact
rational sum and difference plus an even integer; `1/2 + 2/3 = -5/6` and `-1/3 - 2/3 = 1`. -/
theorem C25_phase_add_sub_canonical (p q : Phase) (hp : 0 < p.denominator)
    (hq : 0 < q.denominator) :
    (((Phase.add p q).Canonical ∧
        ∃ k : Int, (Phase.add p q).toRat = p.toRat + q.toRat + 2 * (k : ℚ)) ∧
      ((Phase.sub p q).Canonical ∧
        ∃ k : Int, (Phase.sub p q).toRat = p.toRat - q.toRat + 2 * (k : ℚ))) ∧
    Phase.add ⟨1, 2⟩ ⟨2, 3⟩ = ⟨-5, 6⟩ ∧ Phase.sub ⟨-1, 3⟩ ⟨2, 3⟩ = ⟨1, 1⟩ :=
  ⟨Phase.add_sub_spec p q hp hq, by decide, by decide⟩

/-- C25 at `1/2` and `2/3`: the sum `-5/6` and the difference `-1/6` are canonical. -/
theorem C25_phase_add_sub_canonical_witness :
    (0 < (⟨1, 2⟩ : Phase).denominator ∧ 0 < (⟨2, 3⟩ : Phase).denominator) ∧
    (Phase.add ⟨1, 2⟩ ⟨2, 3⟩ = ⟨-5, 6⟩ ∧ Phase.sub ⟨1, 2⟩ ⟨2, 3⟩ = ⟨-1, 6⟩) ∧
    (Phase.add ⟨1, 2⟩ ⟨2, 3⟩).Canonical ∧ (Phase.sub ⟨1, 2⟩ ⟨2, 3⟩).Canonical :=
  ⟨by decide, by decide,
    (C25_phase_add_sub_canonical ⟨1, 2⟩ ⟨2, 3⟩ (by decide) (by decide)).1.1.1,
    (C25_phase_add_sub_canonical ⟨1, 2⟩ ⟨2, 3⟩ (by decide) (by decide)).1.2.1⟩

/-- C27: for each of the two rules `match` is a read-only scan.  The method is run on the store,
every call of a graph method made on the store that the call before it leaves (`matchOn`): each
call of either body is a read (`getEdges`, `getNumEdges`, `getVertices`, `getNumVertices`,
`getId`, `getType`, `getPhase`, `getNeighborMap`, `getNumNeighbors`, `getCopiedNeighbors`,
`getNeighbors`, the type of an edge), so for every graph the store comes out as it went in: the
vertex list and the edge list are as before, no vertex or edge is created, every vertex keeps
its type, phase and neighbour multiset, and what the call produces is the rule object of
`match`. -/
theorem C27_match_read_only (r1 : ZXRule (Nat × Nat)) (r2 : ZXRule EdgePair) (g : ZXGraph) :
    ((SpiderFusion.matchOn r1 g).2 = g ∧
      (SpiderFusion.matchOn r1 g).2.vertices = g.vertices ∧
      (SpiderFusion.matchOn r1 g).2.edges = g.edges ∧
      (∀ v, (SpiderFusion.matchOn r1 g).2.type v = g.type v ∧
        (SpiderFusion.matchOn r1 g).2.phase v = g.phase v ∧
        (SpiderFusion.matchOn r1 g).2.neighborMap v = g.neighborMap v) ∧
      (SpiderFusion.matchOn r1 g).1 = SpiderFusion.match r1 g) ∧
    ((Bialgebra.matchOn r2 g).2 = g ∧
      (Bialgebra.matchOn r2 g).2.vertices = g.vertices ∧
      (Bialgebra.matchOn r2 g).2.edges = g.edges ∧
      (∀ v, (Bialgebra.matchOn r2 g).2.type v = g.type v ∧
        (Bialgebra.matchOn r2 g).2.phase v = g.phase v ∧
        (Bialgebra.matchOn r2 g).2.neighborMap v = g.neighborMap v) ∧
      (Bialgebra.matchOn r2 g).1 = Bialgebra.match r2 g) := by
  rw [SpiderFusion.sfusion_matchOn_eq, Bialgebra.bialg_matchOn_eq]
  exact ⟨⟨rfl, rfl, rfl, fun _ => ⟨rfl, rfl, rfl⟩, rfl⟩,
    ⟨rfl, rfl, rfl, fun _ => ⟨rfl, rfl, rfl⟩, rfl⟩⟩

/-- C28: in the two-character string backslash, quote the quote at position 1 has one backslash
before it, an odd number, and `_is_escaped` returns false; in the three-character string
backslash, backslash, quote the quote at position 2 has two, and `_is_escaped` returns true.
With a letter in front of the backslashes the answers are the other way round, as the claim
says. -/
theorem C28_is_escaped_at_string_start :
    (backslashesBefore [backslash, Char.ofNat 39] 1 = 1 ∧
      is_escaped [backslash, Char.ofNat 39] 1 = false) ∧
    (backslashesBefore [backslash, backslash, Char.ofNat 39] 2 = 2 ∧
      is_escaped [backslash, backslash, Char.ofNat 39] 2 = true) ∧
    (backslashesBefore [Char.ofNat 97, backslash, Char.ofNat 39] 2 = 1 ∧
      is_escaped [Char.ofNat 97, backslash, Char.ofNat 39] 2 = true) ∧
    (backslashesBefore [Char.ofNat 97, backslash, backslash, Char.ofNat 39] 3 = 2 ∧
      is_escaped [Char.ofNat 97, backslash, backslash, Char.ofNat 39] 3 = false) := by
  decide

/-- C29: for a tensor of dimension 2, `isPartition` returns true on the axis lists `[2]`, `[3]`
and on `[0, 0]`, `[]`, neither of which contains each of the axes `0`, `1` exactly once. -/
theorem C29_isPartition_accepts_non_partition :
    (isPartition ⟨2⟩ [2] [3] = true ∧ ¬ PartitionOfAxes 2 [2] [3]) ∧
    (isPartition ⟨2⟩ [0, 0] [] = true ∧ ¬ PartitionOfAxes 2 [0, 0] []) ∧
    (isPartition ⟨2⟩ [1] [0] = true ∧ PartitionOfAxes 2 [1] [0]) := by
  decide

/-- C30, as stated, fails: on the well-formed diagram `selfLoop3`, one Z-spider with a Simple
self-loop and `h = 3` Hadamard self-loops, the record is `(0, 0)` and `SpiderFusion::rewrite`
schedules all three Hadamard self-loops (handles `1`, `2`, `3`) for removal, not two of
them. -/
theorem C30_sfusion_odd_self_loops_all_scheduled :
    selfLoop3.WellFormed ∧
    (SpiderFusion.match (ZXRule.init (Nat × Nat)) selfLoop3).matchTypeVec = [(0, 0)] ∧
    SpiderFusion.hadamardCount selfLoop3 0 0 = 3 ∧
    (SpiderFusion.rewrite
      (SpiderFusion.match (ZXRule.init (Nat × Nat)) selfLoop3) selfLoop3).rule.removeEdges =
        [((0, 0), 1), ((0, 0), 2), ((0, 0), 3), ((0, 0), 0)] := by
  decide

/-- C30, amended: for a record `(u, u)` of a spider `u` with a self-loop, whatever the number
`h` of Hadamard self-loops of `u`, odd or even, the body of the loop of `SpiderFusion::rewrite`
schedules every Hadamard self-loop of `u` for removal: the Hadamard edges among the scheduled
edges grow by `h`, so no residual Hadamard self-loop is kept back. -/
theorem C30_sfusion_self_loop_schedules_all_hadamards (st : SpiderFusion.RewriteState)
    (u : Nat) (hloop : u ∈ st.graph.getNeighbors u) :
    (∀ nb ∈ st.graph.neighborMap u, nb.1 = u → st.graph.edgeType nb.2 = EdgeType.HADAMARD →
      ((u, u), nb.2) ∈ (SpiderFusion.rewriteRecord st (u, u)).rule.removeEdges) ∧
    ((SpiderFusion.rewriteRecord st (u, u)).rule.removeEdges.filter
        (fun e => decide (st.graph.edgeType e.2 = EdgeType.HADAMARD))).length =
      (st.rule.removeEdges.filter
        (fun e => decide (st.graph.edgeType e.2 = EdgeType.HADAMARD))).length +
        SpiderFusion.hadamardCount st.graph u u :=
  SpiderFusion.rewriteRecord_self_loop_hadamards st u hloop

/-- C30, amended, at the spider of `selfLoop3` with its three Hadamard self-loops: three
Hadamard edges are scheduled. -/
theorem C30_sfusion_self_loop_schedules_all_hadamards_witness :
    0 ∈ selfLoop3.getNeighbors 0 ∧
    SpiderFusion.hadamardCount selfLoop3 0 0 = 3 ∧
    ((SpiderFusion.rewriteRecord { rule := ZXRule.init (Nat × Nat), graph := selfLoop3 }
      (0, 0)).rule.removeEdges.filter
        (fun e => decide (selfLoop3.edgeType e.2 = EdgeType.HADAMARD))).length =
      (([] : List EdgePair).filter
        (fun e => decide (selfLoop3.edgeType e.2 = EdgeType.HADAMARD))).length +
        SpiderFusion.hadamardCount selfLoop3 0 0 :=
  ⟨by decide, by decide,
    (C30_sfusion_self_loop_schedules_all_hadamards
      { rule := ZXRule.init (Nat × Nat), graph := selfLoop3 } 0 (by decide)).2⟩

/-! ## The vertices to remove and the keys of the bialgebra rule -/

namespace SpiderFusion

/-- After `match` and `rewrite` on a well-formed graph the vertices to remove are the second
endpoints of the records with two endpoints: none is listed twice and none is the first endpoint
of a record. -/
theorem sfusion_removeVertices (r : ZXRule (Nat × Nat)) (g : ZXGraph) (hwf : g.WellFormed) :
    (rewrite («match» r g) g).rule.removeVertices.Nodup ∧
    ∀ v ∈ (rewrite («match» r g) g).rule.removeVertices,
      ∀ m ∈ («match» r g).matchTypeVec, v ≠ m.1 := by
  have hpw : («match» r g).matchTypeVec.Pairwise NoSharedEndpoint := (scan_inv g hwf).2.2
  have hrv : (rewrite («match» r g) g).rule.removeVertices =
      («match» r g).matchTypeVec.flatMap (fun m => if m.1 ≠ m.2 then [m.2] else []) := by
    unfold rewrite
    rw [(foldl_rewriteRecord_frame _ _).2.2]
    rfl
  rw [hrv]
  constructor
  · rw [List.nodup_flatMap]
    constructor
    · intro m _
      split_ifs
      · exact List.nodup_singleton _
      · exact List.nodup_nil
    · refine hpw.imp ?_
      intro a b hab x hxa hxb
      dsimp only at hxa hxb
      have ha : x = a.2 := by
        split_ifs at hxa
        · exact List.mem_singleton.mp hxa
        · exact absurd hxa (List.not_mem_nil _)
      have hb : x = b.2 := by
        split_ifs at hxb
        · exact List.mem_singleton.mp hxb
        · exact absurd hxb (List.not_mem_nil _)
      exact hab.2.2.2 (ha.symm.trans hb)
  · intro v hv m hm
    obtain ⟨m', hm', hvm'⟩ := List.mem_flatMap.mp hv
    by_cases hne : m'.1 ≠ m'.2
    · rw [if_pos hne] at hvm'
      have hv2 : v = m'.2 := List.mem_singleton.mp hvm'
      rcases pairwise_mem_cases hpw hm' hm with heq | h1 | h1
      · rw [hv2, ← heq]
        exact fun h => hne h.symm
      · rw [hv2]
        exact h1.2.2.1
      · rw [hv2]
        exact fun h => h1.2.1 h.symm
    · rw [if_neg hne] at hvm'
      exact absurd hvm' (List.not_mem_nil _)

end SpiderFusion

namespace Bialgebra

theorem eligible_endpoints_ne (g : ZXGraph) (m : EdgePair) (hel : Eligible g m) :
    m.1.1 ≠ m.1.2 := by
  obtain ⟨_, _, hty, _⟩ := hel
  intro h
  rw [h] at hty
  rcases hty with ⟨a, b⟩ | ⟨a, b⟩ <;> rw [a] at b <;> exact VertexType.noConfusion b

/-- After `match` and `rewrite` on a well-formed graph no vertex is listed twice among the
vertices to remove. -/
theorem bialg_removeVertices_nodup (r : ZXRule EdgePair) (g : ZXGraph) (hwf : g.WellFormed) :
    (rewrite («match» r g) g).removeVertices.Nodup := by
  rw [rewrite_eq]
  show ((«match» r g).matchTypeVec.flatMap (fun m => [m.1.1, m.1.2])).Nodup
  rw [List.nodup_flatMap]
  constructor
  · intro m hm
    have hne := eligible_endpoints_ne g m (scan_eligible g m hm).2
    simp [hne]
  · have hpw : («match» r g).matchTypeVec.Pairwise (Separated g) := (bialg_scan_inv g hwf).2.2.2
    refine hpw.imp ?_
    intro a b hab x hxa hxb
    have hb : x = b.1.1 ∨ x = b.1.2 := by simpa using hxb
    have ha : x = a.1.1 ∨ x = a.1.2 := by simpa using hxa
    have := (hab x hb).1
    rcases ha with ha | ha
    · exact this.1 ha
    · exact this.2 ha

/-- Every edge-table key that `rewrite` emits for the list of `match` joins a neighbour of the
left endpoint, of the colour of the right one, to a neighbour of the right endpoint, of the
colour of the left one: two vertices of opposite colours. -/
theorem bialg_keys_opposite (r : ZXRule EdgePair) (g : ZXGraph) :
    ∀ k ∈ (rewrite («match» r g) g).edgeTableKeys,
      k.1 ≠ k.2 ∧
      ((g.type k.1 = VertexType.X ∧ g.type k.2 = VertexType.Z) ∨
        (g.type k.1 = VertexType.Z ∧ g.type k.2 = VertexType.X)) := by
  intro k hk
  rw [rewrite_eq] at hk
  obtain ⟨m, hm, hkm⟩ := List.mem_flatMap.mp hk
  have hkm' : (k.1, k.2) ∈ recordKeys g m := hkm
  rw [mem_recordKeys] at hkm'
  obtain ⟨_, _, hty, _, _, hl, hr, _⟩ := (scan_eligible g m hm).2
  have h1 := (hl k.1 hkm'.1.1).2
  have h2 := (hr k.2 hkm'.2.1).2
  have hcol : (g.type k.1 = VertexType.X ∧ g.type k.2 = VertexType.Z) ∨
      (g.type k.1 = VertexType.Z ∧ g.type k.2 = VertexType.X) := by
    rcases hty with ⟨a, b⟩ | ⟨a, b⟩
    · exact Or.inr ⟨h1.trans b, h2.trans a⟩
    · exact Or.inl ⟨h1.trans b, h2.trans a⟩
  refine ⟨?_, hcol⟩
  intro h
  rw [h] at hcol
  rcases hcol with ⟨a, b⟩ | ⟨a, b⟩ <;> rw [a] at b <;> exact VertexType.noConfusion b

end Bialgebra

/-! ## Missing keys and the count of edges of the directed graph -/

namespace DirectedGraph

theorem mapAt_update_of_ne (m : List (Nat × List Nat)) (s : Nat) (f : List Nat → List Nat)
    (a : Nat) (h : a ≠ s) : mapAt (mapUpdate (mapIndex m s) s f) a = mapAt m a := by
  rw [mapAt_mapUpdate, mapAt_mapIndex, if_neg h, if_neg h]

theorem mapAt_update_self (m : List (Nat × List Nat)) (s : Nat) (f : List Nat → List Nat) :
    mapAt (mapUpdate (mapIndex m s) s f) s = some (f ((mapAt m s).getD [])) := by
  rw [mapAt_mapUpdate, mapAt_mapIndex, if_pos rfl, if_pos rfl]
  rfl

/-- A call that does not have `v` as its source leaves `v` without an out-neighbour set when it
had none. -/
theorem applyOp_out_none {T : Type} (g : DirectedGraph T) (op : Op T) (v : Nat)
    (hop : op.hasSource v = false) (h : mapAt g.out_neighbors v = none) :
    mapAt (g.applyOp op).out_neighbors v = none := by
  cases op with
  | add_vertex id data => exact h
  | add_edge src dst =>
    have hne : v ≠ src := by
      intro e
      simp [Op.hasSource, e] at hop
    show mapAt (mapUpdate (mapIndex g.out_neighbors src) src (fun s => setEmplace s dst)) v =
      none
    rw [mapAt_update_of_ne _ _ _ _ hne]
    exact h
  | remove_vertex id =>
    show mapAt ((mapErase g.out_neighbors id).map (fun kv => (kv.1, setErase kv.2 id))) v = none
    rw [mapAt_remove, h]
    split_ifs <;> rfl
  | remove_edge src dst =>
    have hne : v ≠ src := by
      intro e
      simp [Op.hasSource, e] at hop
    show mapAt (mapUpdate (mapIndex g.out_neighbors src) src (fun s => setErase s dst)) v =
      none
    rw [mapAt_update_of_ne _ _ _ _ hne]
    exact h

theorem applyOp_in_none {T : Type} (g : DirectedGraph T) (op : Op T) (v : Nat)
    (hop : op.hasTarget v = false) (h : mapAt g.in_neighbors v = none) :
    mapAt (g.applyOp op).in_neighbors v = none := by
  cases op with
  | add_vertex id data => exact h
  | add_edge src dst =>
    have hne : v ≠ dst := by
      intro e
      simp [Op.hasTarget, e] at hop
    show mapAt (mapUpdate (mapIndex g.in_neighbors dst) dst (fun s => setEmplace s src)) v =
      none
    rw [mapAt_update_of_ne _ _ _ _ hne]
    exact h
  | remove_vertex id =>
    show mapAt ((mapErase g.in_neighbors id).map (fun kv => (kv.1, setErase kv.2 id))) v = none
    rw [mapAt_remove, h]
    split_ifs <;> rfl
  | remove_edge src dst =>
    have hne : v ≠ dst := by
      intro e
      simp [Op.hasTarget, e] at hop
    show mapAt (mapUpdate (mapIndex g.in_neighbors dst) dst (fun s => setErase s src)) v =
      none
    rw [mapAt_update_of_ne _ _ _ _ hne]
    exact h

theorem foldl_applyOp_none {T : Type} (ops : List (Op T)) (v : Nat) :
    ∀ g : DirectedGraph T,
      ((∀ op ∈ ops, op.hasSource v = false) → mapAt g.out_neighbors v = none →
        mapAt (ops.foldl applyOp g).out_neighbors v = none) ∧
      ((∀ op ∈ ops, op.hasTarget v = false) → mapAt g.in_neighbors v = none →
        mapAt (ops.foldl applyOp g).in_neighbors v = none) := by
  induction ops with
  | nil => intro g; exact ⟨fun _ h => h, fun _ h => h⟩
  | cons op ops ih =>
    intro g
    rw [List.foldl_cons]
    constructor
    · intro hs h
      exact (ih (g.applyOp op)).1 (fun o ho => hs o (List.mem_cons_of_mem _ ho))
        (applyOp_out_none g op v (hs op (List.mem_cons_self _ _)) h)
    · intro hs h
      exact (ih (g.applyOp op)).2 (fun o ho => hs o (List.mem_cons_of_mem _ ho))
        (applyOp_in_none g op v (hs op (List.mem_cons_self _ _)) h)

/-- The accessors of a vertex that no call had as a source (as a target) fail, and they succeed
right after `add_edge` from (to) the vertex. -/
theorem accessors_missing_key {T : Type} (ops : List (Op T)) (v : Nat) :
    ((∀ op ∈ ops, op.hasSource v = false) →
      (run ops).get_out_neighbors v = none ∧ (run ops).num_out_neighbors v = none ∧
      ∀ w, (run ops).has_edge v w = none) ∧
    ((∀ op ∈ ops, op.hasTarget v = false) →
      (run ops).get_in_neighbors v = none ∧ (run ops).num_in_neighbors v = none) ∧
    (∀ (g : DirectedGraph T) (w : Nat),
      (∃ s, (g.add_edge v w).get_out_neighbors v = some s ∧ w ∈ s ∧
        (g.add_edge v w).num_out_neighbors v = some s.length) ∧
      (g.add_edge v w).has_edge v w = some true ∧
      (∃ s, (g.add_edge w v).get_in_neighbors v = some s ∧ w ∈ s ∧
        (g.add_edge w v).num_in_neighbors v = some s.length)) := by
  refine ⟨?_, ?_, ?_⟩
  · intro hs
    have h : mapAt (run ops).out_neighbors v = none :=
      (foldl_applyOp_none ops v (empty T)).1 hs rfl
    unfold get_out_neighbors num_out_neighbors has_edge
    rw [h]
    exact ⟨rfl, rfl, fun _ => rfl⟩
  · intro hs
    have h : mapAt (run ops).in_neighbors v = none :=
      (foldl_applyOp_none ops v (empty T)).2 hs rfl
    unfold get_in_neighbors num_in_neighbors
    rw [h]
    exact ⟨rfl, rfl⟩
  · intro g w
    have ho : mapAt (g.add_edge v w).out_neighbors v =
        some (setEmplace ((mapAt g.out_neighbors v).getD []) w) :=
      mapAt_update_self g.out_neighbors v (fun s => setEmplace s w)
    have hi : mapAt (g.add_edge w v).in_neighbors v =
        some (setEmplace ((mapAt g.in_neighbors v).getD []) w) :=
      mapAt_update_self g.in_neighbors v (fun s => setEmplace s w)
    have hmem : ∀ s : List Nat, w ∈ setEmplace s w := fun s =>
      (mem_setEmplace s w w).mpr (Or.inr rfl)
    refine ⟨⟨_, ho, hmem _, ?_⟩, ?_, ⟨_, hi, hmem _, ?_⟩⟩
    · unfold num_out_neighbors
      rw [ho]
      rfl
    · unfold has_edge
      rw [ho]
      simp [hmem]
    · unfold num_in_neighbors
      rw [hi]
      rfl

end DirectedGraph

namespace DirectedGraph

theorem foldl_length_sum (m : List (Nat × List Nat)) :
    ∀ a : Nat, m.foldl (fun n kv => n + kv.2.length) a =
      a + (m.map (fun kv => kv.2.length)).sum := by
  induction m with
  | nil => intro a; simp
  | cons kv m ih =>
    intro a
    rw [List.foldl_cons, ih, List.map_cons, List.sum_cons]
    omega

theorem num_edges_eq_sum {T : Type} (g : DirectedGraph T) :
    g.num_edges = (g.out_neighbors.map (fun kv => kv.2.length)).sum := by
  unfold num_edges
  rw [foldl_length_sum, Nat.zero_add]

theorem mapUpdate_of_not_key (m : List (Nat × List Nat)) (s : Nat) (f : List Nat → List Nat)
    (h : ∀ kv ∈ m, kv.1 ≠ s) : mapUpdate m s f = m := by
  unfold mapUpdate
  conv_rhs => rw [← List.map_id m]
  apply List.map_congr_left
  intro kv hkv
  rw [if_neg (h kv hkv)]
  rfl

theorem mapAt_none_of_not_key (m : List (Nat × List Nat)) (s : Nat)
    (h : ∀ kv ∈ m, kv.1 ≠ s) : mapAt m s = none := by
  unfold mapAt
  rw [Option.map_eq_none', List.find?_eq_none]
  intro kv hkv
  simpa using h kv hkv

theorem not_key_of_keysUnique (kv : Nat × List Nat) (m : List (Nat × List Nat))
    (hk : KeysUnique (kv :: m)) : (∀ x ∈ m, x.1 ≠ kv.1) ∧ KeysUnique m := by
  unfold KeysUnique at hk ⊢
  rw [List.map_cons, List.nodup_cons] at hk
  exact ⟨fun x hx e => hk.1 (e ▸ List.mem_map_of_mem Prod.fst hx), hk.2⟩

/-- In a map with unique keys a change of the set of one key changes the total size by the
change of that set. -/
theorem sum_mapUpdate (m : List (Nat × List Nat)) (s : Nat) (f : List Nat → List Nat)
    (x : List Nat) (hk : KeysUnique m) (hx : mapAt m s = some x) :
    ((mapUpdate m s f).map (fun kv => kv.2.length)).sum + x.length =
      (m.map (fun kv => kv.2.length)).sum + (f x).length ∧
    (f x = x → mapUpdate m s f = m) := by
  induction m with
  | nil => unfold mapAt at hx; simp at hx
  | cons kv m ih =>
    obtain ⟨hnot, hk'⟩ := not_key_of_keysUnique kv m hk
    have hcons : mapUpdate (kv :: m) s f =
        (if kv.1 = s then (kv.1, f kv.2) else kv) :: mapUpdate m s f := rfl
    rw [mapAt_cons] at hx
    by_cases hs : kv.1 = s
    · rw [if_pos hs] at hx
      have hx' : kv.2 = x := Option.some.inj hx
      subst hx'
      have hm : mapUpdate m s f = m := mapUpdate_of_not_key m s f (fun y hy => hs ▸ hnot y hy)
      rw [hcons, if_pos hs, hm]
      constructor
      · simp only [List.map_cons, List.sum_cons]
        omega
      · intro hf
        rw [hf]
    · rw [if_neg hs] at hx
      obtain ⟨a1, a2⟩ := ih hk' hx
      rw [hcons, if_neg hs]
      constructor
      · simp only [List.map_cons, List.sum_cons]
        omega
      · intro hf
        rw [a2 hf]

theorem mapIndex_facts (m : List (Nat × List Nat)) (s : Nat) (hk : KeysUnique m) :
    KeysUnique (mapIndex m s) ∧
    ((mapIndex m s).map (fun kv => kv.2.length)).sum = (m.map (fun kv => kv.2.length)).sum ∧
    ((∃ x, mapAt m s = some x) → mapIndex m s = m) := by
  unfold mapIndex
  by_cases hany : m.any (fun kv => decide (kv.1 = s)) = true
  · rw [if_pos hany]
    exact ⟨hk, rfl, fun _ => rfl⟩
  · rw [if_neg hany]
    have hnone := mapAt_eq_none_of_not_any m s (Bool.eq_false_iff.mpr hany)
    refine ⟨?_, by simp, fun ⟨x, hx⟩ => by rw [hnone] at hx; exact absurd hx (by simp)⟩
    unfold KeysUnique at hk ⊢
    rw [List.map_append, List.nodup_append]
    refine ⟨hk, by simp, ?_⟩
    intro a ha hb
    have hb' : a = s := by simpa using hb
    obtain ⟨kv, hkv, hfst⟩ := List.mem_map.mp ha
    have := List.any_eq_false.mp (Bool.eq_false_iff.mpr hany) kv hkv
    simp only [decide_eq_true_eq] at this
    exact this (hfst.trans hb')

/-- The method `add_edge` on a graph whose out-neighbour map has unique keys: nothing changes in
the map when the edge is there, and else the edge is there afterwards and one more edge is
counted. -/
theorem add_edge_count {T : Type} (g : DirectedGraph T) (hk : KeysUnique g.out_neighbors)
    (s d : Nat) :
    (g.has_edge s d = some true → (g.add_edge s d).out_neighbors = g.out_neighbors) ∧
    (g.has_edge s d ≠ some true →
      (g.add_edge s d).has_edge s d = some true ∧
      (g.add_edge s d).num_edges = g.num_edges + 1) := by
  have hout : (g.add_edge s d).out_neighbors =
      mapUpdate (mapIndex g.out_neighbors s) s (fun x => setEmplace x d) := rfl
  obtain ⟨hk', hsum, hsame⟩ := mapIndex_facts g.out_neighbors s hk
  have hat : mapAt (mapIndex g.out_neighbors s) s = some ((mapAt g.out_neighbors s).getD []) := by
    rw [mapAt_mapIndex, if_pos rfl]
  constructor
  · intro h
    unfold has_edge at h
    cases hm : mapAt g.out_neighbors s with
    | none => rw [hm] at h; exact absurd h (by simp)
    | some x =>
      rw [hm] at h
      have hd : d ∈ x := by simpa using h
      rw [hout, hsame ⟨x, hm⟩]
      apply (sum_mapUpdate g.out_neighbors s (fun y => setEmplace y d) x hk hm).2
      show setEmplace x d = x
      unfold setEmplace
      rw [if_pos hd]
  · intro h
    have hnot : d ∉ (mapAt g.out_neighbors s).getD [] := by
      intro hd
      apply h
      unfold has_edge
      cases hm : mapAt g.out_neighbors s with
      | none => rw [hm] at hd; exact absurd hd (List.not_mem_nil _)
      | some x =>
        rw [hm] at hd
        simpa using hd
    constructor
    · unfold has_edge
      rw [hout, mapAt_update_self]
      simp [mem_setEmplace]
    · rw [num_edges_eq_sum, num_edges_eq_sum, hout]
      have h1 := (sum_mapUpdate (mapIndex g.out_neighbors s) s (fun y => setEmplace y d)
        ((mapAt g.out_neighbors s).getD []) hk' hat).1
      have h2 : (setEmplace ((mapAt g.out_neighbors s).getD []) d).length =
          ((mapAt g.out_neighbors s).getD []).length + 1 := by
        unfold setEmplace
        rw [if_neg hnot, List.length_append]
        rfl
      rw [hsum] at h1
      omega

/-- Every mutator keeps the keys of the out-neighbour map unique. -/
theorem keysUnique_applyOp {T : Type} (g : DirectedGraph T) (op : Op T)
    (hk : KeysUnique g.out_neighbors) : KeysUnique (g.applyOp op).out_neighbors := by
  have hupd : ∀ (m : List (Nat × List Nat)) (s : Nat) (f : List Nat → List Nat),
      (mapUpdate m s f).map Prod.fst = m.map Prod.fst := by
    intro m s f
    unfold mapUpdate
    rw [List.map_map]
    apply List.map_congr_left
    intro kv _
    show (if kv.1 = s then (kv.1, f kv.2) else kv).1 = kv.1
    split_ifs <;> rfl
  cases op with
  | add_vertex id data => exact hk
  | add_edge src dst =>
    show KeysUnique (mapUpdate (mapIndex g.out_neighbors src) src (fun s => setEmplace s dst))
    unfold KeysUnique
    rw [hupd]
    exact (mapIndex_facts g.out_neighbors src hk).1
  | remove_vertex id =>
    show KeysUnique ((mapErase g.out_neighbors id).map (fun kv => (kv.1, setErase kv.2 id)))
    unfold KeysUnique mapErase
    rw [List.map_map]
    exact List.Nodup.sublist ((List.filter_sublist _).map Prod.fst) hk
  | remove_edge src dst =>
    show KeysUnique (mapUpdate (mapIndex g.out_neighbors src) src (fun s => setErase s dst))
    unfold KeysUnique
    rw [hupd]
    exact (mapIndex_facts g.out_neighbors src hk).1

theorem keysUnique_run {T : Type} (ops : List (Op T)) : KeysUnique (run ops).out_neighbors := by
  have h : ∀ (l : List (Op T)) (g : DirectedGraph T), KeysUnique g.out_neighbors →
      KeysUnique (l.foldl applyOp g).out_neighbors := by
    intro l
    induction l with
    | nil => intro g hg; exact hg
    | cons op l ih => intro g hg; exact ih _ (keysUnique_applyOp g op hg)
  exact h ops (empty T) List.nodup_nil

end DirectedGraph

/-! ## The arguments of a dofile -/

theorem takeLine_append (line : List Char) (hnl : newline ∉ line) :
    takeLine line = (line, none) ∧
    ∀ rest, takeLine (line ++ newline :: rest) = (line, some rest) := by
  induction line with
  | nil =>
    refine ⟨rfl, fun rest => ?_⟩
    rw [List.nil_append, takeLine, if_pos rfl]
  | cons c cs ih =>
    have hc : c ≠ newline := fun h => hnl (h ▸ List.mem_cons_self _ _)
    obtain ⟨a1, a2⟩ := ih (fun h => hnl (List.mem_cons_of_mem _ h))
    refine ⟨?_, fun rest => ?_⟩
    · rw [takeLine, if_neg hc, a1]
    · rw [List.cons_append, takeLine, if_neg hc, a2]

/-- On a stream that is not good the loop over empty lines never ends. -/
theorem skip_empty_lines_stuck (fuel : Nat) (rest : List Char) :
    skip_empty_lines fuel { rest := rest, good := false } [] = none := by
  induction fuel with
  | zero => rfl
  | succ fuel ih =>
    rw [skip_empty_lines, if_pos rfl]
    exact ih

/-- On a file of line feeds only the loop over empty lines never ends. -/
theorem skip_empty_lines_of_newlines (m : Nat) :
    ∀ fuel, skip_empty_lines fuel { rest := List.replicate m newline, good := true } [] =
      none := by
  induction m with
  | zero =>
    intro fuel
    cases fuel with
    | zero => rfl
    | succ fuel =>
      rw [skip_empty_lines, if_pos rfl]
      exact skip_empty_lines_stuck fuel []
  | succ m ih =>
    intro fuel
    cases fuel with
    | zero => rfl
    | succ fuel =>
      rw [skip_empty_lines, if_pos rfl]
      have h : getline { rest := List.replicate (m + 1) newline, good := true } [] =
          ({ rest := List.replicate m newline, good := true }, []) := by
        unfold getline
        rw [List.replicate_succ, takeLine, if_pos rfl]
        rfl
      rw [h]
      exact ih fuel

/-- After `m` empty lines the loop over empty lines ends with the first line that is not
empty. -/
theorem skip_empty_lines_first (line tail : List Char) (hline : line ≠ [])
    (hnl : newline ∉ line) (htail : tail = [] ∨ ∃ rest, tail = newline :: rest) (m : Nat) :
    ∀ fuel, m + 2 ≤ fuel →
      skip_empty_lines fuel { rest := List.replicate m newline ++ (line ++ tail), good := true }
        [] = some line := by
  obtain ⟨a1, a2⟩ := takeLine_append line hnl
  induction m with
  | zero =>
    intro fuel hfuel
    obtain ⟨f, rfl⟩ : ∃ f, fuel = f + 2 := ⟨fuel - 2, by omega⟩
    have h : (getline { rest := List.replicate 0 newline ++ (line ++ tail), good := true }
        []).2 = line := by
      unfold getline
      rw [List.replicate_zero, List.nil_append]
      rcases htail with ht | ⟨rest, ht⟩
      · rw [ht, List.append_nil, a1]
        rfl
      · rw [ht, a2 rest]
        rfl
    rw [skip_empty_lines, if_pos rfl, h, skip_empty_lines, if_neg hline]
  | succ m ih =>
    intro fuel hfuel
    obtain ⟨f, rfl⟩ : ∃ f, fuel = f + 1 := ⟨fuel - 1, by omega⟩
    have h : getline { rest := List.replicate (m + 1) newline ++ (line ++ tail), good := true }
        [] = ({ rest := List.replicate m newline ++ (line ++ tail), good := true }, []) := by
      unfold getline
      rw [List.replicate_succ, List.cons_append, takeLine, if_pos rfl]
      rfl
    rw [skip_empty_lines, if_pos rfl, h]
    exact ih f (by omega)

theorem digitsLE_spec (fuel : Nat) :
    ∀ n, n < fuel → valLE (digitsLE fuel n) = n ∧ (∀ d ∈ digitsLE fuel n, d < 10) ∧
      digitsLE fuel n ≠ [] := by
  induction fuel with
  | zero => intro n h; omega
  | succ fuel ih =>
    intro n h
    rw [digitsLE]
    by_cases h10 : n < 10
    · rw [if_pos h10]
      refine ⟨by simp [valLE], ?_, by simp⟩
      intro d hd
      rw [List.mem_singleton.mp hd]
      exact h10
    · rw [if_neg h10]
      obtain ⟨a1, a2, _⟩ := ih (n / 10) (by omega)
      refine ⟨?_, ?_, by simp⟩
      · rw [valLE, a1]
        omega
      · intro d hd
        rcases List.mem_cons.mp hd with hd | hd
        · rw [hd]
          exact Nat.mod_lt _ (by decide)
        · exact a2 d hd

theorem digitChar_toNat (d : Nat) (h : d < 10) : (digitChar d).toNat = 48 + d := by
  interval_cases d <;> rfl

theorem map_digitChar_inj (l1 : List Nat) :
    ∀ l2 : List Nat, (∀ d ∈ l1, d < 10) → (∀ d ∈ l2, d < 10) →
      l1.map digitChar = l2.map digitChar → l1 = l2 := by
  induction l1 with
  | nil =>
    intro l2 _ _ h
    cases l2 with
    | nil => rfl
    | cons b l2 => simp at h
  | cons a l1 ih =>
    intro l2 h1 h2 h
    cases l2 with
    | nil => simp at h
    | cons b l2 =>
      rw [List.map_cons, List.map_cons, List.cons.injEq] at h
      have ha := digitChar_toNat a (h1 a (List.mem_cons_self _ _))
      have hb := digitChar_toNat b (h2 b (List.mem_cons_self _ _))
      have hab : a = b := by
        rw [h.1] at ha
        omega
      rw [hab, ih l2 (fun d hd => h1 d (List.mem_cons_of_mem _ hd))
        (fun d hd => h2 d (List.mem_cons_of_mem _ hd)) h.2]

/-- Different numbers have different decimal numerals. -/
theorem to_string_inj (a b : Nat) (h : to_string a = to_string b) : a = b := by
  obtain ⟨a1, a2, _⟩ := digitsLE_spec (a + 1) a (Nat.lt_succ_self a)
  obtain ⟨b1, b2, _⟩ := digitsLE_spec (b + 1) b (Nat.lt_succ_self b)
  unfold to_string at h
  have h1 := map_digitChar_inj _ _ (fun d hd => a2 d (List.mem_reverse.mp hd))
    (fun d hd => b2 d (List.mem_reverse.mp hd)) h
  have h2 : digitsLE (a + 1) a = digitsLE (b + 1) b := List.reverse_injective h1
  rw [← a1, ← b1, h2]

/-- A decimal numeral is no valid variable name: it starts with a digit. -/
theorem valid_variable_name_to_string (n : Nat) : valid_variable_name (to_string n) = false := by
  obtain ⟨_, a2, a3⟩ := digitsLE_spec (n + 1) n (Nat.lt_succ_self n)
  unfold to_string
  have hne : (digitsLE (n + 1) n).reverse ≠ [] := fun h => a3 (List.reverse_eq_nil_iff.mp h)
  have hall : ∀ d ∈ (digitsLE (n + 1) n).reverse, d < 10 :=
    fun d hd => a2 d (List.mem_reverse.mp hd)
  cases hrev : (digitsLE (n + 1) n).reverse with
  | nil => exact absurd hrev hne
  | cons d ds =>
    rw [hrev] at hall
    have hd := digitChar_toNat d (hall d (List.mem_cons_self _ _))
    have hd10 := hall d (List.mem_cons_self _ _)
    rw [List.map_cons, valid_variable_name]
    have hstart : isNameStart (digitChar d) = false := by
      unfold isNameStart
      rw [hd]
      simp only [Bool.or_eq_false_iff, Bool.and_eq_false_iff, decide_eq_false_iff_not]
      omega
    rw [hstart]
    rfl

theorem assign_named_other (ks : List (List Char)) :
    ∀ (as : List (List Char)) (vars : Variables) (k : List Char), k ∉ ks →
      assign_named ks as vars k = vars k := by
  induction ks with
  | nil => intro as vars k _; rfl
  | cons k0 ks ih =>
    intro as vars k hk
    cases as with
    | nil => rfl
    | cons a as =>
      rw [assign_named, ih as _ k (fun h => hk (List.mem_cons_of_mem _ h))]
      unfold insert_or_assign
      have hne : ¬ k = k0 := fun h => hk (by rw [h]; exact List.mem_cons_self _ _)
      rw [if_neg hne]

theorem assign_named_at (ks : List (List Char)) :
    ∀ (as : List (List Char)) (vars : Variables) (i : Nat) (k a : List Char), ks.Nodup →
      ks[i]? = some k → as[i]? = some a → assign_named ks as vars k = some a := by
  induction ks with
  | nil => intro as vars i k a _ hk _; simp at hk
  | cons k0 ks ih =>
    intro as vars i k a hnd hk ha
    cases as with
    | nil => simp at ha
    | cons a0 as =>
      rw [List.nodup_cons] at hnd
      rw [assign_named]
      cases i with
      | zero =>
        simp only [List.getElem?_cons_zero, Option.some.injEq] at hk ha
        rw [← hk, ← ha, assign_named_other ks as _ k0 hnd.1]
        unfold insert_or_assign
        rw [if_pos rfl]
      | succ i =>
        simp only [List.getElem?_cons_succ] at hk ha
        exact ih as _ i k a hnd.2 hk ha

theorem assign_positional_other (as : List (List Char)) :
    ∀ (i : Nat) (vars : Variables) (k : List Char), (∀ j, i < j → k ≠ to_string j) →
      assign_positional as i vars k = vars k := by
  induction as with
  | nil => intro i vars k _; rfl
  | cons a as ih =>
    intro i vars k hk
    rw [assign_positional, ih (i + 1) _ k (fun j hj => hk j (by omega))]
    unfold insert_or_assign
    rw [if_neg (hk (i + 1) (by omega))]

theorem assign_positional_at (as : List (List Char)) :
    ∀ (i : Nat) (vars : Variables) (j : Nat) (a : List Char), as[j]? = some a →
      assign_positional as i vars (to_string (i + j + 1)) = some a := by
  induction as with
  | nil => intro i vars j a ha; simp at ha
  | cons a0 as ih =>
    intro i vars j a ha
    rw [assign_positional]
    cases j with
    | zero =>
      simp only [List.getElem?_cons_zero, Option.some.injEq] at ha
      rw [assign_positional_other as (i + 1) _ _
        (fun j hj h => by have := to_string_inj _ _ h; omega)]
      unfold insert_or_assign
      rw [Nat.add_zero, if_pos rfl, ha]
    | succ j =>
      simp only [List.getElem?_cons_succ] at ha
      have := ih (i + 1) (insert_or_assign vars (to_string (i + 1)) a0) j a ha
      rw [show i + (j + 1) + 1 = i + 1 + j + 1 by omega]
      exact this

/-- The method on a dofile whose first non-empty line is the directive followed by distinct
valid names, as many as there are arguments: it succeeds and maps every name, and every
position counted from 1, to its argument. -/
theorem add_variables_of_directive (m : Nat) (line tail : List Char)
    (names arguments : List (List Char)) (vars : Variables) (fuel : Nat)
    (hline : line ≠ []) (hnl : newline ∉ line)
    (htail : tail = [] ∨ ∃ rest, tail = newline :: rest)
    (htok : tokenize line space = args_directive :: names)
    (hvalid : ∀ n ∈ names, valid_variable_name n = true) (hnodup : names.Nodup)
    (hlen : arguments.length = names.length) (hfuel : m + 2 ≤ fuel) :
    ∃ vars' : Variables,
      add_variables_from_dofiles fuel (some (List.replicate m newline ++ (line ++ tail)))
        arguments vars = some (true, vars') ∧
      ∀ (i : Nat) (n a : List Char), names[i]? = some n → arguments[i]? = some a →
        vars' n = some a ∧ vars' (to_string (i + 1)) = some a := by
  have hne : List.replicate m newline ++ (line ++ tail) ≠ [] := by
    intro h
    have := (List.append_eq_nil.mp (List.append_eq_nil.mp h).2).1
    exact hline this
  have hall : ¬ (names.all valid_variable_name = false) := by
    rw [Bool.not_eq_false, List.all_eq_true]
    exact hvalid
  refine ⟨assign_positional arguments 0 (assign_named names arguments vars), ?_, ?_⟩
  · unfold add_variables_from_dofiles
    simp only []
    rw [if_neg hne, skip_empty_lines_first line tail hline hnl htail m fuel hfuel]
    simp only [htok]
    rw [if_pos trivial, if_neg hall, if_neg (not_not.mpr hlen)]
  · intro i n a hn ha
    constructor
    · rw [assign_positional_other arguments 0 _ n]
      · exact assign_named_at names arguments vars i n a hnodup hn ha
      · intro j _ h
        have h1 := hvalid n (List.getElem?_mem hn)
        rw [h, valid_variable_name_to_string] at h1
        exact absurd h1 (by decide)
    · have := assign_positional_at arguments 0 (assign_named names arguments vars) i a ha
      rw [Nat.zero_add] at this
      exact this

/-- The method on a dofile of one or more line feeds and nothing else: whatever the fuel, no
result is returned. -/
theorem add_variables_of_newlines (m fuel : Nat) (arguments : List (List Char))
    (vars : Variables) :
    add_variables_from_dofiles fuel (some (List.replicate (m + 1) newline)) arguments vars =
      none := by
  unfold add_variables_from_dofiles
  simp only []
  rw [if_neg (by simp [List.replicate_succ]), skip_empty_lines_of_newlines]

/-! ## The QASM writer -/

theorem pi_prefix_iff (c : Char) (cs : List Char) :
    pi_bytes.isPrefixOf (c :: cs) = true ↔
      c = Char.ofNat 207 ∧ ∃ rest, cs = Char.ofNat 128 :: rest := by
  unfold pi_bytes
  cases cs with
  | nil => simp [List.isPrefixOf]
  | cons d rest =>
    simp only [List.isPrefixOf, Bool.and_eq_true, beq_iff_eq, List.cons.injEq, Bool.and_true]
    constructor
    · rintro ⟨h1, h2⟩
      exact ⟨h1.symm, rest, h2.symm, rfl⟩
    · rintro ⟨h1, r, h2, _⟩
      exact ⟨h1.symm, h2.symm⟩

theorem findAt_cons_of_ne (c : Char) (cs : List Char) (i : Nat) (h : c ≠ Char.ofNat 207) :
    findAt pi_bytes (c :: cs) i = findAt pi_bytes cs (i + 1) := by
  rw [findAt, if_neg]
  rw [pi_prefix_iff]
  exact fun h1 => h h1.1

theorem lastIsDigit_append (w r : List Char) :
    lastIsDigit (w ++ r) = if r = [] then lastIsDigit w else lastIsDigit r := by
  unfold lastIsDigit
  by_cases hr : r = []
  · rw [if_pos hr, hr, List.append_nil]
  · rw [if_neg hr, List.getLast?_append_of_ne_nil _ hr]

theorem lastIsDigit_cons (c : Char) (u : List Char) :
    lastIsDigit (c :: u) = if u = [] then isdigit c else lastIsDigit u := by
  have := lastIsDigit_append [c] u
  rw [List.singleton_append] at this
  rw [this]
  rfl

/-- The search for the first π in a string, and the string with every π replaced: either there
is none and nothing is replaced, or the string splits at the first one. -/
theorem findAt_replaced (todo : List Char) :
    ∀ (i : Nat) (b : Bool),
      (findAt pi_bytes todo i = none ∧ replaced_pi b todo = todo) ∨
      (∃ u rest, todo = u ++ (pi_bytes ++ rest) ∧
        findAt pi_bytes todo i = some (i + u.length) ∧
        replaced_pi b todo =
          u ++ ((if (if u = [] then b else lastIsDigit u) = true then "*pi".toList
            else "pi".toList) ++ replaced_pi false rest)) := by
  induction todo with
  | nil => intro i b; exact Or.inl ⟨rfl, rfl⟩
  | cons c cs ih =>
    intro i b
    cases cs with
    | nil =>
      left
      refine ⟨?_, rfl⟩
      rw [findAt, if_neg]
      · rfl
      · rw [pi_prefix_iff]
        rintro ⟨_, r, hr⟩
        exact List.noConfusion hr
    | cons d rest =>
      by_cases hpi : c = Char.ofNat 207 ∧ d = Char.ofNat 128
      · right
        refine ⟨[], rest, ?_, ?_, ?_⟩
        · rw [hpi.1, hpi.2]
          rfl
        · rw [findAt, if_pos]
          · rfl
          · rw [pi_prefix_iff]
            exact ⟨hpi.1, rest, by rw [hpi.2]⟩
        · rw [replaced_pi, if_pos hpi]
          rfl
      · have hnot : ¬ (pi_bytes.isPrefixOf (c :: d :: rest) = true) := by
          rw [pi_prefix_iff]
          rintro ⟨h1, r, h2⟩
          exact hpi ⟨h1, (List.cons.inj h2).1⟩
        have hf : findAt pi_bytes (c :: d :: rest) i = findAt pi_bytes (d :: rest) (i + 1) := by
          rw [findAt, if_neg hnot]
        have hr : replaced_pi b (c :: d :: rest) = c :: replaced_pi (isdigit c) (d :: rest) := by
          rw [replaced_pi, if_neg hpi]
        rcases ih (i + 1) (isdigit c) with ⟨a1, a2⟩ | ⟨u, rest', a1, a2, a3⟩
        · left
          exact ⟨hf.trans a1, by rw [hr, a2]⟩
        · right
          refine ⟨c :: u, rest', ?_, ?_, ?_⟩
          · rw [a1]
            rfl
          · rw [hf, a2, List.length_cons]
            congr 1
            omega
          · rw [hr, a3, if_neg (List.cons_ne_nil c u), lastIsDigit_cons]
            rfl

theorem getD_last (w t : List Char) (x : Char) (hw : w ≠ []) :
    (w ++ t).getD (w.length - 1) x = (w.getLast?).getD x := by
  have hlt : w.length - 1 < w.length := by
    have := List.length_pos.mpr hw
    omega
  rw [List.getD_eq_getElem?_getD, List.getElem?_append_left hlt, List.getLast?_eq_getElem?]

/-- The loop of `to_qasm` on the string `pre ++ todo`, from a position before which all is done
and after which nothing is found before `todo`: it ends, with every π of `todo` replaced. -/
theorem replace_pi_loop_spec (fuel : Nat) :
    ∀ (todo pre : List Char) (pos : Nat), todo.length < fuel → pos ≤ pre.length →
      findAt pi_bytes ((pre ++ todo).drop pos) pos = findAt pi_bytes todo pre.length →
      replace_pi_loop fuel (pre ++ todo) pos =
        some (pre ++ replaced_pi (lastIsDigit pre) todo) := by
  induction fuel with
  | zero => intro todo pre pos h; omega
  | succ fuel ih =>
    intro todo pre pos hlen hpos hfind
    rw [replace_pi_loop]
    unfold find
    rw [hfind]
    rcases findAt_replaced todo pre.length (lastIsDigit pre) with ⟨a1, a2⟩ | ⟨u, rest, a1, a2, a3⟩
    · rw [a1, a2]
    · rw [a2, a3]
      simp only []
      have hb : (if u = [] then lastIsDigit pre else lastIsDigit u) = lastIsDigit (pre ++ u) :=
        (lastIsDigit_append pre u).symm
      rw [hb]
      have hs : pre ++ todo = (pre ++ u) ++ (pi_bytes ++ rest) := by
        rw [a1, List.append_assoc]
      have hp : pre.length + u.length = (pre ++ u).length := (List.length_append pre u).symm
      have hrepl : ∀ R : List Char, replace (pre ++ todo) (pre.length + u.length)
          pi_bytes.length R = (pre ++ u ++ R) ++ rest := by
        intro R
        unfold replace
        rw [hs, hp, List.take_left, ← List.append_assoc (pre ++ u) pi_bytes rest,
          ← List.length_append, List.drop_left]
      have hcond : (pre.length + u.length = 0 ∨
          isdigit ((pre ++ todo).getD (pre.length + u.length - 1) (Char.ofNat 0)) = false) ↔
          lastIsDigit (pre ++ u) = false := by
        by_cases hw : pre ++ u = []
        · rw [hw]
          have h0 : pre.length + u.length = 0 := by rw [hp, hw]; rfl
          exact ⟨fun _ => rfl, fun _ => Or.inl h0⟩
        · have hne : pre.length + u.length ≠ 0 := by
            rw [hp]
            exact fun h => hw (List.length_eq_zero.mp h)
          rw [hs, hp, getD_last _ _ _ hw]
          unfold lastIsDigit
          cases hl : (pre ++ u).getLast? with
          | none => exact absurd (List.getLast?_eq_none_iff.mp hl) hw
          | some c =>
            simp only [Option.getD_some]
            rw [← hp]
            exact ⟨fun h => h.elim (fun h0 => absurd h0 hne) id, Or.inr⟩
      have hnext : ∀ R : List Char, R ≠ [] → lastIsDigit R = false →
          (∀ c ∈ R, c ≠ Char.ofNat 207) → rest.length < fuel →
          replace_pi_loop fuel ((pre ++ u ++ R) ++ rest) (pre.length + u.length) =
            some ((pre ++ u ++ R) ++ replaced_pi false rest) := by
        intro R hR hRd hRc hl
        have h1 := ih rest (pre ++ u ++ R) (pre.length + u.length) hl
          (by rw [List.length_append, List.length_append]; omega)
        have hdrop : ((pre ++ u ++ R) ++ rest).drop (pre.length + u.length) = R ++ rest := by
          rw [hp, List.append_assoc (pre ++ u) R rest, List.drop_left]
        have hskip : ∀ (R' : List Char) (i : Nat), (∀ c ∈ R', c ≠ Char.ofNat 207) →
            findAt pi_bytes (R' ++ rest) i = findAt pi_bytes rest (i + R'.length) := by
          intro R'
          induction R' with
          | nil => intro i _; rfl
          | cons c cs ihc =>
            intro i hc
            rw [List.cons_append, findAt_cons_of_ne _ _ _ (hc c (List.mem_cons_self _ _)),
              ihc (i + 1) (fun x hx => hc x (List.mem_cons_of_mem _ hx)), List.length_cons]
            congr 1
            omega
        rw [hdrop, hskip R _ hRc] at h1
        have h2 := h1 (by rw [List.length_append (pre ++ u) R, hp])
        rw [h2, lastIsDigit_append, if_neg hR, hRd]
      have hrest : rest.length < fuel := by
        rw [a1] at hlen
        simp only [List.length_append] at hlen
        have h2 : pi_bytes.length = 2 := rfl
        omega
      by_cases hd : lastIsDigit (pre ++ u) = false
      · rw [if_pos (hcond.mpr hd), hrepl, hnext "pi".toList (by decide) (by decide) (by decide)
          hrest, hd]
        simp
      · rw [if_neg (fun h => hd (hcond.mp h)), hrepl,
          hnext "*pi".toList (by decide) (by decide) (by decide) hrest]
        have hd' : lastIsDigit (pre ++ u) = true := by simpa using hd
        rw [hd']
        simp

/-- The loop of `to_qasm` from the position 0, with more fuel than the string is long. -/
theorem replace_pi_loop_eq (fuel : Nat) (repr : List Char) (h : repr.length < fuel) :
    replace_pi_loop fuel repr 0 = some (replaced_pi false repr) := by
  have := replace_pi_loop_spec fuel repr [] 0 h (Nat.le_refl _) rfl
  rw [List.nil_append] at this
  exact this

theorem hasPi_cons (c : Char) (cs : List Char) :
    hasPi (c :: cs) = false ↔ ¬ (pi_bytes.isPrefixOf (c :: cs) = true) ∧ hasPi cs = false := by
  rw [hasPi, Bool.or_eq_false_iff, Bool.not_eq_true]

theorem hasPi_of_no207 (s : List Char) (h : ∀ c ∈ s, c ≠ Char.ofNat 207) : hasPi s = false := by
  induction s with
  | nil => rfl
  | cons c cs ih =>
    rw [hasPi_cons, pi_prefix_iff]
    exact ⟨fun h1 => h c (List.mem_cons_self _ _) h1.1,
      ih (fun x hx => h x (List.mem_cons_of_mem _ hx))⟩

/-- Two strings without a π give a string without a π when no π is made where they meet. -/
theorem hasPi_append (a b : List Char) (ha : hasPi a = false) (hb : hasPi b = false)
    (hj : a.getLast? ≠ some (Char.ofNat 207) ∨ b.head? ≠ some (Char.ofNat 128)) :
    hasPi (a ++ b) = false := by
  induction a with
  | nil => exact hb
  | cons c cs ih =>
    rw [hasPi_cons] at ha
    rw [List.cons_append, hasPi_cons]
    cases cs with
    | nil =>
      refine ⟨?_, hb⟩
      rw [List.nil_append, pi_prefix_iff]
      rintro ⟨h1, r, h2⟩
      rcases hj with hj | hj
      · exact hj (by rw [h1]; rfl)
      · exact hj (by rw [h2]; rfl)
    | cons d ds =>
      refine ⟨?_, ih ha.2 ?_⟩
      · rw [List.cons_append, pi_prefix_iff]
        rintro ⟨h1, r, h2⟩
        apply ha.1
        rw [pi_prefix_iff]
        exact ⟨h1, ds, by rw [(List.cons.inj h2).1]⟩
      · rcases hj with hj | hj
        · left
          rw [List.getLast?_cons_cons] at hj
          exact hj
        · exact Or.inr hj

/-- The string with every π replaced has no π, and it starts with the second byte of π only
when the string it is made from does. -/
theorem hasPi_replaced (n : Nat) :
    ∀ (s : List Char) (b : Bool), s.length ≤ n →
      hasPi (replaced_pi b s) = false ∧
      ((replaced_pi b s).head? = some (Char.ofNat 128) → s.head? = some (Char.ofNat 128)) := by
  induction n with
  | zero =>
    intro s b h
    have : s = [] := List.length_eq_zero.mp (Nat.le_zero.mp h)
    rw [this]
    exact ⟨rfl, fun h1 => h1⟩
  | succ n ih =>
    intro s b h
    cases s with
    | nil => exact ⟨rfl, fun h1 => h1⟩
    | cons c cs =>
      cases cs with
      | nil =>
        refine ⟨?_, fun h1 => h1⟩
        show hasPi [c] = false
        rw [hasPi_cons, pi_prefix_iff]
        exact ⟨fun ⟨_, r, hr⟩ => List.noConfusion hr, rfl⟩
      | cons d rest =>
        simp only [List.length_cons] at h
        by_cases hpi : c = Char.ofNat 207 ∧ d = Char.ofNat 128
        · rw [replaced_pi, if_pos hpi]
          obtain ⟨a1, _⟩ := ih rest false (by omega)
          constructor
          · apply hasPi_append _ _ _ a1
            · left
              split_ifs <;> decide
            · split_ifs <;> decide
          · intro h1
            exfalso
            split_ifs at h1 <;> simp at h1
        · rw [replaced_pi, if_neg hpi]
          obtain ⟨a1, a2⟩ := ih (d :: rest) (isdigit c) (by simp only [List.length_cons]; omega)
          constructor
          · rw [hasPi_cons, pi_prefix_iff]
            refine ⟨?_, a1⟩
            rintro ⟨h1, r, h2⟩
            have h3 := a2 (by rw [h2]; rfl)
            simp only [List.head?_cons, Option.some.injEq] at h3
            exact hpi ⟨h1, h3⟩
          · intro h1
            exact h1

theorem to_string_no207 (n : Nat) : ∀ c ∈ to_string n, c ≠ Char.ofNat 207 := by
  intro c hc h
  unfold to_string at hc
  obtain ⟨d, hd, hdc⟩ := List.mem_map.mp hc
  have hlt := (digitsLE_spec (n + 1) n (Nat.lt_succ_self n)).2.1 d (List.mem_reverse.mp hd)
  have h1 := digitChar_toNat d hlt
  rw [hdc, h] at h1
  have h2 : (Char.ofNat 207).toNat = 207 := rfl
  omega

theorem join_qubits_no207 (qs : List Nat) : ∀ c ∈ join_qubits qs, c ≠ Char.ofNat 207 := by
  induction qs with
  | nil => intro c hc; exact absurd hc (List.not_mem_nil _)
  | cons q qs ih =>
    cases qs with
    | nil =>
      intro c hc
      rw [join_qubits] at hc
      rcases List.mem_append.mp hc with h1 | h1
      · rcases List.mem_append.mp h1 with h2 | h2
        · exact (by decide : ∀ x ∈ "q[".toList, x ≠ Char.ofNat 207) c h2
        · exact to_string_no207 q c h2
      · exact (by decide : ∀ x ∈ "]".toList, x ≠ Char.ofNat 207) c h1
    | cons q' qs' =>
      intro c hc
      rw [join_qubits] at hc
      rcases List.mem_append.mp hc with h1 | h1
      · rcases List.mem_append.mp h1 with h2 | h2
        · rcases List.mem_append.mp h2 with h3 | h3
          · exact (by decide : ∀ x ∈ "q[".toList, x ≠ Char.ofNat 207) c h3
          · exact to_string_no207 q c h3
        · exact (by decide : ∀ x ∈ "], ".toList, x ≠ Char.ofNat 207) c h2
      · exact ih c h1

theorem qasm_header_facts (n : Nat) :
    hasPi (qasm_header n) = false ∧ (qasm_header n).getLast? = some newline := by
  constructor
  · apply hasPi_of_no207
    intro c hc
    unfold qasm_header at hc
    rcases List.mem_append.mp hc with h1 | h1
    · rcases List.mem_append.mp h1 with h2 | h2
      · exact (by decide : ∀ x ∈ "OPENQASM 2.0;\ninclude \"qelib1.inc\";\nqreg q[".toList, x ≠ Char.ofNat 207) c h2
      · exact to_string_no207 n c h2
    · exact (by decide : ∀ x ∈ "];\n".toList, x ≠ Char.ofNat 207) c h1
  · unfold qasm_header
    rw [List.getLast?_append_of_ne_nil _ (by decide)]
    rfl

/-- The line of a gate whose string has no π, put after a text without a π that ends with a line
feed, gives a text without a π that ends with a line feed. -/
theorem gate_line_facts (t repr : List Char) (qubits : List Nat) (ht : hasPi t = false)
    (hl : t.getLast? = some newline) (hr : hasPi repr = false) :
    hasPi (t ++ gate_line repr qubits) = false ∧
    (t ++ gate_line repr qubits).getLast? = some newline := by
  have htail : ∀ c ∈ " ".toList ++ join_qubits qubits ++ ";\n".toList, c ≠ Char.ofNat 207 := by
    intro c hc
    rcases List.mem_append.mp hc with h1 | h1
    · rcases List.mem_append.mp h1 with h2 | h2
      · exact (by decide : ∀ x ∈ " ".toList, x ≠ Char.ofNat 207) c h2
      · exact join_qubits_no207 qubits c h2
    · exact (by decide : ∀ x ∈ ";\n".toList, x ≠ Char.ofNat 207) c h1
  have hline : gate_line repr qubits =
      repr ++ (" ".toList ++ join_qubits qubits ++ ";\n".toList) := by
    unfold gate_line
    simp only [List.append_assoc]
  constructor
  · apply hasPi_append t _ ht
    · rw [hline]
      apply hasPi_append repr _ hr (hasPi_of_no207 _ htail)
      right
      have hh : (" ".toList ++ join_qubits qubits ++ ";\n".toList).head? =
          some (Char.ofNat 32) := rfl
      rw [hh]
      decide
    · left
      rw [hl]
      decide
  · unfold gate_line
    rw [← List.append_assoc, List.getLast?_append_of_ne_nil _ (by decide)]
    rfl

theorem foldl_to_qasm (fuel : Nat) (gates : List QCirGate) :
    ∀ acc : List Char, (∀ g ∈ gates, g.repr.length < fuel) →
      gates.foldl
        (fun acc gate =>
          match acc, replace_pi_loop fuel gate.repr 0 with
          | some qasm, some repr => some (qasm ++ gate_line repr gate.qubits)
          | _, _ => none)
        (some acc) =
      some (acc ++ gates.flatMap (fun g => gate_line (replaced_pi false g.repr) g.qubits)) := by
  induction gates with
  | nil => intro acc _; simp
  | cons g gs ih =>
    intro acc h
    rw [List.foldl_cons, replace_pi_loop_eq fuel g.repr (h g (List.mem_cons_self _ _))]
    simp only []
    rw [ih _ (fun x hx => h x (List.mem_cons_of_mem _ hx)), List.flatMap_cons,
      List.append_assoc]

theorem gates_text_facts (gates : List QCirGate) :
    ∀ t : List Char, hasPi t = false → t.getLast? = some newline →
      hasPi (t ++ gates.flatMap (fun g => gate_line (replaced_pi false g.repr) g.qubits)) =
        false := by
  induction gates with
  | nil => intro t ht _; simpa using ht
  | cons g gs ih =>
    intro t ht hl
    obtain ⟨a1, a2⟩ := gate_line_facts t (replaced_pi false g.repr) g.qubits ht hl
      (hasPi_replaced g.repr.length g.repr false (Nat.le_refl _)).1
    rw [List.flatMap_cons, ← List.append_assoc]
    exact ih _ a1 a2

/-- The function `to_qasm` with more fuel than the string of any gate is long: it returns the
header followed by the line of every gate with every π of its string replaced, and the text has
no π. -/
theorem to_qasm_spec (fuel : Nat) (qcir : QCir) (h : ∀ g ∈ qcir.gates, g.repr.length < fuel) :
    to_qasm fuel qcir =
      some (qasm_header qcir.num_qubits ++
        qcir.gates.flatMap (fun g => gate_line (replaced_pi false g.repr) g.qubits)) ∧
    hasPi (qasm_header qcir.num_qubits ++
      qcir.gates.flatMap (fun g => gate_line (replaced_pi false g.repr) g.qubits)) = false :=
  ⟨foldl_to_qasm fuel qcir.gates _ h,
    gates_text_facts qcir.gates _ (qasm_header_facts qcir.num_qubits).1
      (qasm_header_facts qcir.num_qubits).2⟩

theorem findAt_none_iff (s : List Char) : ∀ i, findAt pi_bytes s i = none ↔ hasPi s = false := by
  induction s with
  | nil => intro i; exact ⟨fun _ => rfl, fun _ => rfl⟩
  | cons c cs ih =>
    intro i
    rw [hasPi_cons, findAt]
    by_cases h : pi_bytes.isPrefixOf (c :: cs) = true
    · rw [if_pos h]
      exact ⟨fun h1 => absurd h1 (by simp), fun h1 => absurd h h1.1⟩
    · rw [if_neg h, ih]
      exact ⟨fun h1 => ⟨h, h1⟩, fun h1 => h1.2⟩

/-! ## The claims C31 to C37 -/

/-- C31: when the first non-empty line of a dofile, after `m` empty lines, splits into the
directive `//!ARGS` followed by `k` distinct valid names, and `k` arguments are passed, then
`add_variables_from_dofiles` returns true (with fuel for the `m + 2` rounds of its loop) and
afterwards the `i`-th name and the decimal numeral of `i`, counted from 1, are both mapped to
the `i`-th argument. -/
theorem C31_dofile_args_assigned (m : Nat) (line tail : List Char)
    (names arguments : List (List Char)) (vars : Variables) (fuel : Nat)
    (hline : line ≠ []) (hnl : newline ∉ line)
    (htail : tail = [] ∨ ∃ rest, tail = newline :: rest)
    (htok : tokenize line space = args_directive :: names)
    (hvalid : ∀ n ∈ names, valid_variable_name n = true) (hnodup : names.Nodup)
    (hlen : arguments.length = names.length) (hfuel : m + 2 ≤ fuel) :
    ∃ vars' : Variables,
      add_variables_from_dofiles fuel (some (List.replicate m newline ++ (line ++ tail)))
        arguments vars = some (true, vars') ∧
      ∀ (i : Nat) (n a : List Char), names[i]? = some n → arguments[i]? = some a →
        vars' n = some a ∧ vars' (to_string (i + 1)) = some a :=
  add_variables_of_directive m line tail names arguments vars fuel hline hnl htail htok hvalid
    hnodup hlen hfuel

/-- C31 at the dofile of two empty lines, the line `//!ARGS a b1` and the line `foo`, with the
arguments `x` and `y`. -/
theorem C31_dofile_args_assigned_witness :
    ("//!ARGS a b1".toList ≠ [] ∧ newline ∉ "//!ARGS a b1".toList ∧
      tokenize "//!ARGS a b1".toList space = args_directive :: ["a".toList, "b1".toList] ∧
      (∀ n ∈ ["a".toList, "b1".toList], valid_variable_name n = true) ∧
      ["a".toList, "b1".toList].Nodup ∧
      ["x".toList, "y".toList].length = ["a".toList, "b1".toList].length) ∧
    (to_string 1 = "1".toList ∧ to_string 2 = "2".toList) ∧
    ∃ vars' : Variables,
      add_variables_from_dofiles 4
        (some (List.replicate 2 newline ++ ("//!ARGS a b1".toList ++ newline :: "foo".toList)))
        ["x".toList, "y".toList] (fun _ => none) = some (true, vars') ∧
      ∀ (i : Nat) (n a : List Char), ["a".toList, "b1".toList][i]? = some n →
        ["x".toList, "y".toList][i]? = some a →
        vars' n = some a ∧ vars' (to_string (i + 1)) = some a :=
  ⟨by decide, by decide,
    C31_dofile_args_assigned 2 "//!ARGS a b1".toList (newline :: "foo".toList)
      ["a".toList, "b1".toList] ["x".toList, "y".toList] (fun _ => none) 4 (by decide)
      (by decide) (Or.inr ⟨"foo".toList, rfl⟩) (by decide) (by decide) (by decide) (by decide)
      (by decide)⟩

/-- C32: for every circuit, with more fuel than the string of any gate is long, the loop of
`to_qasm` ends for every gate with every π of its string replaced, by `*pi` after a decimal
digit and by `pi` otherwise, `to_qasm` returns the header followed by the lines of the gates,
and the text has no occurrence of π: `find` does not find one. -/
theorem C32_to_qasm_has_no_pi (fuel : Nat) (qcir : QCir)
    (h : ∀ g ∈ qcir.gates, g.repr.length < fuel) :
    (∀ g ∈ qcir.gates, replace_pi_loop fuel g.repr 0 = some (replaced_pi false g.repr)) ∧
    ∃ text : List Char, to_qasm fuel qcir = some text ∧
      text = qasm_header qcir.num_qubits ++
        qcir.gates.flatMap (fun g => gate_line (replaced_pi false g.repr) g.qubits) ∧
      hasPi text = false ∧ find text pi_bytes 0 = none :=
  ⟨fun g hg => replace_pi_loop_eq fuel g.repr (h g hg),
    _, (to_qasm_spec fuel qcir h).1, rfl, (to_qasm_spec fuel qcir h).2,
    (findAt_none_iff _ 0).mpr (to_qasm_spec fuel qcir h).2⟩

/-- C32 at a circuit of two gates, `rz(2π/3)` and `cx`. -/
theorem C32_to_qasm_has_no_pi_witness :
    (∀ g ∈ [(⟨"rz(2".toList ++ pi_bytes ++ "/3)".toList, [0]⟩ : QCirGate),
        ⟨"cx".toList, [0, 1]⟩], g.repr.length < 10) ∧
    to_qasm 10 ⟨2, [⟨"rz(2".toList ++ pi_bytes ++ "/3)".toList, [0]⟩, ⟨"cx".toList, [0, 1]⟩]⟩ =
      some ("OPENQASM 2.0;\ninclude \"qelib1.inc\";\nqreg q[2];\n".toList ++
        "rz(2*pi/3) q[0];\ncx q[0], q[1];\n".toList) ∧
    ∃ text : List Char,
      to_qasm 10 ⟨2, [⟨"rz(2".toList ++ pi_bytes ++ "/3)".toList, [0]⟩,
        ⟨"cx".toList, [0, 1]⟩]⟩ = some text ∧
      text = qasm_header 2 ++
        [(⟨"rz(2".toList ++ pi_bytes ++ "/3)".toList, [0]⟩ : QCirGate),
          ⟨"cx".toList, [0, 1]⟩].flatMap
            (fun g => gate_line (replaced_pi false g.repr) g.qubits) ∧
      hasPi text = false ∧ find text pi_bytes 0 = none :=
  ⟨by decide, by decide,
    (C32_to_qasm_has_no_pi 10
      ⟨2, [⟨"rz(2".toList ++ pi_bytes ++ "/3)".toList, [0]⟩, ⟨"cx".toList, [0, 1]⟩]⟩
      (by decide)).2⟩

/-- C33: on a well-formed graph, after `match` followed by `rewrite`, the list of vertices to
remove of each of the two rules holds no vertex twice, and that of spider fusion holds no vertex
that is the first endpoint of a record. -/
theorem C33_vertices_to_remove_nodup (r1 : ZXRule (Nat × Nat)) (r2 : ZXRule EdgePair)
    (g : ZXGraph) (hwf : g.WellFormed) :
    (SpiderFusion.rewrite (SpiderFusion.match r1 g) g).rule.removeVertices.Nodup ∧
    (∀ v ∈ (SpiderFusion.rewrite (SpiderFusion.match r1 g) g).rule.removeVertices,
      ∀ m ∈ (SpiderFusion.match r1 g).matchTypeVec, v ≠ m.1) ∧
    (Bialgebra.rewrite (Bialgebra.match r2 g) g).removeVertices.Nodup :=
  ⟨(SpiderFusion.sfusion_removeVertices r1 g hwf).1,
    (SpiderFusion.sfusion_removeVertices r1 g hwf).2,
    Bialgebra.bialg_removeVertices_nodup r2 g hwf⟩

/-- C33 at the path `path4`, where spider fusion removes `1` and `2` and keeps `0` and `3`, and
at the diagram `bialg2`, where the bialgebra rule removes `0`, `1`, `6`, `7`. -/
theorem C33_vertices_to_remove_nodup_witness :
    (path4.WellFormed ∧
      (SpiderFusion.rewrite (SpiderFusion.match (ZXRule.init (Nat × Nat)) path4)
        path4).rule.removeVertices = [1, 2] ∧
      (SpiderFusion.rewrite (SpiderFusion.match (ZXRule.init (Nat × Nat)) path4)
        path4).rule.removeVertices.Nodup) ∧
    (bialg2.WellFormed ∧
      (Bialgebra.rewrite (Bialgebra.match (ZXRule.init EdgePair) bialg2)
        bialg2).removeVertices = [0, 1, 6, 7] ∧
      (Bialgebra.rewrite (Bialgebra.match (ZXRule.init EdgePair) bialg2)
        bialg2).removeVertices.Nodup) :=
  ⟨⟨by decide, by decide,
      (C33_vertices_to_remove_nodup (ZXRule.init (Nat × Nat)) (ZXRule.init EdgePair) path4
        (by decide)).1⟩,
    ⟨by decide, by decide,
      (C33_vertices_to_remove_nodup (ZXRule.init (Nat × Nat)) (ZXRule.init EdgePair) bialg2
        (by decide)).2.2⟩⟩

/-- C34: for every graph, every edge-table key `(p, q)` that `Bialgebra::rewrite` emits for the
list of `Bialgebra::match` joins two different vertices, one an X-spider and one a Z-spider, so
no self-loop is added; and no endpoint of a record is its own neighbour. -/
theorem C34_bialg_keys_join_opposite_colours (r : ZXRule EdgePair) (g : ZXGraph) :
    (∀ k ∈ (Bialgebra.rewrite (Bialgebra.match r g) g).edgeTableKeys,
      k.1 ≠ k.2 ∧
      ((g.type k.1 = VertexType.X ∧ g.type k.2 = VertexType.Z) ∨
        (g.type k.1 = VertexType.Z ∧ g.type k.2 = VertexType.X))) ∧
    (∀ m ∈ (Bialgebra.match r g).matchTypeVec,
      m.1.1 ∉ g.getCopiedNeighbors m.1.1 ∧ m.1.2 ∉ g.getCopiedNeighbors m.1.2) :=
  ⟨Bialgebra.bialg_keys_opposite r g,
    fun m hm => Bialgebra.eligible_no_loop g m (Bialgebra.scan_eligible g m hm).2⟩

/-- C35: in a graph built by calls of the mutators, for a vertex `v` that no call of `add_edge`
or `remove_edge` had as its source, `get_out_neighbors`, `num_out_neighbors` and `has_edge` from
`v` fail with the missing key, and for one that no such call had as its target
`get_in_neighbors` and `num_in_neighbors` fail; right after `add_edge` from (to) the vertex
they succeed. -/
theorem C35_accessors_fail_without_key {T : Type} (ops : List (DirectedGraph.Op T)) (v : Nat) :
    ((∀ op ∈ ops, op.hasSource v = false) →
      (DirectedGraph.run ops).get_out_neighbors v = none ∧
      (DirectedGraph.run ops).num_out_neighbors v = none ∧
      ∀ w, (DirectedGraph.run ops).has_edge v w = none) ∧
    ((∀ op ∈ ops, op.hasTarget v = false) →
      (DirectedGraph.run ops).get_in_neighbors v = none ∧
      (DirectedGraph.run ops).num_in_neighbors v = none) ∧
    (∀ (g : DirectedGraph T) (w : Nat),
      (∃ s, (g.add_edge v w).get_out_neighbors v = some s ∧ w ∈ s ∧
        (g.add_edge v w).num_out_neighbors v = some s.length) ∧
      (g.add_edge v w).has_edge v w = some true ∧
      (∃ s, (g.add_edge w v).get_in_neighbors v = some s ∧ w ∈ s ∧
        (g.add_edge w v).num_in_neighbors v = some s.length)) :=
  DirectedGraph.accessors_missing_key ops v

/-- C35 after `add_vertex(0)`, `add_vertex(1)`, `add_edge(0, 1)`: the vertex `1` was never a
source and the vertex `0` never a target. -/
theorem C35_accessors_fail_without_key_witness :
    ((DirectedGraph.run [DirectedGraph.Op.add_vertex 0 (), DirectedGraph.Op.add_vertex 1 (),
        DirectedGraph.Op.add_edge 0 1]).has_vertex 1 = true ∧
      (DirectedGraph.run [DirectedGraph.Op.add_vertex 0 (), DirectedGraph.Op.add_vertex 1 (),
        DirectedGraph.Op.add_edge 0 1]).get_out_neighbors 0 = some [1]) ∧
    (DirectedGraph.run [DirectedGraph.Op.add_vertex 0 (), DirectedGraph.Op.add_vertex 1 (),
      DirectedGraph.Op.add_edge 0 1]).get_out_neighbors 1 = none ∧
    (DirectedGraph.run [DirectedGraph.Op.add_vertex 0 (), DirectedGraph.Op.add_vertex 1 (),
      DirectedGraph.Op.add_edge 0 1]).get_in_neighbors 0 = none :=
  ⟨by decide,
    ((C35_accessors_fail_without_key
      [DirectedGraph.Op.add_vertex 0 (), DirectedGraph.Op.add_vertex 1 (),
        DirectedGraph.Op.add_edge 0 1] 1).1 (by decide)).1,
    ((C35_accessors_fail_without_key
      [DirectedGraph.Op.add_vertex 0 (), DirectedGraph.Op.add_vertex 1 (),
        DirectedGraph.Op.add_edge 0 1] 0).2.1 (by decide)).1⟩

/-- C36: on a `DirectedGraph` (a hash map has every key once), `add_edge(from, to)` on a graph
that has that edge leaves `has_edge` of every pair and `num_edges` as they were, and on a graph
that lacks it makes `has_edge(from, to)` true and `num_edges` one larger. -/
theorem C36_add_edge_once {T : Type} (g : DirectedGraph T)
    (hk : DirectedGraph.KeysUnique g.out_neighbors) (s d : Nat) :
    (g.has_edge s d = some true →
      (∀ a b, (g.add_edge s d).has_edge a b = g.has_edge a b) ∧
      (g.add_edge s d).num_edges = g.num_edges) ∧
    (g.has_edge s d ≠ some true →
      (g.add_edge s d).has_edge s d = some true ∧
      (g.add_edge s d).num_edges = g.num_edges + 1) := by
  refine ⟨fun h => ?_, (DirectedGraph.add_edge_count g hk s d).2⟩
  have e := (DirectedGraph.add_edge_count g hk s d).1 h
  unfold DirectedGraph.has_edge DirectedGraph.num_edges
  rw [e]
  exact ⟨fun _ _ => rfl, rfl⟩

/-- C36 from the graph with the one edge `0 → 1`: adding it again keeps the count 1, adding
`0 → 2` makes it 2. -/
theorem C36_add_edge_once_witness :
    DirectedGraph.KeysUnique ((DirectedGraph.empty Unit).add_edge 0 1).out_neighbors ∧
    (((DirectedGraph.empty Unit).add_edge 0 1).has_edge 0 1 = some true ∧
      ((DirectedGraph.empty Unit).add_edge 0 1).num_edges = 1) ∧
    (((DirectedGraph.empty Unit).add_edge 0 1).add_edge 0 1).num_edges =
      ((DirectedGraph.empty Unit).add_edge 0 1).num_edges ∧
    (((DirectedGraph.empty Unit).add_edge 0 1).add_edge 0 2).num_edges =
      ((DirectedGraph.empty Unit).add_edge 0 1).num_edges + 1 :=
  ⟨by decide, by decide,
    ((C36_add_edge_once ((DirectedGraph.empty Unit).add_edge 0 1) (by decide) 0 1).1
      (by decide)).2,
    ((C36_add_edge_once ((DirectedGraph.empty Unit).add_edge 0 1) (by decide) 0 2).2
      (by decide)).2⟩

/-- C37: on a dofile that is not empty and holds line feeds only, `m + 1` of them, the method
`add_variables_from_dofiles` returns no result whatever the fuel: once the end of the file is
reached `getline` leaves the line empty and the loop of lines 174-176 goes on for ever. -/
theorem C37_dofile_of_empty_lines_never_returns (m fuel : Nat) (arguments : List (List Char))
    (vars : Variables) :
    add_variables_from_dofiles fuel (some (List.replicate (m + 1) newline)) arguments vars =
      none :=
  add_variables_of_newlines m fuel arguments vars

/-! ## Paths of spiders: the graph -/

theorem find_range_inj (a : Nat → Nat) (ha : Function.Injective a) (m i : Nat) (hi : i < m) :
    (List.range m).find? (fun k => decide (a k = a i)) = some i := by
  induction m with
  | zero => omega
  | succ m ih =>
    rw [List.range_succ, List.find?_append]
    by_cases h : i < m
    · rw [ih h]
      rfl
    · have him : i = m := by omega
      have hnone : (List.range m).find? (fun k => decide (a k = a i)) = none := by
        rw [List.find?_eq_none]
        intro k hk
        have hk' : k < m := List.mem_range.mp hk
        simp only [decide_eq_true_eq]
        intro hak
        have := ha hak
        omega
      rw [hnone, him]
      simp

theorem find_range_none (a : Nat → Nat) (m v : Nat) (h : ∀ i < m, a i ≠ v) :
    (List.range m).find? (fun k => decide (a k = v)) = none := by
  rw [List.find?_eq_none]
  intro k hk
  simp only [decide_eq_true_eq]
  exact h k (List.mem_range.mp hk)

theorem chain_neighborMap (t : VertexType) (ph : Nat → Phase) (a b : Nat → Nat)
    (ha : Function.Injective a) (m j i : Nat) (hi : i < m) :
    (chainGraph t ph a b m j).neighborMap (a i) =
      (if 0 < i ∧ i ≤ j then [(a (i - 1), b (i - 1))] else []) ++
        (if i < j then [(a (i + 1), b i)] else []) := by
  show (match (List.range m).find? (fun k => decide (a k = a i)) with
    | some i =>
      (if 0 < i ∧ i ≤ j then [(a (i - 1), b (i - 1))] else []) ++
        (if i < j then [(a (i + 1), b i)] else [])
    | none => []) = _
  rw [find_range_inj a ha m i hi]

theorem chain_neighborMap_none (t : VertexType) (ph : Nat → Phase) (a b : Nat → Nat)
    (m j v : Nat) (h : ∀ i < m, a i ≠ v) :
    (chainGraph t ph a b m j).neighborMap v = [] := by
  show (match (List.range m).find? (fun k => decide (a k = v)) with
    | some i =>
      (if 0 < i ∧ i ≤ j then [(a (i - 1), b (i - 1))] else []) ++
        (if i < j then [(a (i + 1), b i)] else [])
    | none => []) = _
  rw [find_range_none a m v h]

/-- The path of `n` spiders is the chain with the ids and the handles counted from 0. -/
theorem pathGraph_eq_chain (t : VertexType) (ph : Nat → Phase) (n : Nat) :
    pathGraph t ph n = chainGraph t ph id id n (n - 1) := by
  unfold pathGraph chainGraph
  congr 1
  · simp
  · funext v
    by_cases hv : v < n
    · have hf : (List.range n).find? (fun i => decide (id i = v)) = some v :=
        find_range_inj id Function.injective_id n v hv
      rw [hf, if_pos hv]
      dsimp only [id]
      have h1 : (0 < v ∧ v ≤ n - 1) ↔ 0 < v := ⟨fun h => h.1, fun h => ⟨h, by omega⟩⟩
      have h2 : v < n - 1 ↔ v + 1 < n := by omega
      simp only [h1, h2]
    · have hf : (List.range n).find? (fun i => decide (id i = v)) = none :=
        find_range_none id n v (fun i hi h => hv (by rw [← h]; exact hi))
      rw [hf, if_neg hv]

/-! ## Paths of spiders: the scan -/

theorem getD_set_false (l : List Bool) (i k : Nat) (hi : i < l.length) :
    (l.set i false).getD k true = (decide (i ≠ k) && l.getD k true) := by
  simp only [List.getD_eq_getElem?_getD, List.getElem?_set]
  by_cases hik : i = k
  · subst hik
    simp [hi]
  · simp [hik]

namespace SpiderFusion

theorem markNeighbors_getD (idx : EdgePair → Nat) (v : Nat) (nbrs : List (Nat × Nat)) :
    ∀ (valid : List Bool) (k : Nat),
      (∀ nb ∈ nbrs, idx (makeEdgeKey v nb.1 nb.2) < valid.length) →
      (markNeighbors idx v nbrs valid).getD k true =
        (valid.getD k true &&
          nbrs.all (fun nb => decide (idx (makeEdgeKey v nb.1 nb.2) ≠ k))) := by
  induction nbrs with
  | nil => intro valid k _; simp [markNeighbors]
  | cons n ns ih =>
    intro valid k hlt
    have h1 : markNeighbors idx v (n :: ns) valid =
        markNeighbors idx v ns (valid.set (idx (makeEdgeKey v n.1 n.2)) false) := rfl
    rw [h1, ih _ k (fun nb hnb => by
      rw [List.length_set]
      exact hlt nb (List.mem_cons_of_mem _ hnb)),
      getD_set_false _ _ _ (hlt n (List.mem_cons_self _ _)), List.all_cons]
    cases valid.getD k true <;> simp

/-- The index map of a chain sends the key of the edge at place `i` to `i`. -/
theorem chain_idx (t : VertexType) (ph : Nat → Phase) (a b : Nat → Nat)
    (hb : Function.Injective b) (m j i : Nat) (hi : i < j) :
    edge2idx (chainGraph t ph a b m j) (makeEdgeKey (a i) (a (i + 1)) (b i)) = i := by
  have hget : ∀ k, (chainGraph t ph a b m j).edges[k]? =
      if k < j then some ((a k, a (k + 1)), b k) else none := by
    intro k
    show ((List.range j).map (fun i => ((a i, a (i + 1)), b i)))[k]? = _
    rw [List.getElem?_map]
    by_cases hk : k < j
    · rw [List.getElem?_range hk, if_pos hk]
      rfl
    · rw [List.getElem?_eq_none (by rw [List.length_range]; omega), if_neg hk]
      rfl
  have hmem : ((a i, a (i + 1)), b i) ∈ (chainGraph t ph a b m j).edges :=
    List.mem_map.mpr ⟨i, List.mem_range.mpr hi, rfl⟩
  obtain ⟨e', he', hkey⟩ := edge2idx_ok (chainGraph t ph a b m j) _ hmem
  rw [hget] at he'
  split_ifs at he' with hk
  · have he'' := Option.some.inj he'
    rw [← he''] at hkey
    unfold makeEdgeKeyOfPair at hkey
    have := (makeEdgeKey_eq_cases _ _ _ _ _ _ hkey).1
    exact hb this

end SpiderFusion

namespace SpiderFusion

/-- One iteration of the scan over a whole chain: the edge at an even place is accepted and the
edge after it is marked; the edge at an odd place is found marked and skipped. -/
theorem chain_matchStep (t : VertexType) (ht : t = VertexType.X ∨ t = VertexType.Z)
    (ph : Nat → Phase) (a b : Nat → Nat) (ha : Function.Injective a)
    (hb : Function.Injective b) (m j : Nat) (hj : j + 1 < m) (st : Scan)
    (hinv : ChainScan a (m - 1) j st) :
    ChainScan a (m - 1) (j + 1)
      (matchStep (chainGraph t ph a b m (m - 1)) (edge2idx (chainGraph t ph a b m (m - 1))) st
        ((a j, a (j + 1)), b j)) := by
  obtain ⟨hlen, hval, hms⟩ := hinv
  have hidx : ∀ i, i < m - 1 →
      edge2idx (chainGraph t ph a b m (m - 1)) (makeEdgeKey (a i) (a (i + 1)) (b i)) = i :=
    fun i hi => chain_idx t ph a b hb m (m - 1) i hi
  have hkey : edge2idx (chainGraph t ph a b m (m - 1))
      (makeEdgeKeyOfPair ((a j, a (j + 1)), b j)) = j := hidx j (by omega)
  rcases Nat.mod_two_eq_zero_or_one j with hpar | hpar
  · -- an even place: the edge is accepted
    have hv : st.validEdge.getD j true = true := by
      rw [hval j (by omega)]
      exact decide_eq_true (by omega)
    have h1 : ¬ st.validEdge.getD (edge2idx (chainGraph t ph a b m (m - 1))
        (makeEdgeKeyOfPair ((a j, a (j + 1)), b j))) true = false := by
      rw [hkey, hv]
      exact Bool.noConfusion
    have h2 : ¬ (chainGraph t ph a b m (m - 1)).edgeType (b j) ≠ EdgeType.SIMPLE :=
      fun h => h rfl
    have h3 : (chainGraph t ph a b m (m - 1)).type (a j) =
        (chainGraph t ph a b m (m - 1)).type (a (j + 1)) ∧
        ((chainGraph t ph a b m (m - 1)).type (a j) = VertexType.X ∨
          (chainGraph t ph a b m (m - 1)).type (a j) = VertexType.Z) := ⟨rfl, ht⟩
    unfold matchStep
    dsimp only
    rw [if_neg h1, if_neg h2, if_pos h3, hkey]
    have hn0 := chain_neighborMap t ph a b ha m (m - 1) j (by omega)
    have hn1 := chain_neighborMap t ph a b ha m (m - 1) (j + 1) (by omega)
    rw [hn0, hn1]
    have hlt0 : ∀ nb ∈ (if 0 < j ∧ j ≤ m - 1 then [(a (j - 1), b (j - 1))] else []) ++
        (if j < m - 1 then [(a (j + 1), b j)] else []),
        edge2idx (chainGraph t ph a b m (m - 1)) (makeEdgeKey (a j) nb.1 nb.2) <
          (st.validEdge.set j false).length := by
      intro nb hnb
      rw [List.length_set, hlen]
      rcases List.mem_append.mp hnb with h | h
      · split_ifs at h with hc
        · rw [List.mem_singleton.mp h]
          have hjj : j - 1 + 1 = j := by omega
          have := hidx (j - 1) (by omega)
          rw [hjj, makeEdgeKey_comm] at this
          show edge2idx _ (makeEdgeKey (a j) (a (j - 1)) (b (j - 1))) < m - 1
          rw [this]
          omega
        · exact absurd h (List.not_mem_nil _)
      · split_ifs at h with hc
        · rw [List.mem_singleton.mp h]
          show edge2idx _ (makeEdgeKey (a j) (a (j + 1)) (b j)) < m - 1
          rw [hidx j (by omega)]
          omega
        · exact absurd h (List.not_mem_nil _)
    have hlt1 : ∀ nb ∈ (if 0 < j + 1 ∧ j + 1 ≤ m - 1 then [(a (j + 1 - 1), b (j + 1 - 1))]
          else []) ++ (if j + 1 < m - 1 then [(a (j + 1 + 1), b (j + 1))] else []),
        edge2idx (chainGraph t ph a b m (m - 1)) (makeEdgeKey (a (j + 1)) nb.1 nb.2) <
          (markNeighbors (edge2idx (chainGraph t ph a b m (m - 1))) (a j)
            ((if 0 < j ∧ j ≤ m - 1 then [(a (j - 1), b (j - 1))] else []) ++
              (if j < m - 1 then [(a (j + 1), b j)] else []))
            (st.validEdge.set j false)).length := by
      intro nb hnb
      rw [markNeighbors_length, List.length_set, hlen]
      rcases List.mem_append.mp hnb with h | h
      · split_ifs at h with hc
        · rw [List.mem_singleton.mp h]
          have := hidx j (by omega)
          rw [makeEdgeKey_comm] at this
          show edge2idx _ (makeEdgeKey (a (j + 1)) (a (j + 1 - 1)) (b (j + 1 - 1))) < m - 1
          rw [Nat.add_sub_cancel, this]
          omega
        · exact absurd h (List.not_mem_nil _)
      · split_ifs at h with hc
        · rw [List.mem_singleton.mp h]
          show edge2idx _ (makeEdgeKey (a (j + 1)) (a (j + 1 + 1)) (b (j + 1))) < m - 1
          rw [hidx (j + 1) hc]
          exact hc
        · exact absurd h (List.not_mem_nil _)
    refine ⟨?_, ?_, ?_⟩
    · show (markNeighbors _ _ _ (markNeighbors _ _ _ (st.validEdge.set j false))).length = m - 1
      rw [markNeighbors_length, markNeighbors_length, List.length_set, hlen]
    · intro i hi
      show (markNeighbors _ _ _ (markNeighbors _ _ _ (st.validEdge.set j false))).getD i true = _
      rw [markNeighbors_getD _ _ _ _ i hlt1, markNeighbors_getD _ _ _ _ i hlt0,
        getD_set_false _ _ _ (by omega), hval i hi]
      have e0 : ∀ i', i' < m - 1 → edge2idx (chainGraph t ph a b m (m - 1))
          (makeEdgeKey (a (i' + 1)) (a i') (b i')) = i' := by
        intro i' hi'
        rw [makeEdgeKey_comm]
        exact hidx i' hi'
      by_cases hj0 : 0 < j
      · have hjj : j - 1 + 1 = j := by omega
        have e1 := e0 (j - 1) (by omega)
        rw [hjj] at e1
        by_cases hj1 : j + 1 < m - 1
        · simp only [hj0, hj1, show j ≤ m - 1 by omega, show j < m - 1 by omega,
            show j + 1 ≤ m - 1 by omega, Nat.add_sub_cancel, and_self, if_true, true_and,
            Nat.succ_pos, List.cons_append, List.nil_append, List.all_cons, List.all_nil,
            Bool.and_true, e1, hidx j (by omega), e0 j (by omega), hidx (j + 1) hj1]
          rw [Bool.eq_iff_iff]
          simp only [Bool.and_eq_true, decide_eq_true_eq, ne_eq]
          omega
        · simp only [hj0, hj1, show j ≤ m - 1 by omega, show j < m - 1 by omega,
            show j + 1 ≤ m - 1 by omega, Nat.add_sub_cancel, and_self, if_true, true_and,
            Nat.succ_pos, List.cons_append, List.nil_append, List.all_cons, List.all_nil,
            Bool.and_true, e1, hidx j (by omega), e0 j (by omega), if_false, List.append_nil]
          rw [Bool.eq_iff_iff]
          simp only [Bool.and_eq_true, decide_eq_true_eq, ne_eq]
          omega
      · have hj00 : j = 0 := by omega
        subst hj00
        by_cases hj1 : 0 + 1 < m - 1
        · simp only [hj1, show (0 : Nat) < m - 1 by omega,
            show 0 + 1 ≤ m - 1 by omega, Nat.add_sub_cancel, and_self, if_true, true_and,
            Nat.succ_pos, List.cons_append, List.nil_append, List.all_cons, List.all_nil,
            Bool.and_true, hidx 0 (by omega), e0 0 (by omega), hidx (0 + 1) hj1,
            Nat.lt_irrefl, false_and, if_false]
          rw [Bool.eq_iff_iff]
          simp only [Bool.and_eq_true, decide_eq_true_eq, ne_eq]
          omega
        · simp only [hj1, show (0 : Nat) < m - 1 by omega,
            show 0 + 1 ≤ m - 1 by omega, Nat.add_sub_cancel, and_self, if_true, true_and,
            Nat.succ_pos, List.cons_append, List.nil_append, List.all_cons, List.all_nil,
            Bool.and_true, hidx 0 (by omega), e0 0 (by omega),
            Nat.lt_irrefl, false_and, if_false, List.append_nil]
          rw [Bool.eq_iff_iff]
          simp only [Bool.and_eq_true, decide_eq_true_eq, ne_eq]
          omega
    · show st.matchTypeVec ++ [(a j, a (j + 1))] = _
      have hk : (j + 1 + 1) / 2 = (j + 1) / 2 + 1 := by omega
      have hk2 : 2 * ((j + 1) / 2) = j := by omega
      rw [hms, hk, List.range_succ, List.map_append, List.map_singleton, hk2]
  · -- an odd place: the edge is marked
    have hv : st.validEdge.getD (edge2idx (chainGraph t ph a b m (m - 1))
        (makeEdgeKeyOfPair ((a j, a (j + 1)), b j))) true = false := by
      rw [hkey, hval j (by omega)]
      exact decide_eq_false (by omega)
    unfold matchStep
    rw [if_pos hv]
    have hk : (j + 1 + 1) / 2 = (j + 1) / 2 := by omega
    refine ⟨hlen, ?_, ?_⟩
    · intro i hi
      rw [hk]
      exact hval i hi
    · rw [hk]
      exact hms

end SpiderFusion

namespace SpiderFusion

theorem chain_scan_upto (t : VertexType) (ht : t = VertexType.X ∨ t = VertexType.Z)
    (ph : Nat → Phase) (a b : Nat → Nat) (ha : Function.Injective a)
    (hb : Function.Injective b) (m : Nat) :
    ∀ j, j ≤ m - 1 →
      ChainScan a (m - 1) j
        (((List.range j).map (fun i => ((a i, a (i + 1)), b i))).foldl
          (matchStep (chainGraph t ph a b m (m - 1))
            (edge2idx (chainGraph t ph a b m (m - 1))))
          { validEdge := List.replicate (m - 1) true, matchTypeVec := [] }) := by
  intro j
  induction j with
  | zero =>
    intro _
    refine ⟨List.length_replicate _ _, ?_, rfl⟩
    intro i hi
    simp [List.getD_eq_getElem?_getD, List.getElem?_replicate, hi]
  | succ j ih =>
    intro hj
    rw [List.range_succ, List.map_append, List.foldl_append]
    exact chain_matchStep t ht ph a b ha hb m j (by omega) _ (ih (by omega))

/-- The match list of spider fusion on a whole chain of `m` spiders: the pairs
`(a 0, a 1), (a 2, a 3), ...`, one for every two spiders. -/
theorem chain_match (t : VertexType) (ht : t = VertexType.X ∨ t = VertexType.Z)
    (ph : Nat → Phase) (a b : Nat → Nat) (ha : Function.Injective a)
    (hb : Function.Injective b) (m : Nat) :
    (scan (chainGraph t ph a b m (m - 1))).matchTypeVec =
      (List.range (m / 2)).map (fun k => (a (2 * k), a (2 * k + 1))) := by
  have h := (chain_scan_upto t ht ph a b ha hb m (m - 1) (le_refl _)).2.2
  have hlen : (chainGraph t ph a b m (m - 1)).edges.length = m - 1 := by
    show ((List.range (m - 1)).map _).length = _
    rw [List.length_map, List.length_range]
  have hk : (m - 1 + 1) / 2 = m / 2 := by
    rcases Nat.eq_zero_or_pos m with h0 | h0
    · subst h0; rfl
    · rw [Nat.sub_add_cancel h0]
  unfold scan
  rw [hlen]
  rw [hk] at h
  exact h

end SpiderFusion

/-! ## Paths of spiders: the rewrite -/

namespace SpiderFusion

/-- The edge-table entries of the record `(a (2 k), a (2 k + 1))` on a whole chain: the entry
with no edge for the pair `(a (2 k), a (2 k))`, and one Simple edge to the spider after the
record, when there is one. -/
theorem chain_recordEntries (t : VertexType) (ph : Nat → Phase) (a b : Nat → Nat)
    (ha : Function.Injective a) (m k : Nat) (hk : 2 * k + 1 < m) :
    recordEntries (chainGraph t ph a b m (m - 1)) (a (2 * k), a (2 * k + 1)) =
      ((a (2 * k), a (2 * k)), (0, 0)) ::
        (if 2 * k + 2 < m then [((a (2 * k), a (2 * k + 2)), (1, 0))] else []) := by
  have hne : a (2 * k) ≠ a (2 * k + 1) := fun h => by have := ha h; omega
  have hne2 : a (2 * k + 2) ≠ a (2 * k) := fun h => by have := ha h; omega
  have hnm := chain_neighborMap t ph a b ha m (m - 1) (2 * k + 1) hk
  have hc1 : 0 < 2 * k + 1 ∧ 2 * k + 1 ≤ m - 1 := ⟨by omega, by omega⟩
  rw [if_pos hc1] at hnm
  have hsub : 2 * k + 1 - 1 = 2 * k := by omega
  rw [hsub] at hnm
  have hety : ∀ e, (chainGraph t ph a b m (m - 1)).edgeType e = EdgeType.SIMPLE := fun _ => rfl
  unfold recordEntries
  rw [if_pos (show (a (2 * k), a (2 * k + 1)).1 ≠ (a (2 * k), a (2 * k + 1)).2 from hne)]
  generalize chainGraph t ph a b m (m - 1) = G at hnm hety ⊢
  by_cases h2 : 2 * k + 2 < m
  · have hc2 : 2 * k + 1 < m - 1 := by omega
    rw [if_pos hc2] at hnm
    rw [if_pos h2]
    simp [ZXGraph.getNeighbors, hnm, emitted, entryFor, simpleCount, hadamardCount, equalRange,
      hne2, hne2.symm, hety]
  · have hc2 : ¬ 2 * k + 1 < m - 1 := by omega
    rw [if_neg hc2] at hnm
    rw [if_neg h2]
    simp [ZXGraph.getNeighbors, hnm, emitted, entryFor, simpleCount, hadamardCount, equalRange,
      hety]

end SpiderFusion

theorem flatMap_map_congr {α β γ : Type} (l : List α) (f : α → β) (F : β → List γ)
    (G : α → List γ) (h : ∀ x ∈ l, F (f x) = G x) : (l.map f).flatMap F = l.flatMap G := by
  induction l with
  | nil => rfl
  | cons x xs ih =>
    rw [List.map_cons, List.flatMap_cons, List.flatMap_cons, h x (List.mem_cons_self _ _),
      ih (fun y hy => h y (List.mem_cons_of_mem _ hy))]

theorem flatMap_single {α β : Type} (l : List α) (g : α → β) :
    l.flatMap (fun x => [g x]) = l.map g := by
  induction l with
  | nil => rfl
  | cons x xs ih => rw [List.flatMap_cons, ih]; rfl

theorem flatMap_nil_fn {α β : Type} (l : List α) :
    l.flatMap (fun _ => ([] : List β)) = [] := by
  induction l with
  | nil => rfl
  | cons x xs ih => rw [List.flatMap_cons, ih]; rfl

namespace SpiderFusion

/-- What `match` and `rewrite` leave for a whole chain of `m` spiders: the spiders at the odd
places are to be removed, no edge is, the edge table joins every spider at an even place with
the next such spider, and the phase of the spider at an even place takes up the phase of the
spider after it. -/
theorem chain_rewrite (t : VertexType) (ht : t = VertexType.X ∨ t = VertexType.Z)
    (ph : Nat → Phase) (a b : Nat → Nat) (ha : Function.Injective a)
    (hb : Function.Injective b) (m : Nat) (r : ZXRule (Nat × Nat)) :
    («match» r (chainGraph t ph a b m (m - 1))).matchTypeVecNum = m / 2 ∧
    (passRule r (chainGraph t ph a b m (m - 1))).removeVertices =
      (List.range (m / 2)).map (fun k => a (2 * k + 1)) ∧
    (passRule r (chainGraph t ph a b m (m - 1))).removeEdges = [] ∧
    (passRule r (chainGraph t ph a b m (m - 1))).edgeTableKeys =
      ((List.range (m / 2)).flatMap (fun k => ((a (2 * k), a (2 * k)), ((0 : Nat), (0 : Nat))) ::
        (if 2 * k + 2 < m then [((a (2 * k), a (2 * k + 2)), (1, 0))] else []))).map Prod.fst ∧
    (passRule r (chainGraph t ph a b m (m - 1))).edgeTableValues =
      ((List.range (m / 2)).flatMap (fun k => ((a (2 * k), a (2 * k)), ((0 : Nat), (0 : Nat))) ::
        (if 2 * k + 2 < m then [((a (2 * k), a (2 * k + 2)), (1, 0))] else []))).map Prod.snd ∧
    (rewrite («match» r (chainGraph t ph a b m (m - 1))) (chainGraph t ph a b m (m - 1))).graph =
      chainGraph t
        (rewrite («match» r (chainGraph t ph a b m (m - 1)))
          (chainGraph t ph a b m (m - 1))).graph.phase a b m (m - 1) ∧
    (∀ k, 2 * k + 1 < m →
      (rewrite («match» r (chainGraph t ph a b m (m - 1)))
        (chainGraph t ph a b m (m - 1))).graph.phase (a (2 * k)) =
        Phase.add (ph (a (2 * k))) (ph (a (2 * k + 1)))) ∧
    (∀ x, (∀ k, 2 * k + 1 < m → a (2 * k) ≠ x) →
      (rewrite («match» r (chainGraph t ph a b m (m - 1)))
        (chainGraph t ph a b m (m - 1))).graph.phase x = ph x) := by
  have hms : («match» r (chainGraph t ph a b m (m - 1))).matchTypeVec =
      (List.range (m / 2)).map (fun k => (a (2 * k), a (2 * k + 1))) :=
    chain_match t ht ph a b ha hb m
  have hnum : («match» r (chainGraph t ph a b m (m - 1))).matchTypeVecNum = m / 2 := by
    show (scan (chainGraph t ph a b m (m - 1))).matchTypeVec.length = m / 2
    rw [chain_match t ht ph a b ha hb m, List.length_map, List.length_range]
  have hne : ∀ k, a (2 * k) ≠ a (2 * k + 1) := fun k h => by have := ha h; omega
  obtain ⟨d1, d2, d3, d4⟩ := foldl_rewriteRecord_delta (chainGraph t ph a b m (m - 1))
    («match» r (chainGraph t ph a b m (m - 1))).matchTypeVec
    { rule := («match» r (chainGraph t ph a b m (m - 1))).reset,
      graph := chainGraph t ph a b m (m - 1) } (SameShape.refl _)
  obtain ⟨f1, f2, _⟩ := foldl_rewriteRecord_frame
    («match» r (chainGraph t ph a b m (m - 1))).matchTypeVec
    { rule := («match» r (chainGraph t ph a b m (m - 1))).reset,
      graph := chainGraph t ph a b m (m - 1) }
  have hent : («match» r (chainGraph t ph a b m (m - 1))).matchTypeVec.flatMap
      (recordEntries (chainGraph t ph a b m (m - 1))) =
      (List.range (m / 2)).flatMap (fun k => ((a (2 * k), a (2 * k)), ((0 : Nat), (0 : Nat))) ::
        (if 2 * k + 2 < m then [((a (2 * k), a (2 * k + 2)), (1, 0))] else [])) := by
    rw [hms]
    apply flatMap_map_congr
    intro k hk
    have hk' : k < m / 2 := List.mem_range.mp hk
    exact chain_recordEntries t ph a b ha m k (by omega)
  have hpw : («match» r (chainGraph t ph a b m (m - 1))).matchTypeVec.Pairwise
      NoSharedEndpoint := by
    rw [hms, List.pairwise_map]
    refine List.Pairwise.imp ?_ (List.pairwise_lt_range (m / 2))
    intro i j hij
    refine ⟨?_, ?_, ?_, ?_⟩ <;> intro h <;> have := ha h <;> omega
  refine ⟨hnum, ?_, ?_, ?_, ?_, ?_, ?_, ?_⟩
  · show (rewrite _ _).rule.removeVertices = _
    unfold rewrite
    rw [d1, hms]
    show [] ++ _ = _
    rw [List.nil_append]
    rw [flatMap_map_congr _ _ _ (fun k => [a (2 * k + 1)])
      (fun k _ => by unfold recordRemoveVertices; rw [if_pos (hne k)])]
    exact flatMap_single _ _
  · show (rewrite _ _).rule.removeEdges = _
    unfold rewrite
    rw [d2, hms]
    show [] ++ _ = _
    rw [List.nil_append]
    rw [flatMap_map_congr _ _ _ (fun _ => ([] : List EdgePair))
      (fun k _ => by unfold recordRemoveEdges; rw [if_pos (hne k)])]
    exact flatMap_nil_fn _
  · show (rewrite _ _).rule.edgeTableKeys = _
    unfold rewrite
    rw [d3, hent]
    rfl
  · show (rewrite _ _).rule.edgeTableValues = _
    unfold rewrite
    rw [d4, hent]
    rfl
  · have := eq_withPhase_of_sameShape f1
    exact this
  · intro k hk
    have hmem : (a (2 * k), a (2 * k + 1)) ∈
        («match» r (chainGraph t ph a b m (m - 1))).matchTypeVec := by
      rw [hms]
      exact List.mem_map.mpr ⟨k, List.mem_range.mpr (by omega), rfl⟩
    have h := foldl_rewriteRecord_phase_mem _ hpw
      { rule := («match» r (chainGraph t ph a b m (m - 1))).reset,
        graph := chainGraph t ph a b m (m - 1) } _ hmem
    unfold rewrite
    rw [h]
    unfold recordPhase
    have hself : a (2 * k + 1) ∉ (chainGraph t ph a b m (m - 1)).getNeighbors (a (2 * k + 1)) := by
      unfold ZXGraph.getNeighbors
      rw [chain_neighborMap t ph a b ha m (m - 1) (2 * k + 1) hk]
      intro hin
      obtain ⟨nb, hnb, hfst⟩ := List.mem_map.mp hin
      rcases List.mem_append.mp hnb with h1 | h1
      · split_ifs at h1
        · rw [List.mem_singleton.mp h1] at hfst
          have := ha hfst
          omega
        · exact absurd h1 (List.not_mem_nil _)
      · split_ifs at h1
        · rw [List.mem_singleton.mp h1] at hfst
          have := ha hfst
          omega
        · exact absurd h1 (List.not_mem_nil _)
    rw [if_pos (hne k), if_neg hself]
    rfl
  · intro x hx
    unfold rewrite
    refine f2 x (fun mm hmm => ?_)
    rw [hms] at hmm
    obtain ⟨k, hk, rfl⟩ := List.mem_map.mp hmm
    exact hx k (by have := List.mem_range.mp hk; omega)

end SpiderFusion

/-! ## Paths of spiders: the apply step -/

namespace ZXGraph

/-- The graph after a list of vertices is removed, field by field. -/
theorem foldl_removeVertex_eq (vs : List Nat) : ∀ g : ZXGraph,
    vs.foldl removeVertex g =
      { g with
        vertices := g.vertices.filter (fun w => decide (w ∉ vs)),
        edges := g.edges.filter (fun e => decide (e.1.1 ∉ vs ∧ e.1.2 ∉ vs)),
        neighborMap := fun w =>
          if w ∈ vs then [] else (g.neighborMap w).filter (fun nb => decide (nb.1 ∉ vs)) } := by
  induction vs with
  | nil =>
    intro g
    cases g
    simp
  | cons v vs ih =>
    intro g
    rw [List.foldl_cons, ih]
    cases g with
    | mk vertices edges type phase neighborMap edgeType =>
      simp only [removeVertex, ZXGraph.mk.injEq, List.filter_filter, and_true, true_and]
      refine ⟨?_, ?_, ?_⟩
      · apply List.filter_congr
        intro w _
        rw [Bool.eq_iff_iff]
        simp only [Bool.and_eq_true, decide_eq_true_eq, List.mem_cons, not_or]
        tauto
      · apply List.filter_congr
        intro e _
        rw [Bool.eq_iff_iff]
        simp only [Bool.and_eq_true, decide_eq_true_eq, List.mem_cons, not_or]
        tauto
      · funext w
        by_cases hw : w = v
        · subst hw
          simp
        · by_cases hws : w ∈ vs
          · simp [hw, hws]
          · simp only [hw, hws, List.mem_cons, or_self, if_false, List.filter_filter]
            apply List.filter_congr
            intro nb _
            rw [Bool.eq_iff_iff]
            simp only [Bool.and_eq_true, decide_eq_true_eq, List.mem_cons, not_or]
            tauto

end ZXGraph

theorem filter_even_range (m : Nat) :
    (List.range m).filter (fun i => decide (i % 2 = 0)) =
      (List.range ((m + 1) / 2)).map (fun k => 2 * k) := by
  induction m with
  | zero => rfl
  | succ m ih =>
    rw [List.range_succ, List.filter_append, ih]
    rcases Nat.mod_two_eq_zero_or_one m with h | h
    · have h1 : (m + 1 + 1) / 2 = (m + 1) / 2 + 1 := by omega
      have h2 : 2 * ((m + 1) / 2) = m := by omega
      rw [h1, List.range_succ, List.map_append, List.map_singleton, h2]
      simp [h]
    · have h1 : (m + 1 + 1) / 2 = (m + 1) / 2 := by omega
      rw [h1]
      simp [h]

theorem mem_odd_places (a : Nat → Nat) (ha : Function.Injective a) (m i : Nat) (hi : i < m) :
    a i ∈ (List.range (m / 2)).map (fun k => a (2 * k + 1)) ↔ i % 2 = 1 := by
  constructor
  · intro h
    obtain ⟨k, _, hk⟩ := List.mem_map.mp h
    have := ha hk
    omega
  · intro h
    refine List.mem_map.mpr ⟨i / 2, List.mem_range.mpr (by omega), ?_⟩
    congr 1
    omega

/-- The whole chain of `m` spiders after the spiders at its odd places are removed: the
spiders at the even places, left without an edge. -/
theorem chain_removed (t : VertexType) (ph : Nat → Phase) (a b b' : Nat → Nat)
    (ha : Function.Injective a) (m : Nat) :
    ((List.range (m / 2)).map (fun k => a (2 * k + 1))).foldl ZXGraph.removeVertex
        (chainGraph t ph a b m (m - 1)) =
      chainGraph t ph (fun k => a (2 * k)) b' ((m + 1) / 2) 0 := by
  rw [ZXGraph.foldl_removeVertex_eq]
  have hnm : ∀ w, (chainGraph t ph (fun k => a (2 * k)) b' ((m + 1) / 2) 0).neighborMap w = [] := by
    intro w
    show (match (List.range ((m + 1) / 2)).find? (fun i => decide (a (2 * i) = w)) with
      | some i =>
        (if 0 < i ∧ i ≤ 0 then [(a (2 * (i - 1)), b' (i - 1))] else []) ++
          (if i < 0 then [(a (2 * (i + 1)), b' i)] else [])
      | none => []) = []
    cases (List.range ((m + 1) / 2)).find? (fun i => decide (a (2 * i) = w)) with
    | none => rfl
    | some i =>
      have h1 : ¬ (0 < i ∧ i ≤ 0) := by omega
      have h2 : ¬ i < 0 := by omega
      simp only [h1, h2, if_false, List.append_nil]
  have hv : ((List.range m).map a).filter
      (fun w => decide (w ∉ (List.range (m / 2)).map (fun k => a (2 * k + 1)))) =
      (List.range ((m + 1) / 2)).map (fun k => a (2 * k)) := by
    rw [List.filter_map]
    have hc : (List.range m).filter
        ((fun w => decide (w ∉ (List.range (m / 2)).map (fun k => a (2 * k + 1)))) ∘ a) =
        (List.range m).filter (fun i => decide (i % 2 = 0)) := by
      apply List.filter_congr
      intro i hi
      have hi' : i < m := List.mem_range.mp hi
      have := mem_odd_places a ha m i hi'
      show decide (a i ∉ _) = decide (i % 2 = 0)
      rw [Bool.eq_iff_iff]
      simp only [decide_eq_true_eq, this]
      omega
    rw [hc, filter_even_range, List.map_map]
    rfl
  have he : ((List.range (m - 1)).map (fun i => ((a i, a (i + 1)), b i))).filter
      (fun e => decide (e.1.1 ∉ (List.range (m / 2)).map (fun k => a (2 * k + 1)) ∧
        e.1.2 ∉ (List.range (m / 2)).map (fun k => a (2 * k + 1)))) = [] := by
    rw [List.filter_eq_nil_iff]
    intro e hmem
    obtain ⟨i, hi, rfl⟩ := List.mem_map.mp hmem
    have hi' : i < m - 1 := List.mem_range.mp hi
    have h1 := mem_odd_places a ha m i (by omega)
    have h2 := mem_odd_places a ha m (i + 1) (by omega)
    simp only [decide_eq_true_eq, h1, h2]
    omega
  have hn : ∀ w, (if w ∈ (List.range (m / 2)).map (fun k => a (2 * k + 1)) then []
      else ((chainGraph t ph a b m (m - 1)).neighborMap w).filter
        (fun nb => decide (nb.1 ∉ (List.range (m / 2)).map (fun k => a (2 * k + 1))))) = [] := by
    intro w
    split_ifs with hw
    · rfl
    · rw [List.filter_eq_nil_iff]
      intro nb hnb
      by_cases hex : ∃ i, i < m ∧ a i = w
      · obtain ⟨i, hi, rfl⟩ := hex
        have hpar : ¬ i % 2 = 1 := fun h => hw ((mem_odd_places a ha m i hi).mpr h)
        rw [chain_neighborMap t ph a b ha m (m - 1) i hi] at hnb
        rcases List.mem_append.mp hnb with h | h
        · split_ifs at h with hc
          · rw [List.mem_singleton.mp h]
            have := mem_odd_places a ha m (i - 1) (by omega)
            simp only [decide_eq_true_eq, this, not_not]
            omega
          · exact absurd h (List.not_mem_nil _)
        · split_ifs at h with hc
          · rw [List.mem_singleton.mp h]
            have := mem_odd_places a ha m (i + 1) (by omega)
            simp only [decide_eq_true_eq, this, not_not]
            omega
          · exact absurd h (List.not_mem_nil _)
      · rw [chain_neighborMap_none t ph a b m (m - 1) w
          (fun i hi h => hex ⟨i, hi, h⟩)] at hnb
        exact absurd hnb (List.not_mem_nil _)
  have key : ∀ (vs : List Nat) (es : List EdgePair) (nm : Nat → List (Nat × Nat)),
      vs = (List.range ((m + 1) / 2)).map (fun k => a (2 * k)) → es = [] →
      nm = (chainGraph t ph (fun k => a (2 * k)) b' ((m + 1) / 2) 0).neighborMap →
      ({ vertices := vs, edges := es, type := fun _ => t, phase := ph, neighborMap := nm,
         edgeType := fun _ => EdgeType.SIMPLE } : ZXGraph) =
        chainGraph t ph (fun k => a (2 * k)) b' ((m + 1) / 2) 0 := by
    intro vs es nm h1 h2 h3
    subst h1 h2 h3
    rfl
  exact key _ _ _ hv he (funext (fun w => (hn w).trans (hnm w).symm))

theorem foldl_max_range_succ (j : Nat) :
    ((List.range j).map (fun i => i + 1)).foldl max 0 = j := by
  induction j with
  | zero => rfl
  | succ j ih =>
    rw [List.range_succ, List.map_append, List.foldl_append, ih]
    show max j (j + 1) = j + 1
    omega

theorem chain_freshEdge (t : VertexType) (ph : Nat → Phase) (a : Nat → Nat) (m j : Nat) :
    (chainGraph t ph a (fun k => k + 1) m j).freshEdge = j + 1 := by
  unfold ZXGraph.freshEdge
  show (((List.range j).map (fun i => ((a i, a (i + 1)), i + 1))).map (fun e => e.2)).foldl
    max 0 + 1 = j + 1
  rw [List.map_map]
  show ((List.range j).map (fun i => i + 1)).foldl max 0 + 1 = j + 1
  rw [foldl_max_range_succ]

/-- The next edge of a chain added: the chain with one edge more, when its handles count
up from 1 as the fresh handles do. -/
theorem chain_addEdge (t : VertexType) (ph : Nat → Phase) (a : Nat → Nat)
    (ha : Function.Injective a) (m j : Nat) (hj : j + 1 < m) :
    (chainGraph t ph a (fun k => k + 1) m j).addEdge (a j) (a (j + 1)) EdgeType.SIMPLE =
      chainGraph t ph a (fun k => k + 1) m (j + 1) := by
  have hfresh := chain_freshEdge t ph a m j
  have key : ∀ (es : List EdgePair) (nm : Nat → List (Nat × Nat)) (et : Nat → EdgeType),
      es = (chainGraph t ph a (fun k => k + 1) m (j + 1)).edges →
      nm = (chainGraph t ph a (fun k => k + 1) m (j + 1)).neighborMap →
      et = (fun _ => EdgeType.SIMPLE) →
      ({ vertices := (List.range m).map a, edges := es, type := fun _ => t, phase := ph,
         neighborMap := nm, edgeType := et } : ZXGraph) =
        chainGraph t ph a (fun k => k + 1) m (j + 1) := by
    intro es nm et h1 h2 h3
    subst h1 h2 h3
    rfl
  unfold ZXGraph.addEdge
  rw [hfresh]
  refine key _ _ _ ?_ ?_ ?_
  · show (List.range j).map (fun i => ((a i, a (i + 1)), i + 1)) ++ [((a j, a (j + 1)), j + 1)] =
      (List.range (j + 1)).map (fun i => ((a i, a (i + 1)), i + 1))
    rw [List.range_succ, List.map_append, List.map_singleton]
  · funext w
    by_cases hex : ∃ i, i < m ∧ a i = w
    · obtain ⟨i, hi, rfl⟩ := hex
      rw [chain_neighborMap t ph a _ ha m (j + 1) i hi]
      have hl := chain_neighborMap t ph a (fun k => k + 1) ha m j i hi
      show (if a i = a j then
          (chainGraph t ph a (fun k => k + 1) m j).neighborMap (a i) ++ [(a (j + 1), j + 1)]
        else if a i = a (j + 1) then
          (chainGraph t ph a (fun k => k + 1) m j).neighborMap (a i) ++ [(a j, j + 1)]
        else (chainGraph t ph a (fun k => k + 1) m j).neighborMap (a i)) = _
      rw [hl]
      by_cases h1 : i = j
      · subst h1
        have c1 : (0 < i ∧ i ≤ i + 1) ↔ (0 < i ∧ i ≤ i) := by omega
        simp only [if_true, Nat.lt_irrefl, if_false, List.append_nil, Nat.lt_succ_self, c1]
      · have n1 : a i ≠ a j := fun h => h1 (ha h)
        by_cases h2 : i = j + 1
        · subst h2
          have c1 : ¬ (0 < j + 1 ∧ j + 1 ≤ j) := by omega
          have c2 : ¬ j + 1 < j := by omega
          have c3 : (0 < j + 1 ∧ j + 1 ≤ j + 1) := by omega
          have c4 : ¬ j + 1 < j + 1 := by omega
          rw [if_neg n1, if_pos rfl, if_neg c1, if_neg c2, if_pos c3, if_neg c4]
          simp only [Nat.add_sub_cancel, List.nil_append, List.append_nil]
        · have n2 : a i ≠ a (j + 1) := fun h => h2 (ha h)
          have c1 : (0 < i ∧ i ≤ j + 1) ↔ (0 < i ∧ i ≤ j) := by omega
          have c2 : i < j + 1 ↔ i < j := by omega
          simp only [if_neg n1, if_neg n2, c1, c2]
    · have hno : ∀ i, i < m → a i ≠ w := fun i hi h => hex ⟨i, hi, h⟩
      rw [chain_neighborMap_none t ph a _ m (j + 1) w hno]
      have hl := chain_neighborMap_none t ph a (fun k => k + 1) m j w hno
      have n1 : w ≠ a j := fun h => hno j (by omega) h.symm
      have n2 : w ≠ a (j + 1) := fun h => hno (j + 1) hj h.symm
      show (if w = a j then
          (chainGraph t ph a (fun k => k + 1) m j).neighborMap w ++ [(a (j + 1), j + 1)]
        else if w = a (j + 1) then
          (chainGraph t ph a (fun k => k + 1) m j).neighborMap w ++ [(a j, j + 1)]
        else (chainGraph t ph a (fun k => k + 1) m j).neighborMap w) = _
      rw [if_neg n1, if_neg n2, hl]
  · funext e
    show (if e = j + 1 then EdgeType.SIMPLE else EdgeType.SIMPLE) = EdgeType.SIMPLE
    split_ifs <;> rfl

theorem chain_addEntries (t : VertexType) (ph : Nat → Phase) (a : Nat → Nat)
    (ha : Function.Injective a) (m : Nat) :
    ∀ h, h ≤ m / 2 →
      ((List.range h).flatMap (fun k => ((a (2 * k), a (2 * k)), ((0 : Nat), (0 : Nat))) ::
          (if 2 * k + 2 < m then [((a (2 * k), a (2 * k + 2)), (1, 0))] else []))).foldl
        (fun acc kv => acc.addEntry kv.1 kv.2)
        (chainGraph t ph (fun k => a (2 * k)) (fun k => k + 1) ((m + 1) / 2) 0) =
      chainGraph t ph (fun k => a (2 * k)) (fun k => k + 1) ((m + 1) / 2)
        (min h ((m + 1) / 2 - 1)) := by
  have ha' : Function.Injective (fun k => a (2 * k)) := by
    intro x y h
    have := ha h
    omega
  intro h
  induction h with
  | zero =>
    intro _
    rw [Nat.zero_min]
    rfl
  | succ h ih =>
    intro hh
    rw [List.range_succ, List.flatMap_append, List.foldl_append, ih (by omega)]
    simp only [List.flatMap_cons, List.flatMap_nil, List.append_nil]
    by_cases h2 : 2 * h + 2 < m
    · have e1 : min h ((m + 1) / 2 - 1) = h := by omega
      have e2 : min (h + 1) ((m + 1) / 2 - 1) = h + 1 := by omega
      rw [if_pos h2, e1, e2]
      have := chain_addEdge t ph (fun k => a (2 * k)) ha' ((m + 1) / 2) h (by omega)
      exact this
    · have e1 : min (h + 1) ((m + 1) / 2 - 1) = min h ((m + 1) / 2 - 1) := by omega
      rw [if_neg h2, e1]
      rfl

namespace SpiderFusion

/-- One pass of spider fusion over a whole chain of `m` spiders, `m` at least 2: the apply step
succeeds and leaves the whole chain of the spiders at the even places, their handles counted
up from 1, with the phases that `rewrite` has written. -/
theorem chain_pass (t : VertexType) (ht : t = VertexType.X ∨ t = VertexType.Z)
    (ph : Nat → Phase) (a b : Nat → Nat) (ha : Function.Injective a)
    (hb : Function.Injective b) (m : Nat) (r : ZXRule (Nat × Nat)) :
    passResult r (chainGraph t ph a b m (m - 1)) =
      some (chainGraph t
        (rewrite («match» r (chainGraph t ph a b m (m - 1)))
          (chainGraph t ph a b m (m - 1))).graph.phase
        (fun k => a (2 * k)) (fun k => k + 1) ((m + 1) / 2) ((m + 1) / 2 - 1)) := by
  obtain ⟨_, hrv, hre, hk, hv, hg, _, _⟩ := chain_rewrite t ht ph a b ha hb m r
  unfold passResult
  rw [hg]
  generalize (rewrite («match» r (chainGraph t ph a b m (m - 1)))
    (chainGraph t ph a b m (m - 1))).graph.phase = ph'
  unfold ZXGraph.applyDelta
  rw [hrv, hre, hk, hv]
  have hrem : ((List.range (m / 2)).map (fun k => a (2 * k + 1))).foldl ZXGraph.removeVertex
      (([] : List EdgePair).foldl ZXGraph.removeEdge (chainGraph t ph' a b m (m - 1))) =
      chainGraph t ph' (fun k => a (2 * k)) (fun k => k + 1) ((m + 1) / 2) 0 :=
    chain_removed t ph' a b (fun k => k + 1) ha m
  rw [hrem]
  have c1 : (∀ e ∈ ([] : List EdgePair), makeEdgeKeyOfPair e ∈
      (chainGraph t ph' a b m (m - 1)).edges.map makeEdgeKeyOfPair) ∧
      (∀ v ∈ (List.range (m / 2)).map (fun k => a (2 * k + 1)),
        v ∈ (chainGraph t ph' a b m (m - 1)).vertices) := by
    refine ⟨fun e he => absurd he (List.not_mem_nil _), ?_⟩
    intro v hv
    obtain ⟨k, hk, rfl⟩ := List.mem_map.mp hv
    have := List.mem_range.mp hk
    exact List.mem_map.mpr ⟨2 * k + 1, List.mem_range.mpr (by omega), rfl⟩
  have c2 : ∀ k ∈ ((List.range (m / 2)).flatMap
      (fun k => ((a (2 * k), a (2 * k)), ((0 : Nat), (0 : Nat))) ::
        (if 2 * k + 2 < m then [((a (2 * k), a (2 * k + 2)), (1, 0))] else []))).map Prod.fst,
      k.1 ∈ (chainGraph t ph' (fun k => a (2 * k)) (fun k => k + 1) ((m + 1) / 2) 0).vertices ∧
      k.2 ∈ (chainGraph t ph' (fun k => a (2 * k)) (fun k => k + 1) ((m + 1) / 2) 0).vertices := by
    intro key hkey
    obtain ⟨kv, hkv, rfl⟩ := List.mem_map.mp hkey
    obtain ⟨k, hk, hin⟩ := List.mem_flatMap.mp hkv
    have hk' := List.mem_range.mp hk
    have hmem0 : a (2 * k) ∈
        (chainGraph t ph' (fun k => a (2 * k)) (fun k => k + 1) ((m + 1) / 2) 0).vertices :=
      List.mem_map.mpr ⟨k, List.mem_range.mpr (by omega), rfl⟩
    rcases List.mem_cons.mp hin with h | h
    · rw [h]
      exact ⟨hmem0, hmem0⟩
    · split_ifs at h with h2
      · rw [List.mem_singleton.mp h]
        exact ⟨hmem0, List.mem_map.mpr ⟨k + 1, List.mem_range.mpr (by omega), rfl⟩⟩
      · exact absurd h (List.not_mem_nil _)
  rw [if_pos c1, if_pos c2, zip_map_fst_map_snd,
    chain_addEntries t ph' a ha m (m / 2) (le_refl _)]
  have e1 : min (m / 2) ((m + 1) / 2 - 1) = (m + 1) / 2 - 1 := by omega
  rw [e1]
  rfl

end SpiderFusion

/-! ## Paths of spiders: the driver loop -/

namespace SpiderFusion

theorem fusePairs_range (m : Nat) : ∀ q : Nat → Phase,
    fusePairs ((List.range m).map q) =
      (List.range ((m + 1) / 2)).map
        (fun k => if 2 * k + 1 < m then Phase.add (q (2 * k)) (q (2 * k + 1)) else q (2 * k)) := by
  induction m using Nat.strong_induction_on with
  | _ m ih =>
  intro q
  rcases m with _ | _ | m
  · rfl
  · rfl
  · have h1 : (List.range (m + 2)).map q =
        q 0 :: q 1 :: (List.range m).map (fun i => q (i + 2)) := by
      rw [List.range_succ_eq_map, List.range_succ_eq_map]
      simp only [List.map_cons, List.map_map]
      rfl
    have h2 : (m + 2 + 1) / 2 = (m + 1) / 2 + 1 := by omega
    rw [h1, fusePairs, ih m (by omega), h2, List.range_succ_eq_map]
    simp only [List.map_cons, List.map_map]
    congr 1
    · rw [if_pos (by omega)]
    · apply List.map_congr_left
      intro k _
      show (if 2 * k + 1 < m then Phase.add (q (2 * k + 2)) (q (2 * k + 1 + 2)) else q (2 * k + 2)) =
        if 2 * (k + 1) + 1 < m + 2 then Phase.add (q (2 * (k + 1))) (q (2 * (k + 1) + 1))
        else q (2 * (k + 1))
      have e1 : 2 * (k + 1) = 2 * k + 2 := by omega
      have e2 : 2 * k + 1 + 2 = 2 * k + 2 + 1 := by omega
      have e3 : (2 * k + 2 + 1 < m + 2) ↔ (2 * k + 1 < m) := by omega
      rw [e1, e2]
      simp only [e3]

/-- The driver loop on a whole chain of `m` spiders, `m` at least 1: with more fuel than
`Nat.clog 2 m` it returns after `Nat.clog 2 m` non-empty passes, and what is left is the first
spider alone, without an edge, with the phase that the passes add up. -/
theorem chain_simplify (t : VertexType) (ht : t = VertexType.X ∨ t = VertexType.Z) :
    ∀ (m : Nat), 1 ≤ m → ∀ (ph : Nat → Phase) (a b : Nat → Nat),
      Function.Injective a → Function.Injective b →
      ∀ (r : ZXRule (Nat × Nat)) (fuel : Nat), Nat.clog 2 m < fuel →
      ∃ g' : ZXGraph,
        simplify fuel r (chainGraph t ph a b m (m - 1)) = some (Nat.clog 2 m, g') ∧
        g'.vertices = [a 0] ∧ g'.edges = [] ∧ g'.type (a 0) = t ∧
        g'.neighborMap (a 0) = [] ∧
        g'.phase (a 0) =
          (fuseAll (Nat.clog 2 m) ((List.range m).map (fun i => ph (a i)))).headD Phase.zero := by
  intro m
  induction m using Nat.strong_induction_on with
  | _ m ih =>
    intro hm ph a b ha hb r fuel hfuel
    obtain ⟨f, rfl⟩ : ∃ f, fuel = f + 1 := ⟨fuel - 1, by omega⟩
    obtain ⟨hnum, _, _, _, _, _, hp1, hp2⟩ := chain_rewrite t ht ph a b ha hb m r
    by_cases h1 : m = 1
    · subst h1
      refine ⟨chainGraph t ph a b 1 (1 - 1), ?_, by rfl, by rfl, by rfl, ?_, ?_⟩
      · rw [Nat.clog_one_right]
        exact simplify_stop f r _ (by rw [hnum])
      · exact (chain_neighborMap t ph a b ha 1 0 0 (by omega)).trans (by simp)
      · rw [Nat.clog_one_right]
        rfl
    · have hm2 : 2 ≤ m := by omega
      have hclog : Nat.clog 2 m = Nat.clog 2 ((m + 1) / 2) + 1 := by
        rw [Nat.clog_of_two_le (by omega) hm2]
        have e : m + 2 - 1 = m + 1 := by omega
        rw [e]
      have ha' : Function.Injective (fun k => a (2 * k)) := by
        intro x y h
        have := ha h
        omega
      have hb' : Function.Injective (fun k : Nat => k + 1) := by
        intro x y h
        simpa using h
      obtain ⟨g', hs, hv, he, hty, hn, hph⟩ := ih ((m + 1) / 2) (by omega) (by omega)
        (rewrite («match» r (chainGraph t ph a b m (m - 1)))
          (chainGraph t ph a b m (m - 1))).graph.phase
        (fun k => a (2 * k)) (fun k => k + 1) ha' hb'
        (passRule r (chainGraph t ph a b m (m - 1))) f (by omega)
      refine ⟨g', ?_, hv, he, hty, hn, ?_⟩
      · rw [simplify_step f r _ _ (by rw [hnum]; omega) (chain_pass t ht ph a b ha hb m r), hs,
          hclog]
        rfl
      · rw [hph, hclog]
        show (fuseAll (Nat.clog 2 ((m + 1) / 2)) _).headD Phase.zero =
          (fuseAll (Nat.clog 2 ((m + 1) / 2))
            (fusePairs ((List.range m).map (fun i => ph (a i))))).headD Phase.zero
        rw [fusePairs_range]
        congr 2
        apply List.map_congr_left
        intro k hk
        have hk' := List.mem_range.mp hk
        by_cases h2 : 2 * k + 1 < m
        · rw [if_pos h2]
          exact hp1 k h2
        · rw [if_neg h2]
          exact hp2 (a (2 * k)) (fun k' hk' h => by have := ha h; omega)

end SpiderFusion

/-! ## Paths of spiders: the phase that is left -/

namespace SpiderFusion

theorem fusePairs_length : ∀ l : List Phase, (fusePairs l).length = (l.length + 1) / 2
  | [] => rfl
  | [_] => by rw [fusePairs]; simp
  | _ :: _ :: rest => by
    rw [fusePairs, List.length_cons, fusePairs_length rest, List.length_cons, List.length_cons]
    omega

/-- One pass keeps the phases canonical and keeps their sum modulo 2. -/
theorem fusePairs_spec : ∀ l : List Phase, (∀ p ∈ l, p.Canonical) →
    (∀ p ∈ fusePairs l, p.Canonical) ∧
    ∃ k : ℤ, ((fusePairs l).map Phase.toRat).sum = (l.map Phase.toRat).sum + 2 * (k : ℚ)
  | [], _ => ⟨fun p hp => absurd hp (List.not_mem_nil _), 0, by simp [fusePairs]⟩
  | [p], h => ⟨fun x hx => h x hx, 0, by simp [fusePairs]⟩
  | p :: q :: rest, h => by
    have hp := h p (List.mem_cons_self _ _)
    have hq := h q (List.mem_cons_of_mem _ (List.mem_cons_self _ _))
    obtain ⟨ih1, k, hk⟩ := fusePairs_spec rest
      (fun x hx => h x (List.mem_cons_of_mem _ (List.mem_cons_of_mem _ hx)))
    obtain ⟨⟨hcan, z, hz⟩, _⟩ := Phase.add_sub_spec p q hp.1 hq.1
    refine ⟨?_, z + k, ?_⟩
    · intro x hx
      rw [fusePairs] at hx
      rcases List.mem_cons.mp hx with h1 | h1
      · rw [h1]
        exact hcan
      · exact ih1 x h1
    · rw [fusePairs, List.map_cons, List.sum_cons, hk, hz]
      simp only [List.map_cons, List.sum_cons]
      push_cast
      ring

/-- The passes keep the phases canonical and keep their sum modulo 2. -/
theorem fuseAll_spec (k : Nat) : ∀ l : List Phase, (∀ p ∈ l, p.Canonical) →
    (∀ p ∈ fuseAll k l, p.Canonical) ∧
    ∃ z : ℤ, ((fuseAll k l).map Phase.toRat).sum = (l.map Phase.toRat).sum + 2 * (z : ℚ) := by
  induction k with
  | zero => intro l hl; exact ⟨hl, 0, by simp [fuseAll]⟩
  | succ k ih =>
    intro l hl
    obtain ⟨h1, z1, hz1⟩ := fusePairs_spec l hl
    obtain ⟨h2, z2, hz2⟩ := ih (fusePairs l) h1
    refine ⟨h2, z1 + z2, ?_⟩
    rw [fuseAll, hz2, hz1]
    push_cast
    ring

theorem fuseAll_length (k : Nat) : ∀ l : List Phase, 1 ≤ l.length → l.length ≤ 2 ^ k →
    (fuseAll k l).length = 1 := by
  induction k with
  | zero =>
    intro l h1 h2
    rw [fuseAll]
    simp only [pow_zero] at h2
    omega
  | succ k ih =>
    intro l h1 h2
    rw [fuseAll]
    apply ih
    · rw [fusePairs_length]; omega
    · rw [fusePairs_length]
      rw [pow_succ] at h2
      omega

theorem sum_map_range (f : Nat → ℚ) (n : Nat) :
    ((List.range n).map f).sum = ∑ i ∈ Finset.range n, f i := by
  induction n with
  | zero => rfl
  | succ n ih =>
    rw [List.range_succ, List.map_append, List.sum_append, ih, Finset.sum_range_succ]
    simp

/-- The phase that the passes leave on a path of `n` canonical phases is canonical and is the
sum of the `n` phases modulo 2: it is the canonicalised sum. -/
theorem fused_phase_spec (n : Nat) (hn : 1 ≤ n) (ph : Nat → Phase)
    (hcan : ∀ i < n, (ph i).Canonical) :
    ((fuseAll (Nat.clog 2 n) ((List.range n).map ph)).headD Phase.zero).Canonical ∧
    ((fuseAll (Nat.clog 2 n) ((List.range n).map ph)).headD Phase.zero).CongrMod2
      (∑ i ∈ Finset.range n, (ph i).toRat) := by
  have hl : ∀ p ∈ (List.range n).map ph, p.Canonical := by
    intro p hp
    obtain ⟨i, hi, rfl⟩ := List.mem_map.mp hp
    exact hcan i (List.mem_range.mp hi)
  obtain ⟨h1, z, hz⟩ := fuseAll_spec (Nat.clog 2 n) _ hl
  have hlen : (fuseAll (Nat.clog 2 n) ((List.range n).map ph)).length = 1 := by
    apply fuseAll_length
    · rw [List.length_map, List.length_range]; exact hn
    · rw [List.length_map, List.length_range]
      exact Nat.le_pow_clog (by omega) n
  obtain ⟨P, hP⟩ := List.length_eq_one.mp hlen
  rw [hP] at h1 hz ⊢
  refine ⟨h1 P (List.mem_singleton_self _), z, ?_⟩
  rw [List.map_map] at hz
  rw [← sum_map_range]
  show P.toRat = _
  have hs : ([P].map Phase.toRat).sum = P.toRat := by simp
  rw [← hs, hz]
  rfl

end SpiderFusion

namespace Phase

/-- A canonical phase is fixed by its value modulo 2: two canonical phases that are congruent
to one rational modulo 2 are the same. -/
theorem canonical_unique (p q : Phase) (hp : p.Canonical) (hq : q.Canonical) (x : ℚ)
    (hpx : p.CongrMod2 x) (hqx : q.CongrMod2 x) : p = q := by
  obtain ⟨hpd, hpc, hpl, hpu⟩ := hp
  obtain ⟨hqd, hqc, hql, hqu⟩ := hq
  obtain ⟨k, hk⟩ := hpx
  obtain ⟨l, hl⟩ := hqx
  have hpd' : (0 : ℚ) < (p.denominator : ℚ) := by exact_mod_cast hpd
  have hqd' : (0 : ℚ) < (q.denominator : ℚ) := by exact_mod_cast hqd
  unfold toRat at hk hl
  -- the values lie in (-1, 1]
  have hp1 : (-1 : ℚ) < (p.numerator : ℚ) / (p.denominator : ℚ) := by
    rw [lt_div_iff₀ hpd']
    have : (-(p.denominator : Int) : ℚ) < (p.numerator : ℚ) := by exact_mod_cast hpl
    simpa using this
  have hp2 : (p.numerator : ℚ) / (p.denominator : ℚ) ≤ 1 := by
    rw [div_le_iff₀ hpd']
    have : (p.numerator : ℚ) ≤ ((p.denominator : Int) : ℚ) := by exact_mod_cast hpu
    simpa using this
  have hq1 : (-1 : ℚ) < (q.numerator : ℚ) / (q.denominator : ℚ) := by
    rw [lt_div_iff₀ hqd']
    have : (-(q.denominator : Int) : ℚ) < (q.numerator : ℚ) := by exact_mod_cast hql
    simpa using this
  have hq2 : (q.numerator : ℚ) / (q.denominator : ℚ) ≤ 1 := by
    rw [div_le_iff₀ hqd']
    have : (q.numerator : ℚ) ≤ ((q.denominator : Int) : ℚ) := by exact_mod_cast hqu
    simpa using this
  -- so the two integers agree
  have hkl : k = l := by
    have h1 : ((k - l : ℤ) : ℚ) * 2 < 2 := by
      push_cast
      linarith
    have h2 : (-2 : ℚ) < ((k - l : ℤ) : ℚ) * 2 := by
      push_cast
      linarith
    have h3 : (k - l) * 2 < 2 := by exact_mod_cast h1
    have h4 : -2 < (k - l) * 2 := by exact_mod_cast h2
    omega
  have heq : (p.numerator : ℚ) / (p.denominator : ℚ) = (q.numerator : ℚ) / (q.denominator : ℚ) := by
    rw [hk, hl, hkl]
  have hcross : p.numerator * (q.denominator : Int) = q.numerator * (p.denominator : Int) := by
    have := (div_eq_div_iff (ne_of_gt hpd') (ne_of_gt hqd')).mp heq
    exact_mod_cast this
  -- reduced fractions with positive denominators
  have hd1 : p.denominator ∣ q.denominator := by
    have h : (p.denominator : Int) ∣ p.numerator * (q.denominator : Int) :=
      ⟨q.numerator, by rw [hcross]; ring⟩
    have hc : IsCoprime (p.denominator : Int) p.numerator := by
      rw [Int.isCoprime_iff_gcd_eq_one, Int.gcd_comm]
      simpa [Int.gcd] using hpc
    exact Int.natCast_dvd_natCast.mp (hc.dvd_of_dvd_mul_left h)
  have hd2 : q.denominator ∣ p.denominator := by
    have h : (q.denominator : Int) ∣ q.numerator * (p.denominator : Int) :=
      ⟨p.numerator, by rw [← hcross]; ring⟩
    have hc : IsCoprime (q.denominator : Int) q.numerator := by
      rw [Int.isCoprime_iff_gcd_eq_one, Int.gcd_comm]
      simpa [Int.gcd] using hqc
    exact Int.natCast_dvd_natCast.mp (hc.dvd_of_dvd_mul_left h)
  have hden : p.denominator = q.denominator := Nat.dvd_antisymm hd1 hd2
  have hnum : p.numerator = q.numerator := by
    rw [hden] at hcross
    have hq0 : (q.denominator : Int) ≠ 0 := by exact_mod_cast (Nat.pos_iff_ne_zero.mp hqd)
    exact mul_right_cancel₀ hq0 hcross
  cases p
  cases q
  simp only at hden hnum
  subst hden hnum
  rfl

end Phase

namespace SpiderFusion

theorem clog_two_add_two_le (n : Nat) (hn : 4 ≤ n) : Nat.clog 2 n + 2 ≤ n := by
  induction n using Nat.strong_induction_on with
  | _ n ih =>
    have e : n + 2 - 1 = n + 1 := by omega
    rw [Nat.clog_of_two_le (by omega) (by omega), e]
    by_cases h : 4 ≤ (n + 1) / 2
    · have := ih ((n + 1) / 2) (by omega) h
      omega
    · have h2 : (n + 1) / 2 = 2 ∨ (n + 1) / 2 = 3 := by omega
      have c2 : Nat.clog 2 2 = 1 := by
        rw [Nat.clog_of_two_le (by omega) (by omega)]
        exact congrArg (· + 1) (Nat.clog_one_right 2)
      have c3 : Nat.clog 2 3 = 2 := by
        rw [Nat.clog_of_two_le (by omega) (by omega)]
        exact congrArg (· + 1) c2
      rcases h2 with h2 | h2
      · rw [h2, c2]; omega
      · rw [h2, c3]; omega

/-- The number of passes `Nat.clog 2 n` is `n - 1` exactly for the paths of at most three
spiders. -/
theorem clog_two_eq_pred_iff (n : Nat) (hn : 1 ≤ n) : Nat.clog 2 n = n - 1 ↔ n ≤ 3 := by
  have c2 : Nat.clog 2 2 = 1 := by
    rw [Nat.clog_of_two_le (by omega) (by omega)]
    exact congrArg (· + 1) (Nat.clog_one_right 2)
  have c3 : Nat.clog 2 3 = 2 := by
    rw [Nat.clog_of_two_le (by omega) (by omega)]
    exact congrArg (· + 1) c2
  constructor
  · intro h
    by_contra hc
    have := clog_two_add_two_le n (by omega)
    omega
  · intro h
    have h3 : n = 1 ∨ n = 2 ∨ n = 3 := by omega
    rcases h3 with rfl | rfl | rfl
    · exact Nat.clog_one_right 2
    · exact c2
    · exact c3

/-- The driver loop on the path of `n` spiders, `n` at least 1, with any phases. -/
theorem path_simplify (t : VertexType) (ph : Nat → Phase) (n fuel : Nat)
    (ht : t = VertexType.Z ∨ t = VertexType.X) (hn : 1 ≤ n) (hfuel : Nat.clog 2 n < fuel) :
    ∃ g' : ZXGraph,
      simplify fuel (ZXRule.init (Nat × Nat)) (pathGraph t ph n) = some (Nat.clog 2 n, g') ∧
      (g'.vertices = [0] ∧ g'.edges = [] ∧ g'.type 0 = t ∧ g'.neighborMap 0 = []) ∧
      g'.phase 0 = (fuseAll (Nat.clog 2 n) ((List.range n).map ph)).headD Phase.zero ∧
      ((∀ i < n, (ph i).Canonical) →
        (g'.phase 0).Canonical ∧
        (g'.phase 0).CongrMod2 (∑ i ∈ Finset.range n, (ph i).toRat) ∧
        ∀ q : Phase, q.Canonical → q.CongrMod2 (∑ i ∈ Finset.range n, (ph i).toRat) →
          q = g'.phase 0) := by
  obtain ⟨g', hs, hv, he, hty, hnm, hph⟩ := chain_simplify t ht.symm n hn ph id id
    Function.injective_id Function.injective_id (ZXRule.init (Nat × Nat)) fuel hfuel
  rw [← pathGraph_eq_chain] at hs
  refine ⟨g', hs, ⟨hv, he, hty, hnm⟩, hph, ?_⟩
  intro hcan
  have hph' : g'.phase 0 =
      (fuseAll (Nat.clog 2 n) ((List.range n).map ph)).headD Phase.zero := hph
  obtain ⟨h1, h2⟩ := fused_phase_spec n hn ph hcan
  rw [← hph'] at h1 h2
  exact ⟨h1, h2, fun q hq hqx => Phase.canonical_unique q _ hq h1 _ hqx h2⟩

end SpiderFusion

/-! ## The claim C19 on paths of any length -/

/-- C19, amended: on the path of `n` spiders of one colour, Z or X, with any phases, `n` at least
1, joined by Simple edges that are listed in path order, with more fuel than `Nat.clog 2 n` the
loop of `match`, `rewrite` and apply returns: it reaches the pass with no match after exactly
`Nat.clog 2 n` non-empty passes, the least `k` with `n ≤ 2 ^ k`, since every pass fuses the
spiders in pairs; that number is `n - 1` exactly when `n` is at most 3.  What is left is the
single spider `0` of the same colour with no edge; its phase is what the passes add up,
`p0 + p1`, `p2 + p3`, ... pass after pass, and when the `n` phases are canonical it is the
canonicalised sum of the `n` phases: the one canonical phase that is their sum modulo 2. -/
theorem C19_sfusion_path_passes (t : VertexType) (ph : Nat → Phase) (n fuel : Nat)
    (ht : t = VertexType.Z ∨ t = VertexType.X) (hn : 1 ≤ n) (hfuel : Nat.clog 2 n < fuel) :
    (∃ g' : ZXGraph,
      SpiderFusion.simplify fuel (ZXRule.init (Nat × Nat)) (pathGraph t ph n) =
        some (Nat.clog 2 n, g') ∧
      (g'.vertices = [0] ∧ g'.edges = [] ∧ g'.type 0 = t ∧ g'.neighborMap 0 = []) ∧
      g'.phase 0 =
        (SpiderFusion.fuseAll (Nat.clog 2 n) ((List.range n).map ph)).headD Phase.zero ∧
      ((∀ i < n, (ph i).Canonical) →
        (g'.phase 0).Canonical ∧
        (g'.phase 0).CongrMod2 (∑ i ∈ Finset.range n, (ph i).toRat) ∧
        ∀ q : Phase, q.Canonical → q.CongrMod2 (∑ i ∈ Finset.range n, (ph i).toRat) →
          q = g'.phase 0)) ∧
    (Nat.clog 2 n = n - 1 ↔ n ≤ 3) :=
  ⟨SpiderFusion.path_simplify t ph n fuel ht hn hfuel, SpiderFusion.clog_two_eq_pred_iff n hn⟩

/-- C19, amended, at the path of five X-spiders of phase π/4 each, with fuel for 4 passes: 3
non-empty passes, not 4, leave the spider `0` alone, and its phase is -3π/4, the canonical
form of the sum 5π/4 of the five phases. -/
theorem C19_sfusion_path_passes_witness :
    ((VertexType.X = VertexType.Z ∨ VertexType.X = VertexType.X) ∧ 1 ≤ 5 ∧
      Nat.clog 2 5 < 4 ∧ ∀ i < 5, ((fun _ => (⟨1, 4⟩ : Phase)) i).Canonical) ∧
    (Nat.clog 2 5 = 3 ∧ ¬ (Nat.clog 2 5 = 5 - 1)) ∧
    ∃ g' : ZXGraph,
      SpiderFusion.simplify 4 (ZXRule.init (Nat × Nat))
          (pathGraph VertexType.X (fun _ => ⟨1, 4⟩) 5) = some (3, g') ∧
      (g'.vertices = [0] ∧ g'.edges = [] ∧ g'.type 0 = VertexType.X ∧ g'.neighborMap 0 = []) ∧
      g'.phase 0 = ⟨-3, 4⟩ ∧
      (g'.phase 0).Canonical ∧
      (g'.phase 0).CongrMod2 (∑ i ∈ Finset.range 5, ((fun _ => (⟨1, 4⟩ : Phase)) i).toRat) := by
  have hc : Nat.clog 2 5 = 3 := by simp [Nat.clog]
  have h14 : (⟨1, 4⟩ : Phase).Canonical :=
    ⟨by decide, Nat.coprime_one_left 4, by decide, by decide⟩
  have hcan : ∀ i < 5, ((fun _ => (⟨1, 4⟩ : Phase)) i).Canonical := fun _ _ => h14
  obtain ⟨⟨g', hs, hshape, hph, hsum⟩, hiff⟩ :=
    C19_sfusion_path_passes VertexType.X (fun _ => ⟨1, 4⟩) 5 4 (Or.inr rfl) (by decide)
      (by rw [hc]; decide)
  rw [hc] at hs hph
  have hval : (SpiderFusion.fuseAll 3 ((List.range 5).map (fun _ => (⟨1, 4⟩ : Phase)))).headD
      Phase.zero = ⟨-3, 4⟩ := by decide
  refine ⟨⟨Or.inr rfl, by decide, by rw [hc]; decide, hcan⟩,
    ⟨hc, fun h => absurd (hiff.mp h) (by decide)⟩,
    g', hs, hshape, hph.trans hval, (hsum hcan).1, (hsum hcan).2.1⟩

end Qsyn
